import Mathlib

/-!
# Constant-time limb arithmetic and point arithmetic of ring 0.16.20, ristretto255 of libsodium

Shallow embedding of `crypto/internal.h`, `crypto/limbs/limbs.inl`,
`crypto/limbs/limbs.c`, `crypto/fipsmodule/bn/montgomery_inv.c`,
`crypto/fipsmodule/ec/gfp_p384.c`, `crypto/fipsmodule/ec/ecp_nistz.c`,
`crypto/fipsmodule/ec/ecp_nistz384.inl` (point doubling, point addition and
scalar multiplication), the C `GFp_nistz256_point_add` of
`crypto/fipsmodule/ec/ecp_nistz256.c` with `GFp_nistz256_point_mul` and
`GFp_nistz256_point_mul_base`, and the C `GFp_nistz256_select_w5`,
`GFp_nistz256_select_w7` and the constants of the scalar multiplication of
`crypto/fipsmodule/ec/gfp_p256.c`; then, of
libsodium, `crypto_core/ed25519/core_ristretto255.c` (addition, subtraction)
and `crypto_scalarmult/ristretto255/ref10/scalarmult_ristretto255_ref10.c`.

A `Limb` / `crypto_word` of `LIMB_BITS = w` bits is a natural number below
`2 ^ w`; every C operation that can leave that range is followed by an explicit
reduction modulo `2 ^ w` (or `2 ^ (2 * w)` for `DoubleLimb`).  A limb array of
`num_limbs` limbs is a list of that length, least significant limb first.  A
function that writes its result through a pointer returns the result; where
the result array may be the same storage as an argument, each limb is read
before it is written, so that the value semantics is the one given here.
-/

namespace Ring

/-! ## Machine words -/

/-- Bitwise complement `~a` of a `w`-bit word. -/
def word_not (w a : Nat) : Nat := 2 ^ w - 1 - a % 2 ^ w

/-- Wrapping subtraction `a - b` of unsigned `w`-bit words. -/
def word_sub (w a b : Nat) : Nat := (a % 2 ^ w + (2 ^ w - b % 2 ^ w)) % 2 ^ w

/-- Wrapping addition `a + b` of unsigned `w`-bit words. -/
def word_add (w a b : Nat) : Nat := (a + b) % 2 ^ w

/-- Left shift `a << s` of an unsigned `w`-bit word (high bits are dropped). -/
def word_shl (w a s : Nat) : Nat := (a <<< s) % 2 ^ w

/-- Little-endian value of a limb array: `sum a[i] * 2^(w*i)`. -/
def LIMBS_val (w : Nat) : List Nat → Nat
  | [] => 0
  | a :: as => a + 2 ^ w * LIMBS_val w as

/-- Every element of the array is a `w`-bit word. -/
def LIMBS_ok (w : Nat) (a : List Nat) : Prop := ∀ x ∈ a, x < 2 ^ w

instance (w : Nat) (a : List Nat) : Decidable (LIMBS_ok w a) := by
  unfold LIMBS_ok; infer_instance

/-! ## `crypto/internal.h` -/

/-- The macro `CONSTTIME_TRUE_W`, i.e. `~((crypto_word)0)`. -/
def CONSTTIME_TRUE_W (w : Nat) : Nat := word_not w 0

/-- The macro `CONSTTIME_FALSE_W`. -/
def CONSTTIME_FALSE_W : Nat := 0

/-- Models `constant_time_msb_w`: `0u - (a >> (sizeof(a) * 8 - 1))`. -/
def constant_time_msb_w (w a : Nat) : Nat := word_sub w 0 (a >>> (w - 1))

/-- Models `constant_time_is_zero_w`: `constant_time_msb_w(~a & (a - 1))`. -/
def constant_time_is_zero_w (w a : Nat) : Nat :=
  constant_time_msb_w w (word_not w a &&& word_sub w a 1)

/-- Models `constant_time_is_nonzero_w`: `~constant_time_is_zero_w(a)`. -/
def constant_time_is_nonzero_w (w a : Nat) : Nat :=
  word_not w (constant_time_is_zero_w w a)

/-- Models `constant_time_eq_w`: `constant_time_is_zero_w(a ^ b)`. -/
def constant_time_eq_w (w a b : Nat) : Nat := constant_time_is_zero_w w (a ^^^ b)

/-- Models `constant_time_select_w`: `(mask & a) | (~mask & b)`; `value_barrier_w` is
the identity on values. -/
def constant_time_select_w (w mask a b : Nat) : Nat :=
  (mask &&& a) ||| (word_not w mask &&& b)

/-! ## `crypto/limbs/limbs.inl` (portable `DoubleLimb` path) -/

/-- Models `limb_adc`: `x = (DoubleLimb)a + b + carry_in; *r = (Limb)x;`
`ret = (Carry)(x >> LIMB_BITS)`.  Returns `(*r, ret)`. -/
def limb_adc (w a b carry_in : Nat) : Nat × Nat :=
  let x := (a + b + carry_in) % 2 ^ (2 * w)
  (x % 2 ^ w, (x >>> w) % 2 ^ w)

/-- Models `limb_add`: `x = (DoubleLimb)a + b`.  Returns `(*r, ret)`. -/
def limb_add (w a b : Nat) : Nat × Nat :=
  let x := (a + b) % 2 ^ (2 * w)
  (x % 2 ^ w, (x >>> w) % 2 ^ w)

/-- Models `limb_sbb`: `x = (DoubleLimb)a - b - borrow_in; *r = (Limb)x;`
`ret = (Carry)((x >> LIMB_BITS) & 1)`.  Returns `(*r, ret)`. -/
def limb_sbb (w a b borrow_in : Nat) : Nat × Nat :=
  let x := word_sub (2 * w) (word_sub (2 * w) a b) borrow_in
  (x % 2 ^ w, ((x >>> w) &&& 1) % 2 ^ w)

/-- Models `limb_sub`: `x = (DoubleLimb)a - b`.  Returns `(*r, ret)`. -/
def limb_sub (w a b : Nat) : Nat × Nat :=
  let x := word_sub (2 * w) a b
  (x % 2 ^ w, ((x >>> w) &&& 1) % 2 ^ w)

/-- The loop `for (i = 1; i < num_limbs; ++i) carry = limb_adc(&r[i], a[i],
b[i], carry)` on the limbs from index 1 on; returns `(r[1..], carry)`. -/
def limbs_adc_loop (w : Nat) : List Nat → List Nat → Nat → List Nat × Nat
  | a :: as, b :: bs, carry =>
    let s := limb_adc w a b carry
    let t := limbs_adc_loop w as bs s.2
    (s.1 :: t.1, t.2)
  | _, _, carry => ([], carry)

/-- Models `limbs_add`: `limb_add` on limb 0, then the `limb_adc` loop.  Returns
`(r, carry)`.  (`num_limbs >= 1` is asserted by the code; the empty array is
mapped to `([], 0)`.) -/
def limbs_add (w : Nat) : List Nat → List Nat → List Nat × Nat
  | a :: as, b :: bs =>
    let s := limb_add w a b
    let t := limbs_adc_loop w as bs s.2
    (s.1 :: t.1, t.2)
  | _, _ => ([], 0)

/-- The loop `for (i = 1; i < num_limbs; ++i) borrow = limb_sbb(&r[i], a[i],
b[i], borrow)`; returns `(r[1..], borrow)`. -/
def limbs_sbb_loop (w : Nat) : List Nat → List Nat → Nat → List Nat × Nat
  | a :: as, b :: bs, borrow =>
    let s := limb_sbb w a b borrow
    let t := limbs_sbb_loop w as bs s.2
    (s.1 :: t.1, t.2)
  | _, _, borrow => ([], borrow)

/-- Models `limbs_sub`: `limb_sub` on limb 0, then the `limb_sbb` loop.  Returns
`(r, borrow)`. -/
def limbs_sub (w : Nat) : List Nat → List Nat → List Nat × Nat
  | a :: as, b :: bs =>
    let s := limb_sub w a b
    let t := limbs_sbb_loop w as bs s.2
    (s.1 :: t.1, t.2)
  | _, _ => ([], 0)

/-! ## `crypto/limbs/limbs.c` -/

/-- Models `LIMBS_less_than`: the borrow of `a - b` (the difference limbs go to
`dummy`), turned into a mask. -/
def LIMBS_less_than (w : Nat) (a b : List Nat) : Nat :=
  constant_time_is_nonzero_w w (limbs_sub w a b).2

/-- Models `LIMBS_reduce_once`: `lt = LIMBS_less_than(r, m)`, then `r[i] -=
constant_time_select_w(lt, 0, m[i])` with borrow propagation (a `limb_sub` on
limb 0 followed by the `limb_sbb` loop).  Returns `(r, borrow)`, `borrow` being
the local the final `dev_assert_secret(borrow == 0)` is about. -/
def LIMBS_reduce_once (w : Nat) (r m : List Nat) : List Nat × Nat :=
  let lt := LIMBS_less_than w r m
  limbs_sub w r (m.map fun mi => constant_time_select_w w lt 0 mi)

/-- Models `LIMBS_add_mod`: raw sum, `overflow = overflow1 | overflow2`, then
`r[i] -= m[i] & overflow` with borrow propagation. -/
def LIMBS_add_mod (w : Nat) (a b m : List Nat) : List Nat :=
  let s := limbs_add w a b
  let overflow1 := constant_time_is_nonzero_w w s.2
  let overflow2 := word_not w (LIMBS_less_than w s.1 m)
  let overflow := overflow1 ||| overflow2
  (limbs_sub w s.1 (m.map fun mi => mi &&& overflow)).1

/-- Models `LIMBS_sub_mod`: raw difference, `underflow` mask from the borrow, then
`r[i] += m[i] & underflow` with carry propagation; the last carry is dropped. -/
def LIMBS_sub_mod (w : Nat) (a b m : List Nat) : List Nat :=
  let s := limbs_sub w a b
  let underflow := constant_time_is_nonzero_w w s.2
  (limbs_add w s.1 (m.map fun mi => mi &&& underflow)).1

/-- Models `LIMB_HIGH_BIT` of `limbs.h`: `(Limb)1 << (LIMB_BITS - 1)`. -/
def LIMB_HIGH_BIT (w : Nat) : Nat := word_shl w 1 (w - 1)

/-- The shift loop of `LIMBS_shl_mod`: `new_carry = limb >> (LIMB_BITS - 1);`
`r[i] = (limb << 1) | carry; carry = new_carry`. -/
def LIMBS_shl_loop (w : Nat) : List Nat → Nat → List Nat
  | [], _ => []
  | limb :: as, carry =>
    (word_shl w limb 1 ||| carry) :: LIMBS_shl_loop w as (limb >>> (w - 1))

/-- Models `LIMBS_shl_mod`: `overflow1` from the top bit of `a[num_limbs - 1]`, shift
left by one, then the same masked subtraction of `m` as `LIMBS_add_mod`. -/
def LIMBS_shl_mod (w : Nat) (a m : List Nat) : List Nat :=
  let overflow1 := constant_time_is_nonzero_w w (a.getLastD 0 &&& LIMB_HIGH_BIT w)
  let r := LIMBS_shl_loop w a 0
  let overflow2 := word_not w (LIMBS_less_than w r m)
  let overflow := overflow1 ||| overflow2
  (limbs_sub w r (m.map fun mi => mi &&& overflow)).1

/-- Models `LIMBS_are_zero`: folds `is_zero = constant_time_select_w(is_zero,
constant_time_is_zero_w(a[i]), is_zero)` over the limbs, from
`CONSTTIME_TRUE_W`. -/
def LIMBS_are_zero (w : Nat) (a : List Nat) : Nat :=
  a.foldl
    (fun is_zero ai => constant_time_select_w w is_zero (constant_time_is_zero_w w ai) is_zero)
    (CONSTTIME_TRUE_W w)

/-- Models `LIMBS_equal`: folds `eq = constant_time_select_w(eq,
constant_time_eq_w(a[i], b[i]), eq)` over the limb pairs, from
`CONSTTIME_TRUE_W`. -/
def LIMBS_equal (w : Nat) (a b : List Nat) : Nat :=
  (List.zip a b).foldl
    (fun eq ab => constant_time_select_w w eq (constant_time_eq_w w ab.1 ab.2) eq)
    (CONSTTIME_TRUE_W w)

/-- Models `limbs_zero`: `r[i] = 0` for `i < num_limbs`. -/
def limbs_zero (num_limbs : Nat) : List Nat := List.replicate num_limbs 0

/-! ## Table selection of `crypto/limbs/limbs.inl` and `crypto/limbs/limbs.c` -/

/-- Models `limbs_select`.  The first loop sets `r[i] = 0` for `i < num_limbs`,
so that the previous contents of `r` play no part; then, for every entry
`e < num_entries`, `equal = constant_time_eq_w(index, e)` and
`r[i] = constant_time_select_w(equal, table[(e * num_limbs) + i], r[i])` for
`i < num_limbs`.  A C loop is a fold over the range of its counter, the
assignment to `r[i]` is `List.set`. -/
def limbs_select (w : Nat) (table : List Nat) (num_limbs num_entries index : Nat) : List Nat :=
  (List.range num_entries).foldl
    (fun r e =>
      let equal := constant_time_eq_w w index e
      (List.range num_limbs).foldl
        (fun r i =>
          r.set i (constant_time_select_w w equal (table.getD (e * num_limbs + i) 0) (r.getD i 0)))
        r)
    (List.replicate num_limbs 0)

/-- Models `LIMBS_select_512_32`: returns 0 and leaves `r` as it is when
`num_limbs % (512 / LIMB_BITS) != 0`, otherwise
`limbs_select(r, table, num_limbs, 32, index)` and 1.  Returns `(ret, r)`. -/
def LIMBS_select_512_32 (w : Nat) (r table : List Nat) (num_limbs index : Nat) :
    Nat × List Nat :=
  if num_limbs % (512 / w) ≠ 0 then (0, r)
  else (1, limbs_select w table num_limbs 32 index)

/-- The function `limbs_select` with its reads of `table` recorded: the same
loops on a pair `(r, log)`, where every evaluation of
`table[(e * num_limbs) + i]` appends the position `(e * num_limbs) + i` to the
log. -/
def limbs_select_reads (w : Nat) (table : List Nat) (num_limbs num_entries index : Nat) :
    List Nat × List Nat :=
  (List.range num_entries).foldl
    (fun s e =>
      let equal := constant_time_eq_w w index e
      (List.range num_limbs).foldl
        (fun s i =>
          (s.1.set i
              (constant_time_select_w w equal (table.getD (e * num_limbs + i) 0) (s.1.getD i 0)),
            s.2 ++ [e * num_limbs + i]))
        s)
    (List.replicate num_limbs 0, [])

/-! ## `crypto/fipsmodule/bn/montgomery_inv.c` -/

/-- Models `LG_LITTLE_R = BN_MONT_CTX_N0_LIMBS * BN_BITS2`; the static assertion
`sizeof(BN_ULONG) * BN_MONT_CTX_N0_LIMBS == sizeof(uint64_t)` fixes it to 64. -/
def LG_LITTLE_R : Nat := 64

/-- The constant `alpha = UINT64_C(1) << (LG_LITTLE_R - 1)`. -/
def bn_neg_inv_alpha : Nat := word_shl 64 1 (LG_LITTLE_R - 1)

/-- One iteration of the loop of `GFp_bn_neg_inv_mod_r_u64` on the pair
`(u, v)`, all operations on `uint64_t`. -/
def bn_neg_inv_step (n : Nat) (uv : Nat × Nat) : Nat × Nat :=
  let alpha := bn_neg_inv_alpha
  let beta := n
  let u := uv.1
  let v := uv.2
  let u_is_odd := word_sub 64 0 (u &&& 1)
  let beta_if_u_is_odd := beta &&& u_is_odd
  let u := word_add 64 ((u ^^^ beta_if_u_is_odd) >>> 1) (u &&& beta_if_u_is_odd)
  let alpha_if_u_is_odd := alpha &&& u_is_odd
  let v := word_add 64 (v >>> 1) alpha_if_u_is_odd
  (u, v)

/-- The pair `(u, v)` of `GFp_bn_neg_inv_mod_r_u64` at the start of iteration
`i` of its loop (`u = 1`, `v = 0` before the first iteration). -/
def bn_neg_inv_loop (n : Nat) : Nat → Nat × Nat
  | 0 => (1, 0)
  | i + 1 => bn_neg_inv_step n (bn_neg_inv_loop n i)

/-- Models `GFp_bn_neg_inv_mod_r_u64`: the value of `v` after `LG_LITTLE_R`
iterations. -/
def GFp_bn_neg_inv_mod_r_u64 (n : Nat) : Nat := (bn_neg_inv_loop n LG_LITTLE_R).2

/-! ## Macros of `crypto/fipsmodule/bn/internal.h` -/

/-- Modelled from the spec: the macro `TOBN(hi, lo)` of `bn/internal.h`, which
is not part of the sources at hand.  Limb arrays are little-limb-endian and a
limb has 64 or 32 bits, so a 64-bit constant given as two 32-bit halves is the
single limb `hi << 32 | lo` with 64-bit limbs and the two limbs `lo, hi` with
32-bit limbs. -/
def TOBN (w hi lo : Nat) : List Nat :=
  if w = 64 then [(hi <<< 32) ||| lo] else [lo, hi]

/-- Modelled from the spec: the parameters of `GFp_bn_mul_mont(r, a, b, n, n0,
num_limbs)`, which is not part of the sources at hand, are the two factors, the
modulus, the Montgomery constant and the limb count.  Its result is `r`. -/
abbrev BnMulMont : Type := List Nat → List Nat → List Nat → List Nat → Nat → List Nat

/-- Splits a number into `num_limbs` limbs of `w` bits, least significant
first (the inverse of `LIMBS_val`). -/
def LIMBS_of_nat (w : Nat) : Nat → Nat → List Nat
  | 0, _ => []
  | num_limbs + 1, x => x % 2 ^ w :: LIMBS_of_nat w num_limbs (x / 2 ^ w)

/-- Modelled from the spec: the loop of `GFp_bn_mul_mont`, "schoolbook limb
multiply interleaved with Montgomery reduction".  For each limb `a[i]`, least
significant first, `t += a[i] * b`, then `t += m * n` with
`m = t[0] * n0 mod 2^w`, which clears the lowest limb, and `t` is shifted down
by one limb. -/
def bn_mul_mont_loop (w : Nat) (b n n0 : Nat) : List Nat → Nat → Nat
  | [], t => t
  | ai :: as, t =>
    let t1 := t + ai * b
    let m := ((t1 % 2 ^ w) * n0) % 2 ^ w
    bn_mul_mont_loop w b n n0 as ((t1 + m * n) / 2 ^ w)

/-- Modelled from the spec: `GFp_bn_mul_mont`, Montgomery multiplication
`a * b / 2^(w * num_limbs) mod n`: the interleaved loop followed by one
conditional subtraction of the modulus; `n0[0]` is the Montgomery constant for
one limb. -/
def GFp_bn_mul_mont (w : Nat) : BnMulMont := fun a b n n0 num_limbs =>
  let t := bn_mul_mont_loop w (LIMBS_val w b) (LIMBS_val w n) (n0.headD 0) a 0
  LIMBS_of_nat w num_limbs (if LIMBS_val w n ≤ t then t - LIMBS_val w n else t)

/-! ## `crypto/fipsmodule/ec/ecp_nistz.c` and the window recoding -/

/-- The bytes that `gfp_little_endian_bytes_from_scalar` writes for one limb
`d`: `d & 0xff`, `(d >> 8) & 0xff`, `(d >> 16) & 0xff`, `(d >>= 24) & 0xff`
and, when `sizeof(Limb) == 8`, after `d >>= 8`, four more bytes. -/
def limb_bytes (w d : Nat) : List Nat :=
  let d1 := d >>> 24
  [d &&& 0xff, (d >>> 8) &&& 0xff, (d >>> 16) &&& 0xff, d1 &&& 0xff] ++
    if w / 8 = 8 then
      let d2 := d1 >>> 8
      [d2 &&& 0xff, (d2 >>> 8) &&& 0xff, (d2 >>> 16) &&& 0xff, (d2 >>> 24) &&& 0xff]
    else []

/-- Models `gfp_little_endian_bytes_from_scalar`: the bytes of every limb,
least significant limb first, then zero bytes up to `str_len`. -/
def gfp_little_endian_bytes_from_scalar (w str_len : Nat) (scalar : List Nat) : List Nat :=
  let str := scalar.flatMap (limb_bytes w)
  str ++ List.replicate (str_len - str.length) 0

/-- Modelled from the spec: `booth_recode(is_negative, digit, in, w)` of
`ecp_nistz.h`, which is not part of the sources at hand.  The raw window `in`
of `w + 1` bits is recoded into a sign mask and a magnitude in `[0, 2^(w-1)]`:
`s = ~((in >> w) - 1); d = (1 << (w + 1)) - in - 1; d = (d & s) | (in & ~s);`
`d = (d >> 1) + (d & 1); is_negative = constant_time_is_nonzero_w(s & 1)`.
Returns `(is_negative, digit)`; `lw` is the width of a `crypto_word`. -/
def booth_recode (lw : Nat) (inp w : Nat) : Nat × Nat :=
  let s := word_not lw (word_sub lw (inp >>> w) 1)
  let d := word_sub lw (word_sub lw (word_shl lw 1 (w + 1)) inp) 1
  let d := (d &&& s) ||| (inp &&& word_not lw s)
  let d := word_add lw (d >>> 1) (d &&& 1)
  (constant_time_is_nonzero_w lw (s &&& 1), d)

/-! ## Vocabulary of the statements -/

/-- The list `a` is an array of exactly `n` limbs of `w` bits. -/
def IsLimbs (w n : Nat) (a : List Nat) : Prop := a.length = n ∧ LIMBS_ok w a

instance (w n : Nat) (a : List Nat) : Decidable (IsLimbs w n a) := by
  unfold IsLimbs LIMBS_ok; infer_instance

/-- The binary operation `f` maps arrays of `n` limbs to arrays of `n` limbs. -/
def IsLimbOp (w n : Nat) (f : List Nat → List Nat → List Nat) : Prop :=
  ∀ a b, IsLimbs w n a → IsLimbs w n b → IsLimbs w n (f a b)

/-- The operation `f` is Montgomery multiplication modulo the value of `m`, with
`R = 2 ^ (w * n)`: on reduced arguments the result is reduced and
`f a b * R = a * b` modulo `m`. -/
def IsMontMul (w n : Nat) (m : List Nat) (f : List Nat → List Nat → List Nat) : Prop :=
  ∀ a b, IsLimbs w n a → IsLimbs w n b →
    LIMBS_val w a < LIMBS_val w m → LIMBS_val w b < LIMBS_val w m →
    IsLimbs w n (f a b) ∧ LIMBS_val w (f a b) < LIMBS_val w m ∧
    (LIMBS_val w (f a b) * (2 ^ w) ^ n) % LIMBS_val w m
      = (LIMBS_val w a * LIMBS_val w b) % LIMBS_val w m

/-- The three coordinate arrays of a `P384_POINT` / `P256_POINT`. -/
structure POINT where
  X : List Nat
  Y : List Nat
  Z : List Nat
deriving DecidableEq, Repr

/-- The three coordinates of the point are arrays of `n` limbs of `w` bits. -/
def IsPoint (w n : Nat) (p : POINT) : Prop :=
  IsLimbs w n p.X ∧ IsLimbs w n p.Y ∧ IsLimbs w n p.Z

instance (w n : Nat) (p : POINT) : Decidable (IsPoint w n p) := by
  unfold IsPoint; infer_instance

namespace P384

/-! ## `crypto/fipsmodule/ec/gfp_p384.c` -/

/-- Models `P384_LIMBS` of `ecp_nistz384.h`: `384u / LIMB_BITS`. -/
def P384_LIMBS (w : Nat) : Nat := 384 / w

/-- The modulus `Q` of P-384. -/
def Q (w : Nat) : List Nat :=
  TOBN w 0x00000000 0xffffffff ++
  TOBN w 0xffffffff 0x00000000 ++
  TOBN w 0xffffffff 0xfffffffe ++
  TOBN w 0xffffffff 0xffffffff ++
  TOBN w 0xffffffff 0xffffffff ++
  TOBN w 0xffffffff 0xffffffff

/-- The group order `N` of P-384. -/
def N (w : Nat) : List Nat :=
  TOBN w 0xecec196a 0xccc52973 ++
  TOBN w 0x581a0db2 0x48b0a77a ++
  TOBN w 0xc7634d81 0xf4372ddf ++
  TOBN w 0xffffffff 0xffffffff ++
  TOBN w 0xffffffff 0xffffffff ++
  TOBN w 0xffffffff 0xffffffff

/-- The constant `ONE` (one in the Montgomery domain). -/
def ONE (w : Nat) : List Nat :=
  TOBN w 0xffffffff 1 ++ TOBN w 0 0xffffffff ++ TOBN w 0 1 ++ TOBN w 0 0 ++ TOBN w 0 0 ++
  TOBN w 0 0

/-- A field element of P-384: an array of `P384_LIMBS` limbs whose value is
below the modulus `Q`. -/
def IsElem (w : Nat) (x : List Nat) : Prop :=
  IsLimbs w (P384_LIMBS w) x ∧ LIMBS_val w x < LIMBS_val w (Q w)

instance (w : Nat) (x : List Nat) : Decidable (IsElem w x) := by
  unfold IsElem; infer_instance

/-- Models `is_equal`: `LIMBS_equal(a, b, P384_LIMBS)`. -/
def is_equal (w : Nat) (a b : List Nat) : Nat := LIMBS_equal w a b

/-- Models `is_zero`: `LIMBS_are_zero(a, P384_LIMBS)`. -/
def is_zero (w : Nat) (a : List Nat) : Nat := LIMBS_are_zero w a

/-- Models `copy_conditional`: `r[i] = constant_time_select_w(condition, a[i], r[i])`
for every limb. -/
def copy_conditional (w : Nat) (r a : List Nat) (condition : Nat) : List Nat :=
  List.zipWith (fun ri ai => constant_time_select_w w condition ai ri) r a

/-- Models `elem_add`: `LIMBS_add_mod(r, a, b, Q, P384_LIMBS)`. -/
def elem_add (w : Nat) (a b : List Nat) : List Nat := LIMBS_add_mod w a b (Q w)

/-- Models `elem_sub`: `LIMBS_sub_mod(r, a, b, Q, P384_LIMBS)`. -/
def elem_sub (w : Nat) (a b : List Nat) : List Nat := LIMBS_sub_mod w a b (Q w)

/-- The constant `Q_PLUS_1_SHR_1` of `elem_div_by_2`. -/
def Q_PLUS_1_SHR_1 (w : Nat) : List Nat :=
  TOBN w 0x00000000 0x80000000 ++ TOBN w 0x7fffffff 0x80000000 ++
  TOBN w 0xffffffff 0xffffffff ++ TOBN w 0xffffffff 0xffffffff ++
  TOBN w 0xffffffff 0xffffffff ++ TOBN w 0x7fffffff 0xffffffff

/-- The shift loop of `elem_div_by_2`, which runs from the second most
significant limb down: the argument lists `a[P384_LIMBS - 2], ..., a[0]` in
that order, the result lists the new `r[P384_LIMBS - 2], ..., r[0]`.
`new_carry = a[j]; r[j] = (a[j] >> 1) | (carry << (LIMB_BITS - 1));`
`carry = new_carry`. -/
def elem_shr_loop (w : Nat) : List Nat → Nat → List Nat
  | [], _ => []
  | aj :: rest, carry => ((aj >>> 1) ||| word_shl w carry (w - 1)) :: elem_shr_loop w rest aj

/-- The part `r = a >> 1` of `elem_div_by_2`:
`carry = a[P384_LIMBS - 1] & 1; r[P384_LIMBS - 1] = a[P384_LIMBS - 1] >> 1`,
then the loop over the lower limbs, most significant first. -/
def elem_shr_1 (w : Nat) (a : List Nat) : List Nat :=
  match a.reverse with
  | [] => []
  | top :: rest => ((top >>> 1) :: elem_shr_loop w rest (top &&& 1)).reverse

/-- The local `carry2` of `elem_div_by_2`: the carry out of
`limbs_add(adjusted, r, Q_PLUS_1_SHR_1, P384_LIMBS)`. -/
def elem_div_by_2_carry2 (w : Nat) (a : List Nat) : Nat :=
  (limbs_add w (elem_shr_1 w a) (Q_PLUS_1_SHR_1 w)).2

/-- Models `elem_div_by_2`: `is_odd` from `a[0] & 1`, `r = a >> 1`,
`adjusted = r + Q_PLUS_1_SHR_1`, `copy_conditional(r, adjusted, is_odd)`. -/
def elem_div_by_2 (w : Nat) (a : List Nat) : List Nat :=
  let is_odd := constant_time_is_nonzero_w w (a.headD 0 &&& 1)
  let r := elem_shr_1 w a
  let adjusted := (limbs_add w r (Q_PLUS_1_SHR_1 w)).1
  copy_conditional w r adjusted is_odd

/-- Modelled from the spec: the macro `BN_MONT_CTX_N0(hi, lo)` of
`bn/internal.h`, which is not part of the sources at hand: the 64-bit
Montgomery constant as an array of limbs, least significant first. -/
def BN_MONT_CTX_N0 (w hi lo : Nat) : List Nat := TOBN w hi lo

/-- The constant `Q_N0` of `elem_mul_mont`. -/
def Q_N0 (w : Nat) : List Nat := BN_MONT_CTX_N0 w 0x1 0x1

/-- Models `elem_mul_mont`: `GFp_bn_mul_mont(r, a, b, Q, Q_N0, P384_LIMBS)`. -/
def elem_mul_mont (w : Nat) (bn_mul_mont : BnMulMont) (a b : List Nat) : List Nat :=
  bn_mul_mont a b (Q w) (Q_N0 w) (P384_LIMBS w)

/-- Models `elem_mul_by_2`: `LIMBS_shl_mod(r, a, Q, P384_LIMBS)`. -/
def elem_mul_by_2 (w : Nat) (a : List Nat) : List Nat := LIMBS_shl_mod w a (Q w)

/-- Models `elem_mul_by_3`: `doubled = a + a; r = doubled + a`. -/
def elem_mul_by_3 (w : Nat) (a : List Nat) : List Nat :=
  let doubled := elem_add w a a
  elem_add w doubled a

/-- Models `elem_sqr_mont`: `elem_mul_mont(r, a, a)`. -/
def elem_sqr_mont (w : Nat) (bn_mul_mont : BnMulMont) (a : List Nat) : List Nat :=
  elem_mul_mont w bn_mul_mont a a

/-- Models `GFp_p384_elem_neg`: `is_zero = LIMBS_are_zero(a)`, `r = Q - a`, then
`r[i] = constant_time_select_w(is_zero, 0, r[i])`. -/
def GFp_p384_elem_neg (w : Nat) (a : List Nat) : List Nat :=
  let is_zero := LIMBS_are_zero w a
  let r := (limbs_sub w (Q w) a).1
  r.map fun ri => constant_time_select_w w is_zero 0 ri

/-! ## Conversion into and out of the Montgomery domain -/

/-- Modelled from the spec: the constant `RR = R^2 mod q` with
`R = 2^(LIMB_BITS * P384_LIMBS) = 2^384`, by which `to_mont` multiplies; it is
not part of the sources at hand. -/
def RR (w : Nat) : List Nat :=
  LIMBS_of_nat w (P384_LIMBS w) (((2 ^ w) ^ P384_LIMBS w) ^ 2 % LIMBS_val w (Q w))

/-- Modelled from the spec: `to_mont(x) = elem_mul_mont(x, RR)`, the conversion
into the Montgomery domain; it is not part of the sources at hand. -/
def to_mont (w : Nat) (bn_mul_mont : BnMulMont) (x : List Nat) : List Nat :=
  elem_mul_mont w bn_mul_mont x (RR w)

/-- Modelled from the spec: `from_mont(y) = elem_mul_mont(y, 1)`, the conversion
out of the Montgomery domain, `1` being the array of value one; it is not part
of the sources at hand. -/
def from_mont (w : Nat) (bn_mul_mont : BnMulMont) (y : List Nat) : List Nat :=
  elem_mul_mont w bn_mul_mont y (LIMBS_of_nat w (P384_LIMBS w) 1)

/-! ## `crypto/fipsmodule/ec/ecp_nistz384.inl` -/

/-- Models `GFp_nistz384_point_double`, statement by statement; a C variable that is
assigned again is bound again under the same name. -/
def GFp_nistz384_point_double (w : Nat) (bn_mul_mont : BnMulMont) (a : POINT) : POINT :=
  let in_x := a.X
  let in_y := a.Y
  let in_z := a.Z
  let S := elem_mul_by_2 w in_y
  let Zsqr := elem_sqr_mont w bn_mul_mont in_z
  let S := elem_sqr_mont w bn_mul_mont S
  let res_z := elem_mul_mont w bn_mul_mont in_z in_y
  let res_z := elem_mul_by_2 w res_z
  let M := elem_add w in_x Zsqr
  let Zsqr := elem_sub w in_x Zsqr
  let res_y := elem_sqr_mont w bn_mul_mont S
  let res_y := elem_div_by_2 w res_y
  let M := elem_mul_mont w bn_mul_mont M Zsqr
  let M := elem_mul_by_3 w M
  let S := elem_mul_mont w bn_mul_mont S in_x
  let tmp0 := elem_mul_by_2 w S
  let res_x := elem_sqr_mont w bn_mul_mont M
  let res_x := elem_sub w res_x tmp0
  let S := elem_sub w S res_x
  let S := elem_mul_mont w bn_mul_mont S M
  let res_y := elem_sub w S res_y
  { X := res_x, Y := res_y, Z := res_z }

/-- The local `is_exceptional` of `GFp_nistz384_point_add`:
`is_equal(U1, U2) & ~in1infty & ~in2infty`. -/
def point_add_is_exceptional (w : Nat) (bn_mul_mont : BnMulMont) (a b : POINT) : Nat :=
  let in1_x := a.X
  let in1_z := a.Z
  let in2_x := b.X
  let in2_z := b.Z
  let in1infty := is_zero w a.Z
  let in2infty := is_zero w b.Z
  let Z2sqr := elem_sqr_mont w bn_mul_mont in2_z
  let Z1sqr := elem_sqr_mont w bn_mul_mont in1_z
  let U1 := elem_mul_mont w bn_mul_mont in1_x Z2sqr
  let U2 := elem_mul_mont w bn_mul_mont in2_x Z1sqr
  is_equal w U1 U2 &&& word_not w in1infty &&& word_not w in2infty

/-- The value `is_equal(S1, S2)` that `GFp_nistz384_point_add` tests in its
exceptional branch. -/
def point_add_S1_eq_S2 (w : Nat) (bn_mul_mont : BnMulMont) (a b : POINT) : Nat :=
  let in1_y := a.Y
  let in1_z := a.Z
  let in2_y := b.Y
  let in2_z := b.Z
  let Z2sqr := elem_sqr_mont w bn_mul_mont in2_z
  let Z1sqr := elem_sqr_mont w bn_mul_mont in1_z
  let S1 := elem_mul_mont w bn_mul_mont Z2sqr in2_z
  let S2 := elem_mul_mont w bn_mul_mont Z1sqr in1_z
  let S1 := elem_mul_mont w bn_mul_mont S1 in1_y
  let S2 := elem_mul_mont w bn_mul_mont S2 in2_y
  is_equal w S1 S2

/-- Models `GFp_nistz384_point_add`, statement by statement. -/
def GFp_nistz384_point_add (w : Nat) (bn_mul_mont : BnMulMont) (a b : POINT) : POINT :=
  let in1_x := a.X
  let in1_y := a.Y
  let in1_z := a.Z
  let in2_x := b.X
  let in2_y := b.Y
  let in2_z := b.Z
  let in1infty := is_zero w a.Z
  let in2infty := is_zero w b.Z
  let Z2sqr := elem_sqr_mont w bn_mul_mont in2_z
  let Z1sqr := elem_sqr_mont w bn_mul_mont in1_z
  let S1 := elem_mul_mont w bn_mul_mont Z2sqr in2_z
  let S2 := elem_mul_mont w bn_mul_mont Z1sqr in1_z
  let S1 := elem_mul_mont w bn_mul_mont S1 in1_y
  let S2 := elem_mul_mont w bn_mul_mont S2 in2_y
  let R := elem_sub w S2 S1
  let U1 := elem_mul_mont w bn_mul_mont in1_x Z2sqr
  let U2 := elem_mul_mont w bn_mul_mont in2_x Z1sqr
  let H := elem_sub w U2 U1
  let is_exceptional := is_equal w U1 U2 &&& word_not w in1infty &&& word_not w in2infty
  if is_exceptional ≠ 0 then
    if is_equal w S1 S2 ≠ 0 then
      GFp_nistz384_point_double w bn_mul_mont a
    else
      { X := limbs_zero (P384_LIMBS w), Y := limbs_zero (P384_LIMBS w),
        Z := limbs_zero (P384_LIMBS w) }
  else
    let Rsqr := elem_sqr_mont w bn_mul_mont R
    let res_z := elem_mul_mont w bn_mul_mont H in1_z
    let Hsqr := elem_sqr_mont w bn_mul_mont H
    let res_z := elem_mul_mont w bn_mul_mont res_z in2_z
    let Hcub := elem_mul_mont w bn_mul_mont Hsqr H
    let U2 := elem_mul_mont w bn_mul_mont U1 Hsqr
    let Hsqr := elem_mul_by_2 w U2
    let res_x := elem_sub w Rsqr Hsqr
    let res_x := elem_sub w res_x Hcub
    let res_y := elem_sub w U2 res_x
    let S2 := elem_mul_mont w bn_mul_mont S1 Hcub
    let res_y := elem_mul_mont w bn_mul_mont R res_y
    let res_y := elem_sub w res_y S2
    let res_x := copy_conditional w res_x in2_x in1infty
    let res_y := copy_conditional w res_y in2_y in1infty
    let res_z := copy_conditional w res_z in2_z in1infty
    let res_x := copy_conditional w res_x in1_x in2infty
    let res_y := copy_conditional w res_y in1_y in2infty
    let res_z := copy_conditional w res_z in1_z in2infty
    { X := res_x, Y := res_y, Z := res_z }

/-! ## Scalar multiplication of `ecp_nistz384.inl` -/

/-- The inner loop of `gfp_p384_point_select_w5` for one coordinate and one
table entry: `x[j] = constant_time_select_w(equal, table[i].X[j], x[j])`. -/
def select_limbs (w : Nat) (equal : Nat) (entry x : List Nat) : List Nat :=
  List.zipWith (fun tj xj => constant_time_select_w w equal tj xj) entry x

/-- The outer loop of `gfp_p384_point_select_w5` over the table entries
`table[i], table[i + 1], ...`: `equal = constant_time_eq_w(index, i + 1)`,
then the three coordinates are selected. -/
def point_select_loop (w : Nat) (index : Nat) : List POINT → Nat → POINT → POINT
  | [], _, acc => acc
  | t :: rest, i, acc =>
    let equal := constant_time_eq_w w index (word_add w i 1)
    point_select_loop w index rest (i + 1)
      { X := select_limbs w equal t.X acc.X, Y := select_limbs w equal t.Y acc.Y,
        Z := select_limbs w equal t.Z acc.Z }

/-- Models `gfp_p384_point_select_w5`: `x`, `y`, `z` start as zero arrays, all
16 entries are scanned. -/
def gfp_p384_point_select_w5 (w : Nat) (table : List POINT) (index : Nat) : POINT :=
  point_select_loop w index table 0
    { X := limbs_zero (P384_LIMBS w), Y := limbs_zero (P384_LIMBS w),
      Z := limbs_zero (P384_LIMBS w) }

/-- Models `add_precomputed_w5`: recode the window, select the table entry,
negate its `Y` under the sign mask, add it to `r`. -/
def add_precomputed_w5 (w : Nat) (bn_mul_mont : BnMulMont) (r : POINT) (wvalue : Nat)
    (table : List POINT) : POINT :=
  let rc := booth_recode w wvalue 5
  let recoded_is_negative := rc.1
  let recoded := rc.2
  let h := gfp_p384_point_select_w5 w table recoded
  let tmp := GFp_p384_elem_neg w h.Y
  let h := { h with Y := copy_conditional w h.Y tmp recoded_is_negative }
  GFp_nistz384_point_add w bn_mul_mont r h

/-- The table `row[0 .. 15]` of `GFp_nistz384_point_mul`, built by its 15 calls
in their order: `row[i]` is meant to hold `(i + 1) * P`. -/
def point_mul_table (w : Nat) (bn_mul_mont : BnMulMont) (p_x p_y : List Nat) : List POINT :=
  let dbl := GFp_nistz384_point_double w bn_mul_mont
  let add := GFp_nistz384_point_add w bn_mul_mont
  let row1 : POINT := { X := p_x, Y := p_y, Z := ONE w }
  let row2 := dbl row1
  let row3 := add row2 row1
  let row4 := dbl row2
  let row6 := dbl row3
  let row8 := dbl row4
  let row12 := dbl row6
  let row5 := add row4 row1
  let row7 := add row6 row1
  let row9 := add row8 row1
  let row13 := add row12 row1
  let row14 := dbl row7
  let row10 := dbl row5
  let row15 := add row14 row1
  let row11 := add row10 row1
  let row16 := dbl row8
  [row1, row2, row3, row4, row5, row6, row7, row8, row9, row10, row11, row12, row13, row14,
    row15, row16]

/-- The constant `kWindowSize`. -/
def kWindowSize : Nat := 5

/-- The constant `kMask`: `(1 << (5 + 1)) - 1`. -/
def kMask : Nat := (1 <<< (5 + 1)) - 1

/-- The constant `START_INDEX`: `384 - 4`. -/
def START_INDEX : Nat := 384 - 4

/-- The raw window read inside the loop of `GFp_nistz384_point_mul`:
`off = (index - 1) / 8; wvalue = p_str[off] | p_str[off + 1] << 8;`
`wvalue = (wvalue >> ((index - 1) % 8)) & kMask`. -/
def loop_window (p_str : List Nat) (index : Nat) : Nat :=
  let off := (index - 1) / 8
  let wvalue := p_str.getD off 0 ||| (p_str.getD (off + 1) 0 <<< 8)
  (wvalue >>> ((index - 1) % 8)) &&& kMask

/-- The `while (index >= kWindowSize)` loop of `GFp_nistz384_point_mul`: the
window is added unless `index == START_INDEX`, `index` drops by `kWindowSize`,
`r` is doubled five times. -/
def point_mul_loop (w : Nat) (bn_mul_mont : BnMulMont) (p_str : List Nat) (table : List POINT)
    (index : Nat) (r : POINT) : POINT :=
  if index ≥ kWindowSize then
    let r := if index ≠ START_INDEX then
        add_precomputed_w5 w bn_mul_mont r (loop_window p_str index) table
      else r
    let index := index - kWindowSize
    let r := GFp_nistz384_point_double w bn_mul_mont r
    let r := GFp_nistz384_point_double w bn_mul_mont r
    let r := GFp_nistz384_point_double w bn_mul_mont r
    let r := GFp_nistz384_point_double w bn_mul_mont r
    let r := GFp_nistz384_point_double w bn_mul_mont r
    point_mul_loop w bn_mul_mont p_str table index r
  else r
termination_by index
decreasing_by
  simp only [kWindowSize] at *
  omega

/-- Models `GFp_nistz384_point_mul`: the scalar bytes with one extra zero
byte, the table, the top window, the loop and the final window. -/
def GFp_nistz384_point_mul (w : Nat) (bn_mul_mont : BnMulMont) (p_scalar p_x p_y : List Nat) :
    POINT :=
  let p_str := gfp_little_endian_bytes_from_scalar w (P384_LIMBS w * (w / 8) + 1) p_scalar
  let table := point_mul_table w bn_mul_mont p_x p_y
  let index := START_INDEX
  let wvalue := p_str.getD ((index - 1) / 8) 0
  let wvalue := (wvalue >>> ((index - 1) % 8)) &&& kMask
  let rc := booth_recode w wvalue 5
  let recoded := rc.2
  let r := gfp_p384_point_select_w5 w table recoded
  let r := point_mul_loop w bn_mul_mont p_str table index r
  let wvalue := p_str.getD 0 0
  let wvalue := (wvalue <<< 1) &&& kMask
  add_precomputed_w5 w bn_mul_mont r wvalue table

/-! ## The field and the curve behind the P-384 code -/

/-- The modulus of the P-384 field: the value of the limb array `Q`. -/
def modulus : Nat := LIMBS_val 64 (Q 64)

/-- The field element that a limb array stands for.  Elements are kept in
Montgomery form: the array of value `a` stands for `a / R` with
`R = 2 ^ (LIMB_BITS * P384_LIMBS)`. -/
def decode (w : Nat) (a : List Nat) : ZMod modulus :=
  (LIMBS_val w a : ZMod modulus) * (((2 ^ w) ^ P384_LIMBS w : Nat) : ZMod modulus)⁻¹

/-- The Jacobian coordinates `(X, Y, Z)` that a `P384_POINT` stands for. -/
def decodePoint (w : Nat) (p : POINT) : Fin 3 → ZMod modulus :=
  ![decode w p.X, decode w p.Y, decode w p.Z]

/-- The curve `y^2 = x^3 - 3 x + b` over the P-384 field.  The coefficient
`a = -3` is the one the doubling formula of `GFp_nistz384_point_double` is
specialised to; the coefficient `b` is not part of the sources at hand and is a
parameter. -/
def curve (b : ZMod modulus) : WeierstrassCurve (ZMod modulus) :=
  { a₁ := 0, a₂ := 0, a₃ := 0, a₄ := -3, a₆ := b }

/-- The array `a` is a field element of P-384 and stands for `v`. -/
def Encodes (w : Nat) (a : List Nat) (v : ZMod modulus) : Prop :=
  IsElem w a ∧ decode w a = v

/-- The `P384_POINT` `p` stands for the point `A` of the curve: its coordinates
are field elements, its Jacobian coordinates `(X, Y, Z)` are a nonsingular point
of the curve unless `Z = 0`, and they are `A` in affine form (`x = X / Z^2`,
`y = Y / Z^3`, or the point at infinity when `Z = 0`). -/
def Represents [Fact (Nat.Prime modulus)] (w : Nat) (b : ZMod modulus) (p : POINT)
    (A : (curve b).toAffine.Point) : Prop :=
  (IsElem w p.X ∧ IsElem w p.Y ∧ IsElem w p.Z) ∧
  (decode w p.Z ≠ 0 → WeierstrassCurve.Jacobian.Nonsingular (curve b) (decodePoint w p)) ∧
  WeierstrassCurve.Jacobian.Point.toAffine (curve b) (decodePoint w p) = A

end P384

namespace P256

/-! ## `crypto/fipsmodule/ec/ecp_nistz256.c` (the C `GFp_nistz256_point_add`) -/

/-- Models `P256_LIMBS` of `ecp_nistz256.h`: `256u / LIMB_BITS`. -/
def P256_LIMBS (w : Nat) : Nat := 256 / w

/-- The modulus `Q` of P-256. -/
def Q (w : Nat) : List Nat :=
  TOBN w 0xffffffff 0xffffffff ++
  TOBN w 0x00000000 0xffffffff ++
  TOBN w 0x00000000 0x00000000 ++
  TOBN w 0xffffffff 0x00000001

/-- Models `copy_conditional`: `mask1 = move; mask2 = ~mask1;`
`dst[i] = (src[i] & mask1) ^ (dst[i] & mask2)` for the limbs 0 to 3 and, when
`P256_LIMBS == 8`, 4 to 7, that is for every limb. -/
def copy_conditional (w : Nat) (dst src : List Nat) (move : Nat) : List Nat :=
  let mask1 := move
  let mask2 := word_not w mask1
  List.zipWith (fun d s => (s &&& mask1) ^^^ (d &&& mask2)) dst src

/-- Models `is_equal`: `LIMBS_equal(a, b, P256_LIMBS)`. -/
def is_equal (w : Nat) (a b : List Nat) : Nat := LIMBS_equal w a b

/-- Models `is_zero`: `LIMBS_are_zero(a, P256_LIMBS)`. -/
def is_zero (w : Nat) (a : List Nat) : Nat := LIMBS_are_zero w a

/-- Models `elem_mul_by_2`: `LIMBS_shl_mod(r, a, Q, P256_LIMBS)`. -/
def elem_mul_by_2 (w : Nat) (a : List Nat) : List Nat := LIMBS_shl_mod w a (Q w)

/-- Models `elem_sub`: `LIMBS_sub_mod(r, a, b, Q, P256_LIMBS)`. -/
def elem_sub (w : Nat) (a b : List Nat) : List Nat := LIMBS_sub_mod w a b (Q w)

/-- The local `is_exceptional` of the C `GFp_nistz256_point_add`.
`elem_mul_mont` and `elem_sqr_mont` are `GFp_nistz256_mul_mont` and
`GFp_nistz256_sqr_mont`, which are only declared in `ecp_nistz256.h` and are
parameters here. -/
def point_add_is_exceptional (w : Nat) (elem_mul_mont : List Nat → List Nat → List Nat)
    (elem_sqr_mont : List Nat → List Nat) (a b : POINT) : Nat :=
  let in1_x := a.X
  let in1_z := a.Z
  let in2_x := b.X
  let in2_z := b.Z
  let in1infty := is_zero w a.Z
  let in2infty := is_zero w b.Z
  let Z2sqr := elem_sqr_mont in2_z
  let Z1sqr := elem_sqr_mont in1_z
  let U1 := elem_mul_mont in1_x Z2sqr
  let U2 := elem_mul_mont in2_x Z1sqr
  is_equal w U1 U2 &&& word_not w in1infty &&& word_not w in2infty

/-- The C `GFp_nistz256_point_add`, statement by statement.
`GFp_nistz256_mul_mont`, `GFp_nistz256_sqr_mont` and
`GFp_nistz256_point_double` are only declared in the sources at hand and are
parameters here. -/
def GFp_nistz256_point_add (w : Nat) (elem_mul_mont : List Nat → List Nat → List Nat)
    (elem_sqr_mont : List Nat → List Nat) (GFp_nistz256_point_double : POINT → POINT)
    (a b : POINT) : POINT :=
  let in1_x := a.X
  let in1_y := a.Y
  let in1_z := a.Z
  let in2_x := b.X
  let in2_y := b.Y
  let in2_z := b.Z
  let in1infty := is_zero w a.Z
  let in2infty := is_zero w b.Z
  let Z2sqr := elem_sqr_mont in2_z
  let Z1sqr := elem_sqr_mont in1_z
  let S1 := elem_mul_mont Z2sqr in2_z
  let S2 := elem_mul_mont Z1sqr in1_z
  let S1 := elem_mul_mont S1 in1_y
  let S2 := elem_mul_mont S2 in2_y
  let R := elem_sub w S2 S1
  let U1 := elem_mul_mont in1_x Z2sqr
  let U2 := elem_mul_mont in2_x Z1sqr
  let H := elem_sub w U2 U1
  let is_exceptional := is_equal w U1 U2 &&& word_not w in1infty &&& word_not w in2infty
  if is_exceptional ≠ 0 then
    if is_equal w S1 S2 ≠ 0 then
      GFp_nistz256_point_double a
    else
      { X := limbs_zero (P256_LIMBS w), Y := limbs_zero (P256_LIMBS w),
        Z := limbs_zero (P256_LIMBS w) }
  else
    let Rsqr := elem_sqr_mont R
    let res_z := elem_mul_mont H in1_z
    let Hsqr := elem_sqr_mont H
    let res_z := elem_mul_mont res_z in2_z
    let Hcub := elem_mul_mont Hsqr H
    let U2 := elem_mul_mont U1 Hsqr
    let Hsqr := elem_mul_by_2 w U2
    let res_x := elem_sub w Rsqr Hsqr
    let res_x := elem_sub w res_x Hcub
    let res_y := elem_sub w U2 res_x
    let S2 := elem_mul_mont S1 Hcub
    let res_y := elem_mul_mont R res_y
    let res_y := elem_sub w res_y S2
    let res_x := copy_conditional w res_x in2_x in1infty
    let res_y := copy_conditional w res_y in2_y in1infty
    let res_z := copy_conditional w res_z in2_z in1infty
    let res_x := copy_conditional w res_x in1_x in2infty
    let res_y := copy_conditional w res_y in1_y in2infty
    let res_z := copy_conditional w res_z in1_z in2infty
    { X := res_x, Y := res_y, Z := res_z }

/-! ## `crypto/fipsmodule/ec/gfp_p256.c` -/

/-- Models the C `GFp_nistz256_select_w5`: `x`, `y`, `z` start as zero arrays of
`P256_LIMBS` limbs and all 16 entries are scanned with
`equal = constant_time_eq_w(index, i + 1)`.  Its two loops are, word for word,
those of `gfp_p384_point_select_w5`, so that the scan `P384.point_select_loop`
is used for both. -/
def GFp_nistz256_select_w5 (w : Nat) (table : List POINT) (index : Nat) : POINT :=
  P384.point_select_loop w index table 0
    { X := limbs_zero (P256_LIMBS w), Y := limbs_zero (P256_LIMBS w),
      Z := limbs_zero (P256_LIMBS w) }

end P256

/-! ## The 16-entry point selections with their reads recorded -/

/-- The loops shared by `gfp_p384_point_select_w5` and `GFp_nistz256_select_w5`,
for points of `n` limbs, with the reads of `table` recorded.  For every
`i < 16`, `equal = constant_time_eq_w(index, i + 1)`, and for every `j < n` the
three statements `x[j] = constant_time_select_w(equal, table[i].X[j], x[j])`,
the same for `y[j]` and for `z[j]`; the reads of `table[i].X[j]`,
`table[i].Y[j]` and `table[i].Z[j]` append `(i, 0, j)`, `(i, 1, j)` and
`(i, 2, j)` to the log.  Returns `((x, y, z), log)`. -/
def point_select_w5_reads (w n : Nat) (table : List POINT) (index : Nat) :
    POINT × List (Nat × Nat × Nat) :=
  (List.range 16).foldl
    (fun s i =>
      let equal := constant_time_eq_w w index (word_add w i 1)
      let t := table.getD i { X := [], Y := [], Z := [] }
      (List.range n).foldl
        (fun s j =>
          ({ X := s.1.X.set j (constant_time_select_w w equal (t.X.getD j 0) (s.1.X.getD j 0)),
             Y := s.1.Y.set j (constant_time_select_w w equal (t.Y.getD j 0) (s.1.Y.getD j 0)),
             Z := s.1.Z.set j (constant_time_select_w w equal (t.Z.getD j 0) (s.1.Z.getD j 0)) },
            s.2 ++ [(i, 0, j), (i, 1, j), (i, 2, j)]))
        s)
    ({ X := limbs_zero n, Y := limbs_zero n, Z := limbs_zero n }, [])

/-! ## Arithmetic used to certify that the modulus is prime -/

/-- Square-and-multiply loop: `acc * b ^ e mod n`, reading at most `fuel` bits
of `e`. -/
def powmod_aux (n : Nat) : Nat → Nat → Nat → Nat → Nat
  | 0, _, _, acc => acc
  | fuel + 1, b, e, acc =>
    if e = 0 then acc
    else powmod_aux n fuel (b * b % n) (e / 2) (if e % 2 = 1 then acc * b % n else acc)

/-- Modular power `b ^ e mod n` for exponents below `2 ^ 400`. -/
def powmod (b e n : Nat) : Nat := powmod_aux n 400 (b % n) e (1 % n)

/-- The side conditions of Pocklington's criterion for `N`, with base `a` and
the pairwise coprime numbers `ps` dividing `N - 1`. -/
def PocklingtonCert (N a : Nat) (ps : List Nat) : Prop :=
  1 < N ∧ N < 2 ^ 400 ∧ powmod a (N - 1) N = 1 ∧
  (∀ p ∈ ps, (N - 1) % p = 0 ∧ Nat.gcd (powmod a ((N - 1) / p) N + N - 1) N = 1) ∧
  ps.Pairwise Nat.Coprime ∧ N < (ps.prod + 1) * (ps.prod + 1)

instance (N a : Nat) (ps : List Nat) : Decidable (PocklingtonCert N a ps) := by
  unfold PocklingtonCert; infer_instance

/-! ## The parity test of `crypto/limbs/limbs.c` -/

/-- Models `LIMBS_are_even`: `lo = 0` when `num_limbs == 0` and `lo = a[0]`
otherwise; the result is `constant_time_is_zero_w(lo & 1)`.  `num_limbs` is the
length of `a`. -/
def LIMBS_are_even (w : Nat) (a : List Nat) : Nat :=
  let lo := if a.length = 0 then 0 else a.getD 0 0
  constant_time_is_zero_w w (lo &&& 1)

/-! ## The table of `GFp_nistz384_point_mul` and `GFp_nistz256_point_mul` as writes to its slots -/

/-- The 15 calls that fill `row[1] .. row[15]` in `GFp_nistz384_point_mul` and,
in the same order, in `GFp_nistz256_point_mul`.  The entry `(d, s, none)` is
the call `point_double(&row[d - 1], &row[s - 1])`, the entry `(d, s, some t)`
is the call `point_add(&row[d - 1], &row[s - 1], &row[t - 1])`. -/
def point_mul_table_calls : List (Nat × Nat × Option Nat) :=
  [(2, 1, none), (3, 2, some 1), (4, 2, none), (6, 3, none), (8, 4, none), (12, 6, none),
   (5, 4, some 1), (7, 6, some 1), (9, 8, some 1), (13, 12, some 1), (14, 7, none),
   (10, 5, none), (15, 14, some 1), (11, 10, some 1), (16, 8, none)]

/-- The point read from a slot of `row`; a slot outside of the array reads as
the empty point. -/
def row_get (row : List POINT) (k : Nat) : POINT := row.getD (k - 1) { X := [], Y := [], Z := [] }

/-- Runs construction calls on the array `row`: every call reads its source
slots from `row` and writes its result to its destination slot. -/
def point_mul_table_run (point_double : POINT → POINT) (point_add : POINT → POINT → POINT) :
    List (Nat × Nat × Option Nat) → List POINT → List POINT
  | [], row => row
  | (d, s, none) :: calls, row =>
    point_mul_table_run point_double point_add calls
      (row.set (d - 1) (point_double (row_get row s)))
  | (d, s, some t) :: calls, row =>
    point_mul_table_run point_double point_add calls
      (row.set (d - 1) (point_add (row_get row s) (row_get row t)))

/-! ## The signed digit of a recoded window -/

/-- The signed digit that `booth_recode(&recoded_is_negative, &recoded, raw, 5)`
stands for: `recoded`, negated when `recoded_is_negative` is set.  It is the
multiple of the point that the scalar multiplications add for the window:
they select the table entry `recoded` and negate it under
`recoded_is_negative`. -/
def booth_digit (lw raw : Nat) : Int :=
  if (booth_recode lw raw 5).1 = 0 then ((booth_recode lw raw 5).2 : Int)
  else -((booth_recode lw raw 5).2 : Int)

namespace P384

/-! ## The first and the last window of `GFp_nistz384_point_mul` -/

/-- The raw window that `GFp_nistz384_point_mul` reads first:
`wvalue = p_str[(index - 1) / 8];`
`wvalue = (wvalue >> ((index - 1) % 8)) & kMask` at `index = START_INDEX`. -/
def top_window (p_str : List Nat) : Nat :=
  let index := START_INDEX
  let wvalue := p_str.getD ((index - 1) / 8) 0
  (wvalue >>> ((index - 1) % 8)) &&& kMask

/-- The raw window that `GFp_nistz384_point_mul` reads last:
`wvalue = p_str[0]; wvalue = (wvalue << 1) & kMask`. -/
def final_window (p_str : List Nat) : Nat :=
  let wvalue := p_str.getD 0 0
  (wvalue <<< 1) &&& kMask

/-- The raw window that `GFp_nistz384_point_mul` reads while its variable
`index` has the given value: the first window at `index = START_INDEX`, the
window of the loop while `index >= kWindowSize`, the last window after the
loop. -/
def raw_window (p_str : List Nat) (index : Nat) : Nat :=
  if index = START_INDEX then top_window p_str
  else if index ≥ kWindowSize then loop_window p_str index
  else final_window p_str

end P384

namespace P256

/-! ## Scalar multiplication of `crypto/fipsmodule/ec/ecp_nistz256.c` -/

/-- The constant `ONE` of `ecp_nistz256.c`, one in the Montgomery domain. -/
def ONE (w : Nat) : List Nat :=
  TOBN w 0x00000000 0x00000001 ++
  TOBN w 0xffffffff 0x00000000 ++
  TOBN w 0xffffffff 0xffffffff ++
  TOBN w 0x00000000 0xfffffffe

/-- The table `row[0 .. 15]` of `GFp_nistz256_point_mul`, built by its 15 calls
in their order.  `GFp_nistz256_point_double` is only declared in the sources at
hand and is a parameter, `point_add` is `GFp_nistz256_point_add`. -/
def point_mul_table (point_double : POINT → POINT) (point_add : POINT → POINT → POINT) (w : Nat)
    (p_x p_y : List Nat) : List POINT :=
  let row1 : POINT := { X := p_x, Y := p_y, Z := ONE w }
  let row2 := point_double row1
  let row3 := point_add row2 row1
  let row4 := point_double row2
  let row6 := point_double row3
  let row8 := point_double row4
  let row12 := point_double row6
  let row5 := point_add row4 row1
  let row7 := point_add row6 row1
  let row9 := point_add row8 row1
  let row13 := point_add row12 row1
  let row14 := point_double row7
  let row10 := point_double row5
  let row15 := point_add row14 row1
  let row11 := point_add row10 row1
  let row16 := point_double row8
  [row1, row2, row3, row4, row5, row6, row7, row8, row9, row10, row11, row12, row13, row14,
    row15, row16]

/-- The constant `kWindowSize` of `GFp_nistz256_point_mul`. -/
def kWindowSize : Nat := 5

/-- The constant `kMask` of `GFp_nistz256_point_mul`: `(1 << (5 + 1)) - 1`. -/
def kMask : Nat := (1 <<< (5 + 1)) - 1

/-- The constant `START_INDEX` of `GFp_nistz256_point_mul`: `256 - 1`. -/
def START_INDEX : Nat := 256 - 1

/-- The raw window that `GFp_nistz256_point_mul` reads first:
`raw_wvalue = p_str[(index - 1) / 8];`
`raw_wvalue = (raw_wvalue >> ((index - 1) % 8)) & kMask` at
`index = START_INDEX`. -/
def top_window (p_str : List Nat) : Nat :=
  let index := START_INDEX
  let raw_wvalue := p_str.getD ((index - 1) / 8) 0
  (raw_wvalue >>> ((index - 1) % 8)) &&& kMask

/-- The raw window read inside the loop of `GFp_nistz256_point_mul`:
`off = (index - 1) / 8; raw_wvalue = p_str[off] | p_str[off + 1] << 8;`
`raw_wvalue = (raw_wvalue >> ((index - 1) % 8)) & kMask`. -/
def loop_window (p_str : List Nat) (index : Nat) : Nat :=
  let off := (index - 1) / 8
  let raw_wvalue := p_str.getD off 0 ||| (p_str.getD (off + 1) 0 <<< 8)
  (raw_wvalue >>> ((index - 1) % 8)) &&& kMask

/-- The raw window that `GFp_nistz256_point_mul` reads last:
`raw_wvalue = p_str[0]; raw_wvalue = (raw_wvalue << 1) & kMask`. -/
def final_window (p_str : List Nat) : Nat :=
  let raw_wvalue := p_str.getD 0 0
  (raw_wvalue <<< 1) &&& kMask

/-- The raw window that `GFp_nistz256_point_mul` reads while its variable
`index` has the given value: the first window at `index = START_INDEX`, the
window of the loop while `index >= kWindowSize`, the last window after the
loop. -/
def raw_window (p_str : List Nat) (index : Nat) : Nat :=
  if index = START_INDEX then top_window p_str
  else if index ≥ kWindowSize then loop_window p_str index
  else final_window p_str

/-- The statements of `GFp_nistz256_point_mul` that follow the reading of a
window other than the first: the window is recoded, the table entry selected,
its `Y` negated under the sign mask, and the entry added to `r`.
`GFp_nistz256_neg` is only declared in the sources at hand and is a
parameter. -/
def point_mul_add_window (w : Nat) (point_add : POINT → POINT → POINT)
    (GFp_nistz256_neg : List Nat → List Nat) (r : POINT) (raw_wvalue : Nat)
    (table : List POINT) : POINT :=
  let rc := booth_recode w raw_wvalue 5
  let recoded_is_negative := rc.1
  let recoded := rc.2
  let h := GFp_nistz256_select_w5 w table recoded
  let tmp := GFp_nistz256_neg h.Y
  let h := { h with Y := copy_conditional w h.Y tmp recoded_is_negative }
  point_add r h

/-- The `while (index >= kWindowSize)` loop of `GFp_nistz256_point_mul`: the
window is added unless `index == START_INDEX`, `index` drops by `kWindowSize`,
`r` is doubled five times. -/
def point_mul_loop (w : Nat) (point_double : POINT → POINT) (point_add : POINT → POINT → POINT)
    (GFp_nistz256_neg : List Nat → List Nat) (p_str : List Nat) (table : List POINT)
    (index : Nat) (r : POINT) : POINT :=
  if index ≥ kWindowSize then
    let r := if index ≠ START_INDEX then
        point_mul_add_window w point_add GFp_nistz256_neg r (loop_window p_str index) table
      else r
    let index := index - kWindowSize
    let r := point_double r
    let r := point_double r
    let r := point_double r
    let r := point_double r
    let r := point_double r
    point_mul_loop w point_double point_add GFp_nistz256_neg p_str table index r
  else r
termination_by index
decreasing_by
  simp only [kWindowSize] at *
  omega

/-- Models `GFp_nistz256_point_mul`: the scalar bytes with one extra zero
byte, the table, the first window, the loop and the last window.
`GFp_nistz256_mul_mont`, `GFp_nistz256_sqr_mont`, `GFp_nistz256_point_double`
and `GFp_nistz256_neg` are only declared in the sources at hand and are
parameters. -/
def GFp_nistz256_point_mul (w : Nat) (elem_mul_mont : List Nat → List Nat → List Nat)
    (elem_sqr_mont : List Nat → List Nat) (point_double : POINT → POINT)
    (GFp_nistz256_neg : List Nat → List Nat) (p_scalar p_x p_y : List Nat) : POINT :=
  let point_add := GFp_nistz256_point_add w elem_mul_mont elem_sqr_mont point_double
  let p_str := gfp_little_endian_bytes_from_scalar w (P256_LIMBS w * (w / 8) + 1) p_scalar
  let table := point_mul_table point_double point_add w p_x p_y
  let rc := booth_recode w (top_window p_str) 5
  let recoded := rc.2
  let r := GFp_nistz256_select_w5 w table recoded
  let r := point_mul_loop w point_double point_add GFp_nistz256_neg p_str table START_INDEX r
  point_mul_add_window w point_add GFp_nistz256_neg r (final_window p_str) table

end P256

/-! ## Comparison with one limb and multiplication by one limb, `crypto/limbs/limbs.c` -/

/-- Models `LIMBS_equal_limb`: `constant_time_is_zero_w(b)` when
`num_limbs == 0`; otherwise `lo_equal = constant_time_eq_w(a[0], b)`,
`hi_zero = LIMBS_are_zero(&a[1], num_limbs - 1)` and the result is
`constant_time_select_w(lo_equal, hi_zero, 0)`.  `num_limbs` is the length of
`a`. -/
def LIMBS_equal_limb (w : Nat) (a : List Nat) (b : Nat) : Nat :=
  if a.length = 0 then constant_time_is_zero_w w b
  else
    let lo_equal := constant_time_eq_w w (a.getD 0 0) b
    let hi_zero := LIMBS_are_zero w (a.drop 1)
    constant_time_select_w w lo_equal hi_zero 0

/-- One iteration of the loop of `GFp_limbs_mul_add_limb` on the limbs `r[i]`,
`a[i]` and the variable `carried`.  The macro `bn_umult_lohi(&lo, &hi, a, b)`
of `bn/internal.h` is not part of the sources at hand and is a parameter that
returns `(lo, hi)`.  Returns the new `r[i]`, the new `carried`, and the two
values of `c` that the iteration asserts to be zero. -/
def limbs_mul_add_limb_step (w : Nat) (bn_umult_lohi : Nat → Nat → Nat × Nat) (b : Nat)
    (ri ai carried : Nat) : Nat × Nat × Nat × Nat :=
  let lohi := bn_umult_lohi ai b
  let lo := lohi.1
  let hi := lohi.2
  let t := limb_add w lo carried
  let tmp := t.1
  let c := t.2
  let t := limb_adc w hi 0 c
  let carried := t.1
  let c1 := t.2
  let t := limb_add w ri tmp
  let ri := t.1
  let c := t.2
  let t := limb_adc w carried 0 c
  let carried := t.1
  let c2 := t.2
  (ri, carried, c1, c2)

/-- The loop of `GFp_limbs_mul_add_limb` over the limbs of `r` and `a`, from
the least significant one.  Returns the new `r`, the last `carried` and, for
every iteration, the two values of `c` that it asserts to be zero. -/
def limbs_mul_add_limb_loop (w : Nat) (bn_umult_lohi : Nat → Nat → Nat × Nat) (b : Nat) :
    List Nat → List Nat → Nat → List Nat × Nat × List (Nat × Nat)
  | ri :: r, ai :: a, carried =>
    let s := limbs_mul_add_limb_step w bn_umult_lohi b ri ai carried
    let rest := limbs_mul_add_limb_loop w bn_umult_lohi b r a s.2.1
    (s.1 :: rest.1, rest.2.1, (s.2.2.1, s.2.2.2) :: rest.2.2)
  | r, _, carried => (r, carried, [])

/-- Models `GFp_limbs_mul_add_limb(r, a, b, num_limbs)`: `carried` starts as 0.
Returns the new `r` and the return value.  `num_limbs` is the length of `a`. -/
def GFp_limbs_mul_add_limb (w : Nat) (bn_umult_lohi : Nat → Nat → Nat × Nat)
    (r a : List Nat) (b : Nat) : List Nat × Nat :=
  ((limbs_mul_add_limb_loop w bn_umult_lohi b r a 0).1,
    (limbs_mul_add_limb_loop w bn_umult_lohi b r a 0).2.1)

/-- The values of `c` at the two `dev_assert_secret(c == 0)` of every iteration
of `GFp_limbs_mul_add_limb(r, a, b, num_limbs)`. -/
def GFp_limbs_mul_add_limb_asserted (w : Nat) (bn_umult_lohi : Nat → Nat → Nat × Nat)
    (r a : List Nat) (b : Nat) : List (Nat × Nat) :=
  (limbs_mul_add_limb_loop w bn_umult_lohi b r a 0).2.2

namespace P384

/-! ## Scalar multiplication modulo the group order, `crypto/fipsmodule/ec/gfp_p384.c` -/

/-- The constant `N_N0` of `GFp_p384_scalar_mul_mont`. -/
def N_N0 (w : Nat) : List Nat := BN_MONT_CTX_N0 w 0x6ed46089 0xe88fdc45

/-- Models `GFp_p384_scalar_mul_mont`:
`GFp_bn_mul_mont(r, a, b, N, N_N0, P384_LIMBS)`. -/
def GFp_p384_scalar_mul_mont (w : Nat) (bn_mul_mont : BnMulMont) (a b : List Nat) : List Nat :=
  bn_mul_mont a b (N w) (N_N0 w) (P384_LIMBS w)

end P384

namespace P256

/-! ## Scalar multiplication modulo the group order, `crypto/fipsmodule/ec/gfp_p256.c` -/

/-- The constant `N` of `GFp_p256_scalar_mul_mont`, the group order of P-256. -/
def N (w : Nat) : List Nat :=
  TOBN w 0xf3b9cac2 0xfc632551 ++
  TOBN w 0xbce6faad 0xa7179e84 ++
  TOBN w 0xffffffff 0xffffffff ++
  TOBN w 0xffffffff 0x00000000

/-- The constant `N_N0` of `GFp_p256_scalar_mul_mont`. -/
def N_N0 (w : Nat) : List Nat := P384.BN_MONT_CTX_N0 w 0xccd1c8aa 0xee00bc4f

/-- Models `GFp_p256_scalar_mul_mont`:
`GFp_bn_mul_mont(r, a, b, N, N_N0, P256_LIMBS)`. -/
def GFp_p256_scalar_mul_mont (w : Nat) (bn_mul_mont : BnMulMont) (a b : List Nat) : List Nat :=
  bn_mul_mont a b (N w) (N_N0 w) (P256_LIMBS w)

end P256

/-! ## The doubling of `ecp_nistz384.inl` on storage that may be shared -/

/-- The arrays that a call `GFp_nistz384_point_double(r, a)` reads and writes:
the coordinates of `*a`, the coordinates of `*r`, and the locals `S`, `M`,
`Zsqr`, `tmp0`. -/
inductive DoubleCell where
  | aX | aY | aZ | rX | rY | rZ | S | M | Zsqr | tmp0
deriving DecidableEq, Repr

/-- The pointers and local arrays that the statements of
`GFp_nistz384_point_double` name. -/
inductive DoubleVar where
  | in_x | in_y | in_z | res_x | res_y | res_z | S | M | Zsqr | tmp0
deriving DecidableEq, Repr

/-- A statement of `GFp_nistz384_point_double`: a call of a field function,
the first argument being the array written. -/
inductive DoubleStmt where
  | elem_mul_by_2 (r a : DoubleVar)
  | elem_mul_by_3 (r a : DoubleVar)
  | elem_div_by_2 (r a : DoubleVar)
  | elem_sqr_mont (r a : DoubleVar)
  | elem_mul_mont (r a b : DoubleVar)
  | elem_add (r a b : DoubleVar)
  | elem_sub (r a b : DoubleVar)
deriving DecidableEq, Repr

/-- The array that a statement writes. -/
def DoubleStmt.written : DoubleStmt → DoubleVar
  | .elem_mul_by_2 r _ => r
  | .elem_mul_by_3 r _ => r
  | .elem_div_by_2 r _ => r
  | .elem_sqr_mont r _ => r
  | .elem_mul_mont r _ _ => r
  | .elem_add r _ _ => r
  | .elem_sub r _ _ => r

/-- The arrays that a statement reads. -/
def DoubleStmt.read : DoubleStmt → List DoubleVar
  | .elem_mul_by_2 _ a => [a]
  | .elem_mul_by_3 _ a => [a]
  | .elem_div_by_2 _ a => [a]
  | .elem_sqr_mont _ a => [a]
  | .elem_mul_mont _ a b => [a, b]
  | .elem_add _ a b => [a, b]
  | .elem_sub _ a b => [a, b]

/-- Whether no statement of `stmts` reads `i` after a statement that writes
`o`. -/
def not_read_after_written (i o : DoubleVar) : List DoubleStmt → Bool
  | [] => true
  | s :: rest =>
    (if s.written = o then rest.all (fun t => !(t.read.contains i)) else true)
      && not_read_after_written i o rest

namespace P384

/-- The statements of the body of `GFp_nistz384_point_double`, in the order of
the source. -/
def GFp_nistz384_point_double_stmts : List DoubleStmt :=
  [ .elem_mul_by_2 .S .in_y,
    .elem_sqr_mont .Zsqr .in_z,
    .elem_sqr_mont .S .S,
    .elem_mul_mont .res_z .in_z .in_y,
    .elem_mul_by_2 .res_z .res_z,
    .elem_add .M .in_x .Zsqr,
    .elem_sub .Zsqr .in_x .Zsqr,
    .elem_sqr_mont .res_y .S,
    .elem_div_by_2 .res_y .res_y,
    .elem_mul_mont .M .M .Zsqr,
    .elem_mul_by_3 .M .M,
    .elem_mul_mont .S .S .in_x,
    .elem_mul_by_2 .tmp0 .S,
    .elem_sqr_mont .res_x .M,
    .elem_sub .res_x .res_x .tmp0,
    .elem_sub .S .S .res_x,
    .elem_mul_mont .S .S .M,
    .elem_sub .res_y .S .res_y ]

/-- The array that a pointer or local of `GFp_nistz384_point_double(r, a)`
designates: `in_x = a->X`, `in_y = a->Y`, `in_z = a->Z`, `res_x = r->X`,
`res_y = r->Y`, `res_z = r->Z`.  With `same` the pointers `r` and `a` are
equal, so that `r->X` is the array `a->X`, and so on. -/
def point_double_array (same : Bool) : DoubleVar → DoubleCell
  | .in_x => .aX
  | .in_y => .aY
  | .in_z => .aZ
  | .res_x => if same then .aX else .rX
  | .res_y => if same then .aY else .rY
  | .res_z => if same then .aZ else .rZ
  | .S => .S
  | .M => .M
  | .Zsqr => .Zsqr
  | .tmp0 => .tmp0

/-- One statement of `GFp_nistz384_point_double` on a store that maps every
array to its content: the content of the arguments is read, the function
applied, the result written.  The field functions may be called with the
result array equal to an argument array. -/
def point_double_exec (w : Nat) (bn_mul_mont : BnMulMont) (same : Bool)
    (st : DoubleCell → List Nat) : DoubleStmt → DoubleCell → List Nat
  | .elem_mul_by_2 r a =>
    Function.update st (point_double_array same r)
      (elem_mul_by_2 w (st (point_double_array same a)))
  | .elem_mul_by_3 r a =>
    Function.update st (point_double_array same r)
      (elem_mul_by_3 w (st (point_double_array same a)))
  | .elem_div_by_2 r a =>
    Function.update st (point_double_array same r)
      (elem_div_by_2 w (st (point_double_array same a)))
  | .elem_sqr_mont r a =>
    Function.update st (point_double_array same r)
      (elem_sqr_mont w bn_mul_mont (st (point_double_array same a)))
  | .elem_mul_mont r a b =>
    Function.update st (point_double_array same r)
      (elem_mul_mont w bn_mul_mont (st (point_double_array same a))
        (st (point_double_array same b)))
  | .elem_add r a b =>
    Function.update st (point_double_array same r)
      (elem_add w (st (point_double_array same a)) (st (point_double_array same b)))
  | .elem_sub r a b =>
    Function.update st (point_double_array same r)
      (elem_sub w (st (point_double_array same a)) (st (point_double_array same b)))

/-- Models `GFp_nistz384_point_double(r, a)` on storage: the statements are
run in order on the store.  With `same` the call is
`GFp_nistz384_point_double(r, r)`. -/
def GFp_nistz384_point_double_store (w : Nat) (bn_mul_mont : BnMulMont) (same : Bool)
    (st : DoubleCell → List Nat) : DoubleCell → List Nat :=
  GFp_nistz384_point_double_stmts.foldl (point_double_exec w bn_mul_mont same) st

end P384

/-! ## The scalar multiplications with their reads of the scalar bytes recorded -/

/-- The `while (index >= kWindowSize)` loop that `GFp_nistz384_point_mul` and
`GFp_nistz256_point_mul` share, `kWindowSize` being 5 and `kMask` being
`(1 << (5 + 1)) - 1`, on a state `(r, reads, indices)`: every read `p_str[k]`
appends `k` to `reads`, every test of the loop condition appends the value of
`index` to `indices`.  `add_window r wvalue` stands for the statements that
recode the window and add the table entry to `r`. -/
def point_mul_loop_reads (START_INDEX : Nat) (add_window : POINT → Nat → POINT)
    (point_double : POINT → POINT) (p_str : List Nat) (index : Nat)
    (s : POINT × List Nat × List Nat) : POINT × List Nat × List Nat :=
  if index ≥ 5 then
    let s1 : POINT × List Nat :=
      if index ≠ START_INDEX then
        let off := (index - 1) / 8
        let wvalue := p_str.getD off 0 ||| (p_str.getD (off + 1) 0 <<< 8)
        let wvalue := (wvalue >>> ((index - 1) % 8)) &&& ((1 <<< (5 + 1)) - 1)
        (add_window s.1 wvalue, s.2.1 ++ [off, off + 1])
      else (s.1, s.2.1)
    let r := point_double s1.1
    let r := point_double r
    let r := point_double r
    let r := point_double r
    let r := point_double r
    point_mul_loop_reads START_INDEX add_window point_double p_str (index - 5)
      (r, s1.2, s.2.2 ++ [index])
  else (s.1, s.2.1, s.2.2 ++ [index])
termination_by index
decreasing_by omega

/-- The part of `GFp_nistz384_point_mul` and of `GFp_nistz256_point_mul` after
the table has been built, on the state of `point_mul_loop_reads`: the first
window at `START_INDEX` (one byte is read), the loop, the last window (byte 0
is read).  `select_top wvalue` stands for the recoding of the first window and
the selection of the table entry. -/
def point_mul_reads (START_INDEX : Nat) (select_top : Nat → POINT)
    (add_window : POINT → Nat → POINT) (point_double : POINT → POINT) (p_str : List Nat) :
    POINT × List Nat × List Nat :=
  let index := START_INDEX
  let wvalue := p_str.getD ((index - 1) / 8) 0
  let wvalue := (wvalue >>> ((index - 1) % 8)) &&& ((1 <<< (5 + 1)) - 1)
  let r := select_top wvalue
  let s := point_mul_loop_reads START_INDEX add_window point_double p_str index
    (r, [(index - 1) / 8], [])
  let wvalue := p_str.getD 0 0
  let wvalue := (wvalue <<< 1) &&& ((1 <<< (5 + 1)) - 1)
  (add_window s.1 wvalue, s.2.1 ++ [0], s.2.2)

/-- Models `GFp_nistz384_point_mul` with its reads of `p_str` and the values of
`index` at the loop condition recorded.  Returns `r`, the reads and the values
of `index`. -/
def P384.GFp_nistz384_point_mul_reads (w : Nat) (bn_mul_mont : BnMulMont)
    (p_scalar p_x p_y : List Nat) : POINT × List Nat × List Nat :=
  let p_str := gfp_little_endian_bytes_from_scalar w (P384.P384_LIMBS w * (w / 8) + 1) p_scalar
  let table := P384.point_mul_table w bn_mul_mont p_x p_y
  point_mul_reads P384.START_INDEX
    (fun wvalue => P384.gfp_p384_point_select_w5 w table (booth_recode w wvalue 5).2)
    (fun r wvalue => P384.add_precomputed_w5 w bn_mul_mont r wvalue table)
    (P384.GFp_nistz384_point_double w bn_mul_mont) p_str

/-- Models `GFp_nistz256_point_mul` with its reads of `p_str` and the values of
`index` at the loop condition recorded.  Returns `r`, the reads and the values
of `index`. -/
def P256.GFp_nistz256_point_mul_reads (w : Nat) (elem_mul_mont : List Nat → List Nat → List Nat)
    (elem_sqr_mont : List Nat → List Nat) (point_double : POINT → POINT)
    (GFp_nistz256_neg : List Nat → List Nat) (p_scalar p_x p_y : List Nat) :
    POINT × List Nat × List Nat :=
  let point_add := P256.GFp_nistz256_point_add w elem_mul_mont elem_sqr_mont point_double
  let p_str := gfp_little_endian_bytes_from_scalar w (P256.P256_LIMBS w * (w / 8) + 1) p_scalar
  let table := P256.point_mul_table point_double point_add w p_x p_y
  point_mul_reads P256.START_INDEX
    (fun raw_wvalue => P256.GFp_nistz256_select_w5 w table (booth_recode w raw_wvalue 5).2)
    (fun r raw_wvalue =>
      P256.point_mul_add_window w point_add GFp_nistz256_neg r raw_wvalue table)
    point_double p_str

/-- The two coordinate arrays of a `P256_POINT_AFFINE`. -/
structure POINT_AFFINE where
  X : List Nat
  Y : List Nat
deriving DecidableEq, Repr

namespace P256

/-! ## The fixed-base multiplication of `crypto/fipsmodule/ec/ecp_nistz256.c` -/

/-- Models `GFp_nistz256_select_w7` of `gfp_p256.c`:
`limbs_select(xy, table, P256_LIMBS * 2, 64, index - 1)`, then `X` is the first
half of `xy` and `Y` the second.  The row `table` of 64 affine points is the
array of their limbs, `X` before `Y`. -/
def GFp_nistz256_select_w7 (w : Nat) (table : List Nat) (index : Nat) : POINT_AFFINE :=
  let xy := limbs_select w table (P256_LIMBS w * 2) 64 (word_sub w index 1)
  { X := xy.take (P256_LIMBS w), Y := (xy.drop (P256_LIMBS w)).take (P256_LIMBS w) }

/-- Models `select_precomputed(p, i, raw_wvalue)` with
`kWindowSize = 7`.  The table `GFp_nistz256_precomputed` of
`ecp_nistz256_table.inl` and `GFp_nistz256_neg` are not part of the sources at
hand and are parameters. -/
def select_precomputed (w : Nat) (GFp_nistz256_precomputed : List (List Nat))
    (GFp_nistz256_neg : List Nat → List Nat) (i raw_wvalue : Nat) : POINT_AFFINE :=
  let rc := booth_recode w raw_wvalue 7
  let recoded_is_negative := rc.1
  let recoded := rc.2
  let p := GFp_nistz256_select_w7 w (GFp_nistz256_precomputed.getD i []) recoded
  let neg_y := GFp_nistz256_neg p.Y
  { p with Y := copy_conditional w p.Y neg_y recoded_is_negative }

/-- Models `is_infinity`: `acc |= x[i] | y[i]` over the limbs, then
`constant_time_is_zero_w(acc)`. -/
def is_infinity (w : Nat) (x y : List Nat) : Nat :=
  let acc := (List.zip x y).foldl (fun acc xy => acc ||| (xy.1 ||| xy.2)) 0
  constant_time_is_zero_w w acc

/-- Models `GFp_nistz256_point_mul_base` with its reads of `p_str` recorded.
The state of the loop `for (i = 1; i < 37; i++)` is `(p, index, reads)`; every
read `p_str[k]` appends `k` to `reads`.  `GFp_nistz256_point_add_affine` is
only declared in the sources at hand and is a parameter.  Returns `r` and the
reads. -/
def GFp_nistz256_point_mul_base_reads (w : Nat) (GFp_nistz256_precomputed : List (List Nat))
    (GFp_nistz256_neg : List Nat → List Nat)
    (GFp_nistz256_point_add_affine : POINT → POINT_AFFINE → POINT) (g_scalar : List Nat) :
    POINT × List Nat :=
  let kMask := (1 <<< (7 + 1)) - 1
  let p_str := gfp_little_endian_bytes_from_scalar w (P256_LIMBS w * (w / 8) + 1) g_scalar
  let index := 7
  let raw_wvalue := (p_str.getD 0 0 <<< 1) &&& kMask
  let t := select_precomputed w GFp_nistz256_precomputed GFp_nistz256_neg 0 raw_wvalue
  let p : POINT := { X := t.X, Y := t.Y, Z := ONE w }
  let p := { p with Z := copy_conditional w p.Z p.X (is_infinity w p.X p.Y) }
  let s := (List.range' 1 36).foldl
    (fun (s : POINT × Nat × List Nat) i =>
      let index := s.2.1
      let off := (index - 1) / 8
      let raw_wvalue := p_str.getD off 0 ||| (p_str.getD (off + 1) 0 <<< 8)
      let raw_wvalue := (raw_wvalue >>> ((index - 1) % 8)) &&& kMask
      let index := index + 7
      let t := select_precomputed w GFp_nistz256_precomputed GFp_nistz256_neg i raw_wvalue
      (GFp_nistz256_point_add_affine s.1 t, index, s.2.2 ++ [off, off + 1]))
    (p, index, [0])
  (s.1, s.2.2)

/-- Models `GFp_nistz256_point_mul_base`: the result of the function. -/
def GFp_nistz256_point_mul_base (w : Nat) (GFp_nistz256_precomputed : List (List Nat))
    (GFp_nistz256_neg : List Nat → List Nat)
    (GFp_nistz256_point_add_affine : POINT → POINT_AFFINE → POINT) (g_scalar : List Nat) :
    POINT :=
  (GFp_nistz256_point_mul_base_reads w GFp_nistz256_precomputed GFp_nistz256_neg
    GFp_nistz256_point_add_affine g_scalar).1

end P256

end Ring

/-! # The ristretto255 functions of libsodium -/

namespace Sodium

/-! ## `crypto_core/ed25519/core_ristretto255.c`

The group functions of `private/ed25519_ref10.h` are not part of the sources at
hand.  They are parameters: `ristretto255_frombytes` gives its return value and
the point it stores, the others give what they store. -/

/-- Models `crypto_core_ristretto255_add(r, p, q)`.  The result is the return
value and the content of `r` afterwards. -/
def crypto_core_ristretto255_add {P3 P1P1 Cached : Type}
    (ristretto255_frombytes : List Nat → Int × P3)
    (ge25519_p3_to_cached : P3 → Cached) (ge25519_add : P3 → Cached → P1P1)
    (ge25519_p1p1_to_p3 : P1P1 → P3) (ristretto255_p3_tobytes : P3 → List Nat)
    (r p q : List Nat) : Int × List Nat :=
  if (ristretto255_frombytes p).1 ≠ 0 ∨ (ristretto255_frombytes q).1 ≠ 0 then (-1, r)
  else
    let p_p3 := (ristretto255_frombytes p).2
    let q_p3 := (ristretto255_frombytes q).2
    let q_cached := ge25519_p3_to_cached q_p3
    let r_p1p1 := ge25519_add p_p3 q_cached
    let r_p3 := ge25519_p1p1_to_p3 r_p1p1
    let r := ristretto255_p3_tobytes r_p3
    (0, r)

/-- Models `crypto_core_ristretto255_sub(r, p, q)`.  The result is the return
value and the content of `r` afterwards. -/
def crypto_core_ristretto255_sub {P3 P1P1 Cached : Type}
    (ristretto255_frombytes : List Nat → Int × P3)
    (ge25519_p3_to_cached : P3 → Cached) (ge25519_sub : P3 → Cached → P1P1)
    (ge25519_p1p1_to_p3 : P1P1 → P3) (ristretto255_p3_tobytes : P3 → List Nat)
    (r p q : List Nat) : Int × List Nat :=
  if (ristretto255_frombytes p).1 ≠ 0 ∨ (ristretto255_frombytes q).1 ≠ 0 then (-1, r)
  else
    let p_p3 := (ristretto255_frombytes p).2
    let q_p3 := (ristretto255_frombytes q).2
    let q_cached := ge25519_p3_to_cached q_p3
    let r_p1p1 := ge25519_sub p_p3 q_cached
    let r_p3 := ge25519_p1p1_to_p3 r_p1p1
    let r := ristretto255_p3_tobytes r_p3
    (0, r)

/-! ## `crypto_scalarmult/ristretto255/ref10/scalarmult_ristretto255_ref10.c`

`sodium_is_zero` of `utils.h` is not part of the sources at hand and is a
parameter as well. -/

/-- The statements `for (i = 0; i < 32; ++i) t[i] = n[i]; t[31] &= 127;` on the
array `t`. -/
def scalar_copy_clamp (t n : List Nat) : List Nat :=
  let t := (List.range 32).foldl (fun t i => t.set i (n.getD i 0)) t
  t.set 31 (t.getD 31 0 &&& 127)

/-- Models `crypto_scalarmult_ristretto255(q, n, p)`.  The array `t` is `q`
itself (`unsigned char *t = q`), `ristretto255_p3_tobytes` stores the 32 bytes
of `q`.  The result is the return value and the content of `q` afterwards. -/
def crypto_scalarmult_ristretto255 {P3 : Type}
    (ristretto255_frombytes : List Nat → Int × P3)
    (ge25519_scalarmult : List Nat → P3 → P3) (ristretto255_p3_tobytes : P3 → List Nat)
    (sodium_is_zero : List Nat → Nat → Int) (q n p : List Nat) : Int × List Nat :=
  if (ristretto255_frombytes p).1 ≠ 0 then (-1, q)
  else
    let P := (ristretto255_frombytes p).2
    let t := scalar_copy_clamp q n
    let Q := ge25519_scalarmult t P
    let q := ristretto255_p3_tobytes Q
    if sodium_is_zero q 32 ≠ 0 then (-1, q)
    else (0, q)

/-- Models `crypto_scalarmult_ristretto255_base(q, n)`.  The result is the
return value and the content of `q` afterwards. -/
def crypto_scalarmult_ristretto255_base {P3 : Type}
    (ge25519_scalarmult_base : List Nat → P3) (ristretto255_p3_tobytes : P3 → List Nat)
    (sodium_is_zero : List Nat → Nat → Int) (q n : List Nat) : Int × List Nat :=
  let t := scalar_copy_clamp q n
  let Q := ge25519_scalarmult_base t
  let q := ristretto255_p3_tobytes Q
  if sodium_is_zero q 32 ≠ 0 then (-1, q)
  else (0, q)

end Sodium
/-! # Theorems -/

namespace Ring

/-! ## Words and single limbs -/

theorem two_pow_pos (w : Nat) : 0 < 2 ^ w := Nat.pow_pos (by decide)

theorem two_pow_pred {w : Nat} (hw : 0 < w) : 2 ^ w = 2 * 2 ^ (w - 1) := by
  obtain ⟨k, rfl⟩ : ∃ k, w = k + 1 := ⟨w - 1, by omega⟩
  simp [pow_succ, Nat.mul_comm]

theorem word_not_zero (w : Nat) : word_not w 0 = 2 ^ w - 1 := by
  simp [word_not]

theorem word_not_ones (w : Nat) : word_not w (2 ^ w - 1) = 0 := by
  have := two_pow_pos w
  have h : (2 ^ w - 1) % 2 ^ w = 2 ^ w - 1 := Nat.mod_eq_of_lt (by omega)
  simp [word_not, h]

theorem word_sub_zero_zero (w : Nat) : word_sub w 0 0 = 0 := by
  simp [word_sub]

theorem word_sub_zero_one {w : Nat} (hw : 0 < w) : word_sub w 0 1 = 2 ^ w - 1 := by
  have hB := two_pow_pred hw
  have hpos := two_pow_pos (w - 1)
  unfold word_sub
  have : 1 % 2 ^ w = 1 := Nat.mod_eq_of_lt (by omega)
  rw [this, Nat.zero_mod, Nat.zero_add]
  exact Nat.mod_eq_of_lt (by omega)

theorem constant_time_is_zero_w_eq {w a : Nat} (hw : 0 < w) (ha : a < 2 ^ w) :
    constant_time_is_zero_w w a = if a = 0 then 2 ^ w - 1 else 0 := by
  have hB := two_pow_pred hw
  have hpos := two_pow_pos (w - 1)
  unfold constant_time_is_zero_w constant_time_msb_w
  rw [Nat.shiftRight_eq_div_pow]
  split_ifs with h0
  · subst h0
    rw [word_not_zero, word_sub_zero_one hw, Nat.and_self]
    have h3 : (2 ^ w - 1) / 2 ^ (w - 1) = 1 :=
      Nat.div_eq_of_lt_le (by omega) (by omega)
    rw [h3, word_sub_zero_one hw]
  · have h1 : word_not w a &&& word_sub w a 1 < 2 ^ (w - 1) := by
      have hmod : a % 2 ^ w = a := Nat.mod_eq_of_lt ha
      have hone : 1 % 2 ^ w = 1 := Nat.mod_eq_of_lt (by omega)
      by_cases hhi : 2 ^ (w - 1) ≤ a
      · refine lt_of_le_of_lt Nat.and_le_left ?_
        unfold word_not; omega
      · refine lt_of_le_of_lt Nat.and_le_right ?_
        unfold word_sub
        rw [hmod, hone]
        have : a + (2 ^ w - 1) = (a - 1) + 2 ^ w := by omega
        rw [this, Nat.add_mod_right, Nat.mod_eq_of_lt (by omega)]
        omega
    rw [Nat.div_eq_of_lt h1, word_sub_zero_zero]

theorem constant_time_is_nonzero_w_eq {w a : Nat} (hw : 0 < w) (ha : a < 2 ^ w) :
    constant_time_is_nonzero_w w a = if a = 0 then 0 else 2 ^ w - 1 := by
  unfold constant_time_is_nonzero_w
  rw [constant_time_is_zero_w_eq hw ha]
  split_ifs
  · exact word_not_ones w
  · exact word_not_zero w

theorem constant_time_eq_w_eq {w a b : Nat} (hw : 0 < w) (ha : a < 2 ^ w) (hb : b < 2 ^ w) :
    constant_time_eq_w w a b = if a = b then 2 ^ w - 1 else 0 := by
  unfold constant_time_eq_w
  rw [constant_time_is_zero_w_eq hw (Nat.xor_lt_two_pow ha hb)]
  simp [Nat.xor_eq_zero]

theorem and_ones {w a : Nat} (ha : a < 2 ^ w) : a &&& (2 ^ w - 1) = a := by
  rw [Nat.and_pow_two_sub_one_eq_mod, Nat.mod_eq_of_lt ha]

theorem ones_and {w a : Nat} (ha : a < 2 ^ w) : (2 ^ w - 1) &&& a = a := by
  rw [Nat.and_comm, and_ones ha]

theorem constant_time_select_w_true {w a : Nat} (b : Nat) (ha : a < 2 ^ w) :
    constant_time_select_w w (2 ^ w - 1) a b = a := by
  unfold constant_time_select_w
  rw [word_not_ones, ones_and ha]; simp

theorem constant_time_select_w_false (w a b : Nat) (hb : b < 2 ^ w) :
    constant_time_select_w w 0 a b = b := by
  unfold constant_time_select_w
  rw [word_not_zero, ones_and hb]; simp


theorem word_sub_eq {n x y : Nat} (hx : x < 2 ^ n) (hy : y < 2 ^ n) :
    word_sub n x y = if y ≤ x then x - y else 2 ^ n + x - y := by
  unfold word_sub
  rw [Nat.mod_eq_of_lt hx, Nat.mod_eq_of_lt hy]
  split_ifs with h
  · have : x + (2 ^ n - y) = (x - y) + 2 ^ n := by omega
    rw [this, Nat.add_mod_right, Nat.mod_eq_of_lt (by omega)]
  · rw [Nat.mod_eq_of_lt (by omega)]; omega

theorem two_pow_double (w : Nat) : 2 ^ (2 * w) = 2 ^ w * 2 ^ w := by
  rw [two_mul, pow_add]

theorem limb_adc_eq {w a b c : Nat} (hw : 0 < w) (ha : a < 2 ^ w) (hb : b < 2 ^ w)
    (hc : c ≤ 1) : limb_adc w a b c = ((a + b + c) % 2 ^ w, (a + b + c) / 2 ^ w) := by
  have hB := two_pow_pred hw
  have hpos := two_pow_pos (w - 1)
  have hD : 2 ^ (2 * w) = 2 ^ w * 2 ^ w := two_pow_double w
  have h2 : 2 * 2 ^ w ≤ 2 ^ w * 2 ^ w := Nat.mul_le_mul_right _ (by omega)
  have hx : (a + b + c) % 2 ^ (2 * w) = a + b + c := Nat.mod_eq_of_lt (by omega)
  have hq : (a + b + c) / 2 ^ w < 2 := Nat.div_lt_of_lt_mul (by omega)
  unfold limb_adc
  simp only [hx, Nat.shiftRight_eq_div_pow]
  rw [Nat.mod_eq_of_lt (a := (a + b + c) / 2 ^ w) (by omega)]

theorem limb_add_eq {w a b : Nat} (hw : 0 < w) (ha : a < 2 ^ w) (hb : b < 2 ^ w) :
    limb_add w a b = ((a + b) % 2 ^ w, (a + b) / 2 ^ w) := by
  have := limb_adc_eq (c := 0) hw ha hb (by omega)
  simpa [limb_adc, limb_add] using this

theorem sq_sub_divmod {B k : Nat} (h1 : 1 ≤ k) (h2 : k ≤ B) :
    (B * B - k) / B = B - 1 ∧ (B * B - k) % B = B - k := by
  have hB : 0 < B := by omega
  have e1 := Nat.mul_sub_one B B
  have e2 := Nat.le_mul_self B
  have key : B * B - k = (B - k) + B * (B - 1) := by omega
  rw [key, Nat.add_mul_div_left _ _ hB, Nat.add_mul_mod_self_left,
    Nat.div_eq_of_lt (by omega), Nat.mod_eq_of_lt (by omega)]
  omega

theorem limb_sbb_eq {w a b c : Nat} (hw : 0 < w) (ha : a < 2 ^ w) (hb : b < 2 ^ w)
    (hc : c ≤ 1) :
    limb_sbb w a b c = ((a + 2 ^ w - b - c) % 2 ^ w, if a < b + c then 1 else 0) := by
  have hB := two_pow_pred hw
  have hpos := two_pow_pos (w - 1)
  have hD : 2 ^ (2 * w) = 2 ^ w * 2 ^ w := two_pow_double w
  have h2 : 2 * 2 ^ w ≤ 2 ^ w * 2 ^ w := Nat.mul_le_mul_right _ (by omega)
  have hone : (1 : Nat) % 2 ^ w = 1 := Nat.mod_eq_of_lt (by omega)
  have hzero : (0 : Nat) % 2 % 2 ^ w = 0 := by simp
  have hodd : (2 ^ w - 1) % 2 = 1 := by omega
  unfold limb_sbb
  simp only [Nat.shiftRight_eq_div_pow, Nat.and_one_is_mod]
  have hx1 : word_sub (2 * w) a b < 2 ^ (2 * w) := by
    unfold word_sub; exact Nat.mod_lt _ (two_pow_pos _)
  rw [word_sub_eq hx1 (by omega), word_sub_eq (by omega) (by omega), hD]
  by_cases hlt : a < b + c
  · rw [if_pos hlt]
    have hk := sq_sub_divmod (B := 2 ^ w) (k := b + c - a) (by omega) (by omega)
    have hval : (if c ≤ if b ≤ a then a - b else 2 ^ w * 2 ^ w + a - b then
          (if b ≤ a then a - b else 2 ^ w * 2 ^ w + a - b) - c
        else 2 ^ w * 2 ^ w + (if b ≤ a then a - b else 2 ^ w * 2 ^ w + a - b) - c)
        = 2 ^ w * 2 ^ w - (b + c - a) := by
      split_ifs <;> omega
    rw [hval, hk.1, hk.2, hodd, hone]
    have e : a + 2 ^ w - b - c = 2 ^ w - (b + c - a) := by omega
    rw [e]
    by_cases hk0 : b + c - a = 2 ^ w
    · rw [hk0]; simp
    · rw [Nat.mod_eq_of_lt (by omega)]
  · rw [if_neg hlt]
    have hval : (if c ≤ if b ≤ a then a - b else 2 ^ w * 2 ^ w + a - b then
          (if b ≤ a then a - b else 2 ^ w * 2 ^ w + a - b) - c
        else 2 ^ w * 2 ^ w + (if b ≤ a then a - b else 2 ^ w * 2 ^ w + a - b) - c)
        = a - b - c := by
      split_ifs <;> omega
    have e : a + 2 ^ w - b - c = (a - b - c) + 2 ^ w := by omega
    rw [hval, e, Nat.add_mod_right, Nat.mod_eq_of_lt (a := a - b - c) (by omega),
      Nat.div_eq_of_lt (by omega), hzero]

theorem limb_sub_eq {w a b : Nat} (hw : 0 < w) (ha : a < 2 ^ w) (hb : b < 2 ^ w) :
    limb_sub w a b = ((a + 2 ^ w - b) % 2 ^ w, if a < b then 1 else 0) := by
  have h := limb_sbb_eq (c := 0) hw ha hb (by omega)
  have hx1 : word_sub (2 * w) a b < 2 ^ (2 * w) := by
    unfold word_sub; exact Nat.mod_lt _ (two_pow_pos _)
  have e : word_sub (2 * w) (word_sub (2 * w) a b) 0 = word_sub (2 * w) a b := by
    rw [word_sub_eq hx1 (two_pow_pos _)]; simp
  unfold limb_sbb at h
  rw [e] at h
  simpa [limb_sub] using h

/-! ## Multi-limb addition and subtraction -/

theorem LIMBS_ok_cons {w x : Nat} {a : List Nat} :
    LIMBS_ok w (x :: a) ↔ x < 2 ^ w ∧ LIMBS_ok w a := by
  simp [LIMBS_ok]

theorem LIMBS_ok_nil (w : Nat) : LIMBS_ok w [] := by
  simp [LIMBS_ok]

theorem LIMBS_val_lt {w : Nat} {a : List Nat} (ha : LIMBS_ok w a) :
    LIMBS_val w a < (2 ^ w) ^ a.length := by
  induction a with
  | nil => simp [LIMBS_val]
  | cons x xs ih =>
    rw [LIMBS_ok_cons] at ha
    have h := ih ha.2
    simp only [LIMBS_val, List.length_cons, pow_succ]
    have : 2 ^ w * (LIMBS_val w xs + 1) ≤ 2 ^ w * (2 ^ w) ^ xs.length :=
      Nat.mul_le_mul_left _ h
    rw [Nat.mul_comm ((2 ^ w) ^ xs.length)]
    rw [Nat.mul_add] at this
    omega

theorem limbs_adc_loop_spec {w : Nat} (hw : 0 < w) :
    ∀ (a b : List Nat) (c : Nat), a.length = b.length → LIMBS_ok w a → LIMBS_ok w b → c ≤ 1 →
      (limbs_adc_loop w a b c).1.length = a.length ∧
      LIMBS_ok w (limbs_adc_loop w a b c).1 ∧
      (limbs_adc_loop w a b c).2 ≤ 1 ∧
      LIMBS_val w (limbs_adc_loop w a b c).1 + (limbs_adc_loop w a b c).2 * (2 ^ w) ^ a.length
        = LIMBS_val w a + LIMBS_val w b + c := by
  intro a
  induction a with
  | nil =>
    intro b c hl _ _ hc
    cases b with
    | nil => simp [limbs_adc_loop, LIMBS_val, LIMBS_ok, hc]
    | cons y ys => simp at hl
  | cons x xs ih =>
    intro b c hl ha hb hc
    cases b with
    | nil => simp at hl
    | cons y ys =>
      rw [LIMBS_ok_cons] at ha hb
      have hpos := two_pow_pos w
      have hstep := limb_adc_eq hw ha.1 hb.1 hc
      have hc' : (x + y + c) / 2 ^ w ≤ 1 := by
        have : (x + y + c) / 2 ^ w < 2 := Nat.div_lt_of_lt_mul (by omega)
        omega
      obtain ⟨h1, h2, h3, h4⟩ := ih ys ((x + y + c) / 2 ^ w) (by simpa using hl) ha.2 hb.2 hc'
      simp only [limbs_adc_loop, hstep, List.length_cons, LIMBS_val]
      refine ⟨by rw [h1], ?_, h3, ?_⟩
      · rw [LIMBS_ok_cons]; exact ⟨Nat.mod_lt _ hpos, h2⟩
      · have hdm := Nat.div_add_mod (x + y + c) (2 ^ w)
        zify at h4 hdm ⊢
        linear_combination (2 ^ w : ℤ) * h4 + hdm

theorem limbs_add_spec {w : Nat} (hw : 0 < w) (a b : List Nat)
    (hl : a.length = b.length) (ha : LIMBS_ok w a) (hb : LIMBS_ok w b) :
    (limbs_add w a b).1.length = a.length ∧
    LIMBS_ok w (limbs_add w a b).1 ∧
    (limbs_add w a b).2 ≤ 1 ∧
    LIMBS_val w (limbs_add w a b).1 + (limbs_add w a b).2 * (2 ^ w) ^ a.length
      = LIMBS_val w a + LIMBS_val w b := by
  have h := limbs_adc_loop_spec hw a b 0 hl ha hb (by omega)
  have e : limbs_add w a b = limbs_adc_loop w a b 0 := by
    cases a with
    | nil => cases b <;> simp [limbs_add, limbs_adc_loop]
    | cons x xs =>
      cases b with
      | nil => simp at hl
      | cons y ys => simp [limbs_add, limbs_adc_loop, limb_add, limb_adc]
  rw [e]
  simpa using h

theorem sbb_step_rel {B x y c : Nat} (hx : x < B) (hy : y < B) (hc : c ≤ 1) :
    (x + B - y - c) % B + y + c = x + (if x < y + c then 1 else 0) * B ∧
    (x + B - y - c) % B < B := by
  have hB : 0 < B := by omega
  refine ⟨?_, Nat.mod_lt _ hB⟩
  split_ifs with h
  · rw [Nat.mod_eq_of_lt (by omega)]; omega
  · have e : x + B - y - c = (x - y - c) + B := by omega
    rw [e, Nat.add_mod_right, Nat.mod_eq_of_lt (by omega)]; omega

theorem limbs_sbb_loop_spec {w : Nat} (hw : 0 < w) :
    ∀ (a b : List Nat) (c : Nat), a.length = b.length → LIMBS_ok w a → LIMBS_ok w b → c ≤ 1 →
      (limbs_sbb_loop w a b c).1.length = a.length ∧
      LIMBS_ok w (limbs_sbb_loop w a b c).1 ∧
      (limbs_sbb_loop w a b c).2 ≤ 1 ∧
      LIMBS_val w (limbs_sbb_loop w a b c).1 + LIMBS_val w b + c
        = LIMBS_val w a + (limbs_sbb_loop w a b c).2 * (2 ^ w) ^ a.length := by
  intro a
  induction a with
  | nil =>
    intro b c hl _ _ hc
    cases b with
    | nil => simp [limbs_sbb_loop, LIMBS_val, LIMBS_ok, hc]
    | cons y ys => simp at hl
  | cons x xs ih =>
    intro b c hl ha hb hc
    cases b with
    | nil => simp at hl
    | cons y ys =>
      rw [LIMBS_ok_cons] at ha hb
      have hstep := limb_sbb_eq hw ha.1 hb.1 hc
      have hc' : (if x < y + c then 1 else 0) ≤ 1 := by split_ifs <;> omega
      obtain ⟨h1, h2, h3, h4⟩ := ih ys (if x < y + c then 1 else 0) (by simpa using hl)
        ha.2 hb.2 hc'
      obtain ⟨hr, hlt⟩ := sbb_step_rel ha.1 hb.1 hc
      simp only [limbs_sbb_loop, hstep, List.length_cons, LIMBS_val]
      refine ⟨by rw [h1], ?_, h3, ?_⟩
      · rw [LIMBS_ok_cons]; exact ⟨hlt, h2⟩
      · zify at h4 hr ⊢
        linear_combination (2 ^ w : ℤ) * h4 + hr

theorem limbs_sub_spec {w : Nat} (hw : 0 < w) (a b : List Nat)
    (hl : a.length = b.length) (ha : LIMBS_ok w a) (hb : LIMBS_ok w b) :
    (limbs_sub w a b).1.length = a.length ∧
    LIMBS_ok w (limbs_sub w a b).1 ∧
    (limbs_sub w a b).2 ≤ 1 ∧
    LIMBS_val w (limbs_sub w a b).1 + LIMBS_val w b
      = LIMBS_val w a + (limbs_sub w a b).2 * (2 ^ w) ^ a.length := by
  have h := limbs_sbb_loop_spec hw a b 0 hl ha hb (by omega)
  have e : limbs_sub w a b = limbs_sbb_loop w a b 0 := by
    cases a with
    | nil => cases b <;> simp [limbs_sub, limbs_sbb_loop]
    | cons x xs =>
      cases b with
      | nil => simp at hl
      | cons y ys =>
        have hx1 : word_sub (2 * w) x y < 2 ^ (2 * w) := by
          unfold word_sub; exact Nat.mod_lt _ (two_pow_pos _)
        have e0 : word_sub (2 * w) (word_sub (2 * w) x y) 0 = word_sub (2 * w) x y := by
          rw [word_sub_eq hx1 (two_pow_pos _)]; simp
        simp [limbs_sub, limbs_sbb_loop, limb_sub, limb_sbb, e0]
  rw [e]
  simpa using h

/-- The borrow of `limbs_sub` is 1 exactly when `a < b`. -/
theorem limbs_sub_borrow {w : Nat} (hw : 0 < w) (a b : List Nat)
    (hl : a.length = b.length) (ha : LIMBS_ok w a) (hb : LIMBS_ok w b) :
    (limbs_sub w a b).2 = if LIMBS_val w a < LIMBS_val w b then 1 else 0 := by
  obtain ⟨h1, h2, h3, h4⟩ := limbs_sub_spec hw a b hl ha hb
  have hr := LIMBS_val_lt h2
  have hav := LIMBS_val_lt ha
  rw [h1] at hr
  split_ifs with h
  · by_contra hne
    have : (limbs_sub w a b).2 = 0 := by omega
    rw [this] at h4
    omega
  · by_contra hne
    have : (limbs_sub w a b).2 = 1 := by omega
    rw [this] at h4
    omega

theorem LIMBS_less_than_eq {w : Nat} (hw : 0 < w) (a b : List Nat)
    (hl : a.length = b.length) (ha : LIMBS_ok w a) (hb : LIMBS_ok w b) :
    LIMBS_less_than w a b = if LIMBS_val w a < LIMBS_val w b then 2 ^ w - 1 else 0 := by
  have hB := two_pow_pred hw
  have hpos := two_pow_pos (w - 1)
  unfold LIMBS_less_than
  rw [limbs_sub_borrow hw a b hl ha hb]
  split_ifs
  · rw [constant_time_is_nonzero_w_eq hw (by omega)]; simp
  · rw [constant_time_is_nonzero_w_eq hw (by omega)]; simp

/-! ## The modular layer -/

theorem map_and_ones {w : Nat} {m : List Nat} (hm : LIMBS_ok w m) :
    m.map (fun mi => mi &&& (2 ^ w - 1)) = m := by
  induction m with
  | nil => rfl
  | cons x xs ih =>
    rw [LIMBS_ok_cons] at hm
    simp only [List.map_cons, and_ones hm.1, ih hm.2]

theorem LIMBS_val_replicate_zero (w n : Nat) : LIMBS_val w (List.replicate n 0) = 0 := by
  induction n with
  | zero => rfl
  | succ k ih => simp [List.replicate_succ, LIMBS_val, ih]

theorem LIMBS_ok_replicate_zero (w n : Nat) : LIMBS_ok w (List.replicate n 0) := by
  intro x hx
  rw [List.eq_of_mem_replicate hx]
  exact two_pow_pos w

theorem map_and_zero (m : List Nat) :
    m.map (fun mi => mi &&& 0) = List.replicate m.length 0 := by
  induction m with
  | nil => rfl
  | cons x xs ih => simp [List.replicate_succ, ih]

theorem map_select_ones (w : Nat) (m : List Nat) :
    m.map (fun mi => constant_time_select_w w (2 ^ w - 1) 0 mi) = List.replicate m.length 0 := by
  induction m with
  | nil => rfl
  | cons x xs ih =>
    simp only [List.map_cons, List.length_cons, List.replicate_succ, ih]
    rw [constant_time_select_w_true _ (two_pow_pos w)]

theorem map_select_zero {w : Nat} {m : List Nat} (hm : LIMBS_ok w m) :
    m.map (fun mi => constant_time_select_w w 0 0 mi) = m := by
  induction m with
  | nil => rfl
  | cons x xs ih =>
    rw [LIMBS_ok_cons] at hm
    simp only [List.map_cons, ih hm.2]
    rw [constant_time_select_w_false _ _ _ hm.1]

theorem overflow_or_eq (w : Nat) (p q : Prop) [Decidable p] [Decidable q] :
    ((if p then 2 ^ w - 1 else 0) ||| (if q then 2 ^ w - 1 else 0))
      = if p ∨ q then 2 ^ w - 1 else 0 := by
  by_cases hp : p <;> by_cases hq : q <;> simp [hp, hq]

/-- The masked subtraction shared by `LIMBS_add_mod`, `LIMBS_shl_mod`: with an
all-ones mask `m` is subtracted modulo `2^(w*n)`, with a zero mask nothing. -/
theorem masked_sub_val {w : Nat} (hw : 0 < w) (r m : List Nat) (p : Prop) [Decidable p]
    (hl : r.length = m.length) (hr : LIMBS_ok w r) (hm : LIMBS_ok w m) :
    let out := limbs_sub w r (m.map fun mi => mi &&& (if p then 2 ^ w - 1 else 0))
    out.1.length = r.length ∧ LIMBS_ok w out.1 ∧ out.2 ≤ 1 ∧
    LIMBS_val w out.1 + (if p then LIMBS_val w m else 0)
      = LIMBS_val w r + out.2 * (2 ^ w) ^ r.length := by
  by_cases hp : p
  · simp only [hp, if_true, map_and_ones hm]
    exact limbs_sub_spec hw r m hl hr hm
  · simp only [hp, if_false, map_and_zero]
    have h := limbs_sub_spec hw r (List.replicate m.length 0) (by simp [hl]) hr
      (LIMBS_ok_replicate_zero w _)
    rw [LIMBS_val_replicate_zero] at h
    exact h

theorem LIMBS_add_mod_spec {w : Nat} (hw : 0 < w) (a b m : List Nat)
    (hla : a.length = m.length) (hlb : b.length = m.length)
    (ha : LIMBS_ok w a) (hb : LIMBS_ok w b) (hm : LIMBS_ok w m)
    (hav : LIMBS_val w a < LIMBS_val w m) (hbv : LIMBS_val w b < LIMBS_val w m) :
    (LIMBS_add_mod w a b m).length = m.length ∧ LIMBS_ok w (LIMBS_add_mod w a b m) ∧
    LIMBS_val w (LIMBS_add_mod w a b m) = (LIMBS_val w a + LIMBS_val w b) % LIMBS_val w m := by
  have hB := two_pow_pred hw
  have hpos := two_pow_pos (w - 1)
  obtain ⟨s1, s2, s3, s4⟩ := limbs_add_spec hw a b (by omega) ha hb
  have hmv := LIMBS_val_lt hm
  have hsv := LIMBS_val_lt s2
  rw [s1, hla] at hsv
  rw [hla] at s4
  unfold LIMBS_add_mod
  simp only []
  rw [constant_time_is_nonzero_w_eq hw (by omega),
    LIMBS_less_than_eq hw _ m (by omega) s2 hm]
  have e1 : word_not w (if LIMBS_val w (limbs_add w a b).1 < LIMBS_val w m then 2 ^ w - 1 else 0)
      = if ¬ LIMBS_val w (limbs_add w a b).1 < LIMBS_val w m then 2 ^ w - 1 else 0 := by
    split_ifs
    · exact word_not_ones w
    · exact word_not_zero w
  have e2 : (if (limbs_add w a b).2 = 0 then 0 else 2 ^ w - 1)
      = if ¬ (limbs_add w a b).2 = 0 then 2 ^ w - 1 else 0 := by
    split_ifs <;> rfl
  rw [e1, e2, overflow_or_eq w]
  obtain ⟨t1, t2, t3, t4⟩ := masked_sub_val hw (limbs_add w a b).1 m
    (¬ (limbs_add w a b).2 = 0 ∨ ¬ LIMBS_val w (limbs_add w a b).1 < LIMBS_val w m)
    (by omega) s2 hm
  have htv := LIMBS_val_lt t2
  rw [t1, s1, hla] at htv
  rw [s1, hla] at t4
  refine ⟨by rw [t1, s1, hla], t2, ?_⟩
  generalize (2 ^ w) ^ m.length = N at *
  generalize LIMBS_val w (limbs_sub w (limbs_add w a b).1 _).1 = T at *
  generalize (limbs_sub w (limbs_add w a b).1 _).2 = bo at *
  generalize LIMBS_val w (limbs_add w a b).1 = S at *
  generalize (limbs_add w a b).2 = c at *
  generalize LIMBS_val w a = A at *
  generalize LIMBS_val w b = Bv at *
  generalize LIMBS_val w m = M at *
  have hc : c = 0 ∨ c = 1 := by omega
  have hbo : bo = 0 ∨ bo = 1 := by omega
  rcases hc with rfl | rfl <;> rcases hbo with rfl | rfl <;>
    simp only [Nat.zero_mul, Nat.one_mul, Nat.add_zero] at s4 t4
  all_goals
    by_cases hS : S < M
    all_goals simp only [hS, not_true_eq_false, not_false_eq_true, or_true, or_false, false_or,
      true_or, if_true, if_false, one_ne_zero] at t4
  all_goals first
    | omega
    | (have e : A + Bv = T + M := by omega
       rw [e, Nat.add_mod_right, Nat.mod_eq_of_lt (by omega)])
    | (have e : A + Bv = T := by omega
       rw [e, Nat.mod_eq_of_lt (by omega)])

/-- The masked addition of `LIMBS_sub_mod`. -/
theorem masked_add_val {w : Nat} (hw : 0 < w) (r m : List Nat) (p : Prop) [Decidable p]
    (hl : r.length = m.length) (hr : LIMBS_ok w r) (hm : LIMBS_ok w m) :
    let out := limbs_add w r (m.map fun mi => mi &&& (if p then 2 ^ w - 1 else 0))
    out.1.length = r.length ∧ LIMBS_ok w out.1 ∧ out.2 ≤ 1 ∧
    LIMBS_val w out.1 + out.2 * (2 ^ w) ^ r.length
      = LIMBS_val w r + (if p then LIMBS_val w m else 0) := by
  by_cases hp : p
  · simp only [hp, if_true, map_and_ones hm]
    exact limbs_add_spec hw r m hl hr hm
  · simp only [hp, if_false, map_and_zero]
    have h := limbs_add_spec hw r (List.replicate m.length 0) (by simp [hl]) hr
      (LIMBS_ok_replicate_zero w _)
    rw [LIMBS_val_replicate_zero] at h
    exact h

theorem LIMBS_sub_mod_spec {w : Nat} (hw : 0 < w) (a b m : List Nat)
    (hla : a.length = m.length) (hlb : b.length = m.length)
    (ha : LIMBS_ok w a) (hb : LIMBS_ok w b) (hm : LIMBS_ok w m)
    (hav : LIMBS_val w a < LIMBS_val w m) (hbv : LIMBS_val w b < LIMBS_val w m) :
    (LIMBS_sub_mod w a b m).length = m.length ∧ LIMBS_ok w (LIMBS_sub_mod w a b m) ∧
    LIMBS_val w (LIMBS_sub_mod w a b m)
      = if LIMBS_val w a < LIMBS_val w b then LIMBS_val w a + LIMBS_val w m - LIMBS_val w b
        else LIMBS_val w a - LIMBS_val w b := by
  have hB := two_pow_pred hw
  have hpos := two_pow_pos (w - 1)
  obtain ⟨s1, s2, s3, s4⟩ := limbs_sub_spec hw a b (by omega) ha hb
  have hbor := limbs_sub_borrow hw a b (by omega) ha hb
  have hmv := LIMBS_val_lt hm
  have hsv := LIMBS_val_lt s2
  rw [s1, hla] at hsv
  rw [hla] at s4
  unfold LIMBS_sub_mod
  simp only []
  rw [constant_time_is_nonzero_w_eq hw (by omega)]
  have e2 : (if (limbs_sub w a b).2 = 0 then 0 else 2 ^ w - 1)
      = if ¬ (limbs_sub w a b).2 = 0 then 2 ^ w - 1 else 0 := by
    split_ifs <;> rfl
  rw [e2]
  obtain ⟨t1, t2, t3, t4⟩ := masked_add_val hw (limbs_sub w a b).1 m
    (¬ (limbs_sub w a b).2 = 0) (by omega) s2 hm
  have htv := LIMBS_val_lt t2
  rw [t1, s1, hla] at htv
  rw [s1, hla] at t4
  refine ⟨by rw [t1, s1, hla], t2, ?_⟩
  generalize (2 ^ w) ^ m.length = N at *
  generalize LIMBS_val w (limbs_add w (limbs_sub w a b).1 _).1 = T at *
  generalize (limbs_add w (limbs_sub w a b).1 _).2 = c at *
  generalize LIMBS_val w (limbs_sub w a b).1 = S at *
  generalize (limbs_sub w a b).2 = bo at *
  generalize LIMBS_val w a = A at *
  generalize LIMBS_val w b = Bv at *
  generalize LIMBS_val w m = M at *
  have hc : c = 0 ∨ c = 1 := by omega
  by_cases hAB : A < Bv
  · simp only [hAB, if_true] at hbor ⊢
    subst hbor
    simp only [one_ne_zero, not_false_eq_true, if_true, Nat.one_mul] at t4 s4
    rcases hc with rfl | rfl <;> omega
  · simp only [hAB, if_false] at hbor ⊢
    subst hbor
    simp only [not_true_eq_false, if_false, Nat.zero_mul, Nat.add_zero] at t4 s4
    rcases hc with rfl | rfl <;> omega

theorem LIMBS_reduce_once_spec {w : Nat} (hw : 0 < w) (r m : List Nat)
    (hl : r.length = m.length) (hr : LIMBS_ok w r) (hm : LIMBS_ok w m) :
    (LIMBS_reduce_once w r m).1.length = r.length ∧ LIMBS_ok w (LIMBS_reduce_once w r m).1 ∧
    LIMBS_val w (LIMBS_reduce_once w r m).1
      = (if LIMBS_val w m ≤ LIMBS_val w r then LIMBS_val w r - LIMBS_val w m
         else LIMBS_val w r) ∧
    (LIMBS_reduce_once w r m).2 = 0 := by
  have hmv := LIMBS_val_lt hm
  have hrv := LIMBS_val_lt hr
  unfold LIMBS_reduce_once
  simp only []
  rw [LIMBS_less_than_eq hw r m hl hr hm]
  by_cases h : LIMBS_val w r < LIMBS_val w m
  · simp only [h, if_true, map_select_ones]
    obtain ⟨t1, t2, t3, t4⟩ := limbs_sub_spec hw r (List.replicate m.length 0) (by simp [hl]) hr
      (LIMBS_ok_replicate_zero w _)
    rw [LIMBS_val_replicate_zero] at t4
    have htv := LIMBS_val_lt t2
    rw [t1] at htv
    refine ⟨t1, t2, ?_⟩
    generalize (2 ^ w) ^ r.length = N at *
    generalize LIMBS_val w (limbs_sub w r _).1 = T at *
    generalize (limbs_sub w r _).2 = bo at *
    have hbo : bo = 0 ∨ bo = 1 := by omega
    rcases hbo with rfl | rfl
    · simp only [Nat.zero_mul] at t4
      rw [if_neg (by omega)]; omega
    · simp only [Nat.one_mul] at t4; omega
  · simp only [h, if_false, map_select_zero hm]
    obtain ⟨t1, t2, t3, t4⟩ := limbs_sub_spec hw r m hl hr hm
    have hbor := limbs_sub_borrow hw r m hl hr hm
    rw [if_neg h] at hbor
    rw [hbor] at t4
    refine ⟨t1, t2, ?_, hbor⟩
    rw [if_pos (by omega)]; omega

theorem LIMB_HIGH_BIT_eq {w : Nat} (hw : 0 < w) : LIMB_HIGH_BIT w = 2 ^ (w - 1) := by
  have hB := two_pow_pred hw
  have hpos := two_pow_pos (w - 1)
  unfold LIMB_HIGH_BIT word_shl
  rw [Nat.one_shiftLeft, Nat.mod_eq_of_lt (by omega)]

theorem and_high_bit_eq_zero_iff {w x : Nat} (hw : 0 < w) (hx : x < 2 ^ w) :
    x &&& 2 ^ (w - 1) = 0 ↔ x < 2 ^ (w - 1) := by
  have hB := two_pow_pred hw
  have hpos := two_pow_pos (w - 1)
  constructor
  · intro h
    by_contra hge
    have hbit : x.testBit (w - 1) = true := by
      rw [Nat.testBit_to_div_mod]
      have : x / 2 ^ (w - 1) = 1 := Nat.div_eq_of_lt_le (by omega) (by omega)
      simp [this]
    have : (x &&& 2 ^ (w - 1)).testBit (w - 1) = true := by
      rw [Nat.testBit_and, hbit, Nat.testBit_two_pow]; simp
    rw [h] at this
    simp at this
  · intro h
    apply Nat.eq_of_testBit_eq
    intro i
    rw [Nat.testBit_and, Nat.testBit_two_pow, Nat.zero_testBit]
    by_cases hi : w - 1 = i
    · subst hi
      rw [Nat.testBit_lt_two_pow h]; rfl
    · simp [hi]

theorem shl_step {w x c : Nat} (hw : 0 < w) (hx : x < 2 ^ w) (hc : c ≤ 1) :
    (word_shl w x 1 ||| c) < 2 ^ w ∧ x >>> (w - 1) ≤ 1 ∧
    (word_shl w x 1 ||| c) + 2 ^ w * (x >>> (w - 1)) = 2 * x + c := by
  have hB := two_pow_pred hw
  have hpos := two_pow_pos (w - 1)
  have e1 : word_shl w x 1 = 2 ^ 1 * (x % 2 ^ (w - 1)) := by
    unfold word_shl
    rw [Nat.shiftLeft_eq, hB, Nat.mul_comm x, pow_one, Nat.mul_mod_mul_left]
  have hr : x % 2 ^ (w - 1) < 2 ^ (w - 1) := Nat.mod_lt _ hpos
  have hq : x / 2 ^ (w - 1) < 2 := Nat.div_lt_of_lt_mul (by omega)
  have hdm := Nat.div_add_mod x (2 ^ (w - 1))
  rw [e1, ← Nat.mul_add_lt_is_or (by omega), Nat.shiftRight_eq_div_pow, pow_one]
  have e2 : 2 ^ w * (x / 2 ^ (w - 1)) = 2 * (2 ^ (w - 1) * (x / 2 ^ (w - 1))) := by
    rw [hB, Nat.mul_assoc]
  refine ⟨by omega, by omega, ?_⟩
  rw [e2]; omega

theorem LIMBS_shl_loop_spec {w : Nat} (hw : 0 < w) :
    ∀ (xs : List Nat) (x c : Nat), LIMBS_ok w (x :: xs) → c ≤ 1 →
      (LIMBS_shl_loop w (x :: xs) c).length = (x :: xs).length ∧
      LIMBS_ok w (LIMBS_shl_loop w (x :: xs) c) ∧
      LIMBS_val w (LIMBS_shl_loop w (x :: xs) c)
          + ((x :: xs).getLastD 0 >>> (w - 1)) * (2 ^ w) ^ (x :: xs).length
        = 2 * LIMBS_val w (x :: xs) + c := by
  intro xs
  induction xs with
  | nil =>
    intro x c hx hc
    rw [LIMBS_ok_cons] at hx
    obtain ⟨h1, h2, h3⟩ := shl_step hw hx.1 hc
    refine ⟨by simp [LIMBS_shl_loop], ?_, ?_⟩
    · simp only [LIMBS_shl_loop, LIMBS_ok_cons]
      exact ⟨h1, LIMBS_ok_nil w⟩
    · simp only [LIMBS_shl_loop, List.length_cons, List.length_nil, LIMBS_val,
        List.getLastD_cons, List.getLastD_nil, Nat.mul_zero, Nat.add_zero, Nat.zero_add, pow_one]
      rw [Nat.mul_comm]; exact h3
  | cons y ys ih =>
    intro x c hx hc
    rw [LIMBS_ok_cons] at hx
    obtain ⟨h1, h2, h3⟩ := shl_step hw hx.1 hc
    obtain ⟨i1, i2, i3⟩ := ih y (x >>> (w - 1)) hx.2 h2
    have el : LIMBS_shl_loop w (x :: y :: ys) c
        = (word_shl w x 1 ||| c) :: LIMBS_shl_loop w (y :: ys) (x >>> (w - 1)) := rfl
    rw [el]
    simp only [List.getLastD_cons] at i3 ⊢
    refine ⟨by simp only [List.length_cons] at i1 ⊢; omega, ?_, ?_⟩
    · rw [LIMBS_ok_cons]; exact ⟨h1, i2⟩
    · simp only [LIMBS_val, List.length_cons, pow_succ] at i3 ⊢
      zify at i3 h3 ⊢
      linear_combination (2 ^ w : ℤ) * i3 + h3

theorem LIMBS_shl_mod_spec {w : Nat} (hw : 0 < w) (a m : List Nat)
    (hn : 1 ≤ a.length) (hla : a.length = m.length)
    (ha : LIMBS_ok w a) (hm : LIMBS_ok w m)
    (hav : LIMBS_val w a < LIMBS_val w m) :
    (LIMBS_shl_mod w a m).length = m.length ∧ LIMBS_ok w (LIMBS_shl_mod w a m) ∧
    LIMBS_val w (LIMBS_shl_mod w a m) = (2 * LIMBS_val w a) % LIMBS_val w m := by
  have hB := two_pow_pred hw
  have hpos := two_pow_pos (w - 1)
  obtain ⟨x, xs, rfl⟩ : ∃ x xs, a = x :: xs := by
    cases a with
    | nil => simp at hn
    | cons x xs => exact ⟨x, xs, rfl⟩
  obtain ⟨s1, s2, s4⟩ := LIMBS_shl_loop_spec hw xs x 0 ha (by omega)
  have hlast : (x :: xs).getLastD 0 < 2 ^ w := by
    have hmem := List.getLastD_mem_cons (x :: xs) 0
    rcases List.mem_cons.1 hmem with h | h
    · rw [h]; exact two_pow_pos w
    · exact ha _ h
  have hq : (x :: xs).getLastD 0 >>> (w - 1) ≤ 1 := by
    rw [Nat.shiftRight_eq_div_pow]
    have : (x :: xs).getLastD 0 / 2 ^ (w - 1) < 2 := Nat.div_lt_of_lt_mul (by omega)
    omega
  have hmv := LIMBS_val_lt hm
  have hsv := LIMBS_val_lt s2
  rw [s1, hla] at hsv
  rw [hla] at s4
  unfold LIMBS_shl_mod
  simp only []
  rw [LIMB_HIGH_BIT_eq hw,
    constant_time_is_nonzero_w_eq hw (lt_of_le_of_lt Nat.and_le_left hlast),
    LIMBS_less_than_eq hw _ m (by omega) s2 hm]
  have e1 : word_not w (if LIMBS_val w (LIMBS_shl_loop w (x :: xs) 0) < LIMBS_val w m
        then 2 ^ w - 1 else 0)
      = if ¬ LIMBS_val w (LIMBS_shl_loop w (x :: xs) 0) < LIMBS_val w m
        then 2 ^ w - 1 else 0 := by
    split_ifs
    · exact word_not_ones w
    · exact word_not_zero w
  have e2 : (if (x :: xs).getLastD 0 &&& 2 ^ (w - 1) = 0 then 0 else 2 ^ w - 1)
      = if ¬ (x :: xs).getLastD 0 >>> (w - 1) = 0 then 2 ^ w - 1 else 0 := by
    have hiff : (x :: xs).getLastD 0 &&& 2 ^ (w - 1) = 0
        ↔ (x :: xs).getLastD 0 >>> (w - 1) = 0 := by
      rw [and_high_bit_eq_zero_iff hw hlast, Nat.shiftRight_eq_div_pow,
        Nat.div_eq_zero_iff hpos]
    by_cases h : (x :: xs).getLastD 0 >>> (w - 1) = 0
    · rw [if_pos (hiff.2 h), if_neg (not_not.2 h)]
    · rw [if_neg (mt hiff.1 h), if_pos h]
  rw [e1, e2, overflow_or_eq w]
  obtain ⟨t1, t2, t3, t4⟩ := masked_sub_val hw (LIMBS_shl_loop w (x :: xs) 0) m
    (¬ (x :: xs).getLastD 0 >>> (w - 1) = 0
      ∨ ¬ LIMBS_val w (LIMBS_shl_loop w (x :: xs) 0) < LIMBS_val w m)
    (by omega) s2 hm
  have htv := LIMBS_val_lt t2
  rw [t1, s1, hla] at htv
  rw [s1, hla] at t4
  refine ⟨by rw [t1, s1, hla], t2, ?_⟩
  generalize (2 ^ w) ^ m.length = N at *
  generalize LIMBS_val w (limbs_sub w (LIMBS_shl_loop w (x :: xs) 0) _).1 = T at *
  generalize (limbs_sub w (LIMBS_shl_loop w (x :: xs) 0) _).2 = bo at *
  generalize LIMBS_val w (LIMBS_shl_loop w (x :: xs) 0) = S at *
  generalize (x :: xs).getLastD 0 >>> (w - 1) = c at *
  generalize LIMBS_val w (x :: xs) = A at *
  generalize LIMBS_val w m = M at *
  have hc : c = 0 ∨ c = 1 := by omega
  have hbo : bo = 0 ∨ bo = 1 := by omega
  rcases hc with rfl | rfl <;> rcases hbo with rfl | rfl <;>
    simp only [Nat.zero_mul, Nat.one_mul, Nat.add_zero] at s4 t4
  all_goals
    by_cases hS : S < M
    all_goals simp only [hS, not_true_eq_false, not_false_eq_true, or_true, or_false, false_or,
      true_or, if_true, if_false, one_ne_zero] at t4
  all_goals first
    | omega
    | (have e : 2 * A = T + M := by omega
       rw [e, Nat.add_mod_right, Nat.mod_eq_of_lt (by omega)])
    | (have e : 2 * A = T := by omega
       rw [e, Nat.mod_eq_of_lt (by omega)])

/-! ## The Montgomery constant -/

/-- Models `x + y = (x xor y) + 2 * (x and y)`: the identity behind Dietz's average. -/
theorem add_eq_xor_add_two_mul_and : ∀ x y : Nat, x + y = (x ^^^ y) + 2 * (x &&& y) := by
  intro x
  induction x using Nat.strong_induction_on with
  | _ x ih =>
    intro y
    by_cases hx : x = 0
    · subst hx; simp
    · have h := ih (x / 2) (by omega) (y / 2)
      rw [← Nat.xor_div_two, ← Nat.and_div_two] at h
      have hm := @Nat.xor_mod_two_eq x y
      have ha := @Nat.and_mod_two_eq_one x y
      omega

theorem dietz_average (x y : Nat) : ((x ^^^ y) >>> 1) + (x &&& y) = (x + y) / 2 := by
  have h := add_eq_xor_add_two_mul_and x y
  rw [Nat.shiftRight_eq_div_pow]
  omega

theorem bn_neg_inv_alpha_eq : bn_neg_inv_alpha = 2 ^ 63 := by
  decide

/-- The loop body when `u` is even. -/
theorem bn_neg_inv_step_even {n u v : Nat} (hu : u < 2 ^ 64) (hv : v < 2 ^ 64)
    (he : u % 2 = 0) : bn_neg_inv_step n (u, v) = (u / 2, v / 2) := by
  unfold bn_neg_inv_step
  simp only [Nat.and_one_is_mod, he, word_sub_zero_zero, Nat.and_zero, Nat.xor_zero,
    Nat.shiftRight_eq_div_pow, pow_one, word_add, Nat.add_zero]
  rw [Nat.mod_eq_of_lt (by omega), Nat.mod_eq_of_lt (by omega)]

/-- The loop body when `u` is odd. -/
theorem bn_neg_inv_step_odd {n u v : Nat} (hn : n < 2 ^ 64) (hu : u ≤ n) (hv : v < 2 ^ 64)
    (ho : u % 2 = 1) : bn_neg_inv_step n (u, v) = ((u + n) / 2, v / 2 + 2 ^ 63) := by
  unfold bn_neg_inv_step
  have h1 : word_sub 64 0 1 = 2 ^ 64 - 1 := word_sub_zero_one (by decide)
  have hd := dietz_average u n
  rw [Nat.shiftRight_eq_div_pow, pow_one] at hd
  simp only [Nat.and_one_is_mod, ho, h1, and_ones hn, bn_neg_inv_alpha_eq,
    and_ones (show 2 ^ 63 < 2 ^ 64 by decide), hd, word_add,
    Nat.shiftRight_eq_div_pow, pow_one]
  rw [Nat.mod_eq_of_lt (a := (u + n) / 2) (by omega),
    Nat.mod_eq_of_lt (a := v / 2 + 2 ^ 63) (by omega)]

/-- Loop invariant of `GFp_bn_neg_inv_mod_r_u64`. -/
theorem bn_neg_inv_loop_inv {n : Nat} (hn : n < 2 ^ 64) (hodd : n % 2 = 1) :
    ∀ i, i ≤ 64 →
      1 ≤ (bn_neg_inv_loop n i).1 ∧ (bn_neg_inv_loop n i).1 ≤ n ∧
      (bn_neg_inv_loop n i).2 < 2 ^ 64 ∧
      (bn_neg_inv_loop n i).1 * 2 ^ 64 = 2 ^ (64 - i) + (bn_neg_inv_loop n i).2 * n := by
  intro i
  induction i with
  | zero =>
    intro _
    refine ⟨by simp [bn_neg_inv_loop], ?_, by simp [bn_neg_inv_loop], by simp [bn_neg_inv_loop]⟩
    simp only [bn_neg_inv_loop]; omega
  | succ k ih =>
    intro hk
    obtain ⟨h1, h2, h3, h4⟩ := ih (by omega)
    have hp : 2 ^ (64 - k) = 2 * 2 ^ (64 - (k + 1)) := by
      have : 64 - k = (64 - (k + 1)) + 1 := by omega
      rw [this, pow_succ, Nat.mul_comm]
    rw [hp] at h4
    have hst : bn_neg_inv_loop n (k + 1) = bn_neg_inv_step n (bn_neg_inv_loop n k) := rfl
    rw [hst]
    generalize bn_neg_inv_loop n k = uv at *
    obtain ⟨u, v⟩ := uv
    simp only at h1 h2 h3 h4
    generalize 2 ^ (64 - (k + 1)) = P at *
    -- `v` is even because `n` is odd
    have hv2 : v % 2 = 0 := by
      have hm : (v * n) % 2 = (v % 2) * (n % 2) % 2 := Nat.mul_mod _ _ _
      rw [hodd, Nat.mul_one, Nat.mod_mod] at hm
      omega
    obtain ⟨v2, rfl⟩ : ∃ v2, v = 2 * v2 := ⟨v / 2, by omega⟩
    by_cases he : u % 2 = 0
    · rw [bn_neg_inv_step_even (by omega) h3 he]
      obtain ⟨u2, rfl⟩ : ∃ u2, u = 2 * u2 := ⟨u / 2, by omega⟩
      have e1 : 2 * u2 / 2 = u2 := by omega
      have e2 : 2 * v2 / 2 = v2 := by omega
      simp only [e1, e2]
      refine ⟨by omega, by omega, by omega, ?_⟩
      zify at h4 ⊢
      linarith
    · rw [bn_neg_inv_step_odd hn h2 h3 (by omega)]
      obtain ⟨s, hs⟩ : ∃ s, u + n = 2 * s := ⟨(u + n) / 2, by omega⟩
      have e1 : (u + n) / 2 = s := by omega
      have e2 : 2 * v2 / 2 = v2 := by omega
      simp only [e1, e2]
      refine ⟨by omega, by omega, by omega, ?_⟩
      zify at h4 hs ⊢
      linarith

theorem GFp_bn_neg_inv_mod_r_u64_spec {n : Nat} (hn : n < 2 ^ 64) (hodd : n % 2 = 1) :
    GFp_bn_neg_inv_mod_r_u64 n < 2 ^ 64 ∧
    (GFp_bn_neg_inv_mod_r_u64 n * n) % 2 ^ 64 = 2 ^ 64 - 1 ∧
    ∃ u : Nat, (u : Int) * 2 ^ 64 - (GFp_bn_neg_inv_mod_r_u64 n : Int) * n = 1 := by
  obtain ⟨h1, h2, h3, h4⟩ := bn_neg_inv_loop_inv hn hodd 64 (le_refl _)
  unfold GFp_bn_neg_inv_mod_r_u64 LG_LITTLE_R
  generalize bn_neg_inv_loop n 64 = uv at *
  obtain ⟨u, v⟩ := uv
  simp only [Nat.sub_self, pow_zero] at h1 h2 h3 h4 ⊢
  refine ⟨h3, ?_, u, ?_⟩
  · have e : v * n = (2 ^ 64 - 1) + (u - 1) * 2 ^ 64 := by
      have : u * 2 ^ 64 = (u - 1) * 2 ^ 64 + 2 ^ 64 := by
        rw [Nat.sub_mul]; omega
      omega
    rw [e, Nat.add_mul_mod_self_right]
    decide
  · have : ((u * 2 ^ 64 : Nat) : Int) = ((1 + v * n : Nat) : Int) := by rw [h4]
    push_cast at this
    linarith

/-! ## Array predicates and conditional copies -/

theorem LIMBS_val_eq_zero_iff (w : Nat) (a : List Nat) :
    LIMBS_val w a = 0 ↔ ∀ x ∈ a, x = 0 := by
  induction a with
  | nil => simp [LIMBS_val]
  | cons x xs ih =>
    have hpos := two_pow_pos w
    simp only [LIMBS_val, List.mem_cons, forall_eq_or_imp, ← ih]
    constructor
    · intro h
      have h1 : x = 0 := by omega
      have h2 : 2 ^ w * LIMBS_val w xs = 0 := by omega
      exact ⟨h1, (Nat.mul_eq_zero.1 h2).resolve_left (by omega)⟩
    · rintro ⟨h1, h2⟩
      rw [h1, h2]; simp

theorem CONSTTIME_TRUE_W_eq (w : Nat) : CONSTTIME_TRUE_W w = 2 ^ w - 1 := word_not_zero w

theorem are_zero_foldl_false (w : Nat) (a : List Nat) :
    a.foldl (fun is_zero ai =>
      constant_time_select_w w is_zero (constant_time_is_zero_w w ai) is_zero) 0 = 0 := by
  induction a with
  | nil => rfl
  | cons x xs ih =>
    simp only [List.foldl_cons]
    rw [constant_time_select_w_false _ _ _ (two_pow_pos w)]
    exact ih

theorem constant_time_is_zero_w_lt {w : Nat} (hw : 0 < w) {a : Nat} (ha : a < 2 ^ w) :
    constant_time_is_zero_w w a < 2 ^ w := by
  have := two_pow_pos w
  rw [constant_time_is_zero_w_eq hw ha]
  split_ifs <;> omega

theorem LIMBS_are_zero_eq {w : Nat} (hw : 0 < w) (a : List Nat) (ha : LIMBS_ok w a) :
    LIMBS_are_zero w a = if LIMBS_val w a = 0 then 2 ^ w - 1 else 0 := by
  unfold LIMBS_are_zero
  rw [CONSTTIME_TRUE_W_eq]
  induction a with
  | nil => simp [LIMBS_val]
  | cons x xs ih =>
    rw [LIMBS_ok_cons] at ha
    have hpos := two_pow_pos w
    simp only [List.foldl_cons]
    rw [constant_time_select_w_true _ (constant_time_is_zero_w_lt hw ha.1),
      constant_time_is_zero_w_eq hw ha.1]
    by_cases hx : x = 0
    · subst hx
      rw [if_pos rfl, ih ha.2]
      simp only [LIMBS_val, Nat.zero_add, Nat.mul_eq_zero]
      have : ¬ (2 ^ w = 0) := by omega
      simp only [this, false_or]
    · rw [if_neg hx, are_zero_foldl_false, if_neg]
      simp only [LIMBS_val]; omega

theorem equal_foldl_false (w : Nat) (l : List (Nat × Nat)) :
    l.foldl (fun eq ab =>
      constant_time_select_w w eq (constant_time_eq_w w ab.1 ab.2) eq) 0 = 0 := by
  induction l with
  | nil => rfl
  | cons x xs ih =>
    simp only [List.foldl_cons]
    rw [constant_time_select_w_false _ _ _ (two_pow_pos w)]
    exact ih

theorem LIMBS_equal_eq {w : Nat} (hw : 0 < w) :
    ∀ (a b : List Nat), a.length = b.length → LIMBS_ok w a → LIMBS_ok w b →
      LIMBS_equal w a b = if a = b then 2 ^ w - 1 else 0 := by
  intro a
  unfold LIMBS_equal
  rw [CONSTTIME_TRUE_W_eq]
  induction a with
  | nil =>
    intro b hl _ _
    cases b with
    | nil => simp
    | cons y ys => simp at hl
  | cons x xs ih =>
    intro b hl ha hb
    cases b with
    | nil => simp at hl
    | cons y ys =>
      rw [LIMBS_ok_cons] at ha hb
      have hpos := two_pow_pos w
      simp only [List.zip_cons_cons, List.foldl_cons]
      have hlt : constant_time_eq_w w x y < 2 ^ w := by
        rw [constant_time_eq_w_eq hw ha.1 hb.1]; split_ifs <;> omega
      rw [constant_time_select_w_true _ hlt, constant_time_eq_w_eq hw ha.1 hb.1]
      by_cases hxy : x = y
      · subst hxy
        rw [if_pos rfl, ih ys (by simpa using hl) ha.2 hb.2]
        simp
      · rw [if_neg hxy, equal_foldl_false, if_neg]
        simp [hxy]

theorem LIMBS_equal_self {w : Nat} (hw : 0 < w) (a : List Nat) (ha : LIMBS_ok w a) :
    LIMBS_equal w a a = 2 ^ w - 1 := by
  rw [LIMBS_equal_eq hw a a rfl ha ha, if_pos rfl]

theorem P384_copy_conditional_true {w : Nat} :
    ∀ (r a : List Nat), r.length = a.length → LIMBS_ok w a →
      P384.copy_conditional w r a (2 ^ w - 1) = a := by
  intro r
  unfold P384.copy_conditional
  induction r with
  | nil => intro a hl _; cases a with
    | nil => rfl
    | cons y ys => simp at hl
  | cons x xs ih =>
    intro a hl ha
    cases a with
    | nil => simp at hl
    | cons y ys =>
      rw [LIMBS_ok_cons] at ha
      simp only [List.zipWith_cons_cons]
      rw [constant_time_select_w_true _ ha.1, ih ys (by simpa using hl) ha.2]

theorem P384_copy_conditional_false {w : Nat} :
    ∀ (r a : List Nat), r.length = a.length → LIMBS_ok w r →
      P384.copy_conditional w r a 0 = r := by
  intro r
  unfold P384.copy_conditional
  induction r with
  | nil => intro a hl _; cases a with
    | nil => rfl
    | cons y ys => simp at hl
  | cons x xs ih =>
    intro a hl hr
    cases a with
    | nil => simp at hl
    | cons y ys =>
      rw [LIMBS_ok_cons] at hr
      simp only [List.zipWith_cons_cons]
      rw [constant_time_select_w_false _ _ _ hr.1, ih ys (by simpa using hl) hr.2]

theorem P256_copy_conditional_true {w : Nat} :
    ∀ (dst src : List Nat), dst.length = src.length → LIMBS_ok w src →
      P256.copy_conditional w dst src (2 ^ w - 1) = src := by
  intro dst
  unfold P256.copy_conditional
  simp only [word_not_ones]
  induction dst with
  | nil => intro a hl _; cases a with
    | nil => rfl
    | cons y ys => simp at hl
  | cons x xs ih =>
    intro a hl ha
    cases a with
    | nil => simp at hl
    | cons y ys =>
      rw [LIMBS_ok_cons] at ha
      simp only [List.zipWith_cons_cons]
      rw [and_ones ha.1, ih ys (by simpa using hl) ha.2]
      simp

theorem P256_copy_conditional_false {w : Nat} :
    ∀ (dst src : List Nat), dst.length = src.length → LIMBS_ok w dst →
      P256.copy_conditional w dst src 0 = dst := by
  intro dst
  unfold P256.copy_conditional
  simp only [word_not_zero]
  induction dst with
  | nil => intro a hl _; cases a with
    | nil => rfl
    | cons y ys => simp at hl
  | cons x xs ih =>
    intro a hl hr
    cases a with
    | nil => simp at hl
    | cons y ys =>
      rw [LIMBS_ok_cons] at hr
      simp only [List.zipWith_cons_cons]
      rw [and_ones hr.1, ih ys (by simpa using hl) hr.2]
      simp

/-! ## Results are limb arrays -/

theorem map_and_ok {w : Nat} {m : List Nat} (ov : Nat) (hm : LIMBS_ok w m) :
    LIMBS_ok w (m.map fun mi => mi &&& ov) := by
  intro x hx
  obtain ⟨y, hy, rfl⟩ := List.mem_map.1 hx
  exact lt_of_le_of_lt Nat.and_le_left (hm y hy)

theorem LIMBS_sub_mod_typed {w n : Nat} (hw : 0 < w) {a b m : List Nat}
    (ha : IsLimbs w n a) (hb : IsLimbs w n b) (hm : IsLimbs w n m) :
    IsLimbs w n (LIMBS_sub_mod w a b m) := by
  obtain ⟨s1, s2, -, -⟩ := limbs_sub_spec hw a b (by rw [ha.1, hb.1]) ha.2 hb.2
  unfold LIMBS_sub_mod
  simp only []
  obtain ⟨t1, t2, -, -⟩ := limbs_add_spec hw (limbs_sub w a b).1
    (m.map fun mi => mi &&& constant_time_is_nonzero_w w (limbs_sub w a b).2)
    (by rw [s1, List.length_map, ha.1, hm.1]) s2 (map_and_ok _ hm.2)
  exact ⟨by rw [t1, s1, ha.1], t2⟩

theorem LIMBS_add_mod_typed {w n : Nat} (hw : 0 < w) {a b m : List Nat}
    (ha : IsLimbs w n a) (hb : IsLimbs w n b) (hm : IsLimbs w n m) :
    IsLimbs w n (LIMBS_add_mod w a b m) := by
  obtain ⟨s1, s2, -, -⟩ := limbs_add_spec hw a b (by rw [ha.1, hb.1]) ha.2 hb.2
  unfold LIMBS_add_mod
  simp only []
  generalize (constant_time_is_nonzero_w w (limbs_add w a b).2 |||
    word_not w (LIMBS_less_than w (limbs_add w a b).1 m)) = ov
  obtain ⟨t1, t2, -, -⟩ := limbs_sub_spec hw (limbs_add w a b).1
    (m.map fun mi => mi &&& ov)
    (by rw [s1, List.length_map, ha.1, hm.1]) s2 (map_and_ok _ hm.2)
  exact ⟨by rw [t1, s1, ha.1], t2⟩

theorem LIMBS_shl_mod_typed {w n : Nat} (hw : 0 < w) (hn : 1 ≤ n) {a m : List Nat}
    (ha : IsLimbs w n a) (hm : IsLimbs w n m) :
    IsLimbs w n (LIMBS_shl_mod w a m) := by
  obtain ⟨x, xs, rfl⟩ : ∃ x xs, a = x :: xs := by
    cases a with
    | nil => have := ha.1; simp at this; omega
    | cons x xs => exact ⟨x, xs, rfl⟩
  obtain ⟨s1, s2, -⟩ := LIMBS_shl_loop_spec hw xs x 0 ha.2 (by omega)
  unfold LIMBS_shl_mod
  simp only []
  generalize (constant_time_is_nonzero_w w ((x :: xs).getLastD 0 &&& LIMB_HIGH_BIT w) |||
    word_not w (LIMBS_less_than w (LIMBS_shl_loop w (x :: xs) 0) m)) = ov
  obtain ⟨t1, t2, -, -⟩ := limbs_sub_spec hw (LIMBS_shl_loop w (x :: xs) 0)
    (m.map fun mi => mi &&& ov)
    (by rw [s1, List.length_map, ha.1, hm.1]) s2 (map_and_ok _ hm.2)
  exact ⟨by rw [t1, s1, ha.1], t2⟩

/-! ## P-384 constants -/

theorem P384_Q_typed {w : Nat} (hw : w = 32 ∨ w = 64) :
    IsLimbs w (P384.P384_LIMBS w) (P384.Q w) := by
  rcases hw with rfl | rfl <;> decide

theorem P384_LIMBS_pos {w : Nat} (hw : w = 32 ∨ w = 64) : 1 ≤ P384.P384_LIMBS w := by
  rcases hw with rfl | rfl <;> decide

theorem width_pos {w : Nat} (hw : w = 32 ∨ w = 64) : 0 < w := by
  rcases hw with rfl | rfl <;> decide

theorem P384_elem_sub_typed {w : Nat} (hw : w = 32 ∨ w = 64) {a b : List Nat}
    (ha : IsLimbs w (P384.P384_LIMBS w) a) (hb : IsLimbs w (P384.P384_LIMBS w) b) :
    IsLimbs w (P384.P384_LIMBS w) (P384.elem_sub w a b) :=
  LIMBS_sub_mod_typed (width_pos hw) ha hb (P384_Q_typed hw)

theorem P384_elem_add_typed {w : Nat} (hw : w = 32 ∨ w = 64) {a b : List Nat}
    (ha : IsLimbs w (P384.P384_LIMBS w) a) (hb : IsLimbs w (P384.P384_LIMBS w) b) :
    IsLimbs w (P384.P384_LIMBS w) (P384.elem_add w a b) :=
  LIMBS_add_mod_typed (width_pos hw) ha hb (P384_Q_typed hw)

theorem P384_elem_mul_by_2_typed {w : Nat} (hw : w = 32 ∨ w = 64) {a : List Nat}
    (ha : IsLimbs w (P384.P384_LIMBS w) a) :
    IsLimbs w (P384.P384_LIMBS w) (P384.elem_mul_by_2 w a) :=
  LIMBS_shl_mod_typed (width_pos hw) (P384_LIMBS_pos hw) ha (P384_Q_typed hw)

/-! ## Addition with an operand at infinity -/

theorem P384_copy_conditional_length (w : Nat) (r a : List Nat) (c : Nat)
    (h : r.length = a.length) : (P384.copy_conditional w r a c).length = a.length := by
  unfold P384.copy_conditional
  rw [List.length_zipWith, h, Nat.min_self]

/-- With the second operand at infinity the generic path of
`GFp_nistz384_point_add` is taken and both masks select the first operand. -/
theorem P384_point_add_right_identity {w : Nat} (hw : w = 32 ∨ w = 64) (mm : BnMulMont)
    (Good : List Nat → Prop) (hG : ∀ x, Good x → IsLimbs w (P384.P384_LIMBS w) x)
    (mul : ∀ {x y}, Good x → Good y → Good (P384.elem_mul_mont w mm x y))
    (sub : ∀ {x y}, Good x → Good y → Good (P384.elem_sub w x y))
    (dbl : ∀ {x}, Good x → Good (P384.elem_mul_by_2 w x)) (a b : POINT)
    (gaX : Good a.X) (gaY : Good a.Y) (gaZ : Good a.Z)
    (gbX : Good b.X) (gbY : Good b.Y) (gbZ : Good b.Z)
    (hz : LIMBS_val w b.Z = 0) :
    P384.point_add_is_exceptional w mm a b = 0 ∧ P384.GFp_nistz384_point_add w mm a b = a := by
  have hw0 := width_pos hw
  have haX := hG _ gaX
  have haY := hG _ gaY
  have haZ := hG _ gaZ
  have hbX := hG _ gbX
  have hbY := hG _ gbY
  have hbZ := hG _ gbZ
  have h2 : P384.is_zero w b.Z = 2 ^ w - 1 := by
    unfold P384.is_zero
    rw [LIMBS_are_zero_eq hw0 _ hbZ.2, if_pos hz]
  have hexc : P384.point_add_is_exceptional w mm a b = 0 := by
    unfold P384.point_add_is_exceptional
    simp only [h2, word_not_ones, Nat.and_zero]
  refine ⟨hexc, ?_⟩
  unfold P384.point_add_is_exceptional at hexc
  unfold P384.GFp_nistz384_point_add
  simp only [] at hexc ⊢
  rw [if_neg (not_not.2 hexc)]
  -- typing of the intermediate values
  have sqr : ∀ {x}, Good x → Good (P384.elem_sqr_mont w mm x) := fun hx => mul hx hx
  have gZ2sqr := sqr gbZ
  have gZ1sqr := sqr gaZ
  have gS1 := mul (mul gZ2sqr gbZ) gaY
  have gS2 := mul (mul gZ1sqr gaZ) gbY
  have gR := sub gS2 gS1
  have gU1 := mul gaX gZ2sqr
  have gU2 := mul gbX gZ1sqr
  have gH := sub gU2 gU1
  have gHsqr := sqr gH
  have gHcub := mul gHsqr gH
  have gU2b := mul gU1 gHsqr
  have gresx := sub (sub (sqr gR) (dbl gU2b)) gHcub
  have hresx := hG _ gresx
  have hresy := hG _ (sub (mul gR (sub gU2b gresx)) (mul gS1 gHcub))
  have hresz := hG _ (mul (mul gH gaZ) gbZ)
  rw [h2]
  rw [P384_copy_conditional_true _ _
      (by rw [P384_copy_conditional_length _ _ _ _ (by rw [hresx.1, hbX.1]), hbX.1, haX.1]) haX.2,
    P384_copy_conditional_true _ _
      (by rw [P384_copy_conditional_length _ _ _ _ (by rw [hresy.1, hbY.1]), hbY.1, haY.1]) haY.2,
    P384_copy_conditional_true _ _
      (by rw [P384_copy_conditional_length _ _ _ _ (by rw [hresz.1, hbZ.1]), hbZ.1, haZ.1]) haZ.2]

/-- With the first operand at infinity and the second not, the generic path of
`GFp_nistz384_point_add` is taken and the result is the second operand. -/
theorem P384_point_add_left_identity {w : Nat} (hw : w = 32 ∨ w = 64) (mm : BnMulMont)
    (Good : List Nat → Prop) (hG : ∀ x, Good x → IsLimbs w (P384.P384_LIMBS w) x)
    (mul : ∀ {x y}, Good x → Good y → Good (P384.elem_mul_mont w mm x y))
    (sub : ∀ {x y}, Good x → Good y → Good (P384.elem_sub w x y))
    (dbl : ∀ {x}, Good x → Good (P384.elem_mul_by_2 w x)) (a b : POINT)
    (gaX : Good a.X) (gaY : Good a.Y) (gaZ : Good a.Z)
    (gbX : Good b.X) (gbY : Good b.Y) (gbZ : Good b.Z)
    (hz : LIMBS_val w a.Z = 0) (hnz : LIMBS_val w b.Z ≠ 0) :
    P384.point_add_is_exceptional w mm a b = 0 ∧ P384.GFp_nistz384_point_add w mm a b = b := by
  have hw0 := width_pos hw
  have haX := hG _ gaX
  have haY := hG _ gaY
  have haZ := hG _ gaZ
  have hbX := hG _ gbX
  have hbY := hG _ gbY
  have hbZ := hG _ gbZ
  have h1 : P384.is_zero w a.Z = 2 ^ w - 1 := by
    unfold P384.is_zero
    rw [LIMBS_are_zero_eq hw0 _ haZ.2, if_pos hz]
  have h2 : P384.is_zero w b.Z = 0 := by
    unfold P384.is_zero
    rw [LIMBS_are_zero_eq hw0 _ hbZ.2, if_neg hnz]
  have hexc : P384.point_add_is_exceptional w mm a b = 0 := by
    unfold P384.point_add_is_exceptional
    simp only [h1, word_not_ones, Nat.and_zero, Nat.zero_and]
  refine ⟨hexc, ?_⟩
  unfold P384.point_add_is_exceptional at hexc
  unfold P384.GFp_nistz384_point_add
  simp only [] at hexc ⊢
  rw [if_neg (not_not.2 hexc)]
  have sqr : ∀ {x}, Good x → Good (P384.elem_sqr_mont w mm x) := fun hx => mul hx hx
  have gZ2sqr := sqr gbZ
  have gZ1sqr := sqr gaZ
  have gS1 := mul (mul gZ2sqr gbZ) gaY
  have gS2 := mul (mul gZ1sqr gaZ) gbY
  have gR := sub gS2 gS1
  have gU1 := mul gaX gZ2sqr
  have gU2 := mul gbX gZ1sqr
  have gH := sub gU2 gU1
  have gHsqr := sqr gH
  have gHcub := mul gHsqr gH
  have gU2b := mul gU1 gHsqr
  have gresx := sub (sub (sqr gR) (dbl gU2b)) gHcub
  have hresx := hG _ gresx
  have hresy := hG _ (sub (mul gR (sub gU2b gresx)) (mul gS1 gHcub))
  have hresz := hG _ (mul (mul gH gaZ) gbZ)
  rw [h1, h2]
  rw [P384_copy_conditional_true _ _ (by rw [hresx.1, hbX.1]) hbX.2,
    P384_copy_conditional_true _ _ (by rw [hresy.1, hbY.1]) hbY.2,
    P384_copy_conditional_true _ _ (by rw [hresz.1, hbZ.1]) hbZ.2,
    P384_copy_conditional_false _ _ (by rw [hbX.1, haX.1]) hbX.2,
    P384_copy_conditional_false _ _ (by rw [hbY.1, haY.1]) hbY.2,
    P384_copy_conditional_false _ _ (by rw [hbZ.1, haZ.1]) hbZ.2]

/-! ## P-256 -/

theorem P256_Q_typed {w : Nat} (hw : w = 32 ∨ w = 64) :
    IsLimbs w (P256.P256_LIMBS w) (P256.Q w) := by
  rcases hw with rfl | rfl <;> decide

theorem P256_LIMBS_pos {w : Nat} (hw : w = 32 ∨ w = 64) : 1 ≤ P256.P256_LIMBS w := by
  rcases hw with rfl | rfl <;> decide

theorem P256_copy_conditional_length (w : Nat) (r a : List Nat) (c : Nat)
    (h : r.length = a.length) : (P256.copy_conditional w r a c).length = a.length := by
  unfold P256.copy_conditional
  simp only []
  rw [List.length_zipWith, h, Nat.min_self]

/-- Both identity cases of the C `GFp_nistz256_point_add`. -/
theorem P256_point_add_identity {w : Nat} (hw : w = 32 ∨ w = 64)
    (mul : List Nat → List Nat → List Nat) (sqr : List Nat → List Nat) (dbl : POINT → POINT)
    (hmul : IsLimbOp w (P256.P256_LIMBS w) mul)
    (hsqr : ∀ x, IsLimbs w (P256.P256_LIMBS w) x → IsLimbs w (P256.P256_LIMBS w) (sqr x))
    (a b : POINT)
    (ha : IsPoint w (P256.P256_LIMBS w) a) (hb : IsPoint w (P256.P256_LIMBS w) b) :
    (LIMBS_val w b.Z = 0 →
      P256.point_add_is_exceptional w mul sqr a b = 0 ∧
      P256.GFp_nistz256_point_add w mul sqr dbl a b = a) ∧
    (LIMBS_val w a.Z = 0 → LIMBS_val w b.Z ≠ 0 →
      P256.point_add_is_exceptional w mul sqr a b = 0 ∧
      P256.GFp_nistz256_point_add w mul sqr dbl a b = b) := by
  have hw0 := width_pos hw
  obtain ⟨haX, haY, haZ⟩ := ha
  obtain ⟨hbX, hbY, hbZ⟩ := hb
  have sqr_t : ∀ {x}, IsLimbs w (P256.P256_LIMBS w) x →
      IsLimbs w (P256.P256_LIMBS w) (sqr x) := fun hx => hsqr _ hx
  have mul_t : ∀ {x y}, IsLimbs w (P256.P256_LIMBS w) x → IsLimbs w (P256.P256_LIMBS w) y →
      IsLimbs w (P256.P256_LIMBS w) (mul x y) := fun hx hy => hmul _ _ hx hy
  have sub : ∀ {x y}, IsLimbs w (P256.P256_LIMBS w) x → IsLimbs w (P256.P256_LIMBS w) y →
      IsLimbs w (P256.P256_LIMBS w) (P256.elem_sub w x y) := fun hx hy =>
    LIMBS_sub_mod_typed hw0 hx hy (P256_Q_typed hw)
  have dbl_t : ∀ {x}, IsLimbs w (P256.P256_LIMBS w) x →
      IsLimbs w (P256.P256_LIMBS w) (P256.elem_mul_by_2 w x) := fun hx =>
    LIMBS_shl_mod_typed hw0 (P256_LIMBS_pos hw) hx (P256_Q_typed hw)
  have hZ2sqr := sqr_t hbZ
  have hZ1sqr := sqr_t haZ
  have hS1 := mul_t (mul_t hZ2sqr hbZ) haY
  have hS2 := mul_t (mul_t hZ1sqr haZ) hbY
  have hR := sub hS2 hS1
  have hU1 := mul_t haX hZ2sqr
  have hU2 := mul_t hbX hZ1sqr
  have hH := sub hU2 hU1
  have hHsqr := sqr_t hH
  have hHcub := mul_t hHsqr hH
  have hU2b := mul_t hU1 hHsqr
  have hresx := sub (sub (sqr_t hR) (dbl_t hU2b)) hHcub
  have hresy := sub (mul_t hR (sub hU2b hresx)) (mul_t hS1 hHcub)
  have hresz := mul_t (mul_t hH haZ) hbZ
  constructor
  · intro hz
    have h2 : P256.is_zero w b.Z = 2 ^ w - 1 := by
      unfold P256.is_zero
      rw [LIMBS_are_zero_eq hw0 _ hbZ.2, if_pos hz]
    have hexc : P256.point_add_is_exceptional w mul sqr a b = 0 := by
      unfold P256.point_add_is_exceptional
      simp only [h2, word_not_ones, Nat.and_zero]
    refine ⟨hexc, ?_⟩
    unfold P256.point_add_is_exceptional at hexc
    unfold P256.GFp_nistz256_point_add
    simp only [] at hexc ⊢
    rw [if_neg (not_not.2 hexc), h2]
    rw [P256_copy_conditional_true _ _
        (by rw [P256_copy_conditional_length _ _ _ _ (by rw [hresx.1, hbX.1]), hbX.1, haX.1])
        haX.2,
      P256_copy_conditional_true _ _
        (by rw [P256_copy_conditional_length _ _ _ _ (by rw [hresy.1, hbY.1]), hbY.1, haY.1])
        haY.2,
      P256_copy_conditional_true _ _
        (by rw [P256_copy_conditional_length _ _ _ _ (by rw [hresz.1, hbZ.1]), hbZ.1, haZ.1])
        haZ.2]
  · intro hz hnz
    have h1 : P256.is_zero w a.Z = 2 ^ w - 1 := by
      unfold P256.is_zero
      rw [LIMBS_are_zero_eq hw0 _ haZ.2, if_pos hz]
    have h2 : P256.is_zero w b.Z = 0 := by
      unfold P256.is_zero
      rw [LIMBS_are_zero_eq hw0 _ hbZ.2, if_neg hnz]
    have hexc : P256.point_add_is_exceptional w mul sqr a b = 0 := by
      unfold P256.point_add_is_exceptional
      simp only [h1, word_not_ones, Nat.and_zero, Nat.zero_and]
    refine ⟨hexc, ?_⟩
    unfold P256.point_add_is_exceptional at hexc
    unfold P256.GFp_nistz256_point_add
    simp only [] at hexc ⊢
    rw [if_neg (not_not.2 hexc), h1, h2]
    rw [P256_copy_conditional_true _ _ (by rw [hresx.1, hbX.1]) hbX.2,
      P256_copy_conditional_true _ _ (by rw [hresy.1, hbY.1]) hbY.2,
      P256_copy_conditional_true _ _ (by rw [hresz.1, hbZ.1]) hbZ.2,
      P256_copy_conditional_false _ _ (by rw [hbX.1, haX.1]) hbX.2,
      P256_copy_conditional_false _ _ (by rw [hbY.1, haY.1]) hbY.2,
      P256_copy_conditional_false _ _ (by rw [hbZ.1, haZ.1]) hbZ.2]

/-! ## Halving in the P-384 field -/

theorem LIMBS_val_append (w : Nat) (l1 l2 : List Nat) :
    LIMBS_val w (l1 ++ l2) = LIMBS_val w l1 + (2 ^ w) ^ l1.length * LIMBS_val w l2 := by
  induction l1 with
  | nil => simp [LIMBS_val]
  | cons x xs ih =>
    show LIMBS_val w (x :: (xs ++ l2)) = _
    simp only [LIMBS_val, ih, List.length_cons, pow_succ]
    ring

theorem LIMBS_ok_reverse {w : Nat} {l : List Nat} : LIMBS_ok w l.reverse ↔ LIMBS_ok w l := by
  simp [LIMBS_ok]

theorem LIMBS_val_reverse_cons (w x : Nat) (rest : List Nat) :
    LIMBS_val w (x :: rest).reverse
      = LIMBS_val w rest.reverse + (2 ^ w) ^ rest.length * x := by
  rw [List.reverse_cons, LIMBS_val_append]
  simp [LIMBS_val]

/-- One limb of the right shift: `(aj >> 1) | (carry << (w - 1))`. -/
theorem shr_limb {w aj c : Nat} (hw : 0 < w) (haj : aj < 2 ^ w) :
    ((aj >>> 1) ||| word_shl w c (w - 1)) = aj / 2 + 2 ^ (w - 1) * (c % 2) ∧
    ((aj >>> 1) ||| word_shl w c (w - 1)) < 2 ^ w := by
  have hB := two_pow_pred hw
  have hpos := two_pow_pos (w - 1)
  have e1 : word_shl w c (w - 1) = 2 ^ (w - 1) * (c % 2) := by
    unfold word_shl
    rw [Nat.shiftLeft_eq, hB, Nat.mul_comm c, Nat.mul_comm 2 (2 ^ (w - 1)),
      Nat.mul_mod_mul_left]
  have e2 : aj >>> 1 = aj / 2 := by rw [Nat.shiftRight_eq_div_pow, pow_one]
  have hlt : aj / 2 < 2 ^ (w - 1) := by omega
  have hc : c % 2 < 2 := Nat.mod_lt _ (by decide)
  rw [e1, e2, Nat.or_comm, ← Nat.mul_add_lt_is_or hlt]
  constructor
  · omega
  · have : 2 ^ (w - 1) * (c % 2) ≤ 2 ^ (w - 1) * 1 := Nat.mul_le_mul_left _ (by omega)
    omega

theorem elem_shr_loop_spec {w : Nat} (hw : 0 < w) :
    ∀ (rest : List Nat) (c : Nat), LIMBS_ok w rest →
      (P384.elem_shr_loop w rest c).length = rest.length ∧
      LIMBS_ok w (P384.elem_shr_loop w rest c) ∧
      LIMBS_val w (P384.elem_shr_loop w rest c).reverse
        = ((c % 2) * (2 ^ w) ^ rest.length + LIMBS_val w rest.reverse) / 2 := by
  intro rest
  induction rest with
  | nil =>
    intro c _
    refine ⟨rfl, LIMBS_ok_nil w, ?_⟩
    simp only [P384.elem_shr_loop, List.reverse_nil, LIMBS_val, List.length_nil, pow_zero]
    have : c % 2 < 2 := Nat.mod_lt _ (by decide)
    omega
  | cons aj rest ih =>
    intro c hok
    rw [LIMBS_ok_cons] at hok
    obtain ⟨i1, i2, i3⟩ := ih aj hok.2
    obtain ⟨e, hlt⟩ := shr_limb (c := c) hw hok.1
    have hB := two_pow_pred hw
    simp only [P384.elem_shr_loop]
    refine ⟨by simp [i1], by rw [LIMBS_ok_cons]; exact ⟨hlt, i2⟩, ?_⟩
    rw [LIMBS_val_reverse_cons, LIMBS_val_reverse_cons, i3, i1, e, List.length_cons, pow_succ]
    generalize (2 ^ w) ^ rest.length = K
    generalize LIMBS_val w rest.reverse = V
    rw [hB]
    generalize 2 ^ (w - 1) = H
    have hdm := Nat.div_add_mod aj 2
    have key : c % 2 * (K * (2 * H)) + (V + K * aj)
        = (aj % 2 * K + V) + 2 * (K * (aj / 2 + H * (c % 2))) := by
      have : K * aj = K * (2 * (aj / 2) + aj % 2) := by rw [hdm]
      rw [this]; ring
    rw [key, Nat.add_mul_div_left _ _ (by decide : 0 < 2)]

theorem elem_shr_1_spec {w n : Nat} (hw : 0 < w) {a : List Nat} (ha : IsLimbs w n a) :
    IsLimbs w n (P384.elem_shr_1 w a) ∧
    LIMBS_val w (P384.elem_shr_1 w a) = LIMBS_val w a / 2 := by
  obtain ⟨hlen, hok⟩ := ha
  unfold P384.elem_shr_1
  have hrev : a = a.reverse.reverse := (List.reverse_reverse a).symm
  have hokr : LIMBS_ok w a.reverse := LIMBS_ok_reverse.2 hok
  have hlenr : a.reverse.length = n := by rw [List.length_reverse, hlen]
  generalize a.reverse = ar at *
  subst hrev
  cases ar with
  | nil =>
    simp only [List.length_nil] at hlenr
    subst hlenr
    exact ⟨⟨rfl, LIMBS_ok_nil w⟩, by simp [LIMBS_val]⟩
  | cons top rest =>
    rw [LIMBS_ok_cons] at hokr
    obtain ⟨i1, i2, i3⟩ := elem_shr_loop_spec hw rest (top &&& 1) hokr.2
    have htop : top >>> 1 < 2 ^ w := by
      rw [Nat.shiftRight_eq_div_pow, pow_one]
      exact lt_of_le_of_lt (Nat.div_le_self _ _) hokr.1
    simp only []
    refine ⟨⟨?_, ?_⟩, ?_⟩
    · rw [List.length_reverse, List.length_cons, i1]; simpa using hlenr
    · rw [LIMBS_ok_reverse, LIMBS_ok_cons]; exact ⟨htop, i2⟩
    · rw [LIMBS_val_reverse_cons, LIMBS_val_reverse_cons, i3, i1, Nat.and_one_is_mod,
        Nat.mod_mod, Nat.shiftRight_eq_div_pow, pow_one]
      generalize (2 ^ w) ^ rest.length = K
      generalize LIMBS_val w rest.reverse = V
      have hdm := Nat.div_add_mod top 2
      have key : V + K * top = (top % 2 * K + V) + 2 * (K * (top / 2)) := by
        have : K * top = K * (2 * (top / 2) + top % 2) := by rw [hdm]
        rw [this]; ring
      rw [key, Nat.add_mul_div_left _ _ (by decide : 0 < 2)]

theorem P384_Q_PLUS_1_SHR_1_typed {w : Nat} (hw : w = 32 ∨ w = 64) :
    IsLimbs w (P384.P384_LIMBS w) (P384.Q_PLUS_1_SHR_1 w) := by
  rcases hw with rfl | rfl <;> decide

theorem P384_Q_PLUS_1_SHR_1_val {w : Nat} (hw : w = 32 ∨ w = 64) :
    LIMBS_val w (P384.Q_PLUS_1_SHR_1 w) = (LIMBS_val w (P384.Q w) + 1) / 2 := by
  rcases hw with rfl | rfl <;> decide

theorem P384_Q_odd {w : Nat} (hw : w = 32 ∨ w = 64) : LIMBS_val w (P384.Q w) % 2 = 1 := by
  rcases hw with rfl | rfl <;> decide

theorem P384_Q_lt {w : Nat} (hw : w = 32 ∨ w = 64) :
    LIMBS_val w (P384.Q w) < (2 ^ w) ^ P384.P384_LIMBS w := by
  rcases hw with rfl | rfl <;> decide

theorem headD_mod_two {w : Nat} (hw : 0 < w) (a : List Nat) :
    a.headD 0 % 2 = LIMBS_val w a % 2 := by
  cases a with
  | nil => rfl
  | cons x xs =>
    have hB := two_pow_pred hw
    simp only [List.headD_cons, LIMBS_val]
    rw [hB, Nat.mul_assoc]
    omega

theorem P384_elem_div_by_2_spec {w : Nat} (hw : w = 32 ∨ w = 64) {a : List Nat}
    (ha : IsLimbs w (P384.P384_LIMBS w) a) (hav : LIMBS_val w a < LIMBS_val w (P384.Q w)) :
    IsLimbs w (P384.P384_LIMBS w) (P384.elem_div_by_2 w a) ∧
    LIMBS_val w (P384.elem_div_by_2 w a)
      = (if LIMBS_val w a % 2 = 0 then LIMBS_val w a / 2
         else LIMBS_val w a / 2 + (LIMBS_val w (P384.Q w) + 1) / 2) ∧
    P384.elem_div_by_2_carry2 w a = 0 := by
  have hw0 := width_pos hw
  have hB := two_pow_pred hw0
  have hpos := two_pow_pos (w - 1)
  obtain ⟨⟨r1, r2⟩, r3⟩ := elem_shr_1_spec hw0 ha
  obtain ⟨c1, c2⟩ := P384_Q_PLUS_1_SHR_1_typed hw
  obtain ⟨s1, s2, s3, s4⟩ := limbs_add_spec hw0 (P384.elem_shr_1 w a) (P384.Q_PLUS_1_SHR_1 w)
    (by rw [r1, c1]) r2 c2
  rw [r1, r3, P384_Q_PLUS_1_SHR_1_val hw] at s4
  have hq := P384_Q_lt hw
  have hodd := P384_Q_odd hw
  have hsv := LIMBS_val_lt s2
  rw [s1, r1] at hsv
  have hcarry : (limbs_add w (P384.elem_shr_1 w a) (P384.Q_PLUS_1_SHR_1 w)).2 = 0 := by
    by_contra hne
    have h1 : (limbs_add w (P384.elem_shr_1 w a) (P384.Q_PLUS_1_SHR_1 w)).2 = 1 := by omega
    rw [h1] at s4
    omega
  rw [hcarry] at s4
  have hlo : a.headD 0 &&& 1 < 2 ^ w := by
    rw [Nat.and_one_is_mod]; omega
  refine ⟨?_, ?_, hcarry⟩
  · unfold P384.elem_div_by_2
    simp only []
    rw [constant_time_is_nonzero_w_eq hw0 hlo]
    split_ifs
    · rw [P384_copy_conditional_false _ _ (by rw [r1, s1, r1]) r2]
      exact ⟨r1, r2⟩
    · rw [P384_copy_conditional_true _ _ (by rw [r1, s1, r1]) s2]
      exact ⟨by rw [s1, r1], s2⟩
  · unfold P384.elem_div_by_2
    simp only []
    rw [constant_time_is_nonzero_w_eq hw0 hlo, Nat.and_one_is_mod, headD_mod_two hw0]
    by_cases hev : LIMBS_val w a % 2 = 0
    · rw [if_pos hev, if_pos hev, P384_copy_conditional_false _ _ (by rw [r1, s1, r1]) r2, r3]
    · rw [if_neg hev, if_neg hev, P384_copy_conditional_true _ _ (by rw [r1, s1, r1]) s2]
      omega

/-! ## The modelled Montgomery multiplication -/

theorem LIMBS_of_nat_spec (w : Nat) : ∀ (n x : Nat),
    IsLimbs w n (LIMBS_of_nat w n x) ∧ LIMBS_val w (LIMBS_of_nat w n x) = x % (2 ^ w) ^ n := by
  intro n
  induction n with
  | zero => intro x; exact ⟨⟨rfl, LIMBS_ok_nil w⟩, by simp [LIMBS_of_nat, LIMBS_val, Nat.mod_one]⟩
  | succ k ih =>
    intro x
    obtain ⟨⟨h1, h2⟩, h3⟩ := ih (x / 2 ^ w)
    have hpos := two_pow_pos w
    refine ⟨⟨by simp [LIMBS_of_nat, h1], ?_⟩, ?_⟩
    · simp only [LIMBS_of_nat, LIMBS_ok_cons]
      exact ⟨Nat.mod_lt _ hpos, h2⟩
    · simp only [LIMBS_of_nat, LIMBS_val, h3, pow_succ]
      rw [Nat.mul_comm ((2 ^ w) ^ k) (2 ^ w), Nat.mod_mul, Nat.add_comm]

/-- One round of the interleaved Montgomery loop: the division by `2 ^ w` is
exact, the bound `t < 2 * n` is kept and `t` is multiplied by `2 ^ (-w)`. -/
theorem bn_mul_mont_round {w b n n0 ai t : Nat} (hn0 : (n0 * n) % 2 ^ w = 2 ^ w - 1)
    (hb : b ≤ n) (hai : ai < 2 ^ w) (ht : t < 2 * n) :
    (t + ai * b + ((t + ai * b) % 2 ^ w * n0 % 2 ^ w) * n) / 2 ^ w < 2 * n ∧
    (t + ai * b + ((t + ai * b) % 2 ^ w * n0 % 2 ^ w) * n) / 2 ^ w * 2 ^ w
      = t + ai * b + ((t + ai * b) % 2 ^ w * n0 % 2 ^ w) * n := by
  have hpos := two_pow_pos w
  generalize 2 ^ w = B at *
  have hbound : t + ai * b + ((t + ai * b) % B * n0 % B) * n < B * (2 * n) := by
    have hm : (t + ai * b) % B * n0 % B ≤ B - 1 := by
      have := Nat.mod_lt ((t + ai * b) % B * n0) hpos
      omega
    have h1 : ai * b ≤ (B - 1) * n := Nat.mul_le_mul (by omega) hb
    have h2 : ((t + ai * b) % B * n0 % B) * n ≤ (B - 1) * n := Nat.mul_le_mul_right _ hm
    have h3 : (B - 1) * n + n = B * n := by
      rw [Nat.sub_mul, Nat.one_mul]
      have : n ≤ B * n := Nat.le_mul_of_pos_left _ hpos
      omega
    have h4 : B * (2 * n) = 2 * (B * n) := by ring
    omega
  generalize t + ai * b = t1 at *
  have hdvd : B ∣ t1 + (t1 % B * n0 % B) * n := by
    rw [← ZMod.natCast_zmod_eq_zero_iff_dvd]
    have h1 : ((n0 * n : Nat) : ZMod B) = ((B - 1 : Nat) : ZMod B) := by
      rw [← ZMod.natCast_mod (n0 * n) B, hn0]
    have h2 : ((B - 1 : Nat) : ZMod B) = -1 := by
      rw [Nat.cast_sub hpos, ZMod.natCast_self]; simp
    push_cast [ZMod.natCast_mod] at h1 ⊢
    rw [h2] at h1
    have : (t1 : ZMod B) + t1 * n0 * n = t1 * (1 + n0 * n) := by ring
    rw [this, h1]; ring
  exact ⟨Nat.div_lt_of_lt_mul hbound, Nat.div_mul_cancel hdvd⟩

theorem bn_mul_mont_loop_spec {w b n n0 : Nat} (hn0 : (n0 * n) % 2 ^ w = 2 ^ w - 1)
    (hb : b ≤ n) : ∀ (as : List Nat) (t : Nat), LIMBS_ok w as → t < 2 * n →
      bn_mul_mont_loop w b n n0 as t < 2 * n ∧
      bn_mul_mont_loop w b n n0 as t * (2 ^ w) ^ as.length ≡ t + LIMBS_val w as * b [MOD n] := by
  intro as
  induction as with
  | nil =>
    intro t _ ht
    simp only [bn_mul_mont_loop, LIMBS_val, List.length_nil, pow_zero, Nat.mul_one,
      Nat.zero_mul, Nat.add_zero]
    exact ⟨ht, Nat.ModEq.refl _⟩
  | cons ai as ih =>
    intro t hok ht
    rw [LIMBS_ok_cons] at hok
    obtain ⟨r1, r2⟩ := bn_mul_mont_round hn0 hb hok.1 ht
    obtain ⟨i1, i2⟩ := ih _ hok.2 r1
    simp only [bn_mul_mont_loop]
    refine ⟨i1, ?_⟩
    generalize bn_mul_mont_loop w b n n0 as _ = t' at *
    generalize (t + ai * b + ((t + ai * b) % 2 ^ w * n0 % 2 ^ w) * n) / 2 ^ w = t2 at *
    have h1 : t2 * 2 ^ w ≡ t + ai * b [MOD n] := by
      rw [r2]
      have : ((t + ai * b) % 2 ^ w * n0 % 2 ^ w) * n ≡ 0 [MOD n] :=
        (Nat.modEq_zero_iff_dvd).2 (Dvd.intro_left _ rfl)
      simpa using Nat.ModEq.add_left (t + ai * b) this
    have h2 := (i2.mul_right (2 ^ w))
    calc t' * (2 ^ w) ^ (ai :: as).length
        = t' * (2 ^ w) ^ as.length * 2 ^ w := by
          rw [List.length_cons, pow_succ, Nat.mul_assoc]
      _ ≡ (t2 + LIMBS_val w as * b) * 2 ^ w [MOD n] := h2
      _ = t2 * 2 ^ w + 2 ^ w * LIMBS_val w as * b := by ring
      _ ≡ t + ai * b + 2 ^ w * LIMBS_val w as * b [MOD n] := Nat.ModEq.add_right _ h1
      _ = t + LIMBS_val w (ai :: as) * b := by simp only [LIMBS_val]; ring

theorem GFp_bn_mul_mont_spec {w num : Nat} {a b n n0 : List Nat}
    (hn0 : (n0.headD 0 * LIMBS_val w n) % 2 ^ w = 2 ^ w - 1)
    (ha : IsLimbs w num a) (hb : LIMBS_val w b < LIMBS_val w n)
    (hn : LIMBS_val w n < (2 ^ w) ^ num) :
    IsLimbs w num (GFp_bn_mul_mont w a b n n0 num) ∧
    LIMBS_val w (GFp_bn_mul_mont w a b n n0 num) < LIMBS_val w n ∧
    (LIMBS_val w (GFp_bn_mul_mont w a b n n0 num) * (2 ^ w) ^ num) % LIMBS_val w n
      = (LIMBS_val w a * LIMBS_val w b) % LIMBS_val w n := by
  obtain ⟨h1, h2⟩ := bn_mul_mont_loop_spec hn0 (le_of_lt hb) a 0 ha.2 (by omega)
  unfold GFp_bn_mul_mont
  simp only []
  rw [ha.1, Nat.zero_add] at h2
  generalize bn_mul_mont_loop w (LIMBS_val w b) (LIMBS_val w n) (n0.headD 0) a 0 = t at *
  obtain ⟨s1, s2⟩ := LIMBS_of_nat_spec w num
    (if LIMBS_val w n ≤ t then t - LIMBS_val w n else t)
  have hr : (if LIMBS_val w n ≤ t then t - LIMBS_val w n else t) < LIMBS_val w n := by
    split_ifs <;> omega
  rw [Nat.mod_eq_of_lt (lt_trans hr hn)] at s2
  refine ⟨s1, by rw [s2]; exact hr, ?_⟩
  rw [s2]
  have h3 : (if LIMBS_val w n ≤ t then t - LIMBS_val w n else t) ≡ t [MOD LIMBS_val w n] := by
    split_ifs with h
    · have : t = (t - LIMBS_val w n) + LIMBS_val w n := by omega
      conv_rhs => rw [this]
      exact (Nat.ModEq.symm (by simp [Nat.ModEq]))
    · exact Nat.ModEq.refl _
  exact (h3.mul_right _).trans h2

/-- The modelled `GFp_bn_mul_mont`, called as `elem_mul_mont` does, is
Montgomery multiplication modulo the P-384 prime. -/
theorem P384_model_isMontMul {w : Nat} (hw : w = 32 ∨ w = 64) :
    IsMontMul w (P384.P384_LIMBS w) (P384.Q w) (P384.elem_mul_mont w (GFp_bn_mul_mont w)) := by
  intro a b ha _ _ hbv
  have hn0 : ((P384.Q_N0 w).headD 0 * LIMBS_val w (P384.Q w)) % 2 ^ w = 2 ^ w - 1 := by
    rcases hw with rfl | rfl <;> decide
  exact GFp_bn_mul_mont_spec hn0 ha hbv (P384_Q_lt hw)

theorem P384_model_isLimbOp (w : Nat) :
    IsLimbOp w (P384.P384_LIMBS w) (P384.elem_mul_mont w (GFp_bn_mul_mont w)) := by
  intro a b _ _
  exact (LIMBS_of_nat_spec w _ _).1

/-! ## Primality of the P-384 modulus -/

theorem powmod_aux_spec (n : Nat) : ∀ (fuel b e acc : Nat), e < 2 ^ fuel →
    powmod_aux n fuel b e acc ≡ acc * b ^ e [MOD n] := by
  intro fuel
  induction fuel with
  | zero =>
    intro b e acc he
    have : e = 0 := by simpa using he
    subst this
    simp [powmod_aux, Nat.ModEq]
  | succ k ih =>
    intro b e acc he
    by_cases h0 : e = 0
    · subst h0; simp [powmod_aux, Nat.ModEq]
    · have he2 : e / 2 < 2 ^ k := by
        rw [pow_succ] at he; omega
      have hstep : powmod_aux n (k + 1) b e acc
          = powmod_aux n k (b * b % n) (e / 2) (if e % 2 = 1 then acc * b % n else acc) := by
        simp [powmod_aux, h0]
      rw [hstep]
      refine (ih _ _ _ he2).trans ?_
      have hb : (b * b % n) ^ (e / 2) ≡ (b * b) ^ (e / 2) [MOD n] :=
        (Nat.mod_modEq _ _).pow _
      have hdm := Nat.div_add_mod e 2
      by_cases hodd : e % 2 = 1
      · rw [if_pos hodd]
        have e1 : acc * b ^ e = (acc * b) * (b * b) ^ (e / 2) := by
          conv_lhs => rw [← hdm, hodd]
          rw [pow_succ, pow_mul, ← pow_two]; ring
        rw [e1]
        exact (Nat.mod_modEq _ _).mul hb
      · rw [if_neg hodd]
        have hev : e % 2 = 0 := by omega
        have e1 : acc * b ^ e = acc * (b * b) ^ (e / 2) := by
          conv_lhs => rw [← hdm, hev]
          rw [Nat.add_zero, pow_mul, ← pow_two]
        rw [e1]
        exact (Nat.ModEq.refl _).mul hb

theorem powmod_spec {b e n : Nat} (he : e < 2 ^ 400) : powmod b e n ≡ b ^ e [MOD n] := by
  unfold powmod
  refine (powmod_aux_spec n 400 _ _ _ he).trans ?_
  have h1 : (1 % n) ≡ 1 [MOD n] := Nat.mod_modEq _ _
  have h2 : (b % n) ^ e ≡ b ^ e [MOD n] := (Nat.mod_modEq _ _).pow _
  simpa using h1.mul h2

theorem prod_dvd_of_pairwise_coprime {m : Nat} : ∀ (ps : List Nat),
    ps.Pairwise Nat.Coprime → (∀ p ∈ ps, p ∣ m) → ps.prod ∣ m := by
  intro ps
  induction ps with
  | nil => intro _ _; simp
  | cons p ps ih =>
    intro hpw hdiv
    rw [List.pairwise_cons] at hpw
    rw [List.prod_cons]
    refine Nat.Coprime.mul_dvd_of_dvd_of_dvd ?_ (hdiv p (List.mem_cons_self _ _))
      (ih hpw.2 fun q hq => hdiv q (List.mem_cons_of_mem _ hq))
    exact Nat.coprime_list_prod_right_iff.2 fun q hq => hpw.1 q hq

/-- Pocklington's criterion. -/
theorem pocklington (N a : Nat) (ps : List Nat) (hc : PocklingtonCert N a ps)
    (hps : ∀ p ∈ ps, p.Prime) : N.Prime := by
  obtain ⟨hN, hN400, hpow, hp, hpw, hF⟩ := hc
  by_contra hnp
  have hr : (Nat.minFac N).Prime := Nat.minFac_prime (by omega)
  have hrN : Nat.minFac N ∣ N := Nat.minFac_dvd N
  have hsq : Nat.minFac N ^ 2 ≤ N := Nat.minFac_sq_le_self (by omega) hnp
  generalize Nat.minFac N = r at *
  haveI : Fact r.Prime := ⟨hr⟩
  have hNm1 : N - 1 < 2 ^ 400 := by omega
  -- `a ^ (N - 1) = 1` in `ZMod r`
  have hx1 : ((a : ZMod r)) ^ (N - 1) = 1 := by
    have h1 : a ^ (N - 1) ≡ 1 [MOD N] := by
      have := (powmod_spec (b := a) (n := N) hNm1).symm
      rwa [hpow] at this
    have h2 : a ^ (N - 1) ≡ 1 [MOD r] := h1.of_dvd hrN
    have := (ZMod.eq_iff_modEq_nat r).2 h2
    simpa using this
  have hx0 : (a : ZMod r) ≠ 0 := by
    intro h0
    rw [h0, zero_pow (by omega)] at hx1
    exact zero_ne_one hx1
  have hord : orderOf (a : ZMod r) ∣ r - 1 :=
    orderOf_dvd_of_pow_eq_one (ZMod.pow_card_sub_one_eq_one hx0)
  have hordN : orderOf (a : ZMod r) ∣ N - 1 := orderOf_dvd_of_pow_eq_one hx1
  have hdiv : ∀ p ∈ ps, p ∣ r - 1 := by
    intro p hpm
    obtain ⟨hpd, hg⟩ := hp p hpm
    have hpp := hps p hpm
    have hpdvd : p ∣ N - 1 := Nat.dvd_of_mod_eq_zero hpd
    have hM : (N - 1) / p < 2 ^ 400 := lt_of_le_of_lt (Nat.div_le_self _ _) hNm1
    -- `a ^ ((N - 1) / p) ≠ 1` in `ZMod r`
    have hne : ((a : ZMod r)) ^ ((N - 1) / p) ≠ 1 := by
      intro h1
      have h2 : a ^ ((N - 1) / p) ≡ 1 [MOD r] := by
        apply (ZMod.eq_iff_modEq_nat r).1
        simpa using h1
      have h3 : powmod a ((N - 1) / p) N ≡ 1 [MOD r] :=
        ((powmod_spec (b := a) (n := N) hM).of_dvd hrN).trans h2
      have h4 : r ∣ powmod a ((N - 1) / p) N + N - 1 := by
        have h5 : powmod a ((N - 1) / p) N + N - 1 = powmod a ((N - 1) / p) N + (N - 1) := by
          omega
        rw [h5]
        have h6 : powmod a ((N - 1) / p) N + (N - 1) ≡ 1 + (N - 1) [MOD r] := h3.add_right _
        have h7 : 1 + (N - 1) = N := by omega
        rw [h7] at h6
        exact (Nat.modEq_zero_iff_dvd).1 (h6.trans ((Nat.modEq_zero_iff_dvd).2 hrN))
      have h8 : r ∣ 1 := by
        rw [← hg]; exact Nat.dvd_gcd h4 hrN
      exact hr.one_lt.ne' (Nat.dvd_one.1 h8)
    have hpo : p ∣ orderOf (a : ZMod r) := by
      by_contra hnd
      have hco : Nat.Coprime (orderOf (a : ZMod r)) p :=
        ((Nat.Prime.coprime_iff_not_dvd hpp).2 hnd).symm
      have hmul : N - 1 = p * ((N - 1) / p) := (Nat.mul_div_cancel' hpdvd).symm
      rw [hmul] at hordN
      exact hne (orderOf_dvd_iff_pow_eq_one.1 (hco.dvd_of_dvd_mul_left hordN))
    exact hpo.trans hord
  have hprod : ps.prod ∣ r - 1 := prod_dvd_of_pairwise_coprime ps hpw hdiv
  have hle : ps.prod + 1 ≤ r := by
    have := Nat.le_of_dvd (by have := hr.one_lt; omega) hprod
    have := hr.one_lt
    omega
  have : (ps.prod + 1) * (ps.prod + 1) ≤ r ^ 2 := by
    rw [pow_two]; exact Nat.mul_le_mul hle hle
  omega

theorem pocklington_prime_19 : Nat.Prime 363557 := by norm_num

theorem pocklington_prime_29 : Nat.Prime 532247449 :=
  pocklington _ 2 [363557] (by decide!)
    (by
      intro p hp
      simp only [List.mem_cons, List.mem_singleton, List.not_mem_nil, or_false] at hp
      subst hp
      exact pocklington_prime_19)

theorem pocklington_prime_46 : Nat.Prime 44925942675193 :=
  pocklington _ 2 [532247449] (by decide!)
    (by
      intro p hp
      simp only [List.mem_cons, List.mem_singleton, List.not_mem_nil, or_false] at hp
      subst hp
      exact pocklington_prime_29)

theorem pocklington_prime_75 : Nat.Prime 35581458644053887931343 :=
  pocklington _ 2 [44925942675193] (by decide!)
    (by
      intro p hp
      simp only [List.mem_cons, List.mem_singleton, List.not_mem_nil, or_false] at hp
      subst hp
      exact pocklington_prime_46)

theorem pocklington_prime_95 : Nat.Prime 23964610537191310276190549303 :=
  pocklington _ 2 [35581458644053887931343] (by decide!)
    (by
      intro p hp
      simp only [List.mem_cons, List.mem_singleton, List.not_mem_nil, or_false] at hp
      subst hp
      exact pocklington_prime_75)

theorem pocklington_prime_100 : Nat.Prime 862725979338887169942859774909 :=
  pocklington _ 2 [23964610537191310276190549303] (by decide!)
    (by
      intro p hp
      simp only [List.mem_cons, List.mem_singleton, List.not_mem_nil, or_false] at hp
      subst hp
      exact pocklington_prime_95)

theorem pocklington_prime_105 : Nat.Prime 20705423504133292078628634597817 :=
  pocklington _ 2 [862725979338887169942859774909] (by decide!)
    (by
      intro p hp
      simp only [List.mem_cons, List.mem_singleton, List.not_mem_nil, or_false] at hp
      subst hp
      exact pocklington_prime_100)

theorem pocklington_prime_139 : Nat.Prime 413244619895455989650825325680172591660047 :=
  pocklington _ 2 [20705423504133292078628634597817] (by decide!)
    (by
      intro p hp
      simp only [List.mem_cons, List.mem_singleton, List.not_mem_nil, or_false] at hp
      subst hp
      exact pocklington_prime_105)

theorem pocklington_prime_144 : Nat.Prime 12397338596863679689524759770405177749801411 :=
  pocklington _ 2 [413244619895455989650825325680172591660047] (by decide!)
    (by
      intro p hp
      simp only [List.mem_cons, List.mem_singleton, List.not_mem_nil, or_false] at hp
      subst hp
      exact pocklington_prime_139)

theorem pocklington_prime_15 : Nat.Prime 21407 := by norm_num

theorem pocklington_prime_28 : Nat.Prime 246608641 :=
  pocklington _ 2 [21407] (by decide!)
    (by
      intro p hp
      simp only [List.mem_cons, List.mem_singleton, List.not_mem_nil, or_false] at hp
      subst hp
      exact pocklington_prime_15)

theorem pocklington_prime_10 : Nat.Prime 881 := by norm_num

theorem pocklington_prime_8 : Nat.Prime 211 := by norm_num

theorem pocklington_prime_27 : Nat.Prime 105957871 :=
  pocklington _ 2 [881, 211] (by decide!)
    (by
      intro p hp
      simp only [List.mem_cons, List.mem_singleton, List.not_mem_nil, or_false] at hp
      rcases hp with rfl | rfl
      · exact pocklington_prime_10
      · exact pocklington_prime_8)

theorem pocklington_prime_69 : Nat.Prime 529709925838459440593 :=
  pocklington _ 2 [246608641, 105957871] (by decide!)
    (by
      intro p hp
      simp only [List.mem_cons, List.mem_singleton, List.not_mem_nil, or_false] at hp
      rcases hp with rfl | rfl
      · exact pocklington_prime_28
      · exact pocklington_prime_27)

theorem pocklington_prime_334 : Nat.Prime 19173790298027098165721053155794528970226934547887232785722672956982046098136719667167519737147526097 :=
  pocklington _ 2 [12397338596863679689524759770405177749801411, 529709925838459440593] (by decide!)
    (by
      intro p hp
      simp only [List.mem_cons, List.mem_singleton, List.not_mem_nil, or_false] at hp
      rcases hp with rfl | rfl
      · exact pocklington_prime_144
      · exact pocklington_prime_69)

theorem pocklington_prime_384 : Nat.Prime 39402006196394479212279040100143613805079739270465446667948293404245721771496870329047266088258938001861606973112319 :=
  pocklington _ 2 [19173790298027098165721053155794528970226934547887232785722672956982046098136719667167519737147526097] (by decide!)
    (by
      intro p hp
      simp only [List.mem_cons, List.mem_singleton, List.not_mem_nil, or_false] at hp
      subst hp
      exact pocklington_prime_334)

/-! ## Field elements of P-384 -/

theorem P384_isElem_sub {w : Nat} (hw : w = 32 ∨ w = 64) {x y : List Nat}
    (hx : P384.IsElem w x) (hy : P384.IsElem w y) : P384.IsElem w (P384.elem_sub w x y) := by
  obtain ⟨qt, qok⟩ := P384_Q_typed hw
  obtain ⟨h1, h2, h3⟩ := LIMBS_sub_mod_spec (width_pos hw) x y (P384.Q w)
    (by rw [hx.1.1, qt]) (by rw [hy.1.1, qt]) hx.1.2 hy.1.2 qok hx.2 hy.2
  refine ⟨⟨by rw [← qt]; exact h1, h2⟩, ?_⟩
  unfold P384.elem_sub
  rw [h3]
  have := hx.2
  have := hy.2
  split_ifs <;> omega

theorem P384_isElem_mul_by_2 {w : Nat} (hw : w = 32 ∨ w = 64) {x : List Nat}
    (hx : P384.IsElem w x) : P384.IsElem w (P384.elem_mul_by_2 w x) := by
  obtain ⟨qt, qok⟩ := P384_Q_typed hw
  obtain ⟨h1, h2, h3⟩ := LIMBS_shl_mod_spec (width_pos hw) x (P384.Q w)
    (by rw [hx.1.1]; exact P384_LIMBS_pos hw) (by rw [hx.1.1, qt]) hx.1.2 qok hx.2
  refine ⟨⟨by rw [← qt]; exact h1, h2⟩, ?_⟩
  unfold P384.elem_mul_by_2
  rw [h3]
  exact Nat.mod_lt _ (by have := hx.2; omega)

theorem P384_isElem_mul {w : Nat} {mm : BnMulMont}
    (hmm : IsMontMul w (P384.P384_LIMBS w) (P384.Q w) (P384.elem_mul_mont w mm))
    {x y : List Nat} (hx : P384.IsElem w x) (hy : P384.IsElem w y) :
    P384.IsElem w (P384.elem_mul_mont w mm x y) :=
  let h := hmm x y hx.1 hy.1 hx.2 hy.2
  ⟨h.1, h.2.1⟩

theorem P384_R_coprime {w : Nat} (hw : w = 32 ∨ w = 64) :
    Nat.Coprime ((2 ^ w) ^ P384.P384_LIMBS w) (LIMBS_val w (P384.Q w)) := by
  apply Nat.Coprime.pow_left
  apply Nat.Coprime.pow_left
  rw [Nat.coprime_comm, Nat.coprime_two_right]
  exact Nat.odd_iff.2 (P384_Q_odd hw)

/-- Montgomery multiplication by an element of value 0 gives value 0. -/
theorem P384_mul_zero_left {w : Nat} (hw : w = 32 ∨ w = 64) {mm : BnMulMont}
    (hmm : IsMontMul w (P384.P384_LIMBS w) (P384.Q w) (P384.elem_mul_mont w mm))
    {x y : List Nat} (hx : P384.IsElem w x) (hy : P384.IsElem w y)
    (h0 : LIMBS_val w x = 0 ∨ LIMBS_val w y = 0) :
    LIMBS_val w (P384.elem_mul_mont w mm x y) = 0 := by
  obtain ⟨-, h2, h3⟩ := hmm x y hx.1 hy.1 hx.2 hy.2
  have hz : LIMBS_val w x * LIMBS_val w y = 0 := by
    rcases h0 with h | h <;> rw [h] <;> simp
  rw [hz, Nat.zero_mod] at h3
  have hd : LIMBS_val w (P384.Q w) ∣
      LIMBS_val w (P384.elem_mul_mont w mm x y) * (2 ^ w) ^ P384.P384_LIMBS w :=
    Nat.dvd_of_mod_eq_zero h3
  have hd2 := (P384_R_coprime hw).symm.dvd_of_dvd_mul_right hd
  exact Nat.eq_zero_of_dvd_of_lt hd2 h2

theorem GFp_p384_elem_neg_spec {w : Nat} (hw : w = 32 ∨ w = 64) {a : List Nat}
    (ha : P384.IsElem w a) :
    P384.IsElem w (P384.GFp_p384_elem_neg w a) ∧
    LIMBS_val w (P384.GFp_p384_elem_neg w a)
      = if LIMBS_val w a = 0 then 0 else LIMBS_val w (P384.Q w) - LIMBS_val w a := by
  have hw0 := width_pos hw
  obtain ⟨qt, qok⟩ := P384_Q_typed hw
  obtain ⟨s1, s2, s3, s4⟩ := limbs_sub_spec hw0 (P384.Q w) a (by rw [qt, ha.1.1]) qok ha.1.2
  have hbor := limbs_sub_borrow hw0 (P384.Q w) a (by rw [qt, ha.1.1]) qok ha.1.2
  rw [if_neg (by have := ha.2; omega)] at hbor
  rw [hbor, Nat.zero_mul, Nat.add_zero] at s4
  unfold P384.GFp_p384_elem_neg
  simp only []
  rw [LIMBS_are_zero_eq hw0 _ ha.1.2]
  have hq0 : 0 < LIMBS_val w (P384.Q w) := by have := ha.2; omega
  by_cases hz : LIMBS_val w a = 0
  · rw [if_pos hz, if_pos hz, map_select_ones, s1, qt]
    exact ⟨⟨⟨by simp, LIMBS_ok_replicate_zero w _⟩,
      by rw [LIMBS_val_replicate_zero]; exact hq0⟩, LIMBS_val_replicate_zero w _⟩
  · rw [if_neg hz, if_neg hz, map_select_zero s2]
    exact ⟨⟨⟨by rw [s1, qt], s2⟩, by omega⟩, by omega⟩

/-! ## Adding a point to itself and to its negative -/

theorem ones_ne_zero {w : Nat} (hw : 0 < w) : 2 ^ w - 1 ≠ 0 := by
  have := two_pow_pred hw
  have := two_pow_pos (w - 1)
  omega

theorem P384_is_equal_self {w : Nat} (hw : 0 < w) {x : List Nat} (hx : LIMBS_ok w x) :
    P384.is_equal w x x = 2 ^ w - 1 := LIMBS_equal_self hw x hx

theorem P384_is_zero_eq {w : Nat} (hw : 0 < w) {x : List Nat} (hx : LIMBS_ok w x) :
    P384.is_zero w x = if LIMBS_val w x = 0 then 2 ^ w - 1 else 0 :=
  LIMBS_are_zero_eq hw x hx

/-- Models `GFp_nistz384_point_add(r, P, P)` for a finite `P`: the exceptional branch
with `S1 = S2`, hence the doubling. -/
theorem P384_point_add_self_finite {w : Nat} (hw : w = 32 ∨ w = 64) {mm : BnMulMont}
    (hmm : IsMontMul w (P384.P384_LIMBS w) (P384.Q w) (P384.elem_mul_mont w mm))
    (P : POINT) (hX : P384.IsElem w P.X) (hY : P384.IsElem w P.Y) (hZ : P384.IsElem w P.Z)
    (hnz : LIMBS_val w P.Z ≠ 0) :
    P384.point_add_is_exceptional w mm P P = 2 ^ w - 1 ∧
    P384.point_add_S1_eq_S2 w mm P P = 2 ^ w - 1 ∧
    P384.GFp_nistz384_point_add w mm P P = P384.GFp_nistz384_point_double w mm P := by
  have hw0 := width_pos hw
  have mul : ∀ {x y}, P384.IsElem w x → P384.IsElem w y →
      P384.IsElem w (P384.elem_mul_mont w mm x y) := fun hx hy => P384_isElem_mul hmm hx hy
  have gZsqr : P384.IsElem w (P384.elem_sqr_mont w mm P.Z) := mul hZ hZ
  have gU := mul hX gZsqr
  have gS := mul (mul gZsqr hZ) hY
  have hinf : P384.is_zero w P.Z = 0 := by
    rw [P384_is_zero_eq hw0 hZ.1.2, if_neg hnz]
  have hexc : P384.point_add_is_exceptional w mm P P = 2 ^ w - 1 := by
    unfold P384.point_add_is_exceptional
    simp only [hinf, word_not_zero, P384_is_equal_self hw0 gU.1.2, Nat.and_self]
  have hseq : P384.point_add_S1_eq_S2 w mm P P = 2 ^ w - 1 := by
    unfold P384.point_add_S1_eq_S2
    simp only [P384_is_equal_self hw0 gS.1.2]
  refine ⟨hexc, hseq, ?_⟩
  unfold P384.point_add_is_exceptional at hexc
  unfold P384.point_add_S1_eq_S2 at hseq
  unfold P384.GFp_nistz384_point_add
  simp only [] at hexc hseq ⊢
  rw [if_pos (by rw [hexc]; exact ones_ne_zero hw0), if_pos (by rw [hseq]; exact ones_ne_zero hw0)]

/-- The `Z` coordinate computed by `GFp_nistz384_point_double` is `2 * Y * Z`
in the Montgomery domain, so it is zero when `Y` or `Z` is. -/
theorem P384_point_double_Z_zero {w : Nat} (hw : w = 32 ∨ w = 64) {mm : BnMulMont}
    (hmm : IsMontMul w (P384.P384_LIMBS w) (P384.Q w) (P384.elem_mul_mont w mm))
    (P : POINT) (hY : P384.IsElem w P.Y) (hZ : P384.IsElem w P.Z)
    (h0 : LIMBS_val w P.Z = 0 ∨ LIMBS_val w P.Y = 0) :
    LIMBS_val w (P384.GFp_nistz384_point_double w mm P).Z = 0 := by
  have hm := P384_mul_zero_left hw hmm hZ hY h0
  have hme := P384_isElem_mul hmm hZ hY
  obtain ⟨qt, qok⟩ := P384_Q_typed hw
  obtain ⟨-, -, h3⟩ := LIMBS_shl_mod_spec (width_pos hw) _ (P384.Q w)
    (by rw [hme.1.1]; exact P384_LIMBS_pos hw) (by rw [hme.1.1, qt]) hme.1.2 qok hme.2
  unfold P384.GFp_nistz384_point_double
  simp only []
  unfold P384.elem_mul_by_2
  rw [h3, hm]
  simp

/-- Models `GFp_nistz384_point_add(r, P, P)` for `P` at infinity returns `P`. -/
theorem P384_point_add_self_infinite {w : Nat} (hw : w = 32 ∨ w = 64) {mm : BnMulMont}
    (hmm : IsMontMul w (P384.P384_LIMBS w) (P384.Q w) (P384.elem_mul_mont w mm))
    (P : POINT) (hX : P384.IsElem w P.X) (hY : P384.IsElem w P.Y) (hZ : P384.IsElem w P.Z)
    (hz : LIMBS_val w P.Z = 0) :
    P384.point_add_is_exceptional w mm P P = 0 ∧
    P384.GFp_nistz384_point_add w mm P P = P :=
  P384_point_add_right_identity hw mm (P384.IsElem w) (fun _ h => h.1)
    (fun hx hy => P384_isElem_mul hmm hx hy) (fun hx hy => P384_isElem_sub hw hx hy)
    (fun hx => P384_isElem_mul_by_2 hw hx) P P hX hY hZ hX hY hZ hz

theorem P384_Q_prime {w : Nat} (hw : w = 32 ∨ w = 64) : Nat.Prime (LIMBS_val w (P384.Q w)) := by
  have e : LIMBS_val w (P384.Q w) = 39402006196394479212279040100143613805079739270465446667948293404245721771496870329047266088258938001861606973112319 := by
    rcases hw with rfl | rfl <;> decide
  rw [e]
  exact pocklington_prime_384

/-- A Montgomery product of two nonzero field elements is nonzero. -/
theorem P384_mul_ne_zero {w : Nat} (hw : w = 32 ∨ w = 64) {mm : BnMulMont}
    (hmm : IsMontMul w (P384.P384_LIMBS w) (P384.Q w) (P384.elem_mul_mont w mm))
    {x y : List Nat} (hx : P384.IsElem w x) (hy : P384.IsElem w y)
    (hx0 : LIMBS_val w x ≠ 0) (hy0 : LIMBS_val w y ≠ 0) :
    LIMBS_val w (P384.elem_mul_mont w mm x y) ≠ 0 := by
  obtain ⟨-, -, h3⟩ := hmm x y hx.1 hy.1 hx.2 hy.2
  intro h0
  rw [h0, Nat.zero_mul, Nat.zero_mod] at h3
  have hd : LIMBS_val w (P384.Q w) ∣ LIMBS_val w x * LIMBS_val w y :=
    Nat.dvd_of_mod_eq_zero h3.symm
  rcases (Nat.Prime.dvd_mul (P384_Q_prime hw)).1 hd with h | h
  · exact hx0 (Nat.eq_zero_of_dvd_of_lt h hx.2)
  · exact hy0 (Nat.eq_zero_of_dvd_of_lt h hy.2)

/-- Montgomery multiplication by a nonzero field element is injective. -/
theorem P384_mul_left_cancel {w : Nat} (hw : w = 32 ∨ w = 64) {mm : BnMulMont}
    (hmm : IsMontMul w (P384.P384_LIMBS w) (P384.Q w) (P384.elem_mul_mont w mm))
    {t y z : List Nat} (ht : P384.IsElem w t) (hy : P384.IsElem w y) (hz : P384.IsElem w z)
    (ht0 : LIMBS_val w t ≠ 0)
    (heq : P384.elem_mul_mont w mm t y = P384.elem_mul_mont w mm t z) :
    LIMBS_val w y = LIMBS_val w z := by
  obtain ⟨-, -, h3⟩ := hmm t y ht.1 hy.1 ht.2 hy.2
  obtain ⟨-, -, h4⟩ := hmm t z ht.1 hz.1 ht.2 hz.2
  rw [heq, h4] at h3
  have hco : Nat.Coprime (LIMBS_val w (P384.Q w)) (LIMBS_val w t) := by
    rw [Nat.Prime.coprime_iff_not_dvd (P384_Q_prime hw)]
    intro hd
    exact ht0 (Nat.eq_zero_of_dvd_of_lt hd ht.2)
  have hmod : LIMBS_val w z ≡ LIMBS_val w y [MOD LIMBS_val w (P384.Q w)] :=
    Nat.ModEq.cancel_left_of_coprime hco.gcd_eq_one h3
  have := Nat.ModEq.eq_of_lt_of_lt hmod hz.2 hy.2
  exact this.symm

/-- Models `GFp_nistz384_point_add(r, P, -P)` for a finite `P`. -/
theorem P384_point_add_neg {w : Nat} (hw : w = 32 ∨ w = 64) {mm : BnMulMont}
    (hmm : IsMontMul w (P384.P384_LIMBS w) (P384.Q w) (P384.elem_mul_mont w mm))
    (P : POINT) (hX : P384.IsElem w P.X) (hY : P384.IsElem w P.Y) (hZ : P384.IsElem w P.Z)
    (hnz : LIMBS_val w P.Z ≠ 0) :
    P384.point_add_is_exceptional w mm P
        { X := P.X, Y := P384.GFp_p384_elem_neg w P.Y, Z := P.Z } = 2 ^ w - 1 ∧
    LIMBS_val w (P384.GFp_nistz384_point_add w mm P
        { X := P.X, Y := P384.GFp_p384_elem_neg w P.Y, Z := P.Z }).Z = 0 ∧
    (LIMBS_val w P.Y ≠ 0 →
      P384.point_add_S1_eq_S2 w mm P
          { X := P.X, Y := P384.GFp_p384_elem_neg w P.Y, Z := P.Z } = 0 ∧
      P384.GFp_nistz384_point_add w mm P
          { X := P.X, Y := P384.GFp_p384_elem_neg w P.Y, Z := P.Z }
        = { X := limbs_zero (P384.P384_LIMBS w), Y := limbs_zero (P384.P384_LIMBS w),
            Z := limbs_zero (P384.P384_LIMBS w) }) := by
  have hw0 := width_pos hw
  have mul : ∀ {x y}, P384.IsElem w x → P384.IsElem w y →
      P384.IsElem w (P384.elem_mul_mont w mm x y) := fun hx hy => P384_isElem_mul hmm hx hy
  obtain ⟨gN, hNv⟩ := GFp_p384_elem_neg_spec hw hY
  have gZsqr : P384.IsElem w (P384.elem_sqr_mont w mm P.Z) := mul hZ hZ
  have gT := mul gZsqr hZ
  have gU := mul hX gZsqr
  have gS1 := mul gT hY
  have gS2 := mul gT gN
  have hT0 : LIMBS_val w (P384.elem_mul_mont w mm (P384.elem_sqr_mont w mm P.Z) P.Z) ≠ 0 :=
    P384_mul_ne_zero hw hmm gZsqr hZ (P384_mul_ne_zero hw hmm hZ hZ hnz hnz) hnz
  have hinf : P384.is_zero w P.Z = 0 := by
    rw [P384_is_zero_eq hw0 hZ.1.2, if_neg hnz]
  have hexc : P384.point_add_is_exceptional w mm P
      { X := P.X, Y := P384.GFp_p384_elem_neg w P.Y, Z := P.Z } = 2 ^ w - 1 := by
    unfold P384.point_add_is_exceptional
    simp only [hinf, word_not_zero, P384_is_equal_self hw0 gU.1.2, Nat.and_self]
  -- `S1 = S2` forces `Y = 0`
  have hS : P384.elem_mul_mont w mm
        (P384.elem_mul_mont w mm (P384.elem_sqr_mont w mm P.Z) P.Z) P.Y
      = P384.elem_mul_mont w mm
        (P384.elem_mul_mont w mm (P384.elem_sqr_mont w mm P.Z) P.Z)
        (P384.GFp_p384_elem_neg w P.Y) → LIMBS_val w P.Y = 0 := by
    intro heq
    have hv := P384_mul_left_cancel hw hmm gT hY gN hT0 heq
    rw [hNv] at hv
    by_contra hy0
    rw [if_neg hy0] at hv
    have := P384_Q_odd hw
    have := hY.2
    omega
  have hseq : P384.point_add_S1_eq_S2 w mm P
      { X := P.X, Y := P384.GFp_p384_elem_neg w P.Y, Z := P.Z }
      = if P384.elem_mul_mont w mm
          (P384.elem_mul_mont w mm (P384.elem_sqr_mont w mm P.Z) P.Z) P.Y
        = P384.elem_mul_mont w mm
          (P384.elem_mul_mont w mm (P384.elem_sqr_mont w mm P.Z) P.Z)
          (P384.GFp_p384_elem_neg w P.Y) then 2 ^ w - 1 else 0 := by
    unfold P384.point_add_S1_eq_S2 P384.is_equal
    simp only []
    rw [LIMBS_equal_eq hw0 _ _ (by rw [gS1.1.1, gS2.1.1]) gS1.1.2 gS2.1.2]
  have hadd : P384.GFp_nistz384_point_add w mm P
      { X := P.X, Y := P384.GFp_p384_elem_neg w P.Y, Z := P.Z }
      = if P384.point_add_S1_eq_S2 w mm P
          { X := P.X, Y := P384.GFp_p384_elem_neg w P.Y, Z := P.Z } ≠ 0
        then P384.GFp_nistz384_point_double w mm P
        else { X := limbs_zero (P384.P384_LIMBS w), Y := limbs_zero (P384.P384_LIMBS w),
               Z := limbs_zero (P384.P384_LIMBS w) } := by
    have hexc2 := hexc
    unfold P384.point_add_is_exceptional at hexc2
    unfold P384.GFp_nistz384_point_add P384.point_add_S1_eq_S2
    simp only [] at hexc2 ⊢
    rw [if_pos (by rw [hexc2]; exact ones_ne_zero hw0)]
  refine ⟨hexc, ?_, ?_⟩
  · rw [hadd, hseq]
    by_cases heq : P384.elem_mul_mont w mm
          (P384.elem_mul_mont w mm (P384.elem_sqr_mont w mm P.Z) P.Z) P.Y
        = P384.elem_mul_mont w mm
          (P384.elem_mul_mont w mm (P384.elem_sqr_mont w mm P.Z) P.Z)
          (P384.GFp_p384_elem_neg w P.Y)
    · rw [if_pos heq, if_pos (ones_ne_zero hw0)]
      exact P384_point_double_Z_zero hw hmm P hY hZ (Or.inr (hS heq))
    · rw [if_neg heq, if_neg (by simp)]
      exact LIMBS_val_replicate_zero w _
  · intro hy0
    have hne := mt hS hy0
    rw [hadd, hseq, if_neg hne, if_neg (by simp)]
    exact ⟨rfl, rfl⟩

/-! ## The field of P-384 -/

theorem P384_Q_val {w : Nat} (hw : w = 32 ∨ w = 64) : LIMBS_val w (P384.Q w) = P384.modulus := by
  rcases hw with rfl | rfl
  · decide
  · rfl

instance P384_modulus_prime : Fact (Nat.Prime P384.modulus) :=
  ⟨P384_Q_prime (Or.inr rfl)⟩

theorem P384_R_unit {w : Nat} (hw : w = 32 ∨ w = 64) :
    (((2 ^ w) ^ P384.P384_LIMBS w : Nat) : ZMod P384.modulus)
      * (((2 ^ w) ^ P384.P384_LIMBS w : Nat) : ZMod P384.modulus)⁻¹ = 1 := by
  apply ZMod.coe_mul_inv_eq_one
  rw [← P384_Q_val hw]
  exact P384_R_coprime hw

theorem P384_R_ne_zero {w : Nat} (hw : w = 32 ∨ w = 64) :
    (((2 ^ w) ^ P384.P384_LIMBS w : Nat) : ZMod P384.modulus) ≠ 0 := by
  intro h
  have := P384_R_unit hw
  rw [h, zero_mul] at this
  exact zero_ne_one this

theorem P384_Rinv_ne_zero {w : Nat} (hw : w = 32 ∨ w = 64) :
    (((2 ^ w) ^ P384.P384_LIMBS w : Nat) : ZMod P384.modulus)⁻¹ ≠ 0 :=
  inv_ne_zero (P384_R_ne_zero hw)

/-- The value of an array is recovered from the field element it stands for. -/
theorem P384_decode_mul_R {w : Nat} (hw : w = 32 ∨ w = 64) (a : List Nat) :
    P384.decode w a * (((2 ^ w) ^ P384.P384_LIMBS w : Nat) : ZMod P384.modulus)
      = (LIMBS_val w a : ZMod P384.modulus) := by
  unfold P384.decode
  rw [mul_assoc, mul_comm _⁻¹, P384_R_unit hw, mul_one]

theorem P384_cast_eq_iff {a b : Nat} (ha : a < P384.modulus) (hb : b < P384.modulus) :
    (a : ZMod P384.modulus) = (b : ZMod P384.modulus) ↔ a = b := by
  constructor
  · intro h
    have := (ZMod.natCast_eq_natCast_iff' a b P384.modulus).1 h
    rwa [Nat.mod_eq_of_lt ha, Nat.mod_eq_of_lt hb] at this
  · intro h; rw [h]

theorem P384_decode_eq_iff_val {w : Nat} (hw : w = 32 ∨ w = 64) {a b : List Nat}
    (ha : P384.IsElem w a) (hb : P384.IsElem w b) :
    P384.decode w a = P384.decode w b ↔ LIMBS_val w a = LIMBS_val w b := by
  unfold P384.decode
  rw [mul_left_inj' (P384_Rinv_ne_zero hw)]
  have h1 := ha.2
  have h2 := hb.2
  rw [P384_Q_val hw] at h1 h2
  exact P384_cast_eq_iff h1 h2

theorem P384_decode_eq_zero_iff {w : Nat} (hw : w = 32 ∨ w = 64) {a : List Nat}
    (ha : P384.IsElem w a) : P384.decode w a = 0 ↔ LIMBS_val w a = 0 := by
  unfold P384.decode
  rw [mul_eq_zero, or_iff_left (P384_Rinv_ne_zero hw)]
  have h1 := ha.2
  rw [P384_Q_val hw] at h1
  have h0 : 0 < P384.modulus := by omega
  have := P384_cast_eq_iff h1 h0
  simpa using this

theorem LIMBS_val_inj {w : Nat} : ∀ {a b : List Nat}, a.length = b.length → LIMBS_ok w a →
    LIMBS_ok w b → LIMBS_val w a = LIMBS_val w b → a = b := by
  intro a
  induction a with
  | nil => intro b hl _ _ _; cases b with
    | nil => rfl
    | cons y ys => simp at hl
  | cons x xs ih =>
    intro b hl ha hb hv
    cases b with
    | nil => simp at hl
    | cons y ys =>
      rw [LIMBS_ok_cons] at ha hb
      simp only [LIMBS_val] at hv
      have hp : 0 < 2 ^ w := Nat.pow_pos (by decide)
      have h1 : x = y := by
        have := congrArg (· % 2 ^ w) hv
        simp only [Nat.add_mul_mod_self_left] at this
        rwa [Nat.mod_eq_of_lt ha.1, Nat.mod_eq_of_lt hb.1] at this
      subst h1
      have h2 : LIMBS_val w xs = LIMBS_val w ys := by
        have : 2 ^ w * LIMBS_val w xs = 2 ^ w * LIMBS_val w ys := by omega
        exact Nat.eq_of_mul_eq_mul_left hp this
      rw [ih (by simpa using hl) ha.2 hb.2 h2]

theorem P384_decode_eq_iff {w : Nat} (hw : w = 32 ∨ w = 64) {a b : List Nat}
    (ha : P384.IsElem w a) (hb : P384.IsElem w b) :
    P384.decode w a = P384.decode w b ↔ a = b := by
  rw [P384_decode_eq_iff_val hw ha hb]
  constructor
  · intro h
    exact LIMBS_val_inj (ha.1.1.trans hb.1.1.symm) ha.1.2 hb.1.2 h
  · intro h; rw [h]

theorem P384_cast_mod (a : Nat) {w : Nat} (hw : w = 32 ∨ w = 64) :
    ((a % LIMBS_val w (P384.Q w) : Nat) : ZMod P384.modulus) = (a : ZMod P384.modulus) := by
  rw [P384_Q_val hw, ZMod.natCast_mod]

theorem P384_decode_sub {w : Nat} (hw : w = 32 ∨ w = 64) {x y : List Nat}
    (hx : P384.IsElem w x) (hy : P384.IsElem w y) :
    P384.decode w (P384.elem_sub w x y) = P384.decode w x - P384.decode w y := by
  obtain ⟨qt, qok⟩ := P384_Q_typed hw
  obtain ⟨-, -, h3⟩ := LIMBS_sub_mod_spec (width_pos hw) x y (P384.Q w)
    (by rw [hx.1.1, qt]) (by rw [hy.1.1, qt]) hx.1.2 hy.1.2 qok hx.2 hy.2
  unfold P384.decode P384.elem_sub
  rw [h3, ← sub_mul]
  congr 1
  have h1 := hx.2
  have h2 := hy.2
  split_ifs with h
  · rw [Nat.cast_sub (by omega), Nat.cast_add, P384_Q_val hw, ZMod.natCast_self, add_zero]
  · rw [Nat.cast_sub (by omega)]

theorem P384_isElem_add {w : Nat} (hw : w = 32 ∨ w = 64) {x y : List Nat}
    (hx : P384.IsElem w x) (hy : P384.IsElem w y) : P384.IsElem w (P384.elem_add w x y) := by
  obtain ⟨qt, qok⟩ := P384_Q_typed hw
  obtain ⟨h1, h2, h3⟩ := LIMBS_add_mod_spec (width_pos hw) x y (P384.Q w)
    (by rw [hx.1.1, qt]) (by rw [hy.1.1, qt]) hx.1.2 hy.1.2 qok hx.2 hy.2
  refine ⟨⟨by rw [← qt]; exact h1, h2⟩, ?_⟩
  unfold P384.elem_add
  rw [h3]
  exact Nat.mod_lt _ (by have := hx.2; omega)

theorem P384_decode_add {w : Nat} (hw : w = 32 ∨ w = 64) {x y : List Nat}
    (hx : P384.IsElem w x) (hy : P384.IsElem w y) :
    P384.decode w (P384.elem_add w x y) = P384.decode w x + P384.decode w y := by
  obtain ⟨qt, qok⟩ := P384_Q_typed hw
  obtain ⟨-, -, h3⟩ := LIMBS_add_mod_spec (width_pos hw) x y (P384.Q w)
    (by rw [hx.1.1, qt]) (by rw [hy.1.1, qt]) hx.1.2 hy.1.2 qok hx.2 hy.2
  unfold P384.decode P384.elem_add
  rw [h3, ← add_mul, P384_cast_mod _ hw, Nat.cast_add]

theorem P384_decode_mul_by_2 {w : Nat} (hw : w = 32 ∨ w = 64) {x : List Nat}
    (hx : P384.IsElem w x) :
    P384.decode w (P384.elem_mul_by_2 w x) = 2 * P384.decode w x := by
  obtain ⟨qt, qok⟩ := P384_Q_typed hw
  obtain ⟨-, -, h3⟩ := LIMBS_shl_mod_spec (width_pos hw) x (P384.Q w)
    (by rw [hx.1.1]; exact P384_LIMBS_pos hw) (by rw [hx.1.1, qt]) hx.1.2 qok hx.2
  unfold P384.decode P384.elem_mul_by_2
  rw [h3, P384_cast_mod _ hw, Nat.cast_mul, Nat.cast_ofNat, mul_assoc]

theorem P384_isElem_mul_by_3 {w : Nat} (hw : w = 32 ∨ w = 64) {x : List Nat}
    (hx : P384.IsElem w x) : P384.IsElem w (P384.elem_mul_by_3 w x) :=
  P384_isElem_add hw (P384_isElem_add hw hx hx) hx

theorem P384_decode_mul_by_3 {w : Nat} (hw : w = 32 ∨ w = 64) {x : List Nat}
    (hx : P384.IsElem w x) :
    P384.decode w (P384.elem_mul_by_3 w x) = 3 * P384.decode w x := by
  unfold P384.elem_mul_by_3
  simp only []
  rw [P384_decode_add hw (P384_isElem_add hw hx hx) hx, P384_decode_add hw hx hx]
  ring

theorem P384_decode_mul {w : Nat} (hw : w = 32 ∨ w = 64) {mm : BnMulMont}
    (hmm : IsMontMul w (P384.P384_LIMBS w) (P384.Q w) (P384.elem_mul_mont w mm))
    {x y : List Nat} (hx : P384.IsElem w x) (hy : P384.IsElem w y) :
    P384.decode w (P384.elem_mul_mont w mm x y) = P384.decode w x * P384.decode w y := by
  obtain ⟨-, -, h3⟩ := hmm x y hx.1 hy.1 hx.2 hy.2
  have h4 := congrArg (fun n : Nat => (n : ZMod P384.modulus)) h3
  simp only [P384_cast_mod _ hw, Nat.cast_mul] at h4
  have hR := P384_R_unit hw
  unfold P384.decode
  generalize (((2 ^ w) ^ P384.P384_LIMBS w : Nat) : ZMod P384.modulus) = R at *
  generalize (R⁻¹ : ZMod P384.modulus) = S at *
  calc (LIMBS_val w (P384.elem_mul_mont w mm x y) : ZMod P384.modulus) * S
      = ((LIMBS_val w (P384.elem_mul_mont w mm x y) : ZMod P384.modulus) * R) * S * S := by
        rw [mul_assoc _ R S, hR, mul_one]
    _ = _ := by rw [h4]; ring

theorem P384_decode_sqr {w : Nat} (hw : w = 32 ∨ w = 64) {mm : BnMulMont}
    (hmm : IsMontMul w (P384.P384_LIMBS w) (P384.Q w) (P384.elem_mul_mont w mm))
    {x : List Nat} (hx : P384.IsElem w x) :
    P384.decode w (P384.elem_sqr_mont w mm x) = P384.decode w x * P384.decode w x :=
  P384_decode_mul hw hmm hx hx

theorem P384_isElem_sqr {w : Nat} {mm : BnMulMont}
    (hmm : IsMontMul w (P384.P384_LIMBS w) (P384.Q w) (P384.elem_mul_mont w mm))
    {x : List Nat} (hx : P384.IsElem w x) : P384.IsElem w (P384.elem_sqr_mont w mm x) :=
  P384_isElem_mul hmm hx hx

theorem P384_two_ne_zero : (2 : ZMod P384.modulus) ≠ 0 := by
  intro h
  have h2 : ((2 : Nat) : ZMod P384.modulus) = ((0 : Nat) : ZMod P384.modulus) := by
    simpa using h
  have := (P384_cast_eq_iff (a := 2) (b := 0) (by decide) (by decide)).1 h2
  omega

theorem P384_isElem_div_by_2 {w : Nat} (hw : w = 32 ∨ w = 64) {x : List Nat}
    (hx : P384.IsElem w x) : P384.IsElem w (P384.elem_div_by_2 w x) := by
  obtain ⟨h1, h2, -⟩ := P384_elem_div_by_2_spec hw hx.1 hx.2
  refine ⟨h1, ?_⟩
  rw [h2]
  have hodd := P384_Q_odd hw
  have := hx.2
  split_ifs <;> omega

theorem P384_decode_div_by_2 {w : Nat} (hw : w = 32 ∨ w = 64) {x : List Nat}
    (hx : P384.IsElem w x) :
    2 * P384.decode w (P384.elem_div_by_2 w x) = P384.decode w x := by
  obtain ⟨-, h2, -⟩ := P384_elem_div_by_2_spec hw hx.1 hx.2
  unfold P384.decode
  rw [h2, ← mul_assoc]
  congr 1
  have hodd := P384_Q_odd hw
  have hq : ((LIMBS_val w (P384.Q w) : Nat) : ZMod P384.modulus) = 0 := by
    rw [P384_Q_val hw, ZMod.natCast_self]
  split_ifs with h
  · have h3 : 2 * (LIMBS_val w x / 2) = LIMBS_val w x := by omega
    have := congrArg (fun n : Nat => (n : ZMod P384.modulus)) h3
    simpa using this
  · have h3 : 2 * (LIMBS_val w x / 2 + (LIMBS_val w (P384.Q w) + 1) / 2)
        = LIMBS_val w x + LIMBS_val w (P384.Q w) := by omega
    have := congrArg (fun n : Nat => (n : ZMod P384.modulus)) h3
    simp only [Nat.cast_add, Nat.cast_mul, hq, add_zero] at this
    simpa using this

theorem P384_decode_neg {w : Nat} (hw : w = 32 ∨ w = 64) {x : List Nat}
    (hx : P384.IsElem w x) :
    P384.decode w (P384.GFp_p384_elem_neg w x) = - P384.decode w x := by
  obtain ⟨-, h2⟩ := GFp_p384_elem_neg_spec hw hx
  unfold P384.decode
  rw [h2, ← neg_mul]
  congr 1
  have := hx.2
  split_ifs with h
  · rw [h]; simp
  · rw [Nat.cast_sub (by omega), P384_Q_val hw, ZMod.natCast_self, zero_sub]

theorem P384_isElem_zero {w : Nat} (hw : w = 32 ∨ w = 64) :
    P384.IsElem w (limbs_zero (P384.P384_LIMBS w)) := by
  refine ⟨⟨by simp [limbs_zero], LIMBS_ok_replicate_zero w _⟩, ?_⟩
  unfold limbs_zero
  rw [LIMBS_val_replicate_zero, P384_Q_val hw]
  decide

theorem P384_decode_zero (w : Nat) :
    P384.decode w (limbs_zero (P384.P384_LIMBS w)) = 0 := by
  unfold P384.decode limbs_zero
  rw [LIMBS_val_replicate_zero]; simp

theorem P384_isElem_ONE {w : Nat} (hw : w = 32 ∨ w = 64) : P384.IsElem w (P384.ONE w) := by
  rcases hw with rfl | rfl <;> decide

theorem P384_decode_ONE {w : Nat} (hw : w = 32 ∨ w = 64) : P384.decode w (P384.ONE w) = 1 := by
  unfold P384.decode
  have h : (LIMBS_val w (P384.ONE w) : ZMod P384.modulus)
      = (((2 ^ w) ^ P384.P384_LIMBS w : Nat) : ZMod P384.modulus) := by
    rw [ZMod.natCast_eq_natCast_iff']
    rcases hw with rfl | rfl <;> decide
  rw [h]
  exact P384_R_unit hw

section CurveArithmetic

open WeierstrassCurve.Jacobian

/-! ## Field operations on encoded elements -/

theorem P384_encodes_self {w : Nat} {a : List Nat} (ha : P384.IsElem w a) :
    P384.Encodes w a (P384.decode w a) := ⟨ha, rfl⟩

theorem P384_encodes_mul {w : Nat} (hw : w = 32 ∨ w = 64) {mm : BnMulMont}
    (hmm : IsMontMul w (P384.P384_LIMBS w) (P384.Q w) (P384.elem_mul_mont w mm))
    {a b : List Nat} {u v : ZMod P384.modulus}
    (ha : P384.Encodes w a u) (hb : P384.Encodes w b v) :
    P384.Encodes w (P384.elem_mul_mont w mm a b) (u * v) :=
  ⟨P384_isElem_mul hmm ha.1 hb.1, by rw [P384_decode_mul hw hmm ha.1 hb.1, ha.2, hb.2]⟩

theorem P384_encodes_sqr {w : Nat} (hw : w = 32 ∨ w = 64) {mm : BnMulMont}
    (hmm : IsMontMul w (P384.P384_LIMBS w) (P384.Q w) (P384.elem_mul_mont w mm))
    {a : List Nat} {u : ZMod P384.modulus} (ha : P384.Encodes w a u) :
    P384.Encodes w (P384.elem_sqr_mont w mm a) (u * u) :=
  P384_encodes_mul hw hmm ha ha

theorem P384_encodes_add {w : Nat} (hw : w = 32 ∨ w = 64)
    {a b : List Nat} {u v : ZMod P384.modulus}
    (ha : P384.Encodes w a u) (hb : P384.Encodes w b v) :
    P384.Encodes w (P384.elem_add w a b) (u + v) :=
  ⟨P384_isElem_add hw ha.1 hb.1, by rw [P384_decode_add hw ha.1 hb.1, ha.2, hb.2]⟩

theorem P384_encodes_sub {w : Nat} (hw : w = 32 ∨ w = 64)
    {a b : List Nat} {u v : ZMod P384.modulus}
    (ha : P384.Encodes w a u) (hb : P384.Encodes w b v) :
    P384.Encodes w (P384.elem_sub w a b) (u - v) :=
  ⟨P384_isElem_sub hw ha.1 hb.1, by rw [P384_decode_sub hw ha.1 hb.1, ha.2, hb.2]⟩

theorem P384_encodes_mul_by_2 {w : Nat} (hw : w = 32 ∨ w = 64)
    {a : List Nat} {u : ZMod P384.modulus} (ha : P384.Encodes w a u) :
    P384.Encodes w (P384.elem_mul_by_2 w a) (2 * u) :=
  ⟨P384_isElem_mul_by_2 hw ha.1, by rw [P384_decode_mul_by_2 hw ha.1, ha.2]⟩

theorem P384_encodes_mul_by_3 {w : Nat} (hw : w = 32 ∨ w = 64)
    {a : List Nat} {u : ZMod P384.modulus} (ha : P384.Encodes w a u) :
    P384.Encodes w (P384.elem_mul_by_3 w a) (3 * u) :=
  ⟨P384_isElem_mul_by_3 hw ha.1, by rw [P384_decode_mul_by_3 hw ha.1, ha.2]⟩

theorem P384_encodes_div_by_2 {w : Nat} (hw : w = 32 ∨ w = 64)
    {a : List Nat} {u : ZMod P384.modulus} (ha : P384.Encodes w a u) :
    P384.Encodes w (P384.elem_div_by_2 w a) (u / 2) := by
  refine ⟨P384_isElem_div_by_2 hw ha.1, ?_⟩
  rw [eq_div_iff P384_two_ne_zero, mul_comm, P384_decode_div_by_2 hw ha.1, ha.2]

theorem P384_encodes_neg {w : Nat} (hw : w = 32 ∨ w = 64)
    {a : List Nat} {u : ZMod P384.modulus} (ha : P384.Encodes w a u) :
    P384.Encodes w (P384.GFp_p384_elem_neg w a) (-u) :=
  ⟨(GFp_p384_elem_neg_spec hw ha.1).1, by rw [P384_decode_neg hw ha.1, ha.2]⟩

/-! ## Doubling computes the doubling formulae of the curve -/

theorem vec3_congr {F : Type} {a b c a1 b1 c1 : F} (h1 : a = a1) (h2 : b = b1) (h3 : c = c1) :
    ![a, b, c] = ![a1, b1, c1] := by
  rw [h1, h2, h3]


/-- The three coordinates of a point are field elements. -/
theorem P384_point_double_encodes {w : Nat} (hw : w = 32 ∨ w = 64) {mm : BnMulMont}
    (hmm : IsMontMul w (P384.P384_LIMBS w) (P384.Q w) (P384.elem_mul_mont w mm))
    (b : ZMod P384.modulus) (p : POINT)
    (hX : P384.IsElem w p.X) (hY : P384.IsElem w p.Y) (hZ : P384.IsElem w p.Z) :
    (P384.IsElem w (P384.GFp_nistz384_point_double w mm p).X ∧
     P384.IsElem w (P384.GFp_nistz384_point_double w mm p).Y ∧
     P384.IsElem w (P384.GFp_nistz384_point_double w mm p).Z) ∧
    P384.decodePoint w (P384.GFp_nistz384_point_double w mm p)
      = dblXYZ (P384.curve b) (P384.decodePoint w p) := by
  have eX := P384_encodes_self hX
  have eY := P384_encodes_self hY
  have eZ := P384_encodes_self hZ
  generalize P384.decode w p.X = x at eX
  generalize P384.decode w p.Y = y at eY
  generalize P384.decode w p.Z = z at eZ
  have S1 := P384_encodes_mul_by_2 hw eY
  have Zsqr1 := P384_encodes_sqr hw hmm eZ
  have S2 := P384_encodes_sqr hw hmm S1
  have rz1 := P384_encodes_mul hw hmm eZ eY
  have rz2 := P384_encodes_mul_by_2 hw rz1
  have M1 := P384_encodes_add hw eX Zsqr1
  have Zsqr2 := P384_encodes_sub hw eX Zsqr1
  have ry1 := P384_encodes_sqr hw hmm S2
  have ry2 := P384_encodes_div_by_2 hw ry1
  have M2 := P384_encodes_mul hw hmm M1 Zsqr2
  have M3 := P384_encodes_mul_by_3 hw M2
  have S3 := P384_encodes_mul hw hmm S2 eX
  have tmp0 := P384_encodes_mul_by_2 hw S3
  have rx1 := P384_encodes_sqr hw hmm M3
  have rx2 := P384_encodes_sub hw rx1 tmp0
  have S4 := P384_encodes_sub hw S3 rx2
  have S5 := P384_encodes_mul hw hmm S4 M3
  have ry3 := P384_encodes_sub hw S5 ry2
  refine ⟨⟨rx2.1, ry3.1, rz2.1⟩, ?_⟩
  unfold P384.decodePoint
  have hx : P384.decode w (P384.GFp_nistz384_point_double w mm p).X = _ := rx2.2
  have hy : P384.decode w (P384.GFp_nistz384_point_double w mm p).Y = _ := ry3.2
  have hz : P384.decode w (P384.GFp_nistz384_point_double w mm p).Z = _ := rz2.2
  rw [hx, hy, hz, eX.2, eY.2, eZ.2]
  have h2 : (2 : ZMod P384.modulus) ≠ 0 := P384_two_ne_zero
  simp only [dblXYZ, dblX, dblY, negDblY, dblZ, dblU_eq, negY, P384.curve,
    Matrix.cons_val_zero, Matrix.cons_val_one, Matrix.head_cons, Matrix.cons_val_two,
    Matrix.tail_cons]
  refine vec3_congr ?_ ?_ ?_
  · ring
  · field_simp
    ring
  · ring

/-! ## Addition of two finite points -/

theorem P384_is_equal_eq {w : Nat} (hw : w = 32 ∨ w = 64) {x y : List Nat}
    (hx : P384.IsElem w x) (hy : P384.IsElem w y) :
    P384.is_equal w x y = if P384.decode w x = P384.decode w y then 2 ^ w - 1 else 0 := by
  unfold P384.is_equal
  rw [LIMBS_equal_eq (width_pos hw) _ _ (by rw [hx.1.1, hy.1.1]) hx.1.2 hy.1.2]
  simp only [P384_decode_eq_iff hw hx hy]

/-- The three branches of `GFp_nistz384_point_add` on two inputs with `Z ≠ 0`,
in terms of the field elements the coordinates stand for. -/
theorem P384_point_add_finite {w : Nat} (hw : w = 32 ∨ w = 64) {mm : BnMulMont}
    (hmm : IsMontMul w (P384.P384_LIMBS w) (P384.Q w) (P384.elem_mul_mont w mm))
    (p q : POINT) {x1 y1 z1 x2 y2 z2 : ZMod P384.modulus}
    (eX1 : P384.Encodes w p.X x1) (eY1 : P384.Encodes w p.Y y1) (eZ1 : P384.Encodes w p.Z z1)
    (eX2 : P384.Encodes w q.X x2) (eY2 : P384.Encodes w q.Y y2) (eZ2 : P384.Encodes w q.Z z2)
    (hz1 : z1 ≠ 0) (hz2 : z2 ≠ 0) :
    (x1 * z2 ^ 2 = x2 * z1 ^ 2 → y1 * z2 ^ 3 = y2 * z1 ^ 3 →
      P384.GFp_nistz384_point_add w mm p q = P384.GFp_nistz384_point_double w mm p) ∧
    (x1 * z2 ^ 2 = x2 * z1 ^ 2 → y1 * z2 ^ 3 ≠ y2 * z1 ^ 3 →
      P384.GFp_nistz384_point_add w mm p q
        = { X := limbs_zero (P384.P384_LIMBS w), Y := limbs_zero (P384.P384_LIMBS w),
            Z := limbs_zero (P384.P384_LIMBS w) }) ∧
    (x1 * z2 ^ 2 ≠ x2 * z1 ^ 2 →
      P384.Encodes w (P384.GFp_nistz384_point_add w mm p q).X
        ((y2 * z1 ^ 3 - y1 * z2 ^ 3) ^ 2 - 2 * (x1 * z2 ^ 2) * (x2 * z1 ^ 2 - x1 * z2 ^ 2) ^ 2
          - (x2 * z1 ^ 2 - x1 * z2 ^ 2) ^ 3) ∧
      P384.Encodes w (P384.GFp_nistz384_point_add w mm p q).Y
        ((y2 * z1 ^ 3 - y1 * z2 ^ 3) * ((x1 * z2 ^ 2) * (x2 * z1 ^ 2 - x1 * z2 ^ 2) ^ 2
            - ((y2 * z1 ^ 3 - y1 * z2 ^ 3) ^ 2
                - 2 * (x1 * z2 ^ 2) * (x2 * z1 ^ 2 - x1 * z2 ^ 2) ^ 2
                - (x2 * z1 ^ 2 - x1 * z2 ^ 2) ^ 3))
          - y1 * z2 ^ 3 * (x2 * z1 ^ 2 - x1 * z2 ^ 2) ^ 3) ∧
      P384.Encodes w (P384.GFp_nistz384_point_add w mm p q).Z
        ((x2 * z1 ^ 2 - x1 * z2 ^ 2) * z1 * z2)) := by
  have hw0 := width_pos hw
  have Z2sqr := P384_encodes_sqr hw hmm eZ2
  have Z1sqr := P384_encodes_sqr hw hmm eZ1
  have S1a := P384_encodes_mul hw hmm Z2sqr eZ2
  have S2a := P384_encodes_mul hw hmm Z1sqr eZ1
  have S1 := P384_encodes_mul hw hmm S1a eY1
  have S2 := P384_encodes_mul hw hmm S2a eY2
  have R := P384_encodes_sub hw S2 S1
  have U1 := P384_encodes_mul hw hmm eX1 Z2sqr
  have U2 := P384_encodes_mul hw hmm eX2 Z1sqr
  have H := P384_encodes_sub hw U2 U1
  have Rsqr := P384_encodes_sqr hw hmm R
  have rz1 := P384_encodes_mul hw hmm H eZ1
  have Hsqr := P384_encodes_sqr hw hmm H
  have rz2 := P384_encodes_mul hw hmm rz1 eZ2
  have Hcub := P384_encodes_mul hw hmm Hsqr H
  have U2b := P384_encodes_mul hw hmm U1 Hsqr
  have Hsqr2 := P384_encodes_mul_by_2 hw U2b
  have rx1 := P384_encodes_sub hw Rsqr Hsqr2
  have rx2 := P384_encodes_sub hw rx1 Hcub
  have ry1 := P384_encodes_sub hw U2b rx2
  have S2b := P384_encodes_mul hw hmm S1 Hcub
  have ry2 := P384_encodes_mul hw hmm R ry1
  have ry3 := P384_encodes_sub hw ry2 S2b
  have hinf1 : P384.is_zero w p.Z = 0 := by
    rw [P384_is_zero_eq hw0 eZ1.1.1.2, if_neg]
    rw [← P384_decode_eq_zero_iff hw eZ1.1, eZ1.2]; exact hz1
  have hinf2 : P384.is_zero w q.Z = 0 := by
    rw [P384_is_zero_eq hw0 eZ2.1.1.2, if_neg]
    rw [← P384_decode_eq_zero_iff hw eZ2.1, eZ2.2]; exact hz2
  have hU : P384.is_equal w (P384.elem_mul_mont w mm p.X (P384.elem_sqr_mont w mm q.Z))
      (P384.elem_mul_mont w mm q.X (P384.elem_sqr_mont w mm p.Z))
      = if x1 * z2 ^ 2 = x2 * z1 ^ 2 then 2 ^ w - 1 else 0 := by
    rw [P384_is_equal_eq hw U1.1 U2.1, U1.2, U2.2]
    simp only [pow_two]
  have hS : P384.is_equal w
      (P384.elem_mul_mont w mm (P384.elem_mul_mont w mm (P384.elem_sqr_mont w mm q.Z) q.Z) p.Y)
      (P384.elem_mul_mont w mm (P384.elem_mul_mont w mm (P384.elem_sqr_mont w mm p.Z) p.Z) q.Y)
      = if y1 * z2 ^ 3 = y2 * z1 ^ 3 then 2 ^ w - 1 else 0 := by
    rw [P384_is_equal_eq hw S1.1 S2.1, S1.2, S2.2]
    have e1 : z2 * z2 * z2 * y1 = y1 * z2 ^ 3 := by ring
    have e2 : z1 * z1 * z1 * y2 = y2 * z1 ^ 3 := by ring
    rw [e1, e2]
  have hones : (2 ^ w - 1) &&& (2 ^ w - 1) = 2 ^ w - 1 := Nat.and_self _
  refine ⟨?_, ?_, ?_⟩
  · intro hx hy
    unfold P384.GFp_nistz384_point_add
    simp only []
    rw [hU, hS, if_pos hx, if_pos hy, hinf1, hinf2, word_not_zero, hones, hones,
      if_pos (ones_ne_zero hw0), if_pos (ones_ne_zero hw0)]
  · intro hx hy
    unfold P384.GFp_nistz384_point_add
    simp only []
    rw [hU, hS, if_pos hx, if_neg hy, hinf1, hinf2, word_not_zero, hones, hones,
      if_pos (ones_ne_zero hw0), if_neg (by simp)]
  · intro hx
    unfold P384.GFp_nistz384_point_add
    simp only []
    rw [hU, if_neg hx, hinf1, hinf2, word_not_zero, Nat.zero_and, Nat.zero_and,
      if_neg (by simp),
      P384_copy_conditional_false _ q.X (by rw [rx2.1.1.1, eX2.1.1.1]) rx2.1.1.2,
      P384_copy_conditional_false _ q.Y (by rw [ry3.1.1.1, eY2.1.1.1]) ry3.1.1.2,
      P384_copy_conditional_false _ q.Z (by rw [rz2.1.1.1, eZ2.1.1.1]) rz2.1.1.2,
      P384_copy_conditional_false _ p.X (by rw [rx2.1.1.1, eX1.1.1.1]) rx2.1.1.2,
      P384_copy_conditional_false _ p.Y (by rw [ry3.1.1.1, eY1.1.1.1]) ry3.1.1.2,
      P384_copy_conditional_false _ p.Z (by rw [rz2.1.1.1, eZ1.1.1.1]) rz2.1.1.2]
    refine ⟨⟨rx2.1, ?_⟩, ⟨ry3.1, ?_⟩, ⟨rz2.1, ?_⟩⟩
    · rw [rx2.2]; ring
    · rw [ry3.2]; ring
    · rw [rz2.2]; ring

/-! ## The point operations are the group operations of the curve -/

theorem P384_decodePoint_Z (w : Nat) (p : POINT) :
    P384.decodePoint w p 2 = P384.decode w p.Z := rfl

theorem P384_represents_of_Z_eq_zero {w : Nat} (b : ZMod P384.modulus) {p : POINT}
    (hX : P384.IsElem w p.X) (hY : P384.IsElem w p.Y) (hZ : P384.IsElem w p.Z)
    (hz : P384.decode w p.Z = 0) : P384.Represents w b p 0 :=
  ⟨⟨hX, hY, hZ⟩, fun h => absurd hz h, Point.toAffine_of_Z_eq_zero hz⟩

theorem P384_represents_zero_of_Z {w : Nat} {b : ZMod P384.modulus} {p : POINT}
    {A : (P384.curve b).toAffine.Point} (hp : P384.Represents w b p A)
    (hz : P384.decode w p.Z = 0) : A = 0 := by
  rw [← hp.2.2]
  exact Point.toAffine_of_Z_eq_zero hz

/-- The point `(0, 0, 0)` stands for the point at infinity. -/
theorem P384_represents_zero {w : Nat} (hw : w = 32 ∨ w = 64) (b : ZMod P384.modulus) :
    P384.Represents w b
      { X := limbs_zero (P384.P384_LIMBS w), Y := limbs_zero (P384.P384_LIMBS w),
        Z := limbs_zero (P384.P384_LIMBS w) } 0 :=
  P384_represents_of_Z_eq_zero b (P384_isElem_zero hw) (P384_isElem_zero hw)
    (P384_isElem_zero hw) (P384_decode_zero w)

/-- Doubling: `GFp_nistz384_point_double` maps a representative of `A` to a
representative of `A + A`. -/
theorem P384_point_double_represents {w : Nat} (hw : w = 32 ∨ w = 64) {mm : BnMulMont}
    (hmm : IsMontMul w (P384.P384_LIMBS w) (P384.Q w) (P384.elem_mul_mont w mm))
    {b : ZMod P384.modulus} {p : POINT} {A : (P384.curve b).toAffine.Point}
    (hp : P384.Represents w b p A) :
    P384.Represents w b (P384.GFp_nistz384_point_double w mm p) (A + A) := by
  obtain ⟨⟨hX, hY, hZ⟩, hns, hA⟩ := hp
  obtain ⟨hel, hdec⟩ := P384_point_double_encodes hw hmm b p hX hY hZ
  by_cases hz : P384.decode w p.Z = 0
  · have hz3 : P384.decode w (P384.GFp_nistz384_point_double w mm p).Z = 0 := by
      rw [← P384_decodePoint_Z, hdec]
      exact dblZ_of_Z_eq_zero hz
    have hA0 : A = 0 := by
      rw [← hA]; exact Point.toAffine_of_Z_eq_zero hz
    rw [hA0, add_zero]
    exact P384_represents_of_Z_eq_zero b hel.1 hel.2.1 hel.2.2 hz3
  · have hP := hns hz
    refine ⟨hel, fun _ => ?_, ?_⟩
    · rw [hdec, ← add_self]
      exact nonsingular_add hP hP
    · rw [hdec, ← add_self, Point.toAffine_add hP hP, hA]

/-- Addition: `GFp_nistz384_point_add` maps representatives of `A` and `B` to a
representative of `A + B`. -/
theorem P384_point_add_represents {w : Nat} (hw : w = 32 ∨ w = 64) {mm : BnMulMont}
    (hmm : IsMontMul w (P384.P384_LIMBS w) (P384.Q w) (P384.elem_mul_mont w mm))
    {b : ZMod P384.modulus} {p q : POINT} {A B : (P384.curve b).toAffine.Point}
    (hp : P384.Represents w b p A) (hq : P384.Represents w b q B) :
    P384.Represents w b (P384.GFp_nistz384_point_add w mm p q) (A + B) := by
  have hisE := fun (x : List Nat) (h : P384.IsElem w x) => h.1
  by_cases hz2 : P384.decode w q.Z = 0
  · -- the second operand is the point at infinity
    have h := (P384_point_add_right_identity hw mm (P384.IsElem w) hisE
      (fun hx hy => P384_isElem_mul hmm hx hy) (fun hx hy => P384_isElem_sub hw hx hy)
      (fun hx => P384_isElem_mul_by_2 hw hx) p q hp.1.1 hp.1.2.1 hp.1.2.2
      hq.1.1 hq.1.2.1 hq.1.2.2 ((P384_decode_eq_zero_iff hw hq.1.2.2).1 hz2)).2
    rw [h, P384_represents_zero_of_Z hq hz2, add_zero]
    exact hp
  by_cases hz1 : P384.decode w p.Z = 0
  · -- the first operand is the point at infinity
    have h := (P384_point_add_left_identity hw mm (P384.IsElem w) hisE
      (fun hx hy => P384_isElem_mul hmm hx hy) (fun hx hy => P384_isElem_sub hw hx hy)
      (fun hx => P384_isElem_mul_by_2 hw hx) p q hp.1.1 hp.1.2.1 hp.1.2.2
      hq.1.1 hq.1.2.1 hq.1.2.2 ((P384_decode_eq_zero_iff hw hp.1.2.2).1 hz1)
      (fun h0 => hz2 ((P384_decode_eq_zero_iff hw hq.1.2.2).2 h0))).2
    rw [h, P384_represents_zero_of_Z hp hz1, zero_add]
    exact hq
  -- both operands are finite
  have hP := hp.2.1 hz1
  have hQ := hq.2.1 hz2
  obtain ⟨c1, c2, c3⟩ := P384_point_add_finite hw hmm p q
    (P384_encodes_self hp.1.1) (P384_encodes_self hp.1.2.1) (P384_encodes_self hp.1.2.2)
    (P384_encodes_self hq.1.1) (P384_encodes_self hq.1.2.1) (P384_encodes_self hq.1.2.2)
    hz1 hz2
  have hPz : P384.decodePoint w p 2 ≠ 0 := hz1
  have hQz : P384.decodePoint w q 2 ≠ 0 := hz2
  by_cases hx : P384.decode w p.X * P384.decode w q.Z ^ 2
      = P384.decode w q.X * P384.decode w p.Z ^ 2
  · by_cases hy : P384.decode w p.Y * P384.decode w q.Z ^ 3
        = P384.decode w q.Y * P384.decode w p.Z ^ 3
    · -- the same point: the code doubles
      rw [c1 hx hy]
      have heq : P384.decodePoint w p ≈ P384.decodePoint w q :=
        equiv_of_X_eq_of_Y_eq hPz hQz hx hy
      have hAB : A = B := by
        rw [← hp.2.2, ← hq.2.2]; exact Point.toAffine_of_equiv heq
      rw [← hAB]
      exact P384_point_double_represents hw hmm hp
    · -- opposite points: the code returns `(0, 0, 0)`
      rw [c2 hx hy]
      have h0 : A + B = 0 := by
        rw [← hp.2.2, ← hq.2.2, ← Point.toAffine_add hP hQ,
          add_of_Y_ne hP.1 hQ.1 hPz hQz hx hy,
          Point.toAffine_smul _ (isUnit_addU_of_Y_ne hPz hQz hy), Point.toAffine_zero]
      rw [h0]
      exact P384_represents_zero hw b
  · -- the generic case
    obtain ⟨e1, e2, e3⟩ := c3 hx
    have hu : IsUnit (-(P384.decode w p.Z * P384.decode w q.Z)) :=
      (Ne.isUnit (mul_ne_zero hz1 hz2)).neg
    have hne : ¬ P384.decodePoint w p ≈ P384.decodePoint w q := not_equiv_of_X_ne hx
    have hxe := addX_eq' hP.1 hQ.1
    have hye := @negAddY_eq' _ (P384.curve b) _ (P384.decodePoint w p)
      (P384.decodePoint w q)
    have hdec : P384.decodePoint w (P384.GFp_nistz384_point_add w mm p q)
        = (-(P384.decode w p.Z * P384.decode w q.Z)) •
            (P384.curve b).toJacobian.add (P384.decodePoint w p) (P384.decodePoint w q) := by
      rw [add_of_not_equiv hne, smul_fin3]
      unfold P384.decodePoint at hxe hye ⊢
      rw [e1.2, e2.2, e3.2]
      simp only [addXYZ, addY, negY, addZ, P384.curve,
        Matrix.cons_val_zero, Matrix.cons_val_one, Matrix.head_cons, Matrix.cons_val_two,
        Matrix.tail_cons] at hxe hye ⊢
      refine vec3_congr ?_ ?_ ?_
      · linear_combination (-1 : ZMod P384.modulus) * hxe
      · linear_combination (-1 : ZMod P384.modulus) * hye
          + (P384.decode w q.Y * P384.decode w p.Z ^ 3
              - P384.decode w p.Y * P384.decode w q.Z ^ 3) * hxe
      · ring
    refine ⟨⟨e1.1, e2.1, e3.1⟩, fun _ => ?_, ?_⟩
    · rw [hdec]
      exact (nonsingular_smul _ hu).2 (nonsingular_add hP hQ)
    · rw [hdec, Point.toAffine_smul _ hu, Point.toAffine_add hP hQ, hp.2.2, hq.2.2]

/-! ## Table selection -/

theorem P384_select_limbs_eq (w c : Nat) (e x : List Nat) :
    P384.select_limbs w c e x = P384.copy_conditional w x e c := by
  unfold P384.select_limbs P384.copy_conditional
  rw [List.zipWith_comm]

/-- The scan of `gfp_p384_point_select_w5` over the entries numbered
`i + 1, i + 2, ...`: the entry numbered `index` is returned if there is one, the
accumulator otherwise. -/
theorem P384_point_select_loop_spec {w : Nat} (hw : 0 < w) (n index : Nat)
    (hidx : index < 2 ^ w) :
    ∀ (table : List POINT) (i : Nat) (acc : POINT), i + table.length < 2 ^ w →
      (∀ t ∈ table, IsPoint w n t) → IsPoint w n acc →
      P384.point_select_loop w index table i acc
        = if h : i < index ∧ index ≤ i + table.length
          then table.get ⟨index - i - 1, by omega⟩ else acc := by
  intro table
  induction table with
  | nil =>
    intro i acc _ _ _
    rw [dif_neg (by simp only [List.length_nil]; omega)]
    rfl
  | cons t rest ih =>
    intro i acc hlen ht hacc
    simp only [List.length_cons] at hlen
    have hi1 : word_add w i 1 = i + 1 := by
      unfold word_add; exact Nat.mod_eq_of_lt (by omega)
    have htp := ht t (List.mem_cons_self _ _)
    have hrest : ∀ t ∈ rest, IsPoint w n t := fun u hu => ht u (List.mem_cons_of_mem _ hu)
    unfold P384.point_select_loop
    simp only [P384_select_limbs_eq, hi1]
    rw [constant_time_eq_w_eq hw hidx (by omega)]
    by_cases heq : index = i + 1
    · rw [if_pos heq]
      rw [P384_copy_conditional_true _ _ (by rw [hacc.1.1, htp.1.1]) htp.1.2,
        P384_copy_conditional_true _ _ (by rw [hacc.2.1.1, htp.2.1.1]) htp.2.1.2,
        P384_copy_conditional_true _ _ (by rw [hacc.2.2.1, htp.2.2.1]) htp.2.2.2]
      rw [ih (i + 1) _ (by omega) hrest htp, dif_neg (by omega),
        dif_pos (by simp only [List.length_cons]; omega)]
      have h0 : index - i - 1 = 0 := by omega
      simp only [h0]
      rfl
    · rw [if_neg heq]
      rw [P384_copy_conditional_false _ _ (by rw [hacc.1.1, htp.1.1]) hacc.1.2,
        P384_copy_conditional_false _ _ (by rw [hacc.2.1.1, htp.2.1.1]) hacc.2.1.2,
        P384_copy_conditional_false _ _ (by rw [hacc.2.2.1, htp.2.2.1]) hacc.2.2.2]
      rw [ih (i + 1) _ (by omega) hrest hacc]
      by_cases hc : i < index ∧ index ≤ i + (t :: rest).length
      · have hc2 : i + 1 < index ∧ index ≤ i + 1 + rest.length := by
          simp only [List.length_cons] at hc; omega
        rw [dif_pos hc, dif_pos hc2]
        have h1 : index - i - 1 = (index - (i + 1) - 1) + 1 := by omega
        simp only [h1]
        rfl
      · have hc2 : ¬ (i + 1 < index ∧ index ≤ i + 1 + rest.length) := by
          simp only [List.length_cons] at hc; omega
        rw [dif_neg hc, dif_neg hc2]

/-- The selection `gfp_p384_point_select_w5(table, index)`: entry
`table[index - 1]` for `1 ≤ index ≤ 16`, the point `(0, 0, 0)` for `index = 0`. -/
theorem P384_point_select_w5_spec {w : Nat} (hw : w = 32 ∨ w = 64) (table : List POINT)
    (index : Nat) (hlen : table.length = 16) (hidx : index ≤ 16)
    (ht : ∀ t ∈ table, IsPoint w (P384.P384_LIMBS w) t) :
    P384.gfp_p384_point_select_w5 w table index
      = if h : 0 < index then table.get ⟨index - 1, by omega⟩
        else { X := limbs_zero (P384.P384_LIMBS w), Y := limbs_zero (P384.P384_LIMBS w),
               Z := limbs_zero (P384.P384_LIMBS w) } := by
  have h16 : 16 < 2 ^ w := by rcases hw with rfl | rfl <;> decide
  have hz : IsLimbs w (P384.P384_LIMBS w) (limbs_zero (P384.P384_LIMBS w)) :=
    (P384_isElem_zero hw).1
  unfold P384.gfp_p384_point_select_w5
  rw [P384_point_select_loop_spec (width_pos hw) (P384.P384_LIMBS w) index (by omega) table 0 _
    (by omega) ht ⟨hz, hz, hz⟩]
  by_cases h : 0 < index
  · rw [dif_pos h, dif_pos (by omega)]
    rfl
  · rw [dif_neg h, dif_neg (by omega)]

/-! ## Booth recoding -/

theorem booth_recode_table (lw : Nat) (hw : lw = 32 ∨ lw = 64) :
    ∀ inp < 64, (booth_recode lw inp 5).1 = (if 32 ≤ inp then 2 ^ lw - 1 else 0) ∧
      (booth_recode lw inp 5).2 = (if 32 ≤ inp then 32 - (inp + 1) / 2 else (inp + 1) / 2) := by
  rcases hw with rfl | rfl <;> decide

/-! ## Adding a table entry -/

/-- Negating the `Y` coordinate negates the point. -/
theorem P384_neg_represents {w : Nat} (hw : w = 32 ∨ w = 64)
    {b : ZMod P384.modulus} {p : POINT} {A : (P384.curve b).toAffine.Point}
    (hp : P384.Represents w b p A) :
    P384.Represents w b { p with Y := P384.GFp_p384_elem_neg w p.Y } (-A) := by
  obtain ⟨⟨hX, hY, hZ⟩, hns, hA⟩ := hp
  have hN := P384_encodes_neg hw (P384_encodes_self hY)
  by_cases hz : P384.decode w p.Z = 0
  · have hA0 : A = 0 := by rw [← hA]; exact Point.toAffine_of_Z_eq_zero hz
    rw [hA0, neg_zero]
    exact P384_represents_of_Z_eq_zero b hX hN.1 hZ hz
  · have hP := hns hz
    have hdec : P384.decodePoint w { p with Y := P384.GFp_p384_elem_neg w p.Y }
        = (P384.curve b).toJacobian.neg (P384.decodePoint w p) := by
      unfold P384.decodePoint
      simp only [neg, negY, P384.curve, hN.2, Matrix.cons_val_zero, Matrix.cons_val_one,
        Matrix.head_cons, Matrix.cons_val_two, Matrix.tail_cons]
      refine vec3_congr rfl ?_ rfl
      ring
    refine ⟨⟨hX, hN.1, hZ⟩, fun _ => ?_, ?_⟩
    · rw [hdec]; exact nonsingular_neg hP
    · rw [hdec, Point.toAffine_neg hP, hA]

theorem P384_represents_isPoint {w : Nat} {b : ZMod P384.modulus} {p : POINT}
    {A : (P384.curve b).toAffine.Point} (hp : P384.Represents w b p A) :
    IsPoint w (P384.P384_LIMBS w) p :=
  ⟨hp.1.1.1, hp.1.2.1.1, hp.1.2.2.1⟩

/-- The step `add_precomputed_w5`: the signed digit that the raw window
`wvalue` recodes to, times the base point, is added to `r`. -/
theorem P384_add_precomputed_represents {w : Nat} (hw : w = 32 ∨ w = 64) {mm : BnMulMont}
    (hmm : IsMontMul w (P384.P384_LIMBS w) (P384.Q w) (P384.elem_mul_mont w mm))
    {b : ZMod P384.modulus} {r : POINT} {A R0 : (P384.curve b).toAffine.Point}
    (table : List POINT) (hlen : table.length = 16)
    (htab : ∀ i (h : i < table.length), P384.Represents w b (table.get ⟨i, h⟩) ((i + 1) • A))
    (hr : P384.Represents w b r R0) (wvalue : Nat) (hwv : wvalue < 64) :
    P384.Represents w b (P384.add_precomputed_w5 w mm r wvalue table)
      (R0 + (((wvalue + 1) / 2 : Nat) - 32 * (wvalue / 32 : Nat) : Int) • A) := by
  obtain ⟨hs, hd⟩ := booth_recode_table w hw wvalue hwv
  have hpts : ∀ t ∈ table, IsPoint w (P384.P384_LIMBS w) t := by
    intro t ht
    obtain ⟨i, hi⟩ := List.mem_iff_get.1 ht
    rw [← hi]
    exact P384_represents_isPoint (htab i.1 i.2)
  have hd16 : (booth_recode w wvalue 5).2 ≤ 16 := by
    rw [hd]; split_ifs <;> omega
  -- the selected entry stands for `digit * A`
  have hsel : P384.Represents w b
      (P384.gfp_p384_point_select_w5 w table (booth_recode w wvalue 5).2)
      ((booth_recode w wvalue 5).2 • A) := by
    rw [P384_point_select_w5_spec hw table _ hlen hd16 hpts]
    by_cases h0 : 0 < (booth_recode w wvalue 5).2
    · rw [dif_pos h0]
      have := htab ((booth_recode w wvalue 5).2 - 1) (by omega)
      rwa [Nat.sub_add_cancel h0] at this
    · rw [dif_neg h0]
      have h00 : (booth_recode w wvalue 5).2 = 0 := by omega
      rw [h00, zero_nsmul]
      exact P384_represents_zero hw b
  have hneg := P384_neg_represents hw hsel
  have hYl : (P384.gfp_p384_point_select_w5 w table (booth_recode w wvalue 5).2).Y.length
      = (P384.GFp_p384_elem_neg w
          (P384.gfp_p384_point_select_w5 w table (booth_recode w wvalue 5).2).Y).length := by
    rw [hsel.1.2.1.1.1, hneg.1.2.1.1.1]
  unfold P384.add_precomputed_w5
  simp only []
  rw [hs]
  by_cases h32 : 32 ≤ wvalue
  · rw [if_pos h32, P384_copy_conditional_true _ _ hYl hneg.1.2.1.1.2]
    have hD : (((wvalue + 1) / 2 : Nat) - 32 * (wvalue / 32 : Nat) : Int)
        = -((booth_recode w wvalue 5).2 : Int) := by
      rw [hd, if_pos h32]; omega
    rw [hD, neg_zsmul, natCast_zsmul]
    exact P384_point_add_represents hw hmm hr hneg
  · rw [if_neg h32, P384_copy_conditional_false _ _ hYl hsel.1.2.1.1.2]
    have hD : (((wvalue + 1) / 2 : Nat) - 32 * (wvalue / 32 : Nat) : Int)
        = ((booth_recode w wvalue 5).2 : Int) := by
      rw [hd, if_neg h32]; omega
    rw [hD, natCast_zsmul]
    exact P384_point_add_represents hw hmm hr hsel

/-! ## The table of multiples -/

theorem P384_double_nsmul {w : Nat} (hw : w = 32 ∨ w = 64) {mm : BnMulMont}
    (hmm : IsMontMul w (P384.P384_LIMBS w) (P384.Q w) (P384.elem_mul_mont w mm))
    {b : ZMod P384.modulus} {p : POINT} {A : (P384.curve b).toAffine.Point} {n : Nat}
    (hp : P384.Represents w b p (n • A)) :
    P384.Represents w b (P384.GFp_nistz384_point_double w mm p) ((2 * n) • A) := by
  have := P384_point_double_represents hw hmm hp
  rwa [← add_nsmul, ← two_mul] at this

theorem P384_add_nsmul {w : Nat} (hw : w = 32 ∨ w = 64) {mm : BnMulMont}
    (hmm : IsMontMul w (P384.P384_LIMBS w) (P384.Q w) (P384.elem_mul_mont w mm))
    {b : ZMod P384.modulus} {p q : POINT} {A : (P384.curve b).toAffine.Point} {n m : Nat}
    (hp : P384.Represents w b p (n • A)) (hq : P384.Represents w b q (m • A)) :
    P384.Represents w b (P384.GFp_nistz384_point_add w mm p q) ((n + m) • A) := by
  have := P384_point_add_represents hw hmm hp hq
  rwa [← add_nsmul] at this

/-- The input `(p_x, p_y)` with `Z = ONE` stands for the affine point
`(p_x, p_y)`. -/
theorem P384_represents_input {w : Nat} (hw : w = 32 ∨ w = 64) (b : ZMod P384.modulus)
    {p_x p_y : List Nat} (hx : P384.IsElem w p_x) (hy : P384.IsElem w p_y)
    (hP : (P384.curve b).toJacobian.Nonsingular ![P384.decode w p_x, P384.decode w p_y, 1]) :
    P384.Represents w b { X := p_x, Y := p_y, Z := P384.ONE w }
      (Point.toAffine (P384.curve b) ![P384.decode w p_x, P384.decode w p_y, 1]) := by
  have hdec : P384.decodePoint w { X := p_x, Y := p_y, Z := P384.ONE w }
      = ![P384.decode w p_x, P384.decode w p_y, 1] := by
    unfold P384.decodePoint
    rw [P384_decode_ONE hw]
  refine ⟨⟨hx, hy, P384_isElem_ONE hw⟩, fun _ => ?_, ?_⟩
  · rw [hdec]; exact hP
  · rw [hdec]

/-- The table built by `GFp_nistz384_point_mul`: `row[i]` stands for
`(i + 1) * P`. -/
theorem P384_point_mul_table_spec {w : Nat} (hw : w = 32 ∨ w = 64) {mm : BnMulMont}
    (hmm : IsMontMul w (P384.P384_LIMBS w) (P384.Q w) (P384.elem_mul_mont w mm))
    {b : ZMod P384.modulus} {p_x p_y : List Nat} {A : (P384.curve b).toAffine.Point}
    (h1 : P384.Represents w b { X := p_x, Y := p_y, Z := P384.ONE w } A) :
    (P384.point_mul_table w mm p_x p_y).length = 16 ∧
    ∀ i (h : i < (P384.point_mul_table w mm p_x p_y).length),
      P384.Represents w b ((P384.point_mul_table w mm p_x p_y).get ⟨i, h⟩) ((i + 1) • A) := by
  have r1 : P384.Represents w b { X := p_x, Y := p_y, Z := P384.ONE w } (1 • A) := by
    rw [one_nsmul]; exact h1
  have r2 := P384_double_nsmul hw hmm r1
  have r3 := P384_add_nsmul hw hmm r2 r1
  have r4 := P384_double_nsmul hw hmm r2
  have r6 := P384_double_nsmul hw hmm r3
  have r8 := P384_double_nsmul hw hmm r4
  have r12 := P384_double_nsmul hw hmm r6
  have r5 := P384_add_nsmul hw hmm r4 r1
  have r7 := P384_add_nsmul hw hmm r6 r1
  have r9 := P384_add_nsmul hw hmm r8 r1
  have r13 := P384_add_nsmul hw hmm r12 r1
  have r14 := P384_double_nsmul hw hmm r7
  have r10 := P384_double_nsmul hw hmm r5
  have r15 := P384_add_nsmul hw hmm r14 r1
  have r11 := P384_add_nsmul hw hmm r10 r1
  have r16 := P384_double_nsmul hw hmm r8
  refine ⟨rfl, ?_⟩
  intro i h
  have h16 : i < 16 := h
  unfold P384.point_mul_table
  simp only []
  interval_cases i
  · exact r1
  · exact r2
  · exact r3
  · exact r4
  · exact r5
  · exact r6
  · exact r7
  · exact r8
  · exact r9
  · exact r10
  · exact r11
  · exact r12
  · exact r13
  · exact r14
  · exact r15
  · exact r16

/-! ## The bytes of the scalar and the raw windows -/

theorem limb_bytes_spec {w : Nat} (hw : w = 32 ∨ w = 64) {d : Nat} (hd : d < 2 ^ w) :
    (limb_bytes w d).length = w / 8 ∧ LIMBS_ok 8 (limb_bytes w d) ∧
    LIMBS_val 8 (limb_bytes w d) = d := by
  have hff : ∀ x : Nat, x &&& 0xff = x % 256 := fun x =>
    Nat.and_pow_two_sub_one_eq_mod x 8
  rcases hw with rfl | rfl
  · have hd2 : d < 4294967296 := hd
    refine ⟨rfl, ?_, ?_⟩
    · intro x hx
      simp only [limb_bytes, hff, Nat.shiftRight_eq_div_pow, List.mem_append, List.mem_cons,
        List.mem_singleton] at hx
      have h8 : (2 : Nat) ^ 8 = 256 := rfl
      rw [h8]
      rcases hx with (rfl | rfl | rfl | rfl | h) | h
      all_goals first | exact Nat.mod_lt _ (by decide) | simp at h
    · simp only [limb_bytes, hff, Nat.shiftRight_eq_div_pow, LIMBS_val]
      norm_num
      omega
  · have hd2 : d < 18446744073709551616 := hd
    refine ⟨rfl, ?_, ?_⟩
    · intro x hx
      simp only [limb_bytes, hff, Nat.shiftRight_eq_div_pow, List.mem_append, List.mem_cons,
        List.mem_singleton] at hx
      have h8 : (2 : Nat) ^ 8 = 256 := rfl
      rw [h8]
      rcases hx with (rfl | rfl | rfl | rfl | h) | h
      all_goals first | exact Nat.mod_lt _ (by decide) | skip
      · simp at h
      · simp only [show (64 / 8 = 8) from rfl, if_true, List.mem_cons, List.mem_singleton,
          List.not_mem_nil, or_false] at h
        rcases h with rfl | rfl | rfl | rfl <;> exact Nat.mod_lt _ (by decide)
    · simp only [limb_bytes, hff, Nat.shiftRight_eq_div_pow, LIMBS_val]
      norm_num
      omega

theorem LIMBS_ok_append {w : Nat} {l1 l2 : List Nat} (h1 : LIMBS_ok w l1) (h2 : LIMBS_ok w l2) :
    LIMBS_ok w (l1 ++ l2) := by
  intro x hx
  rcases List.mem_append.1 hx with h | h
  · exact h1 x h
  · exact h2 x h

theorem scalar_bytes_flatMap {w : Nat} (hw : w = 32 ∨ w = 64) :
    ∀ (scalar : List Nat), LIMBS_ok w scalar →
      (scalar.flatMap (limb_bytes w)).length = scalar.length * (w / 8) ∧
      LIMBS_ok 8 (scalar.flatMap (limb_bytes w)) ∧
      LIMBS_val 8 (scalar.flatMap (limb_bytes w)) = LIMBS_val w scalar := by
  intro scalar
  induction scalar with
  | nil => intro _; exact ⟨by simp, by simp [LIMBS_ok], by simp [LIMBS_val]⟩
  | cons d ds ih =>
    intro hok
    rw [LIMBS_ok_cons] at hok
    obtain ⟨i1, i2, i3⟩ := ih hok.2
    obtain ⟨b1, b2, b3⟩ := limb_bytes_spec hw hok.1
    rw [List.flatMap_cons]
    refine ⟨?_, LIMBS_ok_append b2 i2, ?_⟩
    · rw [List.length_append, b1, i1, List.length_cons]; ring
    · rw [LIMBS_val_append, b1, b3, i3]
      simp only [LIMBS_val]
      have : ((2 : Nat) ^ 8) ^ (w / 8) = 2 ^ w := by
        rcases hw with rfl | rfl <;> rfl
      rw [this]

/-- The byte string of `gfp_little_endian_bytes_from_scalar` has the value of
the scalar. -/
theorem gfp_little_endian_bytes_from_scalar_spec {w : Nat} (hw : w = 32 ∨ w = 64)
    (str_len : Nat) (scalar : List Nat) (hok : LIMBS_ok w scalar)
    (hlen : scalar.length * (w / 8) ≤ str_len) :
    (gfp_little_endian_bytes_from_scalar w str_len scalar).length = str_len ∧
    LIMBS_ok 8 (gfp_little_endian_bytes_from_scalar w str_len scalar) ∧
    LIMBS_val 8 (gfp_little_endian_bytes_from_scalar w str_len scalar) = LIMBS_val w scalar := by
  obtain ⟨i1, i2, i3⟩ := scalar_bytes_flatMap hw scalar hok
  unfold gfp_little_endian_bytes_from_scalar
  simp only []
  refine ⟨?_, LIMBS_ok_append i2 (LIMBS_ok_replicate_zero 8 _), ?_⟩
  · rw [List.length_append, List.length_replicate, i1]; omega
  · rw [LIMBS_val_append, LIMBS_val_replicate_zero, Nat.mul_zero, Nat.add_zero, i3]

/-- Byte `off` of a byte string, in terms of its value. -/
theorem bytes_getD : ∀ (l : List Nat) (off : Nat), LIMBS_ok 8 l →
    l.getD off 0 = (LIMBS_val 8 l / 256 ^ off) % 256 := by
  intro l
  induction l with
  | nil => intro off _; simp [LIMBS_val]
  | cons x xs ih =>
    intro off hok
    rw [LIMBS_ok_cons] at hok
    have hx : x < 256 := hok.1
    cases off with
    | zero =>
      simp only [List.getD_cons_zero, LIMBS_val, pow_zero, Nat.div_one]
      have h8 : (2 : Nat) ^ 8 = 256 := rfl
      rw [h8]; omega
    | succ k =>
      rw [List.getD_cons_succ, ih k hok.2]
      simp only [LIMBS_val]
      have h8 : (2 : Nat) ^ 8 = 256 := rfl
      rw [h8, pow_succ, mul_comm (256 ^ k) 256, ← Nat.div_div_eq_div_mul]
      have : (x + 256 * LIMBS_val 8 xs) / 256 = LIMBS_val 8 xs := by omega
      rw [this]

theorem P384_kMask_val : P384.kMask = 63 := rfl

/-- The raw window that the loop of `GFp_nistz384_point_mul` reads at `index`:
the six bits `index - 1 .. index + 4` of the scalar. -/
theorem P384_loop_window_spec (p_str : List Nat) (hok : LIMBS_ok 8 p_str) (index : Nat) :
    P384.loop_window p_str index = (LIMBS_val 8 p_str / 2 ^ (index - 1)) % 64 := by
  unfold P384.loop_window
  simp only [P384_kMask_val]
  rw [bytes_getD _ _ hok, bytes_getD _ _ hok]
  generalize hK : LIMBS_val 8 p_str = K
  have hidx : index - 1 = 8 * ((index - 1) / 8) + (index - 1) % 8 := by omega
  generalize hoff : (index - 1) / 8 = off at hidx ⊢
  have hsh : (index - 1) % 8 < 8 := Nat.mod_lt _ (by decide)
  generalize (index - 1) % 8 = sh at hidx hsh ⊢
  rw [hidx]
  have hpow : (2 : Nat) ^ (8 * off + sh) = 256 ^ off * 2 ^ sh := by
    rw [pow_add, pow_mul]
    rfl
  rw [hpow, ← Nat.div_div_eq_div_mul, pow_succ, ← Nat.div_div_eq_div_mul]
  generalize K / 256 ^ off = M
  have hor : M % 256 ||| (M / 256 % 256) <<< 8 = M % 65536 := by
    have h := Nat.mul_add_lt_is_or (i := 8) (b := M % 256) (Nat.mod_lt _ (by decide))
      (M / 256 % 256)
    rw [Nat.lor_comm, Nat.shiftLeft_eq, Nat.mul_comm, ← h]
    have h8 : (2 : Nat) ^ 8 = 256 := rfl
    rw [h8]
    omega
  rw [hor, Nat.shiftRight_eq_div_pow]
  have h63 : ∀ x : Nat, x &&& 63 = x % 64 := fun x => Nat.and_pow_two_sub_one_eq_mod x 6
  rw [h63]
  interval_cases sh <;> omega

/-! ## The windows add up to the scalar -/

/-- One step of the signed-digit recurrence: with `t` the scalar shifted down to
the window, the digit of the raw window `t % 64` turns 32 times the rounded
half of `t / 32` into the rounded half of `t`. -/
theorem booth_step (t : Nat) :
    32 * (((t / 32 + 1) / 2 : Nat) : Int)
      + ((((t % 64 + 1) / 2 : Nat) : Int) - 32 * ((t % 64 / 32 : Nat) : Int))
      = (((t + 1) / 2 : Nat) : Int) := by
  omega

theorem P384_double_zsmul {w : Nat} (hw : w = 32 ∨ w = 64) {mm : BnMulMont}
    (hmm : IsMontMul w (P384.P384_LIMBS w) (P384.Q w) (P384.elem_mul_mont w mm))
    {b : ZMod P384.modulus} {p : POINT} {A : (P384.curve b).toAffine.Point} {n : Int}
    (hp : P384.Represents w b p (n • A)) :
    P384.Represents w b (P384.GFp_nistz384_point_double w mm p) ((2 * n) • A) := by
  have := P384_point_double_represents hw hmm hp
  rwa [← add_zsmul, ← two_mul] at this

/-- The loop of `GFp_nistz384_point_mul`, entered at `index = 5 * j` with `r`
standing for the part of the scalar above the window at `index`, leaves `r`
standing for 32 times the part above the window at 5. -/
theorem P384_point_mul_loop_spec {w : Nat} (hw : w = 32 ∨ w = 64) {mm : BnMulMont}
    (hmm : IsMontMul w (P384.P384_LIMBS w) (P384.Q w) (P384.elem_mul_mont w mm))
    {b : ZMod P384.modulus} {A : (P384.curve b).toAffine.Point}
    (table : List POINT) (hlen : table.length = 16)
    (htab : ∀ i (h : i < table.length), P384.Represents w b (table.get ⟨i, h⟩) ((i + 1) • A))
    (p_str : List Nat) (hok : LIMBS_ok 8 p_str) :
    ∀ (j : Nat), j ≤ 76 → ∀ (r : POINT),
      P384.Represents w b r
        ((if j = 76 then (((LIMBS_val 8 p_str / 2 ^ 379 + 1) / 2 : Nat) : Int)
          else 32 * (((LIMBS_val 8 p_str / 2 ^ (5 * j + 4) + 1) / 2 : Nat) : Int)) • A) →
      P384.Represents w b (P384.point_mul_loop w mm p_str table (5 * j) r)
        ((32 * (((LIMBS_val 8 p_str / 2 ^ 4 + 1) / 2 : Nat) : Int)) • A) := by
  intro j
  induction j with
  | zero =>
    intro _ r hr
    rw [P384.point_mul_loop, if_neg (by decide)]
    rw [if_neg (by decide)] at hr
    exact hr
  | succ j ih =>
    intro hj r hr
    rw [P384.point_mul_loop, if_pos (by simp only [P384.kWindowSize]; omega)]
    simp only []
    have hidx : 5 * (j + 1) - P384.kWindowSize = 5 * j := by
      simp only [P384.kWindowSize]; omega
    rw [hidx]
    apply ih (by omega)
    rw [if_neg (show ¬ j = 76 by omega)]
    -- after the window at `5 * (j + 1)` has been added
    have hr1 : P384.Represents w b
        (if 5 * (j + 1) ≠ P384.START_INDEX then
          P384.add_precomputed_w5 w mm r (P384.loop_window p_str (5 * (j + 1))) table
        else r)
        ((((LIMBS_val 8 p_str / 2 ^ (5 * j + 4) + 1) / 2 : Nat) : Int) • A) := by
      by_cases hs : j + 1 = 76
      · rw [if_pos hs] at hr
        have h5 : 5 * j + 4 = 379 := by omega
        rw [if_neg (by simp only [P384.START_INDEX]; omega), h5]
        exact hr
      · rw [if_neg hs] at hr
        rw [if_pos (by simp only [P384.START_INDEX]; omega)]
        have hwv : P384.loop_window p_str (5 * (j + 1))
            = (LIMBS_val 8 p_str / 2 ^ (5 * j + 4)) % 64 := by
          rw [P384_loop_window_spec p_str hok]
          have : 5 * (j + 1) - 1 = 5 * j + 4 := by omega
          rw [this]
        rw [hwv]
        have hadd := P384_add_precomputed_represents hw hmm table hlen htab hr
          ((LIMBS_val 8 p_str / 2 ^ (5 * j + 4)) % 64) (Nat.mod_lt _ (by decide))
        rw [← add_zsmul] at hadd
        have hdiv : LIMBS_val 8 p_str / 2 ^ (5 * (j + 1) + 4)
            = LIMBS_val 8 p_str / 2 ^ (5 * j + 4) / 32 := by
          rw [Nat.div_div_eq_div_mul]
          have : (2 : Nat) ^ (5 * (j + 1) + 4) = 2 ^ (5 * j + 4) * 32 := by
            rw [show 5 * (j + 1) + 4 = (5 * j + 4) + 5 by ring, pow_add]
            rfl
          rw [this]
        rw [hdiv, booth_step] at hadd
        exact hadd
    have d1 := P384_point_double_represents hw hmm hr1
    rw [← add_zsmul] at d1
    have d2 := P384_point_double_represents hw hmm d1
    rw [← add_zsmul] at d2
    have d3 := P384_point_double_represents hw hmm d2
    rw [← add_zsmul] at d3
    have d4 := P384_point_double_represents hw hmm d3
    rw [← add_zsmul] at d4
    have d5 := P384_point_double_represents hw hmm d4
    rw [← add_zsmul] at d5
    have e : ∀ x : Int, x + x + (x + x) + (x + x + (x + x)) + (x + x + (x + x) + (x + x + (x + x)))
        + (x + x + (x + x) + (x + x + (x + x)) + (x + x + (x + x) + (x + x + (x + x))))
        = 32 * x := fun x => by ring
    rw [e] at d5
    exact d5

/-! ## Scalar multiplication -/

theorem P384_select_represents {w : Nat} (hw : w = 32 ∨ w = 64)
    {b : ZMod P384.modulus} {A : (P384.curve b).toAffine.Point}
    (table : List POINT) (hlen : table.length = 16)
    (htab : ∀ i (h : i < table.length), P384.Represents w b (table.get ⟨i, h⟩) ((i + 1) • A))
    (d : Nat) (hd : d ≤ 16) :
    P384.Represents w b (P384.gfp_p384_point_select_w5 w table d) (d • A) := by
  have hpts : ∀ t ∈ table, IsPoint w (P384.P384_LIMBS w) t := by
    intro t ht
    obtain ⟨i, hi⟩ := List.mem_iff_get.1 ht
    rw [← hi]
    exact P384_represents_isPoint (htab i.1 i.2)
  rw [P384_point_select_w5_spec hw table _ hlen hd hpts]
  by_cases h0 : 0 < d
  · rw [dif_pos h0]
    have := htab (d - 1) (by omega)
    rwa [Nat.sub_add_cancel h0] at this
  · rw [dif_neg h0]
    have h00 : d = 0 := by omega
    rw [h00, zero_nsmul]
    exact P384_represents_zero hw b

theorem P384_scalar_lt {w : Nat} (hw : w = 32 ∨ w = 64) {k : List Nat}
    (hk : IsLimbs w (P384.P384_LIMBS w) k) : LIMBS_val w k / 2 ^ 379 < 32 := by
  have h := LIMBS_val_lt hk.2
  rw [hk.1, ← pow_mul] at h
  have e : w * P384.P384_LIMBS w = 379 + 5 := by
    rcases hw with rfl | rfl <;> rfl
  rw [e, pow_add, show (2 : Nat) ^ 5 = 32 from rfl] at h
  exact Nat.div_lt_of_lt_mul h

/-- The result of `GFp_nistz384_point_mul` stands for the scalar multiple
`k * P` of the input point. -/
theorem P384_point_mul_represents {w : Nat} (hw : w = 32 ∨ w = 64) {mm : BnMulMont}
    (hmm : IsMontMul w (P384.P384_LIMBS w) (P384.Q w) (P384.elem_mul_mont w mm))
    (b : ZMod P384.modulus) {p_scalar p_x p_y : List Nat}
    (hk : IsLimbs w (P384.P384_LIMBS w) p_scalar)
    (hx : P384.IsElem w p_x) (hy : P384.IsElem w p_y)
    (hP : (P384.curve b).toJacobian.Nonsingular ![P384.decode w p_x, P384.decode w p_y, 1]) :
    P384.Represents w b (P384.GFp_nistz384_point_mul w mm p_scalar p_x p_y)
      (LIMBS_val w p_scalar •
        Point.toAffine (P384.curve b) ![P384.decode w p_x, P384.decode w p_y, 1]) := by
  have hK := P384_scalar_lt hw hk
  obtain ⟨hl, hok, hval⟩ := gfp_little_endian_bytes_from_scalar_spec hw
    (P384.P384_LIMBS w * (w / 8) + 1) p_scalar hk.2 (by rw [hk.1]; omega)
  obtain ⟨tlen, htab⟩ := P384_point_mul_table_spec hw hmm (P384_represents_input hw b hx hy hP)
  generalize Point.toAffine (P384.curve b) ![P384.decode w p_x, P384.decode w p_y, 1] = A
    at htab ⊢
  unfold P384.GFp_nistz384_point_mul
  simp only []
  generalize gfp_little_endian_bytes_from_scalar w (P384.P384_LIMBS w * (w / 8) + 1) p_scalar
    = p_str at hl hok hval ⊢
  generalize P384.point_mul_table w mm p_x p_y = table at tlen htab ⊢
  rw [← hval]
  rw [← hval] at hK
  generalize hval' : LIMBS_val 8 p_str = K at hK ⊢
  have h63 : ∀ x : Nat, x &&& 63 = x % 64 := fun x => Nat.and_pow_two_sub_one_eq_mod x 6
  -- the top window
  have htop : (p_str.getD ((P384.START_INDEX - 1) / 8) 0 >>> ((P384.START_INDEX - 1) % 8))
      &&& P384.kMask = K / 2 ^ 379 := by
    have e1 : (P384.START_INDEX - 1) / 8 = 47 := rfl
    have e2 : (P384.START_INDEX - 1) % 8 = 3 := rfl
    rw [e1, e2, P384_kMask_val, bytes_getD _ _ hok, h63, Nat.shiftRight_eq_div_pow]
    have e3 : (256 : Nat) ^ 47 = 2 ^ 376 := by
      rw [show (256 : Nat) = 2 ^ 8 from rfl, ← pow_mul]
    have e5 : (2 : Nat) ^ 3 = 8 := rfl
    have e4 : K / 2 ^ 379 = K / 2 ^ 376 / 8 := by
      rw [Nat.div_div_eq_div_mul, show 379 = 376 + 3 from rfl, pow_add, e5]
    rw [e3, hval', e5]
    rw [e4] at hK ⊢
    generalize K / 2 ^ 376 = M at hK ⊢
    clear hval' hval hl e3 e4 htab
    omega
  -- the final window
  have hlast : (p_str.getD 0 0 <<< 1) &&& P384.kMask = (2 * K) % 64 := by
    rw [P384_kMask_val, bytes_getD _ _ hok, h63, Nat.shiftLeft_eq, pow_zero, Nat.div_one, hval']
    clear hval' hl htop hK
    omega
  rw [htop, hlast]
  -- the top digit
  obtain ⟨-, hd⟩ := booth_recode_table w hw (K / 2 ^ 379) (by omega)
  rw [if_neg (by omega)] at hd
  rw [hd]
  have hr0 := P384_select_represents hw table tlen htab ((K / 2 ^ 379 + 1) / 2) (by omega)
  rw [← natCast_zsmul] at hr0
  have hloop := P384_point_mul_loop_spec hw hmm table tlen htab p_str hok 76 (le_refl _)
    (P384.gfp_p384_point_select_w5 w table ((K / 2 ^ 379 + 1) / 2))
  rw [if_pos rfl, hval'] at hloop
  have hr1 := hloop hr0
  have hfin := P384_add_precomputed_represents hw hmm table tlen htab hr1 ((2 * K) % 64)
    (Nat.mod_lt _ (by decide))
  rw [← add_zsmul] at hfin
  have e6 : K / 2 ^ 4 = 2 * K / 32 := by
    have : (2 : Nat) ^ 4 = 16 := rfl
    rw [this]; omega
  rw [e6, booth_step] at hfin
  have e7 : (2 * K + 1) / 2 = K := by omega
  rw [e7, natCast_zsmul] at hfin
  exact hfin

/-- Every point `(x, y)` with `y ≠ 0` is a nonsingular point of the curve
`y^2 = x^3 - 3 x + b` through it. -/
theorem P384_nonsingular_through (x y : ZMod P384.modulus) (hy : y ≠ 0) :
    WeierstrassCurve.Jacobian.Nonsingular (P384.curve (y ^ 2 - (x ^ 3 - 3 * x))) ![x, y, 1] := by
  rw [WeierstrassCurve.Jacobian.nonsingular_iff, WeierstrassCurve.Jacobian.equation_iff]
  simp only [P384.curve, Matrix.cons_val_zero, Matrix.cons_val_one, Matrix.head_cons,
    Matrix.cons_val_two, Matrix.tail_cons]
  refine ⟨by ring, Or.inr (Or.inl ?_)⟩
  simpa using mul_ne_zero P384_two_ne_zero hy

end CurveArithmetic

/-! ## Arrays compared limb by limb -/

theorem list_eq_iff_getD : ∀ (a b : List Nat), a.length = b.length →
    (a = b ↔ ∀ i, i < a.length → a.getD i 0 = b.getD i 0) := by
  intro a
  induction a with
  | nil =>
    intro b hl
    cases b with
    | nil => simp
    | cons y ys => simp at hl
  | cons x xs ih =>
    intro b hl
    cases b with
    | nil => simp at hl
    | cons y ys =>
      have hl2 : xs.length = ys.length := by simpa using hl
      constructor
      · intro h i _; rw [h]
      · intro h
        have h0 := h 0 (by simp)
        simp only [List.getD_cons_zero] at h0
        have hrest : xs = ys := (ih ys hl2).2 (fun i hi => by
          have := h (i + 1) (by simp only [List.length_cons]; omega)
          simpa only [List.getD_cons_succ] using this)
        rw [h0, hrest]

/-- The value of a limb array as a sum over its positions. -/
theorem LIMBS_val_eq_sum (w : Nat) : ∀ (a : List Nat),
    LIMBS_val w a = ∑ j in Finset.range a.length, a.getD j 0 * (2 ^ w) ^ j := by
  intro a
  induction a with
  | nil => simp [LIMBS_val]
  | cons x xs ih =>
    rw [List.length_cons, Finset.sum_range_succ', LIMBS_val, ih, Finset.mul_sum]
    simp only [List.getD_cons_succ, List.getD_cons_zero, pow_zero, mul_one, pow_succ]
    rw [add_comm]
    congr 1
    apply Finset.sum_congr rfl
    intro j _
    ring

theorem getD_replicate_zero (n i : Nat) : (List.replicate n 0).getD i 0 = 0 := by
  rw [List.getD_eq_getElem?_getD, List.getElem?_replicate]
  split_ifs <;> rfl

theorem getD_append_replicate_zero (s : List Nat) (k : Nat) :
    (s ++ List.replicate (k + 1) 0).getD (s.length + k) 0 = 0 := by
  rw [List.getD_append_right _ _ _ _ (by omega), getD_replicate_zero]

/-! ## Loops that assign every position of an array -/

theorem getD_set (r : List Nat) (i j v : Nat) (hi : i < r.length) :
    (r.set i v).getD j 0 = if j = i then v else r.getD j 0 := by
  rw [List.getD_eq_getElem?_getD, List.getD_eq_getElem?_getD, List.getElem?_set]
  by_cases hji : j = i
  · subst hji
    rw [if_pos rfl, if_pos rfl, if_pos hi]
    rfl
  · rw [if_neg (Ne.symm hji), if_neg hji]

/-- A loop `for (i = 0; i < k; ++i) r[i] = g(i, r[i])` assigns the first `k`
positions and leaves the others. -/
theorem foldl_set_range (g : Nat → Nat → Nat) : ∀ (k : Nat) (r : List Nat), k ≤ r.length →
    ((List.range k).foldl (fun r i => r.set i (g i (r.getD i 0))) r).length = r.length ∧
    ∀ j, ((List.range k).foldl (fun r i => r.set i (g i (r.getD i 0))) r).getD j 0
      = if j < k then g j (r.getD j 0) else r.getD j 0 := by
  intro k
  induction k with
  | zero => intro r _; simp
  | succ k ih =>
    intro r hk
    obtain ⟨h1, h2⟩ := ih r (by omega)
    rw [List.range_succ, List.foldl_append]
    simp only [List.foldl_cons, List.foldl_nil]
    have hlen : k < ((List.range k).foldl (fun r i => r.set i (g i (r.getD i 0))) r).length := by
      rw [h1]; omega
    refine ⟨by rw [List.length_set, h1], fun j => ?_⟩
    rw [getD_set _ k j _ hlen]
    by_cases hj : j = k
    · rw [if_pos hj, hj, h2 k, if_neg (Nat.lt_irrefl k), if_pos (Nat.lt_succ_self k)]
    · rw [if_neg hj, h2 j]
      by_cases hj2 : j < k
      · rw [if_pos hj2, if_pos (by omega)]
      · rw [if_neg hj2, if_neg (by omega)]

theorem getD_drop_take (l : List Nat) (s n j : Nat) (hj : j < n) :
    ((l.drop s).take n).getD j 0 = l.getD (s + j) 0 := by
  rw [List.getD_eq_getElem?_getD, List.getD_eq_getElem?_getD, List.getElem?_take_of_lt hj,
    List.getElem?_drop]

theorem getD_lt_of_ok {w : Nat} {l : List Nat} (hl : LIMBS_ok w l) (j : Nat) :
    l.getD j 0 < 2 ^ w := by
  rw [List.getD_eq_getElem?_getD]
  by_cases hj : j < l.length
  · rw [List.getElem?_eq_getElem hj]
    exact hl _ (List.getElem_mem _)
  · rw [List.getElem?_eq_none (by omega)]
    exact Nat.pow_pos (by decide)

/-! ## The selection `limbs_select` -/

/-- After `k` entries have been scanned, `limbs_select` holds entry `index` if
`index < k` and zeros otherwise. -/
theorem limbs_select_loop_spec {w : Nat} (hw : 0 < w) (table : List Nat)
    (num_limbs index : Nat) (htab : LIMBS_ok w table) (hidx : index < 2 ^ w) :
    ∀ k, k ≤ 2 ^ w →
      ((List.range k).foldl
        (fun r e =>
          (List.range num_limbs).foldl
            (fun r i =>
              r.set i (constant_time_select_w w (constant_time_eq_w w index e)
                (table.getD (e * num_limbs + i) 0) (r.getD i 0)))
            r)
        (List.replicate num_limbs 0)).length = num_limbs ∧
      ∀ j, j < num_limbs →
        ((List.range k).foldl
          (fun r e =>
            (List.range num_limbs).foldl
              (fun r i =>
                r.set i (constant_time_select_w w (constant_time_eq_w w index e)
                  (table.getD (e * num_limbs + i) 0) (r.getD i 0)))
              r)
          (List.replicate num_limbs 0)).getD j 0
        = if index < k then table.getD (index * num_limbs + j) 0 else 0 := by
  intro k
  induction k with
  | zero =>
    intro _
    refine ⟨by simp, fun j _ => ?_⟩
    rw [if_neg (by omega), List.range_zero, List.foldl_nil, getD_replicate_zero]
  | succ k ih =>
    intro hk
    obtain ⟨h1, h2⟩ := ih (by omega)
    rw [List.range_succ, List.foldl_append]
    simp only [List.foldl_cons, List.foldl_nil]
    generalize (List.range k).foldl
        (fun r e =>
          (List.range num_limbs).foldl
            (fun r i =>
              r.set i (constant_time_select_w w (constant_time_eq_w w index e)
                (table.getD (e * num_limbs + i) 0) (r.getD i 0)))
            r)
        (List.replicate num_limbs 0) = R at h1 h2 ⊢
    obtain ⟨f1, f2⟩ := foldl_set_range
      (fun i x => constant_time_select_w w (constant_time_eq_w w index k)
        (table.getD (k * num_limbs + i) 0) x) num_limbs R (by omega)
    refine ⟨by rw [f1, h1], fun j hj => ?_⟩
    rw [f2 j, if_pos hj, constant_time_eq_w_eq hw hidx (by omega), h2 j hj]
    by_cases he : index = k
    · rw [if_pos he, constant_time_select_w_true _ (getD_lt_of_ok htab _), if_pos (by omega), he]
    · rw [if_neg he]
      by_cases hlt : index < k
      · rw [if_pos hlt, if_pos (by omega),
          constant_time_select_w_false _ _ _ (getD_lt_of_ok htab _)]
      · rw [if_neg hlt, if_neg (by omega),
          constant_time_select_w_false _ _ _ (Nat.pow_pos (by decide))]

/-- The result of `limbs_select`: entry `index` of the table, or zeros when
there is no such entry. -/
theorem limbs_select_spec {w : Nat} (hw : 0 < w) (table : List Nat)
    (num_limbs num_entries index : Nat) (hlen : table.length = num_entries * num_limbs)
    (htab : LIMBS_ok w table) (hidx : index < 2 ^ w) (hne : num_entries ≤ 2 ^ w) :
    limbs_select w table num_limbs num_entries index
      = if index < num_entries then (table.drop (index * num_limbs)).take num_limbs
        else List.replicate num_limbs 0 := by
  obtain ⟨h1, h2⟩ := limbs_select_loop_spec hw table num_limbs index htab hidx num_entries hne
  unfold limbs_select
  simp only []
  by_cases hlt : index < num_entries
  · rw [if_pos hlt]
    have hle : index * num_limbs + num_limbs ≤ table.length := by
      rw [hlen]
      calc index * num_limbs + num_limbs = (index + 1) * num_limbs := by ring
        _ ≤ num_entries * num_limbs := Nat.mul_le_mul_right _ (by omega)
    have hl2 : ((table.drop (index * num_limbs)).take num_limbs).length = num_limbs := by
      rw [List.length_take, List.length_drop]; omega
    rw [list_eq_iff_getD _ _ (by rw [h1, hl2])]
    intro i hi
    rw [h1] at hi
    rw [h2 i hi, if_pos hlt, getD_drop_take _ _ _ _ hi]
  · rw [if_neg hlt]
    rw [list_eq_iff_getD _ _ (by rw [h1, List.length_replicate])]
    intro i hi
    rw [h1] at hi
    rw [h2 i hi, if_neg hlt, getD_replicate_zero]

/-! ## The Montgomery round trip -/

theorem P384_R_gt_one {w : Nat} (hw : w = 32 ∨ w = 64) : 1 < (2 ^ w) ^ P384.P384_LIMBS w := by
  have h := P384_Q_lt hw
  have := (P384_isElem_ONE hw).2
  omega

theorem P384_isElem_one {w : Nat} (hw : w = 32 ∨ w = 64) :
    P384.IsElem w (LIMBS_of_nat w (P384.P384_LIMBS w) 1) ∧
    LIMBS_val w (LIMBS_of_nat w (P384.P384_LIMBS w) 1) = 1 := by
  obtain ⟨h1, h2⟩ := LIMBS_of_nat_spec w (P384.P384_LIMBS w) 1
  rw [Nat.mod_eq_of_lt (P384_R_gt_one hw)] at h2
  refine ⟨⟨h1, ?_⟩, h2⟩
  rw [h2, P384_Q_val hw]
  decide

theorem P384_isElem_RR {w : Nat} (hw : w = 32 ∨ w = 64) :
    P384.IsElem w (P384.RR w) ∧
    LIMBS_val w (P384.RR w) = ((2 ^ w) ^ P384.P384_LIMBS w) ^ 2 % LIMBS_val w (P384.Q w) := by
  obtain ⟨h1, h2⟩ := LIMBS_of_nat_spec w (P384.P384_LIMBS w)
    (((2 ^ w) ^ P384.P384_LIMBS w) ^ 2 % LIMBS_val w (P384.Q w))
  have hq0 : 0 < LIMBS_val w (P384.Q w) := by
    have := (P384_isElem_ONE hw).2; omega
  have hlt : ((2 ^ w) ^ P384.P384_LIMBS w) ^ 2 % LIMBS_val w (P384.Q w)
      < LIMBS_val w (P384.Q w) := Nat.mod_lt _ hq0
  rw [Nat.mod_eq_of_lt (lt_trans hlt (P384_Q_lt hw))] at h2
  exact ⟨⟨h1, by rw [P384.RR, h2]; exact hlt⟩, h2⟩

/-- Multiplying by `RR` and then by one, both with a Montgomery
multiplication, gives back the element. -/
theorem P384_mont_round_trip {w : Nat} (hw : w = 32 ∨ w = 64) {mm : BnMulMont}
    (hmm : IsMontMul w (P384.P384_LIMBS w) (P384.Q w) (P384.elem_mul_mont w mm))
    {x : List Nat} (hx : P384.IsElem w x) :
    P384.from_mont w mm (P384.to_mont w mm x) = x := by
  obtain ⟨eR, vR⟩ := P384_isElem_RR hw
  obtain ⟨e1, v1⟩ := P384_isElem_one hw
  have ey := P384_isElem_mul hmm hx eR
  have ez := P384_isElem_mul hmm ey e1
  unfold P384.from_mont P384.to_mont
  rw [← P384_decode_eq_iff hw ez hx, P384_decode_mul hw hmm ey e1,
    P384_decode_mul hw hmm hx eR]
  have hRu := P384_R_unit hw
  have dR : P384.decode w (P384.RR w)
      = (((2 ^ w) ^ P384.P384_LIMBS w : Nat) : ZMod P384.modulus) := by
    unfold P384.decode
    rw [vR, P384_cast_mod _ hw, Nat.cast_pow, pow_two, mul_assoc, hRu, mul_one]
  have d1 : P384.decode w (LIMBS_of_nat w (P384.P384_LIMBS w) 1)
      = (((2 ^ w) ^ P384.P384_LIMBS w : Nat) : ZMod P384.modulus)⁻¹ := by
    unfold P384.decode
    rw [v1, Nat.cast_one, one_mul]
  rw [dR, d1, mul_assoc, hRu, mul_one]

/-! ## Loops with their reads recorded -/

/-- A loop on a pair `(r, log)` whose log only grows by one item per round is
the loop on `r` together with the list of the items. -/
theorem foldl_log {α β ι : Type} (f : α → ι → α) (h : ι → List β) :
    ∀ (l : List ι) (s : α × List β),
      l.foldl (fun s i => (f s.1 i, s.2 ++ h i)) s = (l.foldl f s.1, s.2 ++ l.flatMap h) := by
  intro l
  induction l with
  | nil => intro s; simp
  | cons i l ih =>
    intro s
    rw [List.foldl_cons, ih, List.foldl_cons, List.flatMap_cons, List.append_assoc]

theorem flatMap_single {ι β : Type} (g : ι → β) : ∀ (l : List ι),
    l.flatMap (fun i => [g i]) = l.map g := by
  intro l
  induction l with
  | nil => rfl
  | cons i l ih => rw [List.flatMap_cons, ih]; rfl

theorem flatMap_range_mul (n : Nat) : ∀ (k : Nat),
    (List.range k).flatMap (fun e => (List.range n).flatMap fun i => [e * n + i])
      = List.range (k * n) := by
  intro k
  induction k with
  | zero => simp
  | succ k ih =>
    rw [List.range_succ, List.flatMap_append, ih, Nat.succ_mul, List.range_add,
      List.flatMap_cons, List.flatMap_nil, List.append_nil, flatMap_single]

/-- The reads of `limbs_select` and its result. -/
theorem limbs_select_reads_spec (w : Nat) (table : List Nat) (num_limbs num_entries index : Nat) :
    limbs_select_reads w table num_limbs num_entries index
      = (limbs_select w table num_limbs num_entries index,
          List.range (num_entries * num_limbs)) := by
  unfold limbs_select_reads limbs_select
  simp only []
  have hin : ∀ (e : Nat) (s : List Nat × List Nat),
      (List.range num_limbs).foldl
        (fun s i =>
          (s.1.set i (constant_time_select_w w (constant_time_eq_w w index e)
              (table.getD (e * num_limbs + i) 0) (s.1.getD i 0)),
            s.2 ++ [e * num_limbs + i])) s
      = ((List.range num_limbs).foldl
          (fun r i => r.set i (constant_time_select_w w (constant_time_eq_w w index e)
              (table.getD (e * num_limbs + i) 0) (r.getD i 0))) s.1,
         s.2 ++ (List.range num_limbs).flatMap fun i => [e * num_limbs + i]) :=
    fun e s => foldl_log
      (fun r i => r.set i (constant_time_select_w w (constant_time_eq_w w index e)
              (table.getD (e * num_limbs + i) 0) (r.getD i 0)))
      (fun i => [e * num_limbs + i]) _ s
  simp only [hin]
  refine (foldl_log
    (fun r e => (List.range num_limbs).foldl
          (fun r i => r.set i (constant_time_select_w w (constant_time_eq_w w index e)
              (table.getD (e * num_limbs + i) 0) (r.getD i 0))) r)
    (fun e => (List.range num_limbs).flatMap fun i => [e * num_limbs + i])
    (List.range num_entries) (List.replicate num_limbs 0, [])).trans ?_
  rw [List.nil_append, flatMap_range_mul]

/-! ## The 16-entry selections with their reads recorded -/

theorem zipWith_getD (f : Nat → Nat → Nat) : ∀ (t r : List Nat) (j : Nat),
    j < t.length → j < r.length →
    (List.zipWith f t r).getD j 0 = f (t.getD j 0) (r.getD j 0) := by
  intro t
  induction t with
  | nil => intro r j h; simp at h
  | cons a t ih =>
    intro r j h1 h2
    cases r with
    | nil => simp at h2
    | cons b r =>
      cases j with
      | zero => rfl
      | succ j =>
        simp only [List.zipWith_cons_cons, List.getD_cons_succ]
        exact ih r j (by simpa using h1) (by simpa using h2)

/-- The limb loop of the selections on one coordinate is a limb-wise select. -/
theorem foldl_set_range_select (w equal n : Nat) (t r : List Nat)
    (ht : t.length = n) (hr : r.length = n) :
    (List.range n).foldl
        (fun r j => r.set j (constant_time_select_w w equal (t.getD j 0) (r.getD j 0))) r
      = P384.select_limbs w equal t r := by
  obtain ⟨h1, h2⟩ := foldl_set_range
    (fun j x => constant_time_select_w w equal (t.getD j 0) x) n r (by omega)
  have hl : (P384.select_limbs w equal t r).length = n := by
    unfold P384.select_limbs
    rw [List.length_zipWith, ht, hr, Nat.min_self]
  rw [list_eq_iff_getD _ _ (by rw [h1, hl, hr])]
  intro j hj
  rw [h1, hr] at hj
  rw [h2 j, if_pos hj]
  unfold P384.select_limbs
  rw [zipWith_getD _ t r j (by omega) (by omega)]

theorem foldl_point_components (fx fy fz : List Nat → Nat → List Nat) :
    ∀ (l : List Nat) (p : POINT),
      l.foldl (fun p j => ({ X := fx p.X j, Y := fy p.Y j, Z := fz p.Z j } : POINT)) p
        = { X := l.foldl fx p.X, Y := l.foldl fy p.Y, Z := l.foldl fz p.Z } := by
  intro l
  induction l with
  | nil => intro p; rfl
  | cons j l ih => intro p; rw [List.foldl_cons, ih]; rfl

/-- One round of the entry loop: the three coordinates are selected limb-wise
and the reads of the entry are logged. -/
theorem point_select_round (w n equal i : Nat) (t : POINT) (s : POINT × List (Nat × Nat × Nat))
    (ht : t.X.length = n ∧ t.Y.length = n ∧ t.Z.length = n)
    (hs : s.1.X.length = n ∧ s.1.Y.length = n ∧ s.1.Z.length = n) :
    (List.range n).foldl
        (fun s j =>
          (({ X := s.1.X.set j (constant_time_select_w w equal (t.X.getD j 0) (s.1.X.getD j 0)),
              Y := s.1.Y.set j (constant_time_select_w w equal (t.Y.getD j 0) (s.1.Y.getD j 0)),
              Z := s.1.Z.set j (constant_time_select_w w equal (t.Z.getD j 0) (s.1.Z.getD j 0)) }
              : POINT),
            s.2 ++ [(i, 0, j), (i, 1, j), (i, 2, j)]))
        s
      = ({ X := P384.select_limbs w equal t.X s.1.X, Y := P384.select_limbs w equal t.Y s.1.Y,
           Z := P384.select_limbs w equal t.Z s.1.Z },
          s.2 ++ (List.range n).flatMap fun j => [(i, 0, j), (i, 1, j), (i, 2, j)]) := by
  refine (foldl_log
    (fun (p : POINT) j =>
      ({ X := p.X.set j (constant_time_select_w w equal (t.X.getD j 0) (p.X.getD j 0)),
         Y := p.Y.set j (constant_time_select_w w equal (t.Y.getD j 0) (p.Y.getD j 0)),
         Z := p.Z.set j (constant_time_select_w w equal (t.Z.getD j 0) (p.Z.getD j 0)) } : POINT))
    (fun j => [(i, 0, j), (i, 1, j), (i, 2, j)]) (List.range n) s).trans ?_
  rw [foldl_point_components
    (fun r j => r.set j (constant_time_select_w w equal (t.X.getD j 0) (r.getD j 0)))
    (fun r j => r.set j (constant_time_select_w w equal (t.Y.getD j 0) (r.getD j 0)))
    (fun r j => r.set j (constant_time_select_w w equal (t.Z.getD j 0) (r.getD j 0))),
    foldl_set_range_select w equal n _ _ ht.1 hs.1,
    foldl_set_range_select w equal n _ _ ht.2.1 hs.2.1,
    foldl_set_range_select w equal n _ _ ht.2.2 hs.2.2]

theorem select_limbs_length (w equal n : Nat) (t r : List Nat)
    (ht : t.length = n) (hr : r.length = n) : (P384.select_limbs w equal t r).length = n := by
  unfold P384.select_limbs
  rw [List.length_zipWith, ht, hr, Nat.min_self]

/-- The entry loop of the selections with its reads recorded, from entry `i`
on: the result is the one of the scan without the log, and the log gets the
reads of every remaining entry in turn. -/
theorem point_select_reads_loop (w n index : Nat) (table : List POINT) :
    ∀ (suf : List POINT) (i : Nat) (s : POINT × List (Nat × Nat × Nat)),
      (s.1.X.length = n ∧ s.1.Y.length = n ∧ s.1.Z.length = n) →
      (∀ t ∈ suf, t.X.length = n ∧ t.Y.length = n ∧ t.Z.length = n) →
      (∀ k, k < suf.length →
        table.getD (i + k) { X := [], Y := [], Z := [] }
          = suf.getD k { X := [], Y := [], Z := [] }) →
      (List.range' i suf.length).foldl
          (fun s i =>
            (List.range n).foldl
              (fun s j =>
                (({ X := s.1.X.set j (constant_time_select_w w
                        (constant_time_eq_w w index (word_add w i 1))
                        ((table.getD i { X := [], Y := [], Z := [] }).X.getD j 0)
                        (s.1.X.getD j 0)),
                    Y := s.1.Y.set j (constant_time_select_w w
                        (constant_time_eq_w w index (word_add w i 1))
                        ((table.getD i { X := [], Y := [], Z := [] }).Y.getD j 0)
                        (s.1.Y.getD j 0)),
                    Z := s.1.Z.set j (constant_time_select_w w
                        (constant_time_eq_w w index (word_add w i 1))
                        ((table.getD i { X := [], Y := [], Z := [] }).Z.getD j 0)
                        (s.1.Z.getD j 0)) } : POINT),
                  s.2 ++ [(i, 0, j), (i, 1, j), (i, 2, j)]))
              s)
          s
        = (P384.point_select_loop w index suf i s.1,
            s.2 ++ (List.range' i suf.length).flatMap fun i =>
              (List.range n).flatMap fun j => [(i, 0, j), (i, 1, j), (i, 2, j)]) := by
  intro suf
  induction suf with
  | nil =>
    intro i s _ _ _
    simp [P384.point_select_loop]
  | cons t rest ih =>
    intro i s hs ht hget
    have ht0 : table.getD i { X := [], Y := [], Z := [] } = t := by
      have := hget 0 (by simp)
      simpa using this
    have htl := ht t (List.mem_cons_self _ _)
    rw [List.length_cons, List.range'_succ, List.foldl_cons, ht0,
      point_select_round w n _ i t s htl hs]
    rw [ih (i + 1) _
      ⟨select_limbs_length w _ n _ _ htl.1 hs.1, select_limbs_length w _ n _ _ htl.2.1 hs.2.1,
        select_limbs_length w _ n _ _ htl.2.2 hs.2.2⟩
      (fun u hu => ht u (List.mem_cons_of_mem _ hu))
      (fun k hk => by
        have := hget (k + 1) (by simp only [List.length_cons]; omega)
        rw [List.getD_cons_succ, ← Nat.add_assoc, Nat.add_right_comm] at this
        exact this)]
    rw [List.flatMap_cons, List.append_assoc]
    rfl

/-- The instrumented selection of 16 entries: its result is the one of the
scan, its log is the list of all the limbs of all the entries. -/
theorem point_select_w5_reads_spec (w n index : Nat) (table : List POINT)
    (hlen : table.length = 16)
    (ht : ∀ t ∈ table, t.X.length = n ∧ t.Y.length = n ∧ t.Z.length = n) :
    point_select_w5_reads w n table index
      = (P384.point_select_loop w index table 0
          { X := limbs_zero n, Y := limbs_zero n, Z := limbs_zero n },
         (List.range 16).flatMap fun i =>
           (List.range n).flatMap fun j => [(i, 0, j), (i, 1, j), (i, 2, j)]) := by
  have h := point_select_reads_loop w n index table table 0
    ({ X := limbs_zero n, Y := limbs_zero n, Z := limbs_zero n }, [])
    ⟨by simp [limbs_zero], by simp [limbs_zero], by simp [limbs_zero]⟩ ht
    (fun k _ => by rw [Nat.zero_add])
  rw [hlen, ← List.range_eq_range', List.nil_append] at h
  exact h

/-! ## The parity test, the windows of the scalar multiplications, the table as writes -/

theorem split_last (n : List Nat) (k : Nat) (h : n.length = k + 1) :
    n = n.take k ++ [n.getD k 0] := by
  have h1 : n.drop k = [n.getD k 0] := by
    have hk : k < n.length := by omega
    rw [List.drop_eq_getElem_cons hk, List.getD_eq_getElem _ _ hk]
    congr 1
    exact List.drop_eq_nil_of_le (by omega)
  conv_lhs => rw [← List.take_append_drop k n, h1]

theorem set_last (l : List Nat) (b v k : Nat) (h : l.length = k) :
    (l ++ [b]).set k v = l ++ [v] := by
  subst h
  simp [List.set_append]

/-- The function `LIMBS_are_even` tests the parity of the number that the limbs
stand for. -/
theorem LIMBS_are_even_eq {w : Nat} (hw : 0 < w) (a : List Nat) (ha : LIMBS_ok w a) :
    LIMBS_are_even w a = if LIMBS_val w a % 2 = 0 then 2 ^ w - 1 else 0 := by
  unfold LIMBS_are_even
  simp only []
  have h1 : ∀ x : Nat, x &&& 1 = x % 2 := fun x => Nat.and_pow_two_sub_one_eq_mod x 1
  cases a with
  | nil => simp [LIMBS_val, constant_time_is_zero_w_eq hw (show (0:Nat) < 2 ^ w from two_pow_pos w)]
  | cons x xs =>
    have hx : x % 2 < 2 ^ w := lt_of_lt_of_le (Nat.mod_lt _ (by decide))
      (by calc 2 = 2 ^ 1 := rfl
            _ ≤ 2 ^ w := Nat.pow_le_pow_right (by decide) hw)
    simp only [List.length_cons, Nat.succ_ne_zero, if_false, List.getD_cons_zero, h1, LIMBS_val]
    rw [constant_time_is_zero_w_eq hw hx]
    have h2 : (2 : Nat) ^ w = 2 * 2 ^ (w - 1) := by
      rw [← pow_succ']; congr 1; omega
    have : (x + 2 ^ w * LIMBS_val w xs) % 2 = x % 2 := by
      rw [h2, Nat.mul_assoc]; omega
    simp only [this]

theorem P384_point_mul_windows (w : Nat) (bn_mul_mont : BnMulMont) (p_scalar p_x p_y : List Nat) :
    P384.GFp_nistz384_point_mul w bn_mul_mont p_scalar p_x p_y =
      P384.add_precomputed_w5 w bn_mul_mont
        (P384.point_mul_loop w bn_mul_mont
          (gfp_little_endian_bytes_from_scalar w (P384.P384_LIMBS w * (w / 8) + 1) p_scalar)
          (P384.point_mul_table w bn_mul_mont p_x p_y) P384.START_INDEX
          (P384.gfp_p384_point_select_w5 w (P384.point_mul_table w bn_mul_mont p_x p_y)
            (booth_recode w (P384.top_window
              (gfp_little_endian_bytes_from_scalar w (P384.P384_LIMBS w * (w / 8) + 1) p_scalar))
              5).2))
        (P384.final_window
          (gfp_little_endian_bytes_from_scalar w (P384.P384_LIMBS w * (w / 8) + 1) p_scalar))
        (P384.point_mul_table w bn_mul_mont p_x p_y) := rfl

theorem P256_kMask_val : P256.kMask = 63 := rfl

theorem P256_loop_window_eq (p_str : List Nat) (index : Nat) :
    P256.loop_window p_str index = P384.loop_window p_str index := rfl

theorem P256_scalar_lt {w : Nat} (hw : w = 32 ∨ w = 64) {k : List Nat}
    (hk : IsLimbs w (P256.P256_LIMBS w) k) : LIMBS_val w k / 2 ^ 254 < 4 := by
  have h := LIMBS_val_lt hk.2
  rw [hk.1, ← pow_mul] at h
  have e : w * P256.P256_LIMBS w = 254 + 2 := by
    rcases hw with rfl | rfl <;> rfl
  rw [e, pow_add, show (2 : Nat) ^ 2 = 4 from rfl] at h
  exact Nat.div_lt_of_lt_mul h

/-- The first window of `GFp_nistz384_point_mul` is the scalar without its low
379 bits. -/
theorem P384_top_window_spec (p_str : List Nat) (hok : LIMBS_ok 8 p_str)
    (hK : LIMBS_val 8 p_str / 2 ^ 379 < 32) :
    P384.top_window p_str = LIMBS_val 8 p_str / 2 ^ 379 := by
  have h63 : ∀ x : Nat, x &&& 63 = x % 64 := fun x => Nat.and_pow_two_sub_one_eq_mod x 6
  unfold P384.top_window
  simp only []
  have e1 : (P384.START_INDEX - 1) / 8 = 47 := rfl
  have e2 : (P384.START_INDEX - 1) % 8 = 3 := rfl
  rw [e1, e2, P384_kMask_val, bytes_getD _ _ hok, h63, Nat.shiftRight_eq_div_pow]
  generalize LIMBS_val 8 p_str = K at hK ⊢
  have e3 : (256 : Nat) ^ 47 = 2 ^ 376 := by
    rw [show (256 : Nat) = 2 ^ 8 from rfl, ← pow_mul]
  have e5 : (2 : Nat) ^ 3 = 8 := rfl
  have e4 : K / 2 ^ 379 = K / 2 ^ 376 / 8 := by
    rw [Nat.div_div_eq_div_mul, show 379 = 376 + 3 from rfl, pow_add, e5]
  rw [e3, e5]
  rw [e4] at hK ⊢
  generalize K / 2 ^ 376 = M at hK ⊢
  clear e3 e4
  omega

/-- The first window of `GFp_nistz256_point_mul` is the scalar without its low
254 bits. -/
theorem P256_top_window_spec (p_str : List Nat) (hok : LIMBS_ok 8 p_str)
    (hK : LIMBS_val 8 p_str / 2 ^ 254 < 4) :
    P256.top_window p_str = LIMBS_val 8 p_str / 2 ^ 254 := by
  have h63 : ∀ x : Nat, x &&& 63 = x % 64 := fun x => Nat.and_pow_two_sub_one_eq_mod x 6
  unfold P256.top_window
  simp only []
  have e1 : (P256.START_INDEX - 1) / 8 = 31 := rfl
  have e2 : (P256.START_INDEX - 1) % 8 = 6 := rfl
  rw [e1, e2, P256_kMask_val, bytes_getD _ _ hok, h63, Nat.shiftRight_eq_div_pow]
  generalize LIMBS_val 8 p_str = K at hK ⊢
  have e3 : (256 : Nat) ^ 31 = 2 ^ 248 := by
    rw [show (256 : Nat) = 2 ^ 8 from rfl, ← pow_mul]
  have e5 : (2 : Nat) ^ 6 = 64 := rfl
  have e4 : K / 2 ^ 254 = K / 2 ^ 248 / 64 := by
    rw [Nat.div_div_eq_div_mul, show 254 = 248 + 6 from rfl, pow_add, e5]
  rw [e3, e5]
  rw [e4] at hK ⊢
  generalize K / 2 ^ 248 = M at hK ⊢
  clear e3 e4
  omega

/-- The last window of both scalar multiplications is twice the scalar, modulo
64. -/
theorem final_window_spec (p_str : List Nat) (hok : LIMBS_ok 8 p_str) :
    P384.final_window p_str = (2 * LIMBS_val 8 p_str) % 64 ∧
    P256.final_window p_str = (2 * LIMBS_val 8 p_str) % 64 := by
  have h63 : ∀ x : Nat, x &&& 63 = x % 64 := fun x => Nat.and_pow_two_sub_one_eq_mod x 6
  have h : (p_str.getD 0 0 <<< 1) &&& 63 = (2 * LIMBS_val 8 p_str) % 64 := by
    rw [bytes_getD _ _ hok, h63, Nat.shiftLeft_eq, pow_zero, Nat.div_one]
    omega
  exact ⟨h, h⟩

theorem P256_isLimbs_zero (w : Nat) :
    IsLimbs w (P256.P256_LIMBS w) (limbs_zero (P256.P256_LIMBS w)) :=
  ⟨List.length_replicate _ _, LIMBS_ok_replicate_zero w _⟩

/-- The explicit doubling formulae computed by `GFp_nistz384_point_double`. -/
theorem P384_point_double_explicit {w : Nat} (hw : w = 32 ∨ w = 64) {mm : BnMulMont}
    (hmm : IsMontMul w (P384.P384_LIMBS w) (P384.Q w) (P384.elem_mul_mont w mm))
    (p : POINT) {x y z : ZMod P384.modulus}
    (eX : P384.Encodes w p.X x) (eY : P384.Encodes w p.Y y) (eZ : P384.Encodes w p.Z z) :
    P384.Encodes w (P384.GFp_nistz384_point_double w mm p).X
      ((3 * (x - z ^ 2) * (x + z ^ 2)) ^ 2 - 2 * (4 * x * y ^ 2)) ∧
    P384.Encodes w (P384.GFp_nistz384_point_double w mm p).Y
      (3 * (x - z ^ 2) * (x + z ^ 2) *
          (4 * x * y ^ 2 - ((3 * (x - z ^ 2) * (x + z ^ 2)) ^ 2 - 2 * (4 * x * y ^ 2)))
        - 8 * y ^ 4) ∧
    P384.Encodes w (P384.GFp_nistz384_point_double w mm p).Z (2 * y * z) := by
  have S1 := P384_encodes_mul_by_2 hw eY
  have Zsqr1 := P384_encodes_sqr hw hmm eZ
  have S2 := P384_encodes_sqr hw hmm S1
  have rz1 := P384_encodes_mul hw hmm eZ eY
  have rz2 := P384_encodes_mul_by_2 hw rz1
  have M1 := P384_encodes_add hw eX Zsqr1
  have Zsqr2 := P384_encodes_sub hw eX Zsqr1
  have ry1 := P384_encodes_sqr hw hmm S2
  have ry2 := P384_encodes_div_by_2 hw ry1
  have M2 := P384_encodes_mul hw hmm M1 Zsqr2
  have M3 := P384_encodes_mul_by_3 hw M2
  have S3 := P384_encodes_mul hw hmm S2 eX
  have tmp0 := P384_encodes_mul_by_2 hw S3
  have rx1 := P384_encodes_sqr hw hmm M3
  have rx2 := P384_encodes_sub hw rx1 tmp0
  have S4 := P384_encodes_sub hw S3 rx2
  have S5 := P384_encodes_mul hw hmm S4 M3
  have ry3 := P384_encodes_sub hw S5 ry2
  have h2 : (2 : ZMod P384.modulus) ≠ 0 := P384_two_ne_zero
  refine ⟨⟨rx2.1, ?_⟩, ⟨ry3.1, ?_⟩, ⟨rz2.1, ?_⟩⟩
  · refine Eq.trans rx2.2 ?_
    ring
  · refine Eq.trans ry3.2 ?_
    field_simp
    ring
  · refine Eq.trans rz2.2 ?_
    ring

/-- The test `is_exceptional` of `GFp_nistz384_point_add`, in terms of the field
elements that the coordinates stand for. -/
theorem P384_point_add_is_exceptional_iff {w : Nat} (hw : w = 32 ∨ w = 64) {mm : BnMulMont}
    (hmm : IsMontMul w (P384.P384_LIMBS w) (P384.Q w) (P384.elem_mul_mont w mm))
    (p q : POINT) {x1 z1 x2 z2 : ZMod P384.modulus}
    (eX1 : P384.Encodes w p.X x1) (eZ1 : P384.Encodes w p.Z z1)
    (eX2 : P384.Encodes w q.X x2) (eZ2 : P384.Encodes w q.Z z2) :
    P384.point_add_is_exceptional w mm p q ≠ 0 ↔
      (x1 * z2 ^ 2 = x2 * z1 ^ 2 ∧ z1 ≠ 0 ∧ z2 ≠ 0) := by
  have hw0 := width_pos hw
  have Z2sqr := P384_encodes_sqr hw hmm eZ2
  have Z1sqr := P384_encodes_sqr hw hmm eZ1
  have U1 := P384_encodes_mul hw hmm eX1 Z2sqr
  have U2 := P384_encodes_mul hw hmm eX2 Z1sqr
  have hz1 : z1 = 0 ↔ LIMBS_val w p.Z = 0 := by
    rw [← eZ1.2]; exact P384_decode_eq_zero_iff hw eZ1.1
  have hz2 : z2 = 0 ↔ LIMBS_val w q.Z = 0 := by
    rw [← eZ2.2]; exact P384_decode_eq_zero_iff hw eZ2.1
  have hU : x1 * z2 ^ 2 = x2 * z1 ^ 2 ↔
      P384.decode w (P384.elem_mul_mont w mm p.X (P384.elem_sqr_mont w mm q.Z))
        = P384.decode w (P384.elem_mul_mont w mm q.X (P384.elem_sqr_mont w mm p.Z)) := by
    rw [U1.2, U2.2]
    constructor
    · intro h; linear_combination h
    · intro h; linear_combination h
  have hone : 2 ^ w - 1 ≠ 0 := ones_ne_zero hw0
  unfold P384.point_add_is_exceptional
  simp only []
  rw [P384_is_equal_eq hw U1.1 U2.1, P384_is_zero_eq hw0 eZ1.1.1.2,
    P384_is_zero_eq hw0 eZ2.1.1.2, hU]
  simp only [Ne, hz1, hz2]
  by_cases h1 : LIMBS_val w p.Z = 0
  · simp [h1, word_not_ones]
  · by_cases h2 : LIMBS_val w q.Z = 0
    · simp [h1, h2, word_not_ones, word_not_zero]
    · by_cases h3 : P384.decode w (P384.elem_mul_mont w mm p.X (P384.elem_sqr_mont w mm q.Z))
        = P384.decode w (P384.elem_mul_mont w mm q.X (P384.elem_sqr_mont w mm p.Z))
      · simp [h1, h2, h3, word_not_zero, hone]
      · simp [h1, h2, h3, word_not_zero]

/-- The two outcomes of the exceptional branch of `GFp_nistz384_point_add`. -/
theorem P384_point_add_exceptional_branch (w : Nat) (mm : BnMulMont) (p q : POINT)
    (h : P384.point_add_is_exceptional w mm p q ≠ 0) :
    P384.GFp_nistz384_point_add w mm p q
      = if P384.point_add_S1_eq_S2 w mm p q ≠ 0 then P384.GFp_nistz384_point_double w mm p
        else { X := limbs_zero (P384.P384_LIMBS w), Y := limbs_zero (P384.P384_LIMBS w),
               Z := limbs_zero (P384.P384_LIMBS w) } := by
  unfold P384.point_add_is_exceptional at h
  unfold P384.GFp_nistz384_point_add P384.point_add_S1_eq_S2
  simp only [] at h ⊢
  rw [if_pos h]

theorem list_length_16 {α : Type} (l : List α) (h : l.length = 16) :
    ∃ a0 a1 a2 a3 a4 a5 a6 a7 a8 a9 a10 a11 a12 a13 a14 a15 : α,
      l = [a0, a1, a2, a3, a4, a5, a6, a7, a8, a9, a10, a11, a12, a13, a14, a15] := by
  rcases l with _ | ⟨a0, l⟩
  · simp at h
  rcases l with _ | ⟨a1, l⟩
  · simp at h
  rcases l with _ | ⟨a2, l⟩
  · simp at h
  rcases l with _ | ⟨a3, l⟩
  · simp at h
  rcases l with _ | ⟨a4, l⟩
  · simp at h
  rcases l with _ | ⟨a5, l⟩
  · simp at h
  rcases l with _ | ⟨a6, l⟩
  · simp at h
  rcases l with _ | ⟨a7, l⟩
  · simp at h
  rcases l with _ | ⟨a8, l⟩
  · simp at h
  rcases l with _ | ⟨a9, l⟩
  · simp at h
  rcases l with _ | ⟨a10, l⟩
  · simp at h
  rcases l with _ | ⟨a11, l⟩
  · simp at h
  rcases l with _ | ⟨a12, l⟩
  · simp at h
  rcases l with _ | ⟨a13, l⟩
  · simp at h
  rcases l with _ | ⟨a14, l⟩
  · simp at h
  rcases l with _ | ⟨a15, l⟩
  · simp at h
  rcases l with _ | ⟨b, l⟩
  · exact ⟨a0, a1, a2, a3, a4, a5, a6, a7, a8, a9, a10, a11, a12, a13, a14, a15, rfl⟩
  · simp at h

/-- The array that the 15 calls leave, slot by slot. -/
theorem point_mul_table_run_eq (dbl : POINT → POINT) (add : POINT → POINT → POINT)
    (row1 : POINT) (init : List POINT) (hinit : init.length = 16) :
    point_mul_table_run dbl add point_mul_table_calls (init.set 0 row1)
      = [row1, dbl row1, add (dbl row1) row1, dbl (dbl row1),
         add (dbl (dbl row1)) row1, dbl (add (dbl row1) row1),
         add (dbl (add (dbl row1) row1)) row1, dbl (dbl (dbl row1)),
         add (dbl (dbl (dbl row1))) row1, dbl (add (dbl (dbl row1)) row1),
         add (dbl (add (dbl (dbl row1)) row1)) row1, dbl (dbl (add (dbl row1) row1)),
         add (dbl (dbl (add (dbl row1) row1))) row1,
         dbl (add (dbl (add (dbl row1) row1)) row1),
         add (dbl (add (dbl (add (dbl row1) row1)) row1)) row1,
         dbl (dbl (dbl (dbl row1)))] := by
  obtain ⟨a0, a1, a2, a3, a4, a5, a6, a7, a8, a9, a10, a11, a12, a13, a14, a15, rfl⟩ :=
    list_length_16 init hinit
  simp only [point_mul_table_calls, point_mul_table_run, row_get, List.set_cons_zero,
    List.set_cons_succ, List.getD_cons_zero, List.getD_cons_succ, Nat.add_one_sub_one,
    Nat.reduceSub, Nat.sub_self]

/-- The table of `GFp_nistz384_point_mul` is what the 15 calls leave in the
array, whatever the array held before in the slots 1 to 15. -/
theorem P384_point_mul_table_eq_run (w : Nat) (mm : BnMulMont) (p_x p_y : List Nat)
    (init : List POINT) (hinit : init.length = 16) :
    point_mul_table_run (P384.GFp_nistz384_point_double w mm) (P384.GFp_nistz384_point_add w mm)
        point_mul_table_calls (init.set 0 { X := p_x, Y := p_y, Z := P384.ONE w })
      = P384.point_mul_table w mm p_x p_y := by
  rw [point_mul_table_run_eq _ _ _ init hinit]
  rfl

/-- The table of `GFp_nistz256_point_mul` is what the 15 calls leave in the
array, whatever the array held before in the slots 1 to 15. -/
theorem P256_point_mul_table_eq_run (w : Nat) (point_double : POINT → POINT)
    (point_add : POINT → POINT → POINT) (p_x p_y : List Nat)
    (init : List POINT) (hinit : init.length = 16) :
    point_mul_table_run point_double point_add
        point_mul_table_calls (init.set 0 { X := p_x, Y := p_y, Z := P256.ONE w })
      = P256.point_mul_table point_double point_add w p_x p_y := by
  rw [point_mul_table_run_eq _ _ _ init hinit]
  rfl

theorem rep_double {G : Type} [AddMonoid G] {Rep : POINT → G → Prop} {dbl : POINT → POINT}
    (hdbl : ∀ p A, Rep p A → Rep (dbl p) (A + A)) {p : POINT} {P : G} (n m : Nat)
    (hp : Rep p (n • P)) (hm : m = n + n) : Rep (dbl p) (m • P) := by
  rw [hm, add_nsmul]
  exact hdbl _ _ hp

theorem rep_add_one {G : Type} [AddMonoid G] {Rep : POINT → G → Prop}
    {add : POINT → POINT → POINT}
    (hadd : ∀ p q A B, Rep p A → Rep q B → Rep (add p q) (A + B)) {p q : POINT} {P : G}
    (n m : Nat) (hp : Rep p (n • P)) (hq : Rep q (1 • P)) (hm : m = n + 1) :
    Rep (add p q) (m • P) := by
  rw [hm, add_nsmul]
  exact hadd _ _ _ _ hp hq

/-- When doubling and addition compute in a group, the 15 calls leave
`(i + 1) * P` in slot `i`. -/
theorem point_mul_table_run_represents {G : Type} [AddMonoid G] (Rep : POINT → G → Prop)
    (dbl : POINT → POINT) (add : POINT → POINT → POINT)
    (hdbl : ∀ p A, Rep p A → Rep (dbl p) (A + A))
    (hadd : ∀ p q A B, Rep p A → Rep q B → Rep (add p q) (A + B))
    (row1 : POINT) (P : G) (h1 : Rep row1 P) (init : List POINT) (hinit : init.length = 16) :
    (point_mul_table_run dbl add point_mul_table_calls (init.set 0 row1)).length = 16 ∧
    ∀ i, i < 16 →
      Rep ((point_mul_table_run dbl add point_mul_table_calls (init.set 0 row1)).getD i
        { X := [], Y := [], Z := [] }) ((i + 1) • P) := by
  rw [point_mul_table_run_eq dbl add row1 init hinit]
  have r1 : Rep row1 (1 • P) := by rw [one_nsmul]; exact h1
  have r2 := rep_double hdbl 1 2 r1 rfl
  have r3 := rep_add_one hadd 2 3 r2 r1 rfl
  have r4 := rep_double hdbl 2 4 r2 rfl
  have r6 := rep_double hdbl 3 6 r3 rfl
  have r8 := rep_double hdbl 4 8 r4 rfl
  have r12 := rep_double hdbl 6 12 r6 rfl
  have r5 := rep_add_one hadd 4 5 r4 r1 rfl
  have r7 := rep_add_one hadd 6 7 r6 r1 rfl
  have r9 := rep_add_one hadd 8 9 r8 r1 rfl
  have r13 := rep_add_one hadd 12 13 r12 r1 rfl
  have r14 := rep_double hdbl 7 14 r7 rfl
  have r10 := rep_double hdbl 5 10 r5 rfl
  have r15 := rep_add_one hadd 14 15 r14 r1 rfl
  have r11 := rep_add_one hadd 10 11 r10 r1 rfl
  have r16 := rep_double hdbl 8 16 r8 rfl
  refine ⟨rfl, ?_⟩
  intro i hi
  interval_cases i
  · exact r1
  · exact r2
  · exact r3
  · exact r4
  · exact r5
  · exact r6
  · exact r7
  · exact r8
  · exact r9
  · exact r10
  · exact r11
  · exact r12
  · exact r13
  · exact r14
  · exact r15
  · exact r16

/-- The signed digit of a raw window and the bound on its magnitude. -/
theorem booth_digit_eq (lw : Nat) (hw : lw = 32 ∨ lw = 64) (raw : Nat) (h : raw < 64) :
    (booth_recode lw raw 5).2 ≤ 16 ∧
    booth_digit lw raw = (((raw + 1) / 2 : Nat) : Int) - 32 * ((raw / 32 : Nat) : Int) := by
  obtain ⟨h1, h2⟩ := booth_recode_table lw hw raw h
  unfold booth_digit
  rw [h1, h2]
  by_cases h32 : 32 ≤ raw
  · rw [if_pos h32, if_pos h32, if_neg (ones_ne_zero (width_pos hw))]
    refine ⟨by omega, ?_⟩
    omega
  · rw [if_neg h32, if_neg h32, if_pos rfl]
    refine ⟨by omega, ?_⟩
    omega

/-- The signed digit of the window `t % 64` in terms of the six bits of the
window. -/
theorem booth_digit_bits (t : Nat) :
    (((t % 64 + 1) / 2 : Nat) : Int) - 32 * ((t % 64 / 32 : Nat) : Int)
      = -16 * ((t / 32 % 2 : Nat) : Int) + 8 * ((t / 16 % 2 : Nat) : Int)
        + 4 * ((t / 8 % 2 : Nat) : Int) + 2 * ((t / 4 % 2 : Nat) : Int)
        + ((t / 2 % 2 : Nat) : Int) + ((t % 2 : Nat) : Int) := by
  have h5 : t / 32 % 2 = t % 64 / 32 := by omega
  have h4 : t / 16 % 2 = t % 64 / 16 % 2 := by omega
  have h3 : t / 8 % 2 = t % 64 / 8 % 2 := by omega
  have h2 : t / 4 % 2 = t % 64 / 4 % 2 := by omega
  have h1 : t / 2 % 2 = t % 64 / 2 % 2 := by omega
  have h0 : t % 2 = t % 64 % 2 := by omega
  rw [h5, h4, h3, h2, h1, h0]
  have hr : t % 64 < 64 := Nat.mod_lt _ (by decide)
  generalize t % 64 = r at hr
  interval_cases r <;> rfl

/-- The signed digits of the windows at the positions `0, 5, .., 5 (m - 1)`,
weighted by their positions, add up to the scalar less `2^(5 m)` times the
rounded half of what lies above. -/
theorem window_sum (K : Nat) : ∀ m : Nat,
    (∑ j in Finset.range m,
        ((((2 * K / 2 ^ (5 * j) % 64 + 1) / 2 : Nat) : Int)
          - 32 * ((2 * K / 2 ^ (5 * j) % 64 / 32 : Nat) : Int)) * 2 ^ (5 * j))
      + 2 ^ (5 * m) * (((2 * K / 2 ^ (5 * m) + 1) / 2 : Nat) : Int) = K := by
  intro m
  induction m with
  | zero =>
    simp only [Finset.range_zero, Finset.sum_empty, Nat.mul_zero, pow_zero, Nat.div_one]
    omega
  | succ m ih =>
    rw [Finset.sum_range_succ]
    have hdiv : 2 * K / 2 ^ (5 * (m + 1)) = 2 * K / 2 ^ (5 * m) / 32 := by
      rw [Nat.div_div_eq_div_mul, show 5 * (m + 1) = 5 * m + 5 by ring, pow_add]
      rfl
    have hb := booth_step (2 * K / 2 ^ (5 * m))
    rw [hdiv]
    have hp : (2 : Int) ^ (5 * (m + 1)) = 2 ^ (5 * m) * 32 := by
      rw [show 5 * (m + 1) = 5 * m + 5 by ring, pow_add]
      rfl
    rw [hp]
    linear_combination ih + (2 : Int) ^ (5 * m) * hb

theorem two_mul_div_pow_succ (K n : Nat) : 2 * K / 2 ^ (n + 1) = K / 2 ^ n := by
  rw [pow_succ', Nat.mul_div_mul_left _ _ (by decide : 0 < 2)]

/-- The raw window of `GFp_nistz384_point_mul` at `index = 5 j`: the six bits
of twice the scalar from bit `5 j` on. -/
theorem P384_raw_window_spec (p_str : List Nat) (hok : LIMBS_ok 8 p_str)
    (hK : LIMBS_val 8 p_str / 2 ^ 379 < 32) (j : Nat) (hj : j ≤ 76) :
    P384.raw_window p_str (5 * j) = (2 * LIMBS_val 8 p_str / 2 ^ (5 * j)) % 64 := by
  unfold P384.raw_window
  by_cases h76 : j = 76
  · subst h76
    rw [if_pos (show 5 * 76 = P384.START_INDEX from rfl), P384_top_window_spec p_str hok hK,
      show 5 * 76 = 379 + 1 from rfl, two_mul_div_pow_succ, Nat.mod_eq_of_lt (by omega)]
  · rw [if_neg (by simp only [P384.START_INDEX]; omega)]
    by_cases h0 : j = 0
    · subst h0
      rw [if_neg (by decide), (final_window_spec p_str hok).1, Nat.mul_zero, pow_zero,
        Nat.div_one]
    · rw [if_pos (by simp only [P384.kWindowSize]; omega), P384_loop_window_spec p_str hok]
      have e : 5 * j = (5 * j - 1) + 1 := by omega
      conv_rhs => rw [e, two_mul_div_pow_succ]

/-- The raw window of `GFp_nistz256_point_mul` at `index = 5 j`: the six bits
of twice the scalar from bit `5 j` on. -/
theorem P256_raw_window_spec (p_str : List Nat) (hok : LIMBS_ok 8 p_str)
    (hK : LIMBS_val 8 p_str / 2 ^ 254 < 4) (j : Nat) (hj : j ≤ 51) :
    P256.raw_window p_str (5 * j) = (2 * LIMBS_val 8 p_str / 2 ^ (5 * j)) % 64 := by
  unfold P256.raw_window
  by_cases h51 : j = 51
  · subst h51
    rw [if_pos (show 5 * 51 = P256.START_INDEX from rfl), P256_top_window_spec p_str hok hK,
      show 5 * 51 = 254 + 1 from rfl, two_mul_div_pow_succ, Nat.mod_eq_of_lt (by omega)]
  · rw [if_neg (by simp only [P256.START_INDEX]; omega)]
    by_cases h0 : j = 0
    · subst h0
      rw [if_neg (by decide), (final_window_spec p_str hok).2, Nat.mul_zero, pow_zero,
        Nat.div_one]
    · rw [if_pos (by simp only [P256.kWindowSize]; omega), P256_loop_window_eq,
        P384_loop_window_spec p_str hok]
      have e : 5 * j = (5 * j - 1) + 1 := by omega
      conv_rhs => rw [e, two_mul_div_pow_succ]

/-- The signed digit of the window `(2 K / 2^i) % 64` in terms of the bits of
`K`. -/
theorem window_digit_bits (lw : Nat) (hw : lw = 32 ∨ lw = 64) (K i : Nat) :
    (booth_recode lw ((2 * K / 2 ^ i) % 64) 5).2 ≤ 16 ∧
    booth_digit lw ((2 * K / 2 ^ i) % 64)
      = -16 * ((K / 2 ^ (i + 4) % 2 : Nat) : Int) + 8 * ((K / 2 ^ (i + 3) % 2 : Nat) : Int)
        + 4 * ((K / 2 ^ (i + 2) % 2 : Nat) : Int) + 2 * ((K / 2 ^ (i + 1) % 2 : Nat) : Int)
        + ((K / 2 ^ i % 2 : Nat) : Int)
        + (if i = 0 then 0 else ((K / 2 ^ (i - 1) % 2 : Nat) : Int)) := by
  obtain ⟨h1, h2⟩ := booth_digit_eq lw hw ((2 * K / 2 ^ i) % 64) (Nat.mod_lt _ (by decide))
  refine ⟨h1, ?_⟩
  rw [h2, booth_digit_bits]
  have e : ∀ m : Nat, 2 * K / 2 ^ i / 2 ^ (m + 1) = K / 2 ^ (i + m) := by
    intro m
    rw [Nat.div_div_eq_div_mul, ← pow_add, ← Nat.add_assoc, two_mul_div_pow_succ]
  have e5 := e 4
  have e4 := e 3
  have e3 := e 2
  have e2 := e 1
  have e1 := e 0
  simp only [show (2 : Nat) ^ (4 + 1) = 32 from rfl, show (2 : Nat) ^ (3 + 1) = 16 from rfl,
    show (2 : Nat) ^ (2 + 1) = 8 from rfl, show (2 : Nat) ^ (1 + 1) = 4 from rfl,
    show (2 : Nat) ^ (0 + 1) = 2 from rfl, Nat.add_zero] at e5 e4 e3 e2 e1
  rw [e5, e4, e3, e2, e1]
  have e0 : ((2 * K / 2 ^ i % 2 : Nat) : Int)
      = if i = 0 then 0 else ((K / 2 ^ (i - 1) % 2 : Nat) : Int) := by
    by_cases h0 : i = 0
    · subst h0
      rw [if_pos rfl, pow_zero, Nat.div_one]
      have : 2 * K % 2 = 0 := by omega
      rw [this]; rfl
    · rw [if_neg h0]
      have : i = (i - 1) + 1 := by omega
      conv_lhs => rw [this, two_mul_div_pow_succ]
  rw [e0]

/-- The digits of the windows of a scalar below `2^(5 m - 1)` add up to it. -/
theorem window_digits_sum (lw : Nat) (hw : lw = 32 ∨ lw = 64) (K m : Nat)
    (hK : 2 * K / 2 ^ (5 * m) = 0) (raw : Nat → Nat)
    (hraw : ∀ j, j < m → raw j = (2 * K / 2 ^ (5 * j)) % 64) :
    ∑ j in Finset.range m, booth_digit lw (raw j) * 2 ^ (5 * j) = (K : Int) := by
  have h := window_sum K m
  rw [hK] at h
  simp only [Nat.zero_add, Nat.reduceDiv, Nat.cast_zero, mul_zero, add_zero] at h
  rw [← h]
  apply Finset.sum_congr rfl
  intro j hj
  rw [hraw j (Finset.mem_range.1 hj),
    (booth_digit_eq lw hw _ (Nat.mod_lt _ (by decide))).2]

/-- A loop that counts down from `m + 1`: its first round, then the loop that
counts down from `m`. -/
theorem foldl_range_count_down {α : Type} (step : α → Nat → α) (m : Nat) (r : α) :
    (List.range (m + 1)).foldl (fun r j => step r (m + 1 - j)) r
      = (List.range m).foldl (fun r j => step r (m - j)) (step r (m + 1)) := by
  rw [List.range_succ_eq_map, List.foldl_cons, List.foldl_map]
  simp only [Nat.succ_sub_succ, Nat.sub_zero, Nat.succ_eq_add_one]

/-- The loop of `GFp_nistz384_point_mul`, entered at `index = 5 m` below
`START_INDEX`, adds the windows at `5 m, 5 (m - 1), .., 5`, each followed by
five doublings. -/
theorem P384_point_mul_loop_windows (w : Nat) (mm : BnMulMont) (p_str : List Nat)
    (table : List POINT) : ∀ (m : Nat), m ≤ 75 → ∀ (r : POINT),
    P384.point_mul_loop w mm p_str table (5 * m) r
      = (List.range m).foldl
          (fun r j =>
            P384.GFp_nistz384_point_double w mm (P384.GFp_nistz384_point_double w mm
              (P384.GFp_nistz384_point_double w mm (P384.GFp_nistz384_point_double w mm
                (P384.GFp_nistz384_point_double w mm
                  (P384.add_precomputed_w5 w mm r (P384.raw_window p_str (5 * (m - j)))
                    table))))))
          r := by
  intro m
  induction m with
  | zero =>
    intro _ r
    rw [P384.point_mul_loop, if_neg (by decide)]
    rfl
  | succ m ih =>
    intro hm r
    rw [P384.point_mul_loop, if_pos (by simp only [P384.kWindowSize]; omega)]
    simp only []
    have hidx : 5 * (m + 1) - P384.kWindowSize = 5 * m := by
      simp only [P384.kWindowSize]; omega
    have hne : 5 * (m + 1) ≠ P384.START_INDEX := by
      simp only [P384.START_INDEX]; omega
    have hraw : P384.raw_window p_str (5 * (m + 1)) = P384.loop_window p_str (5 * (m + 1)) := by
      unfold P384.raw_window
      rw [if_neg hne, if_pos (by simp only [P384.kWindowSize]; omega)]
    rw [hidx, if_pos hne, ih (by omega), ← hraw]
    exact (foldl_range_count_down (fun r i =>
      P384.GFp_nistz384_point_double w mm (P384.GFp_nistz384_point_double w mm
        (P384.GFp_nistz384_point_double w mm (P384.GFp_nistz384_point_double w mm
          (P384.GFp_nistz384_point_double w mm
            (P384.add_precomputed_w5 w mm r (P384.raw_window p_str (5 * i)) table))))))
      m r).symm

/-- The calls of `GFp_nistz384_point_mul` in their order: the first window at
380 selects the start, five doublings, then the windows at `375, 370, .., 5`
are added, each followed by five doublings, then the window at 0 is added. -/
theorem P384_point_mul_by_windows (w : Nat) (mm : BnMulMont) (p_scalar p_x p_y : List Nat) :
    P384.GFp_nistz384_point_mul w mm p_scalar p_x p_y
      = P384.add_precomputed_w5 w mm
          ((List.range 75).foldl
            (fun r j =>
              P384.GFp_nistz384_point_double w mm (P384.GFp_nistz384_point_double w mm
                (P384.GFp_nistz384_point_double w mm (P384.GFp_nistz384_point_double w mm
                  (P384.GFp_nistz384_point_double w mm
                    (P384.add_precomputed_w5 w mm r
                      (P384.raw_window
                        (gfp_little_endian_bytes_from_scalar w (P384.P384_LIMBS w * (w / 8) + 1)
                          p_scalar) (5 * (75 - j)))
                      (P384.point_mul_table w mm p_x p_y)))))))
            (P384.GFp_nistz384_point_double w mm (P384.GFp_nistz384_point_double w mm
              (P384.GFp_nistz384_point_double w mm (P384.GFp_nistz384_point_double w mm
                (P384.GFp_nistz384_point_double w mm
                  (P384.gfp_p384_point_select_w5 w (P384.point_mul_table w mm p_x p_y)
                    (booth_recode w (P384.raw_window
                      (gfp_little_endian_bytes_from_scalar w (P384.P384_LIMBS w * (w / 8) + 1)
                        p_scalar) 380) 5).2)))))))
          (P384.raw_window
            (gfp_little_endian_bytes_from_scalar w (P384.P384_LIMBS w * (w / 8) + 1) p_scalar) 0)
          (P384.point_mul_table w mm p_x p_y) := by
  rw [P384_point_mul_windows]
  generalize gfp_little_endian_bytes_from_scalar w (P384.P384_LIMBS w * (w / 8) + 1) p_scalar
    = p_str
  have h0 : P384.raw_window p_str 0 = P384.final_window p_str := by
    unfold P384.raw_window
    rw [if_neg (by decide), if_neg (by decide)]
  have h380 : P384.raw_window p_str 380 = P384.top_window p_str := by
    unfold P384.raw_window
    rw [if_pos (show 380 = P384.START_INDEX from rfl)]
  rw [h0, h380, ← P384_point_mul_loop_windows w mm p_str _ 75 (le_refl _)]
  congr 1
  rw [P384.point_mul_loop, if_pos (by decide)]
  simp only []
  rw [if_neg (by simp only [P384.START_INDEX]; decide)]
  rfl

/-- The loop of `GFp_nistz256_point_mul`, entered at `index = 5 m` below
`START_INDEX`, adds the windows at `5 m, 5 (m - 1), .., 5`, each followed by
five doublings. -/
theorem P256_point_mul_loop_windows (w : Nat) (dbl : POINT → POINT)
    (add : POINT → POINT → POINT) (neg : List Nat → List Nat) (p_str : List Nat)
    (table : List POINT) : ∀ (m : Nat), m ≤ 50 → ∀ (r : POINT),
    P256.point_mul_loop w dbl add neg p_str table (5 * m) r
      = (List.range m).foldl
          (fun r j =>
            dbl (dbl (dbl (dbl (dbl
              (P256.point_mul_add_window w add neg r (P256.raw_window p_str (5 * (m - j)))
                table))))))
          r := by
  intro m
  induction m with
  | zero =>
    intro _ r
    rw [P256.point_mul_loop, if_neg (by decide)]
    rfl
  | succ m ih =>
    intro hm r
    rw [P256.point_mul_loop, if_pos (by simp only [P256.kWindowSize]; omega)]
    simp only []
    have hidx : 5 * (m + 1) - P256.kWindowSize = 5 * m := by
      simp only [P256.kWindowSize]; omega
    have hne : 5 * (m + 1) ≠ P256.START_INDEX := by
      simp only [P256.START_INDEX]; omega
    have hraw : P256.raw_window p_str (5 * (m + 1)) = P256.loop_window p_str (5 * (m + 1)) := by
      unfold P256.raw_window
      rw [if_neg hne, if_pos (by simp only [P256.kWindowSize]; omega)]
    rw [hidx, if_pos hne, ih (by omega), ← hraw]
    exact (foldl_range_count_down (fun r i =>
      dbl (dbl (dbl (dbl (dbl
        (P256.point_mul_add_window w add neg r (P256.raw_window p_str (5 * i)) table))))))
      m r).symm

/-- The calls of `GFp_nistz256_point_mul` in their order: the first window at
255 selects the start, five doublings, then the windows at `250, 245, .., 5`
are added, each followed by five doublings, then the window at 0 is added. -/
theorem P256_point_mul_by_windows (w : Nat) (mul : List Nat → List Nat → List Nat)
    (sqr : List Nat → List Nat) (dbl : POINT → POINT) (neg : List Nat → List Nat)
    (p_scalar p_x p_y : List Nat) :
    P256.GFp_nistz256_point_mul w mul sqr dbl neg p_scalar p_x p_y
      = P256.point_mul_add_window w (P256.GFp_nistz256_point_add w mul sqr dbl) neg
          ((List.range 50).foldl
            (fun r j =>
              dbl (dbl (dbl (dbl (dbl
                (P256.point_mul_add_window w (P256.GFp_nistz256_point_add w mul sqr dbl) neg r
                  (P256.raw_window
                    (gfp_little_endian_bytes_from_scalar w (P256.P256_LIMBS w * (w / 8) + 1)
                      p_scalar) (5 * (50 - j)))
                  (P256.point_mul_table dbl (P256.GFp_nistz256_point_add w mul sqr dbl) w
                    p_x p_y)))))))
            (dbl (dbl (dbl (dbl (dbl
              (P256.GFp_nistz256_select_w5 w
                (P256.point_mul_table dbl (P256.GFp_nistz256_point_add w mul sqr dbl) w p_x p_y)
                (booth_recode w (P256.raw_window
                  (gfp_little_endian_bytes_from_scalar w (P256.P256_LIMBS w * (w / 8) + 1)
                    p_scalar) 255) 5).2)))))))
          (P256.raw_window
            (gfp_little_endian_bytes_from_scalar w (P256.P256_LIMBS w * (w / 8) + 1) p_scalar) 0)
          (P256.point_mul_table dbl (P256.GFp_nistz256_point_add w mul sqr dbl) w p_x p_y) := by
  unfold P256.GFp_nistz256_point_mul
  simp only []
  generalize gfp_little_endian_bytes_from_scalar w (P256.P256_LIMBS w * (w / 8) + 1) p_scalar
    = p_str
  have h0 : P256.raw_window p_str 0 = P256.final_window p_str := by
    unfold P256.raw_window
    rw [if_neg (by decide), if_neg (by decide)]
  have h255 : P256.raw_window p_str 255 = P256.top_window p_str := by
    unfold P256.raw_window
    rw [if_pos (show 255 = P256.START_INDEX from rfl)]
  rw [h0, h255, ← P256_point_mul_loop_windows w dbl _ neg p_str _ 50 (le_refl _)]
  congr 1
  rw [P256.point_mul_loop, if_pos (by decide)]
  simp only []
  rw [if_neg (by simp only [P256.START_INDEX]; decide)]
  rfl

end Ring

namespace Sodium

/-! ## The scalar of the ristretto255 multiplications -/

/-- The copy of the scalar into `t` with its top bit cleared: the 32 bytes of
`n`, the last one masked with 127. -/
theorem scalar_copy_clamp_eq (q n : List Nat) (hq : q.length = 32) (hn : n.length = 32) :
    scalar_copy_clamp q n = n.set 31 (n.getD 31 0 &&& 127) := by
  unfold scalar_copy_clamp
  obtain ⟨h1, h2⟩ := Ring.foldl_set_range (fun i _ => n.getD i 0) 32 q (by omega)
  generalize (List.range 32).foldl (fun t i => t.set i (n.getD i 0)) q = t at h1 h2
  have ht : t = n := by
    rw [Ring.list_eq_iff_getD t n (by omega)]
    intro i hi
    rw [h2 i, if_pos (by omega)]
  rw [ht]

/-- The value of the clamped scalar: the scalar modulo `2^255`. -/
theorem scalar_clamp_val (n : List Nat) (hn : n.length = 32) (hb : ∀ x ∈ n, x < 256) :
    Ring.LIMBS_val 8 (n.set 31 (n.getD 31 0 &&& 127)) = Ring.LIMBS_val 8 n % 2 ^ 255 := by
  have hs := Ring.split_last n 31 hn
  generalize hl : n.take 31 = l at hs
  have hlen : l.length = 31 := by rw [← hl, List.length_take]; omega
  generalize hbb : n.getD 31 0 = b at hs ⊢
  have hok : Ring.LIMBS_ok 8 l := by
    intro x hx
    have : x ∈ n := by rw [hs]; exact List.mem_append_left _ hx
    exact hb x this
  rw [hs, Ring.set_last l b _ 31 hlen, Ring.LIMBS_val_append, Ring.LIMBS_val_append, hlen]
  have hlt := Ring.LIMBS_val_lt hok
  rw [hlen] at hlt
  simp only [Ring.LIMBS_val, Nat.mul_zero, Nat.add_zero]
  generalize Ring.LIMBS_val 8 l = vl at hlt ⊢
  have h127 : b &&& 127 = b % 128 := Nat.and_pow_two_sub_one_eq_mod b 7
  rw [h127]
  have e : (2 : Nat) ^ 255 = (2 ^ 8) ^ 31 * 128 := by
    rw [← pow_mul, show (128 : Nat) = 2 ^ 7 from rfl, ← pow_add]
  rw [e]
  generalize ((2 : Nat) ^ 8) ^ 31 = A at hlt ⊢
  have hdec : vl + A * b = (vl + A * (b % 128)) + A * 128 * (b / 128) := by
    have := Nat.div_add_mod b 128
    calc vl + A * b = vl + A * (128 * (b / 128) + b % 128) := by rw [this]
      _ = _ := by ring
  have hb128 : b % 128 < 128 := Nat.mod_lt _ (by decide)
  have hsmall : vl + A * (b % 128) < A * 128 := by nlinarith
  have key : (vl + A * b) % (A * 128) = vl + A * (b % 128) := by
    rw [hdec, Nat.add_mul_mod_self_left, Nat.mod_eq_of_lt hsmall]
  rw [key]

end Sodium

namespace Ring

/-! ## Comparison with a limb, multiplication by a limb, the zero scalar, reads of the scalar -/

/-- The function `LIMBS_equal_limb` in terms of the value of the array. -/
theorem LIMBS_equal_limb_eq {w : Nat} (hw : 0 < w) (a : List Nat) (b : Nat)
    (ha : LIMBS_ok w a) (hb : b < 2 ^ w) :
    LIMBS_equal_limb w a b = if LIMBS_val w a = b then 2 ^ w - 1 else 0 := by
  unfold LIMBS_equal_limb
  cases a with
  | nil =>
    simp only [List.length_nil, if_true, LIMBS_val]
    rw [constant_time_is_zero_w_eq hw hb]
    by_cases h : b = 0
    · rw [if_pos h, if_pos h.symm]
    · rw [if_neg h, if_neg (fun h0 => h h0.symm)]
  | cons x xs =>
    rw [LIMBS_ok_cons] at ha
    simp only [List.length_cons, Nat.succ_ne_zero, if_false, List.getD_cons_zero,
      List.drop_succ_cons, List.drop_zero, LIMBS_val]
    rw [constant_time_eq_w_eq hw ha.1 hb, LIMBS_are_zero_eq hw xs ha.2]
    have hp : 0 < 2 ^ w := two_pow_pos w
    by_cases hx : x = b
    · rw [if_pos hx]
      by_cases hz : LIMBS_val w xs = 0
      · rw [if_pos hz, constant_time_select_w_true _ (by omega), if_pos (by rw [hz, hx]; simp)]
      · rw [if_neg hz, constant_time_select_w_true _ hp, if_neg]
        intro h
        have : 2 ^ w * LIMBS_val w xs = 0 := by omega
        rcases Nat.mul_eq_zero.1 this with h1 | h1
        · omega
        · exact hz h1
    · rw [if_neg hx, constant_time_select_w_false _ _ _ hp, if_neg]
      intro h
      have h1 : LIMBS_val w xs = 0 := by
        by_contra hne
        have : 2 ^ w * 1 ≤ 2 ^ w * LIMBS_val w xs :=
          Nat.mul_le_mul_left _ (Nat.one_le_iff_ne_zero.2 hne)
        omega
      rw [h1] at h
      omega

/-- The arithmetic of one iteration of `GFp_limbs_mul_add_limb`, for a limb
base `B`: with `lo + hi * B = a * b`, the two additions into `carried` stay
below `B`, and the results are the quotient and the remainder of
`a * b + carried + r` by `B`. -/
theorem mul_add_limb_arith (B lo hi ai b carried ri : Nat) (hB : 0 < B)
    (hai : ai < B) (hb : b < B) (hc : carried < B) (hri : ri < B)
    (hprod : lo + hi * B = ai * b) :
    hi + (lo + carried) / B < B ∧
    hi + (lo + carried) / B + (ri + (lo + carried) % B) / B < B ∧
    (ri + (lo + carried) % B) % B = (ai * b + carried + ri) % B ∧
    hi + (lo + carried) / B + (ri + (lo + carried) % B) / B
      = (ai * b + carried + ri) / B := by
  obtain ⟨k, rfl⟩ : ∃ k, B = k + 1 := ⟨B - 1, by omega⟩
  have hP : ai * b ≤ k * k := Nat.mul_le_mul (by omega) (by omega)
  have hkk : (k + 1) * (k + 1) = k * k + k + k + 1 := by ring
  have hk1 : (k + 1) * k = k * k + k := by ring
  have hdm := Nat.div_add_mod (lo + carried) (k + 1)
  have hr1 : (lo + carried) % (k + 1) < k + 1 := Nat.mod_lt _ hB
  generalize hq1 : (lo + carried) / (k + 1) = q1 at hdm ⊢
  generalize (lo + carried) % (k + 1) = r1 at hdm hr1 ⊢
  have e0 : (hi + q1) * (k + 1) = hi * (k + 1) + (k + 1) * q1 := by ring
  -- the first sum
  have e1 : ai * b + carried = r1 + (hi + q1) * (k + 1) := by rw [e0]; omega
  have h1 : (ai * b + carried) / (k + 1) = hi + q1 := by
    rw [e1, Nat.add_mul_div_right _ _ hB, Nat.div_eq_of_lt hr1, Nat.zero_add]
  have hle1 : (ai * b + carried) / (k + 1) ≤ k :=
    Nat.div_le_of_le_mul (by rw [hk1]; omega)
  -- the second sum
  have e2 : ai * b + carried + ri = (ri + r1) + (hi + q1) * (k + 1) := by rw [e0]; omega
  have h2 : (ai * b + carried + ri) / (k + 1) = (ri + r1) / (k + 1) + (hi + q1) := by
    rw [e2, Nat.add_mul_div_right _ _ hB]
  have h3 : (ai * b + carried + ri) % (k + 1) = (ri + r1) % (k + 1) := by
    rw [e2, Nat.add_mul_mod_self_right]
  have hlt2 : (ai * b + carried + ri) / (k + 1) < k + 1 :=
    Nat.div_lt_of_lt_mul (by rw [hkk]; omega)
  refine ⟨by omega, by omega, h3.symm, by omega⟩

/-- One iteration of `GFp_limbs_mul_add_limb`: the double-limb number
`a[i] * b + carried + r[i]` is split into the new `r[i]` and the new `carried`,
and neither addition into `carried` carries. -/
theorem limbs_mul_add_limb_step_spec {w : Nat} (hw : 0 < w)
    (lohi : Nat → Nat → Nat × Nat)
    (hmul : ∀ x y, x < 2 ^ w → y < 2 ^ w →
      (lohi x y).1 < 2 ^ w ∧ (lohi x y).2 < 2 ^ w ∧
      (lohi x y).1 + (lohi x y).2 * 2 ^ w = x * y)
    {b ri ai carried : Nat} (hb : b < 2 ^ w) (hri : ri < 2 ^ w) (hai : ai < 2 ^ w)
    (hc : carried < 2 ^ w) :
    limbs_mul_add_limb_step w lohi b ri ai carried
      = ((ai * b + carried + ri) % 2 ^ w, (ai * b + carried + ri) / 2 ^ w, 0, 0) ∧
    (ai * b + carried + ri) / 2 ^ w < 2 ^ w := by
  obtain ⟨hlo, hhi, hprod⟩ := hmul ai b hai hb
  have hBpos : 0 < 2 ^ w := two_pow_pos w
  obtain ⟨a1, a2, a3, a4⟩ := mul_add_limb_arith (2 ^ w) _ _ ai b carried ri hBpos hai hb hc hri
    hprod
  have hq1 : (lohi ai b).1 + carried < 2 * 2 ^ w := by omega
  have hq1' : ((lohi ai b).1 + carried) / 2 ^ w ≤ 1 := by
    have : ((lohi ai b).1 + carried) / 2 ^ w < 2 := Nat.div_lt_of_lt_mul (by omega)
    omega
  have hr1 : ((lohi ai b).1 + carried) % 2 ^ w < 2 ^ w := Nat.mod_lt _ hBpos
  have hq3' : (ri + ((lohi ai b).1 + carried) % 2 ^ w) / 2 ^ w ≤ 1 := by
    have : (ri + ((lohi ai b).1 + carried) % 2 ^ w) / 2 ^ w < 2 :=
      Nat.div_lt_of_lt_mul (by omega)
    omega
  have s1 := limb_add_eq hw hlo hc
  have s2 := limb_adc_eq hw hhi hBpos hq1'
  have s3 := limb_add_eq hw hri hr1
  rw [Nat.add_zero, Nat.mod_eq_of_lt a1, Nat.div_eq_of_lt a1] at s2
  have s4 := limb_adc_eq hw a1 hBpos hq3'
  rw [Nat.add_zero, Nat.mod_eq_of_lt a2, Nat.div_eq_of_lt a2] at s4
  refine ⟨?_, by rw [← a4]; exact a2⟩
  unfold limbs_mul_add_limb_step
  simp only [s1, s2, s3, s4, a3, a4]

/-- The loop of `GFp_limbs_mul_add_limb`: the limbs written and the last
`carried` are the number `val r + val a * b + carried`, and every asserted
carry is zero. -/
theorem limbs_mul_add_limb_loop_spec {w : Nat} (hw : 0 < w)
    (lohi : Nat → Nat → Nat × Nat)
    (hmul : ∀ x y, x < 2 ^ w → y < 2 ^ w →
      (lohi x y).1 < 2 ^ w ∧ (lohi x y).2 < 2 ^ w ∧
      (lohi x y).1 + (lohi x y).2 * 2 ^ w = x * y)
    {b : Nat} (hb : b < 2 ^ w) :
    ∀ (r a : List Nat) (carried : Nat), r.length = a.length → LIMBS_ok w r → LIMBS_ok w a →
      carried < 2 ^ w →
      (limbs_mul_add_limb_loop w lohi b r a carried).1.length = r.length ∧
      LIMBS_ok w (limbs_mul_add_limb_loop w lohi b r a carried).1 ∧
      (limbs_mul_add_limb_loop w lohi b r a carried).2.1 < 2 ^ w ∧
      LIMBS_val w (limbs_mul_add_limb_loop w lohi b r a carried).1
          + (limbs_mul_add_limb_loop w lohi b r a carried).2.1 * (2 ^ w) ^ r.length
        = LIMBS_val w r + LIMBS_val w a * b + carried ∧
      (limbs_mul_add_limb_loop w lohi b r a carried).2.2.length = r.length ∧
      ∀ c ∈ (limbs_mul_add_limb_loop w lohi b r a carried).2.2, c = (0, 0) := by
  intro r
  induction r with
  | nil =>
    intro a carried hlen _ _ hc
    cases a with
    | nil =>
      simp only [limbs_mul_add_limb_loop, LIMBS_val, List.length_nil, pow_zero]
      exact ⟨trivial, LIMBS_ok_nil w, hc, by omega, trivial, by simp⟩
    | cons y ys => simp at hlen
  | cons ri r ih =>
    intro a carried hlen hr ha hc
    cases a with
    | nil => simp at hlen
    | cons ai a =>
      rw [LIMBS_ok_cons] at hr ha
      obtain ⟨hs, hslt⟩ := limbs_mul_add_limb_step_spec hw lohi hmul hb hr.1 ha.1 hc
      have hlen2 : r.length = a.length := by simpa using hlen
      obtain ⟨i1, i2, i3, i4, i5, i6⟩ := ih a ((ai * b + carried + ri) / 2 ^ w) hlen2 hr.2 ha.2
        hslt
      simp only [limbs_mul_add_limb_loop, hs]
      refine ⟨by simp only [List.length_cons, i1], ?_, i3, ?_, by simp only [List.length_cons, i5],
        ?_⟩
      · rw [LIMBS_ok_cons]
        exact ⟨Nat.mod_lt _ (two_pow_pos w), i2⟩
      · simp only [LIMBS_val, List.length_cons, pow_succ]
        have hdm := Nat.div_add_mod (ai * b + carried + ri) (2 ^ w)
        generalize (ai * b + carried + ri) / 2 ^ w = q at *
        generalize (ai * b + carried + ri) % 2 ^ w = m at *
        generalize limbs_mul_add_limb_loop w lohi b r a q = out at *
        generalize (2 ^ w) ^ r.length = Bn at *
        generalize 2 ^ w = B at *
        linear_combination B * i4 + hdm
      · intro c hcm
        rcases List.mem_cons.1 hcm with h | h
        · exact h
        · exact i6 c h

theorem constant_time_select_w_lt {w : Nat} (c : Nat) {a b : Nat} (ha : a < 2 ^ w)
    (hb : b < 2 ^ w) : constant_time_select_w w c a b < 2 ^ w := by
  unfold constant_time_select_w
  exact Nat.or_lt_two_pow (lt_of_le_of_lt Nat.and_le_right ha)
    (lt_of_le_of_lt Nat.and_le_right hb)

theorem P384_copy_conditional_typed {w n : Nat} (c : Nat) {r a : List Nat}
    (hr : IsLimbs w n r) (ha : IsLimbs w n a) : IsLimbs w n (P384.copy_conditional w r a c) := by
  refine ⟨by rw [P384_copy_conditional_length w r a c (by rw [hr.1, ha.1]), ha.1], ?_⟩
  unfold P384.copy_conditional
  intro x hx
  obtain ⟨i, hi, rfl⟩ := List.getElem_of_mem hx
  rw [List.getElem_zipWith]
  exact constant_time_select_w_lt c (ha.2 _ (List.getElem_mem _)) (hr.2 _ (List.getElem_mem _))

theorem P384_Q_PLUS_1_SHR_1_isLimbs {w : Nat} (hw : w = 32 ∨ w = 64) :
    IsLimbs w (P384.P384_LIMBS w) (P384.Q_PLUS_1_SHR_1 w) := by
  rcases hw with rfl | rfl <;> decide

theorem P384_elem_div_by_2_typed {w : Nat} (hw : w = 32 ∨ w = 64) {a : List Nat}
    (ha : IsLimbs w (P384.P384_LIMBS w) a) :
    IsLimbs w (P384.P384_LIMBS w) (P384.elem_div_by_2 w a) := by
  have hs := (elem_shr_1_spec (width_pos hw) ha).1
  have hq := P384_Q_PLUS_1_SHR_1_isLimbs hw
  obtain ⟨t1, t2, -, -⟩ := limbs_add_spec (width_pos hw) (P384.elem_shr_1 w a)
    (P384.Q_PLUS_1_SHR_1 w) (by rw [hs.1, hq.1]) hs.2 hq.2
  unfold P384.elem_div_by_2
  exact P384_copy_conditional_typed _ hs ⟨by rw [t1, hs.1], t2⟩

theorem P384_elem_mul_by_3_typed {w : Nat} (hw : w = 32 ∨ w = 64) {a : List Nat}
    (ha : IsLimbs w (P384.P384_LIMBS w) a) :
    IsLimbs w (P384.P384_LIMBS w) (P384.elem_mul_by_3 w a) :=
  P384_elem_add_typed hw (P384_elem_add_typed hw ha ha) ha

/-- The doubling maps arrays of `P384_LIMBS` limbs to such arrays, whatever
their values. -/
theorem P384_point_double_typed {w : Nat} (hw : w = 32 ∨ w = 64) {mm : BnMulMont}
    (hop : IsLimbOp w (P384.P384_LIMBS w) (P384.elem_mul_mont w mm)) {a : POINT}
    (ha : IsPoint w (P384.P384_LIMBS w) a) :
    IsPoint w (P384.P384_LIMBS w) (P384.GFp_nistz384_point_double w mm a) := by
  obtain ⟨hX, hY, hZ⟩ := ha
  have mul : ∀ {x y}, IsLimbs w (P384.P384_LIMBS w) x → IsLimbs w (P384.P384_LIMBS w) y →
      IsLimbs w (P384.P384_LIMBS w) (P384.elem_mul_mont w mm x y) := fun hx hy => hop _ _ hx hy
  have sqr : ∀ {x}, IsLimbs w (P384.P384_LIMBS w) x →
      IsLimbs w (P384.P384_LIMBS w) (P384.elem_sqr_mont w mm x) := fun hx => hop _ _ hx hx
  have sub : ∀ {x y}, IsLimbs w (P384.P384_LIMBS w) x → IsLimbs w (P384.P384_LIMBS w) y →
      IsLimbs w (P384.P384_LIMBS w) (P384.elem_sub w x y) := fun hx hy =>
    P384_elem_sub_typed hw hx hy
  have add : ∀ {x y}, IsLimbs w (P384.P384_LIMBS w) x → IsLimbs w (P384.P384_LIMBS w) y →
      IsLimbs w (P384.P384_LIMBS w) (P384.elem_add w x y) := fun hx hy =>
    P384_elem_add_typed hw hx hy
  have dbl : ∀ {x}, IsLimbs w (P384.P384_LIMBS w) x →
      IsLimbs w (P384.P384_LIMBS w) (P384.elem_mul_by_2 w x) := fun hx =>
    P384_elem_mul_by_2_typed hw hx
  have tri : ∀ {x}, IsLimbs w (P384.P384_LIMBS w) x →
      IsLimbs w (P384.P384_LIMBS w) (P384.elem_mul_by_3 w x) := fun hx =>
    P384_elem_mul_by_3_typed hw hx
  have half : ∀ {x}, IsLimbs w (P384.P384_LIMBS w) x →
      IsLimbs w (P384.P384_LIMBS w) (P384.elem_div_by_2 w x) := fun hx =>
    P384_elem_div_by_2_typed hw hx
  have gS := sqr (dbl hY)
  have gZsqr := sqr hZ
  have gM := tri (mul (add hX gZsqr) (sub hX gZsqr))
  have gS2 := mul gS hX
  have gx := sub (sqr gM) (dbl gS2)
  exact ⟨gx, sub (mul (sub gS2 gx) gM) (half (sqr gS)), dbl (mul hZ hY)⟩

theorem P384_isLimbs_zero {w : Nat} (n : Nat) : IsLimbs w n (limbs_zero n) :=
  ⟨by simp [limbs_zero], LIMBS_ok_replicate_zero w n⟩

/-- The addition maps arrays of `P384_LIMBS` limbs to such arrays, whatever
their values. -/
theorem P384_point_add_typed {w : Nat} (hw : w = 32 ∨ w = 64) {mm : BnMulMont}
    (hop : IsLimbOp w (P384.P384_LIMBS w) (P384.elem_mul_mont w mm)) {a b : POINT}
    (ha : IsPoint w (P384.P384_LIMBS w) a) (hb : IsPoint w (P384.P384_LIMBS w) b) :
    IsPoint w (P384.P384_LIMBS w) (P384.GFp_nistz384_point_add w mm a b) := by
  have hd := P384_point_double_typed hw hop ha
  obtain ⟨haX, haY, haZ⟩ := ha
  obtain ⟨hbX, hbY, hbZ⟩ := hb
  have mul : ∀ {x y}, IsLimbs w (P384.P384_LIMBS w) x → IsLimbs w (P384.P384_LIMBS w) y →
      IsLimbs w (P384.P384_LIMBS w) (P384.elem_mul_mont w mm x y) := fun hx hy => hop _ _ hx hy
  have sqr : ∀ {x}, IsLimbs w (P384.P384_LIMBS w) x →
      IsLimbs w (P384.P384_LIMBS w) (P384.elem_sqr_mont w mm x) := fun hx => hop _ _ hx hx
  have sub : ∀ {x y}, IsLimbs w (P384.P384_LIMBS w) x → IsLimbs w (P384.P384_LIMBS w) y →
      IsLimbs w (P384.P384_LIMBS w) (P384.elem_sub w x y) := fun hx hy =>
    P384_elem_sub_typed hw hx hy
  have dbl : ∀ {x}, IsLimbs w (P384.P384_LIMBS w) x →
      IsLimbs w (P384.P384_LIMBS w) (P384.elem_mul_by_2 w x) := fun hx =>
    P384_elem_mul_by_2_typed hw hx
  have cc : ∀ (c : Nat) {x y}, IsLimbs w (P384.P384_LIMBS w) x →
      IsLimbs w (P384.P384_LIMBS w) y →
      IsLimbs w (P384.P384_LIMBS w) (P384.copy_conditional w x y c) := fun c _ _ hx hy =>
    P384_copy_conditional_typed c hx hy
  unfold P384.GFp_nistz384_point_add
  simp only []
  split
  · split
    · exact hd
    · exact ⟨P384_isLimbs_zero _, P384_isLimbs_zero _, P384_isLimbs_zero _⟩
  · have gZ2sqr := sqr hbZ
    have gZ1sqr := sqr haZ
    have gS1 := mul (mul gZ2sqr hbZ) haY
    have gS2 := mul (mul gZ1sqr haZ) hbY
    have gR := sub gS2 gS1
    have gU1 := mul haX gZ2sqr
    have gU2 := mul hbX gZ1sqr
    have gH := sub gU2 gU1
    have gHsqr := sqr gH
    have gHcub := mul gHsqr gH
    have gU2b := mul gU1 gHsqr
    have gresx := sub (sub (sqr gR) (dbl gU2b)) gHcub
    have gresy := sub (mul gR (sub gU2b gresx)) (mul gS1 gHcub)
    have gresz := mul (mul gH haZ) hbZ
    exact ⟨cc _ (cc _ gresx hbX) haX, cc _ (cc _ gresy hbY) haY, cc _ (cc _ gresz hbZ) haZ⟩

/-- Every entry of the table of `GFp_nistz384_point_mul` consists of arrays of
`P384_LIMBS` limbs. -/
theorem P384_point_mul_table_typed {w : Nat} (hw : w = 32 ∨ w = 64) {mm : BnMulMont}
    (hop : IsLimbOp w (P384.P384_LIMBS w) (P384.elem_mul_mont w mm)) {p_x p_y : List Nat}
    (hx : IsLimbs w (P384.P384_LIMBS w) p_x) (hy : IsLimbs w (P384.P384_LIMBS w) p_y) :
    (P384.point_mul_table w mm p_x p_y).length = 16 ∧
    ∀ t ∈ P384.point_mul_table w mm p_x p_y, IsPoint w (P384.P384_LIMBS w) t := by
  have r1 : IsPoint w (P384.P384_LIMBS w) { X := p_x, Y := p_y, Z := P384.ONE w } :=
    ⟨hx, hy, (P384_isElem_ONE hw).1⟩
  have r2 := P384_point_double_typed hw hop r1
  have r3 := P384_point_add_typed hw hop r2 r1
  have r4 := P384_point_double_typed hw hop r2
  have r6 := P384_point_double_typed hw hop r3
  have r8 := P384_point_double_typed hw hop r4
  have r12 := P384_point_double_typed hw hop r6
  have r5 := P384_point_add_typed hw hop r4 r1
  have r7 := P384_point_add_typed hw hop r6 r1
  have r9 := P384_point_add_typed hw hop r8 r1
  have r13 := P384_point_add_typed hw hop r12 r1
  have r14 := P384_point_double_typed hw hop r7
  have r10 := P384_point_double_typed hw hop r5
  have r15 := P384_point_add_typed hw hop r14 r1
  have r11 := P384_point_add_typed hw hop r10 r1
  have r16 := P384_point_double_typed hw hop r8
  refine ⟨rfl, ?_⟩
  intro t ht
  unfold P384.point_mul_table at ht
  simp only [List.mem_cons, List.mem_singleton, List.not_mem_nil, or_false] at ht
  rcases ht with h | h | h | h | h | h | h | h | h | h | h | h | h | h | h | h <;> rw [h] <;>
    assumption

/-- The field operations on zero arrays. -/
theorem P384_elem_zero_ops {w : Nat} (hw : w = 32 ∨ w = 64) :
    P384.elem_mul_by_2 w (limbs_zero (P384.P384_LIMBS w)) = limbs_zero (P384.P384_LIMBS w) ∧
    P384.elem_add w (limbs_zero (P384.P384_LIMBS w)) (limbs_zero (P384.P384_LIMBS w))
      = limbs_zero (P384.P384_LIMBS w) ∧
    P384.elem_sub w (limbs_zero (P384.P384_LIMBS w)) (limbs_zero (P384.P384_LIMBS w))
      = limbs_zero (P384.P384_LIMBS w) ∧
    P384.elem_div_by_2 w (limbs_zero (P384.P384_LIMBS w)) = limbs_zero (P384.P384_LIMBS w) ∧
    P384.elem_mul_by_3 w (limbs_zero (P384.P384_LIMBS w)) = limbs_zero (P384.P384_LIMBS w) ∧
    P384.GFp_p384_elem_neg w (limbs_zero (P384.P384_LIMBS w))
      = limbs_zero (P384.P384_LIMBS w) := by
  rcases hw with rfl | rfl <;> decide!

/-- Doubling the point `(0, 0, 0)` gives `(0, 0, 0)` when the product of two
zero arrays is the zero array. -/
theorem P384_point_double_zero {w : Nat} (hw : w = 32 ∨ w = 64) {mm : BnMulMont}
    (hzero : P384.elem_mul_mont w mm (limbs_zero (P384.P384_LIMBS w))
      (limbs_zero (P384.P384_LIMBS w)) = limbs_zero (P384.P384_LIMBS w)) :
    P384.GFp_nistz384_point_double w mm
        { X := limbs_zero (P384.P384_LIMBS w), Y := limbs_zero (P384.P384_LIMBS w),
          Z := limbs_zero (P384.P384_LIMBS w) }
      = { X := limbs_zero (P384.P384_LIMBS w), Y := limbs_zero (P384.P384_LIMBS w),
          Z := limbs_zero (P384.P384_LIMBS w) } := by
  obtain ⟨z1, z2, z3, z4, z5, -⟩ := P384_elem_zero_ops hw
  unfold P384.GFp_nistz384_point_double
  simp only [P384.elem_sqr_mont, z1, z2, z3, z4, z5, hzero]

/-- Adding the entry for a zero window to `(0, 0, 0)` gives `(0, 0, 0)`: the
digit is 0, the selection returns `(0, 0, 0)`, and the addition sees two
points at infinity. -/
theorem P384_add_precomputed_zero {w : Nat} (hw : w = 32 ∨ w = 64) {mm : BnMulMont}
    (hop : IsLimbOp w (P384.P384_LIMBS w) (P384.elem_mul_mont w mm))
    (table : List POINT) (hlen : table.length = 16)
    (ht : ∀ t ∈ table, IsPoint w (P384.P384_LIMBS w) t) :
    P384.add_precomputed_w5 w mm
        { X := limbs_zero (P384.P384_LIMBS w), Y := limbs_zero (P384.P384_LIMBS w),
          Z := limbs_zero (P384.P384_LIMBS w) } 0 table
      = { X := limbs_zero (P384.P384_LIMBS w), Y := limbs_zero (P384.P384_LIMBS w),
          Z := limbs_zero (P384.P384_LIMBS w) } := by
  obtain ⟨b1, b2⟩ := booth_recode_table w hw 0 (by decide)
  rw [if_neg (by decide)] at b1 b2
  have hz : IsLimbs w (P384.P384_LIMBS w) (limbs_zero (P384.P384_LIMBS w)) :=
    P384_isLimbs_zero _
  have hsel := P384_point_select_w5_spec hw table 0 hlen (by decide) ht
  rw [dif_neg (by decide)] at hsel
  unfold P384.add_precomputed_w5
  simp only [b1, b2, hsel, (P384_elem_zero_ops hw).2.2.2.2.2,
    P384_copy_conditional_false _ _ rfl hz.2]
  exact (P384_point_add_right_identity hw mm (IsLimbs w (P384.P384_LIMBS w)) (fun _ h => h)
    (fun hx hy => hop _ _ hx hy) (fun hx hy => P384_elem_sub_typed hw hx hy)
    (fun hx => P384_elem_mul_by_2_typed hw hx) _ _ hz hz hz hz hz hz
    (LIMBS_val_replicate_zero w _)).2

theorem foldl_fixed {α β : Type} (f : α → β → α) (z : α) (h : ∀ j, f z j = z) :
    ∀ l : List β, l.foldl f z = z := by
  intro l
  induction l with
  | nil => rfl
  | cons x xs ih => rw [List.foldl_cons, h, ih]

/-- Every raw window of the all-zero scalar is 0. -/
theorem P384_raw_window_zero_scalar {w : Nat} (hw : w = 32 ∨ w = 64) (j : Nat) (hj : j ≤ 76) :
    P384.raw_window
      (gfp_little_endian_bytes_from_scalar w (P384.P384_LIMBS w * (w / 8) + 1)
        (limbs_zero (P384.P384_LIMBS w))) (5 * j) = 0 := by
  obtain ⟨-, hok, hval⟩ := gfp_little_endian_bytes_from_scalar_spec hw
    (P384.P384_LIMBS w * (w / 8) + 1) (limbs_zero (P384.P384_LIMBS w))
    (LIMBS_ok_replicate_zero w _) (by simp [limbs_zero])
  have hv0 : LIMBS_val 8 (gfp_little_endian_bytes_from_scalar w
      (P384.P384_LIMBS w * (w / 8) + 1) (limbs_zero (P384.P384_LIMBS w))) = 0 := by
    rw [hval]; exact LIMBS_val_replicate_zero w _
  rw [P384_raw_window_spec _ hok (by rw [hv0, Nat.zero_div]; decide) j hj, hv0]
  simp

/-- The reads and the values of `index` that the window loop records when it
is entered at `index = 5 m` below `START_INDEX`: two bytes for each of the
windows at `5 m, 5 (m - 1), .., 5`, and `index` runs through
`5 m, 5 (m - 1), .., 0`. -/
theorem point_mul_loop_reads_trace (START : Nat) (aw : POINT → Nat → POINT)
    (dbl : POINT → POINT) (p_str : List Nat) : ∀ (m : Nat), 5 * m < START →
    ∀ (s : POINT × List Nat × List Nat),
    (point_mul_loop_reads START aw dbl p_str (5 * m) s).2
      = (s.2.1 ++ (List.range m).flatMap
            (fun j => [(5 * (m - j) - 1) / 8, (5 * (m - j) - 1) / 8 + 1]),
         s.2.2 ++ (List.range (m + 1)).map (fun j => 5 * (m - j))) := by
  intro m
  induction m with
  | zero =>
    intro _ s
    rw [point_mul_loop_reads, if_neg (by decide)]
    simp
  | succ m ih =>
    intro hm s
    rw [point_mul_loop_reads, if_pos (by omega)]
    simp only []
    rw [if_pos (by omega), show 5 * (m + 1) - 5 = 5 * m by omega, ih (by omega)]
    simp only [List.range_succ_eq_map (m + 1), List.range_succ_eq_map m, List.flatMap_cons,
      List.map_cons, List.flatMap_map, List.map_map, Function.comp_def, Nat.succ_eq_add_one,
      Nat.add_sub_add_right, Nat.sub_zero, List.append_assoc, List.singleton_append,
      List.cons_append, List.nil_append]

/-- The reads and the values of `index` of the whole scalar loop for
`START_INDEX = 5 (m + 1)`. -/
theorem point_mul_reads_trace (m : Nat) (sel : Nat → POINT) (aw : POINT → Nat → POINT)
    (dbl : POINT → POINT) (p_str : List Nat) :
    (point_mul_reads (5 * (m + 1)) sel aw dbl p_str).2
      = ([(5 * (m + 1) - 1) / 8] ++ (List.range m).flatMap
            (fun j => [(5 * (m - j) - 1) / 8, (5 * (m - j) - 1) / 8 + 1]) ++ [0],
         (List.range (m + 2)).map (fun j => 5 * (m + 1 - j))) := by
  unfold point_mul_reads
  simp only []
  rw [point_mul_loop_reads, if_pos (by omega)]
  simp only []
  rw [if_neg (by simp), show 5 * (m + 1) - 5 = 5 * m by omega,
    point_mul_loop_reads_trace _ _ _ _ m (by omega)]
  simp only [List.range_succ_eq_map (m + 1), List.map_cons, List.map_map, Function.comp_def,
    Nat.succ_eq_add_one, Nat.add_sub_add_right, Nat.sub_zero, List.nil_append]
  rfl

/-- The recording loop computes the point that the loop of
`GFp_nistz384_point_mul` computes. -/
theorem P384_point_mul_loop_reads_fst (w : Nat) (mm : BnMulMont) (p_str : List Nat)
    (table : List POINT) : ∀ (index : Nat) (s : POINT × List Nat × List Nat),
    (point_mul_loop_reads P384.START_INDEX
        (fun r wvalue => P384.add_precomputed_w5 w mm r wvalue table)
        (P384.GFp_nistz384_point_double w mm) p_str index s).1
      = P384.point_mul_loop w mm p_str table index s.1 := by
  intro index
  induction index using Nat.strong_induction_on with
  | _ index ih =>
    intro s
    rw [point_mul_loop_reads, P384.point_mul_loop]
    by_cases h5 : index ≥ 5
    · rw [if_pos h5, if_pos (show index ≥ P384.kWindowSize from h5)]
      simp only []
      rw [ih (index - 5) (by omega)]
      by_cases hs : index ≠ P384.START_INDEX
      · simp only [if_pos hs]
        rfl
      · simp only [if_neg hs]
        rfl
    · rw [if_neg h5, if_neg (show ¬ index ≥ P384.kWindowSize from h5)]

/-- The recording loop computes the point that the loop of
`GFp_nistz256_point_mul` computes. -/
theorem P256_point_mul_loop_reads_fst (w : Nat) (dbl : POINT → POINT)
    (add : POINT → POINT → POINT) (neg : List Nat → List Nat) (p_str : List Nat)
    (table : List POINT) : ∀ (index : Nat) (s : POINT × List Nat × List Nat),
    (point_mul_loop_reads P256.START_INDEX
        (fun r raw_wvalue => P256.point_mul_add_window w add neg r raw_wvalue table)
        dbl p_str index s).1
      = P256.point_mul_loop w dbl add neg p_str table index s.1 := by
  intro index
  induction index using Nat.strong_induction_on with
  | _ index ih =>
    intro s
    rw [point_mul_loop_reads, P256.point_mul_loop]
    by_cases h5 : index ≥ 5
    · rw [if_pos h5, if_pos (show index ≥ P256.kWindowSize from h5)]
      simp only []
      rw [ih (index - 5) (by omega)]
      by_cases hs : index ≠ P256.START_INDEX
      · simp only [if_pos hs]
        rfl
      · simp only [if_neg hs]
        rfl
    · rw [if_neg h5, if_neg (show ¬ index ≥ P256.kWindowSize from h5)]

/-- The recording model of `GFp_nistz384_point_mul` returns the point of the
function. -/
theorem P384_point_mul_reads_fst (w : Nat) (mm : BnMulMont) (p_scalar p_x p_y : List Nat) :
    (P384.GFp_nistz384_point_mul_reads w mm p_scalar p_x p_y).1
      = P384.GFp_nistz384_point_mul w mm p_scalar p_x p_y := by
  unfold P384.GFp_nistz384_point_mul_reads point_mul_reads P384.GFp_nistz384_point_mul
  simp only []
  rw [P384_point_mul_loop_reads_fst]
  rfl

/-- The recording model of `GFp_nistz256_point_mul` returns the point of the
function. -/
theorem P256_point_mul_reads_fst (w : Nat) (mul : List Nat → List Nat → List Nat)
    (sqr : List Nat → List Nat) (dbl : POINT → POINT) (neg : List Nat → List Nat)
    (p_scalar p_x p_y : List Nat) :
    (P256.GFp_nistz256_point_mul_reads w mul sqr dbl neg p_scalar p_x p_y).1
      = P256.GFp_nistz256_point_mul w mul sqr dbl neg p_scalar p_x p_y := by
  unfold P256.GFp_nistz256_point_mul_reads point_mul_reads P256.GFp_nistz256_point_mul
  simp only []
  rw [P256_point_mul_loop_reads_fst]
  rfl

/-- The loop of `GFp_nistz256_point_mul_base`: `index` grows by 7 in every
round, and round `j` reads the bytes `(index - 1) / 8` and
`(index - 1) / 8 + 1`. -/
theorem foldl_index_reads (F : POINT → Nat → Nat → POINT) :
    ∀ (l : List Nat) (s : POINT × Nat × List Nat),
    (l.foldl (fun (s : POINT × Nat × List Nat) i =>
        (F s.1 i s.2.1, s.2.1 + 7, s.2.2 ++ [(s.2.1 - 1) / 8, (s.2.1 - 1) / 8 + 1])) s).2
      = (s.2.1 + 7 * l.length,
         s.2.2 ++ (List.range l.length).flatMap
           (fun j => [(s.2.1 + 7 * j - 1) / 8, (s.2.1 + 7 * j - 1) / 8 + 1])) := by
  intro l
  induction l with
  | nil => intro s; simp
  | cons i l ih =>
    intro s
    rw [List.foldl_cons, ih]
    simp only [List.length_cons, List.range_succ_eq_map l.length, List.flatMap_cons,
      List.flatMap_map, Function.comp_def, Nat.succ_eq_add_one, Nat.mul_zero, Nat.add_zero,
      List.append_assoc]
    have e : ∀ j, s.2.1 + 7 + 7 * j = s.2.1 + 7 * (j + 1) := fun j => by omega
    simp only [e]

/-- The reads of `GFp_nistz256_point_mul_base`: byte 0, then for the rounds
`i = 1 .. 36` the two bytes of the window at bit `7 i - 1`. -/
theorem P256_point_mul_base_reads_trace (w : Nat) (precomputed : List (List Nat))
    (neg : List Nat → List Nat) (add_affine : POINT → POINT_AFFINE → POINT)
    (g_scalar : List Nat) :
    (P256.GFp_nistz256_point_mul_base_reads w precomputed neg add_affine g_scalar).2
      = [0] ++ (List.range 36).flatMap
          (fun j => [(7 + 7 * j - 1) / 8, (7 + 7 * j - 1) / 8 + 1]) := by
  unfold P256.GFp_nistz256_point_mul_base_reads
  simp only []
  have h := foldl_index_reads
    (fun p i index => add_affine p (P256.select_precomputed w precomputed neg i
      ((((gfp_little_endian_bytes_from_scalar w (P256.P256_LIMBS w * (w / 8) + 1)
          g_scalar).getD ((index - 1) / 8) 0 |||
        ((gfp_little_endian_bytes_from_scalar w (P256.P256_LIMBS w * (w / 8) + 1)
          g_scalar).getD ((index - 1) / 8 + 1) 0 <<< 8)) >>> ((index - 1) % 8)) &&&
        ((1 <<< (7 + 1)) - 1))))
    (List.range' 1 36)
  exact congrArg Prod.snd (h _)

theorem bytes_from_scalar_length_ge (w str_len : Nat) (scalar : List Nat) :
    str_len ≤ (gfp_little_endian_bytes_from_scalar w str_len scalar).length := by
  unfold gfp_little_endian_bytes_from_scalar
  simp only [List.length_append, List.length_replicate]
  omega

/-! ## Statements about the modular layer, the Montgomery constant and P-384 -/

/-- Every result of the modelled `GFp_bn_mul_mont` is an array of `num_limbs`
limbs. -/
theorem GFp_bn_mul_mont_typed (w : Nat) (a b n n0 : List Nat) (num_limbs : Nat) :
    IsLimbs w num_limbs (GFp_bn_mul_mont w a b n n0 num_limbs) :=
  (LIMBS_of_nat_spec w _ _).1

/-- C1: `LIMBS_add_mod` returns the sum modulo `m`.  For `num_limbs >= 1`, a
modulus `m` and `a`, `b` with `val a < val m` and `val b < val m`, the output is
an array of `num_limbs` limbs with `val r = (val a + val b) mod val m`, hence
`val r < val m`; this covers `0`, `m - 1` and sums that overflow the array. -/
theorem LIMBS_add_mod_correct (w : Nat) (a b m : List Nat) (hw : 0 < w)
    (_hn : 1 ≤ m.length) (hla : a.length = m.length) (hlb : b.length = m.length)
    (ha : LIMBS_ok w a) (hb : LIMBS_ok w b) (hm : LIMBS_ok w m)
    (hav : LIMBS_val w a < LIMBS_val w m) (hbv : LIMBS_val w b < LIMBS_val w m) :
    (LIMBS_add_mod w a b m).length = m.length ∧ LIMBS_ok w (LIMBS_add_mod w a b m) ∧
    LIMBS_val w (LIMBS_add_mod w a b m) = (LIMBS_val w a + LIMBS_val w b) % LIMBS_val w m ∧
    LIMBS_val w (LIMBS_add_mod w a b m) < LIMBS_val w m := by
  obtain ⟨h1, h2, h3⟩ := LIMBS_add_mod_spec hw a b m hla hlb ha hb hm hav hbv
  exact ⟨h1, h2, h3, by rw [h3]; exact Nat.mod_lt _ (by omega)⟩

/-- Witness of C1 with 64-bit limbs: `a = b = m - 1` for `m = 2^128 - 1`, whose
sum overflows two limbs; the result is `m - 2`. -/
theorem LIMBS_add_mod_correct_witness :
    LIMBS_val 64 [18446744073709551614, 18446744073709551615]
        < LIMBS_val 64 [18446744073709551615, 18446744073709551615] ∧
    LIMBS_val 64 (LIMBS_add_mod 64 [18446744073709551614, 18446744073709551615]
        [18446744073709551614, 18446744073709551615]
        [18446744073709551615, 18446744073709551615])
      = (LIMBS_val 64 [18446744073709551614, 18446744073709551615]
          + LIMBS_val 64 [18446744073709551614, 18446744073709551615])
        % LIMBS_val 64 [18446744073709551615, 18446744073709551615] :=
  ⟨by decide,
   (LIMBS_add_mod_correct 64 [18446744073709551614, 18446744073709551615]
      [18446744073709551614, 18446744073709551615]
      [18446744073709551615, 18446744073709551615]
      (by decide) (by decide) (by decide) (by decide) (by decide) (by decide) (by decide)
      (by decide) (by decide)).2.2.1⟩

/-- C2: `LIMBS_sub_mod` returns the difference modulo `m`.  For
`num_limbs >= 1` and `a`, `b` below `m`, the output is an array of `num_limbs`
limbs whose value is the non-negative residue of `val a - val b` modulo
`val m`, hence below `val m`; when `a < b` it is `val a + val m - val b` (the
modulus is added once and the carry out of the array is dropped), otherwise
`val a - val b`. -/
theorem LIMBS_sub_mod_correct (w : Nat) (a b m : List Nat) (hw : 0 < w)
    (_hn : 1 ≤ m.length) (hla : a.length = m.length) (hlb : b.length = m.length)
    (ha : LIMBS_ok w a) (hb : LIMBS_ok w b) (hm : LIMBS_ok w m)
    (hav : LIMBS_val w a < LIMBS_val w m) (hbv : LIMBS_val w b < LIMBS_val w m) :
    (LIMBS_sub_mod w a b m).length = m.length ∧ LIMBS_ok w (LIMBS_sub_mod w a b m) ∧
    (LIMBS_val w (LIMBS_sub_mod w a b m) : Int)
      = ((LIMBS_val w a : Int) - (LIMBS_val w b : Int)) % (LIMBS_val w m : Int) ∧
    LIMBS_val w (LIMBS_sub_mod w a b m) < LIMBS_val w m ∧
    (LIMBS_val w a < LIMBS_val w b →
      LIMBS_val w (LIMBS_sub_mod w a b m) = LIMBS_val w a + LIMBS_val w m - LIMBS_val w b) ∧
    (LIMBS_val w b ≤ LIMBS_val w a →
      LIMBS_val w (LIMBS_sub_mod w a b m) = LIMBS_val w a - LIMBS_val w b) := by
  obtain ⟨h1, h2, h3⟩ := LIMBS_sub_mod_spec hw a b m hla hlb ha hb hm hav hbv
  refine ⟨h1, h2, ?_, ?_, ?_, ?_⟩
  · rw [h3]
    split_ifs with h
    · have e : ((LIMBS_val w a : Int) - (LIMBS_val w b : Int))
          = ((LIMBS_val w a + LIMBS_val w m - LIMBS_val w b : Nat) : Int)
            + (LIMBS_val w m : Int) * (-1) := by
        rw [Nat.cast_sub (by omega)]; push_cast; ring
      rw [e, Int.add_mul_emod_self_left, Int.emod_eq_of_lt (by omega) (by omega)]
    · have e : ((LIMBS_val w a : Int) - (LIMBS_val w b : Int))
          = ((LIMBS_val w a - LIMBS_val w b : Nat) : Int) := by
        rw [Nat.cast_sub (by omega)]
      rw [e, Int.emod_eq_of_lt (by omega) (by omega)]
  · rw [h3]; split_ifs <;> omega
  · intro h; rw [h3, if_pos h]
  · intro h; rw [h3, if_neg (by omega)]

/-- Witness of C2 with 64-bit limbs: `0 - (m - 1)` for `m = 2^128 - 1` is 1. -/
theorem LIMBS_sub_mod_correct_witness :
    LIMBS_val 64 [0, 0] < LIMBS_val 64 [18446744073709551614, 18446744073709551615] ∧
    LIMBS_val 64 (LIMBS_sub_mod 64 [0, 0] [18446744073709551614, 18446744073709551615]
        [18446744073709551615, 18446744073709551615])
      = LIMBS_val 64 [0, 0] + LIMBS_val 64 [18446744073709551615, 18446744073709551615]
        - LIMBS_val 64 [18446744073709551614, 18446744073709551615] :=
  ⟨by decide,
   (LIMBS_sub_mod_correct 64 [0, 0] [18446744073709551614, 18446744073709551615]
      [18446744073709551615, 18446744073709551615]
      (by decide) (by decide) (by decide) (by decide) (by decide) (by decide) (by decide)
      (by decide) (by decide)).2.2.2.2.1 (by decide)⟩

/-- C3: `LIMBS_shl_mod` doubles modulo `m`.  For `num_limbs >= 1` and `a` below
`m`, the output is an array of `num_limbs` limbs with
`val r = (2 * val a) mod val m`, hence `val r < val m`, also when the top bit of
`a` is set and the shift overflows. -/
theorem LIMBS_shl_mod_correct (w : Nat) (a m : List Nat) (hw : 0 < w)
    (hn : 1 ≤ m.length) (hla : a.length = m.length)
    (ha : LIMBS_ok w a) (hm : LIMBS_ok w m)
    (hav : LIMBS_val w a < LIMBS_val w m) :
    (LIMBS_shl_mod w a m).length = m.length ∧ LIMBS_ok w (LIMBS_shl_mod w a m) ∧
    LIMBS_val w (LIMBS_shl_mod w a m) = (2 * LIMBS_val w a) % LIMBS_val w m ∧
    LIMBS_val w (LIMBS_shl_mod w a m) < LIMBS_val w m := by
  obtain ⟨h1, h2, h3⟩ := LIMBS_shl_mod_spec hw a m (by omega) hla ha hm hav
  exact ⟨h1, h2, h3, by rw [h3]; exact Nat.mod_lt _ (by omega)⟩

/-- Witness of C3 with 64-bit limbs: `a = m - 1` for `m = 2^128 - 1` has its top
bit set. -/
theorem LIMBS_shl_mod_correct_witness :
    LIMBS_val 64 [18446744073709551614, 18446744073709551615]
        < LIMBS_val 64 [18446744073709551615, 18446744073709551615] ∧
    LIMBS_val 64 (LIMBS_shl_mod 64 [18446744073709551614, 18446744073709551615]
        [18446744073709551615, 18446744073709551615])
      = (2 * LIMBS_val 64 [18446744073709551614, 18446744073709551615])
        % LIMBS_val 64 [18446744073709551615, 18446744073709551615] :=
  ⟨by decide,
   (LIMBS_shl_mod_correct 64 [18446744073709551614, 18446744073709551615]
      [18446744073709551615, 18446744073709551615]
      (by decide) (by decide) (by decide) (by decide) (by decide) (by decide)).2.2.1⟩

/-- C4: `LIMBS_reduce_once` subtracts `m` from `r` exactly when `r >= m`.  For
`num_limbs >= 1` and arrays `r`, `m` of that length, the new `r` has value
`val r - val m` if `val r >= val m` and `val r` otherwise, and the final borrow
is 0 in both cases. -/
theorem LIMBS_reduce_once_correct (w : Nat) (r m : List Nat) (hw : 0 < w)
    (_hn : 1 ≤ m.length) (hl : r.length = m.length)
    (hr : LIMBS_ok w r) (hm : LIMBS_ok w m) :
    (LIMBS_reduce_once w r m).1.length = r.length ∧ LIMBS_ok w (LIMBS_reduce_once w r m).1 ∧
    (LIMBS_val w m ≤ LIMBS_val w r →
      LIMBS_val w (LIMBS_reduce_once w r m).1 = LIMBS_val w r - LIMBS_val w m) ∧
    (LIMBS_val w r < LIMBS_val w m →
      LIMBS_val w (LIMBS_reduce_once w r m).1 = LIMBS_val w r) ∧
    (LIMBS_reduce_once w r m).2 = 0 := by
  obtain ⟨h1, h2, h3, h4⟩ := LIMBS_reduce_once_spec hw r m hl hr hm
  refine ⟨h1, h2, ?_, ?_, h4⟩
  · intro h; rw [h3, if_pos h]
  · intro h; rw [h3, if_neg (by omega)]

/-- Witness of C4 with 64-bit limbs: `r = 2^128 - 1`, `m = 2^128 - 2`. -/
theorem LIMBS_reduce_once_correct_witness :
    LIMBS_val 64 [18446744073709551614, 18446744073709551615]
        ≤ LIMBS_val 64 [18446744073709551615, 18446744073709551615] ∧
    LIMBS_val 64 (LIMBS_reduce_once 64 [18446744073709551615, 18446744073709551615]
        [18446744073709551614, 18446744073709551615]).1
      = LIMBS_val 64 [18446744073709551615, 18446744073709551615]
        - LIMBS_val 64 [18446744073709551614, 18446744073709551615] :=
  ⟨by decide,
   (LIMBS_reduce_once_correct 64 [18446744073709551615, 18446744073709551615]
      [18446744073709551614, 18446744073709551615]
      (by decide) (by decide) (by decide) (by decide) (by decide)).2.2.1 (by decide)⟩

/-- C5: `GFp_bn_neg_inv_mod_r_u64` returns `-1/n mod 2^64`.  For every odd
64-bit `n` the returned `v` is a 64-bit word with `(v * n) mod 2^64 = 2^64 - 1`,
and there is a `u` with `u * 2^64 - v * n = 1`. -/
theorem GFp_bn_neg_inv_mod_r_u64_correct (n : Nat) (hn : n < 2 ^ 64) (hodd : n % 2 = 1) :
    GFp_bn_neg_inv_mod_r_u64 n < 2 ^ 64 ∧
    (GFp_bn_neg_inv_mod_r_u64 n * n) % 2 ^ 64 = 2 ^ 64 - 1 ∧
    ∃ u : Nat, (u : Int) * 2 ^ 64 - (GFp_bn_neg_inv_mod_r_u64 n : Int) * n = 1 :=
  GFp_bn_neg_inv_mod_r_u64_spec hn hodd

/-- Witness of C5 at `n = 0xecec196accc52973`, the lowest limb of the P-384
group order. -/
theorem GFp_bn_neg_inv_mod_r_u64_correct_witness :
    17072048233947408755 % 2 = 1 ∧
    (GFp_bn_neg_inv_mod_r_u64 17072048233947408755 * 17072048233947408755) % 2 ^ 64
      = 2 ^ 64 - 1 :=
  ⟨by decide,
   (GFp_bn_neg_inv_mod_r_u64_correct 17072048233947408755 (by decide) (by decide)).2.1⟩

/-- C6: `point_add` with an identity operand returns the other operand.  For
all inputs `a`, `b` of `GFp_nistz384_point_add` and of the C
`GFp_nistz256_point_add` (coordinates being limb arrays, the field
multiplications mapping limb arrays to limb arrays): if `b.Z = 0` the output
equals `a` limb for limb, and if `a.Z = 0` and `b.Z != 0` the output equals
`b` limb for limb; in both cases `is_exceptional` is 0, so the exceptional
branch is not taken. -/
theorem point_add_identity (w : Nat) (bn_mul_mont : BnMulMont) (a b : POINT)
    (mul256 : List Nat → List Nat → List Nat) (sqr256 : List Nat → List Nat)
    (dbl256 : POINT → POINT) (a256 b256 : POINT)
    (hw : w = 32 ∨ w = 64)
    (hmm : IsLimbOp w (P384.P384_LIMBS w) (P384.elem_mul_mont w bn_mul_mont))
    (ha : IsPoint w (P384.P384_LIMBS w) a) (hb : IsPoint w (P384.P384_LIMBS w) b)
    (hmul : IsLimbOp w (P256.P256_LIMBS w) mul256)
    (hsqr : ∀ x, IsLimbs w (P256.P256_LIMBS w) x → IsLimbs w (P256.P256_LIMBS w) (sqr256 x))
    (ha256 : IsPoint w (P256.P256_LIMBS w) a256) (hb256 : IsPoint w (P256.P256_LIMBS w) b256) :
    ((LIMBS_val w b.Z = 0 →
        P384.point_add_is_exceptional w bn_mul_mont a b = 0 ∧
        P384.GFp_nistz384_point_add w bn_mul_mont a b = a) ∧
      (LIMBS_val w a.Z = 0 → LIMBS_val w b.Z ≠ 0 →
        P384.point_add_is_exceptional w bn_mul_mont a b = 0 ∧
        P384.GFp_nistz384_point_add w bn_mul_mont a b = b)) ∧
    ((LIMBS_val w b256.Z = 0 →
        P256.point_add_is_exceptional w mul256 sqr256 a256 b256 = 0 ∧
        P256.GFp_nistz256_point_add w mul256 sqr256 dbl256 a256 b256 = a256) ∧
      (LIMBS_val w a256.Z = 0 → LIMBS_val w b256.Z ≠ 0 →
        P256.point_add_is_exceptional w mul256 sqr256 a256 b256 = 0 ∧
        P256.GFp_nistz256_point_add w mul256 sqr256 dbl256 a256 b256 = b256)) := by
  refine ⟨⟨?_, ?_⟩, P256_point_add_identity hw mul256 sqr256 dbl256 hmul hsqr a256 b256
    ha256 hb256⟩
  · intro hz
    exact P384_point_add_right_identity hw bn_mul_mont (IsLimbs w (P384.P384_LIMBS w))
      (fun _ h => h) (fun hx hy => hmm _ _ hx hy) (fun hx hy => P384_elem_sub_typed hw hx hy)
      (fun hx => P384_elem_mul_by_2_typed hw hx) a b ha.1 ha.2.1 ha.2.2 hb.1 hb.2.1 hb.2.2 hz
  · intro hz hnz
    exact P384_point_add_left_identity hw bn_mul_mont (IsLimbs w (P384.P384_LIMBS w))
      (fun _ h => h) (fun hx hy => hmm _ _ hx hy) (fun hx hy => P384_elem_sub_typed hw hx hy)
      (fun hx => P384_elem_mul_by_2_typed hw hx) a b ha.1 ha.2.1 ha.2.2 hb.1 hb.2.1 hb.2.2 hz
      hnz

/-- Witness of C6 with 64-bit limbs and the modelled Montgomery multiplication:
a finite point plus a point with `Z = 0`, for P-384 and for P-256. -/
theorem point_add_identity_witness :
    IsLimbOp 64 (P384.P384_LIMBS 64) (P384.elem_mul_mont 64 (GFp_bn_mul_mont 64)) ∧
    LIMBS_val 64 (POINT.mk [1, 0, 0, 0, 0, 0] [2, 0, 0, 0, 0, 0] [0, 0, 0, 0, 0, 0]).Z = 0 ∧
    P384.GFp_nistz384_point_add 64 (GFp_bn_mul_mont 64)
        (POINT.mk [5, 0, 0, 0, 0, 0] [7, 0, 0, 0, 0, 0] [9, 0, 0, 0, 0, 0])
        (POINT.mk [1, 0, 0, 0, 0, 0] [2, 0, 0, 0, 0, 0] [0, 0, 0, 0, 0, 0])
      = POINT.mk [5, 0, 0, 0, 0, 0] [7, 0, 0, 0, 0, 0] [9, 0, 0, 0, 0, 0] ∧
    P256.GFp_nistz256_point_add 64
        (fun x y => GFp_bn_mul_mont 64 x y (P256.Q 64) [1] (P256.P256_LIMBS 64))
        (fun x => GFp_bn_mul_mont 64 x x (P256.Q 64) [1] (P256.P256_LIMBS 64))
        (fun p => p)
        (POINT.mk [5, 0, 0, 0] [7, 0, 0, 0] [9, 0, 0, 0])
        (POINT.mk [1, 0, 0, 0] [2, 0, 0, 0] [0, 0, 0, 0])
      = POINT.mk [5, 0, 0, 0] [7, 0, 0, 0] [9, 0, 0, 0] :=
  ⟨P384_model_isLimbOp 64, by decide,
   ((point_add_identity 64 (GFp_bn_mul_mont 64)
      (POINT.mk [5, 0, 0, 0, 0, 0] [7, 0, 0, 0, 0, 0] [9, 0, 0, 0, 0, 0])
      (POINT.mk [1, 0, 0, 0, 0, 0] [2, 0, 0, 0, 0, 0] [0, 0, 0, 0, 0, 0])
      (fun x y => GFp_bn_mul_mont 64 x y (P256.Q 64) [1] (P256.P256_LIMBS 64))
      (fun x => GFp_bn_mul_mont 64 x x (P256.Q 64) [1] (P256.P256_LIMBS 64))
      (fun p => p)
      (POINT.mk [5, 0, 0, 0] [7, 0, 0, 0] [9, 0, 0, 0])
      (POINT.mk [1, 0, 0, 0] [2, 0, 0, 0] [0, 0, 0, 0])
      (Or.inr rfl) (P384_model_isLimbOp 64) (by decide) (by decide)
      (fun _ _ _ _ => GFp_bn_mul_mont_typed 64 _ _ _ _ _)
      (fun _ _ => GFp_bn_mul_mont_typed 64 _ _ _ _ _)
      (by decide) (by decide)).1.1 (by decide)).2,
   ((point_add_identity 64 (GFp_bn_mul_mont 64)
      (POINT.mk [5, 0, 0, 0, 0, 0] [7, 0, 0, 0, 0, 0] [9, 0, 0, 0, 0, 0])
      (POINT.mk [1, 0, 0, 0, 0, 0] [2, 0, 0, 0, 0, 0] [0, 0, 0, 0, 0, 0])
      (fun x y => GFp_bn_mul_mont 64 x y (P256.Q 64) [1] (P256.P256_LIMBS 64))
      (fun x => GFp_bn_mul_mont 64 x x (P256.Q 64) [1] (P256.P256_LIMBS 64))
      (fun p => p)
      (POINT.mk [5, 0, 0, 0] [7, 0, 0, 0] [9, 0, 0, 0])
      (POINT.mk [1, 0, 0, 0] [2, 0, 0, 0] [0, 0, 0, 0])
      (Or.inr rfl) (P384_model_isLimbOp 64) (by decide) (by decide)
      (fun _ _ _ _ => GFp_bn_mul_mont_typed 64 _ _ _ _ _)
      (fun _ _ => GFp_bn_mul_mont_typed 64 _ _ _ _ _)
      (by decide) (by decide)).2.1 (by decide)).2⟩

/-- C7: `point_add(P, -P)` is the identity.  For every `P = (X, Y, Z)` with
reduced coordinates and `Z != 0`, and `-P = (X, GFp_p384_elem_neg(Y), Z)`,
`GFp_nistz384_point_add(P, -P)` takes the exceptional branch and returns a
point with `Z = 0`; when `Y != 0` the test `is_equal(S1, S2)` fails and the
result is exactly `(0, 0, 0)`.  `elem_mul_mont` is assumed to be Montgomery
multiplication modulo `Q`; that `Q` is prime is proved. -/
theorem point_add_neg_is_identity (w : Nat) (bn_mul_mont : BnMulMont) (P : POINT)
    (hw : w = 32 ∨ w = 64)
    (hmm : IsMontMul w (P384.P384_LIMBS w) (P384.Q w) (P384.elem_mul_mont w bn_mul_mont))
    (hX : P384.IsElem w P.X) (hY : P384.IsElem w P.Y) (hZ : P384.IsElem w P.Z)
    (hnz : LIMBS_val w P.Z ≠ 0) :
    P384.point_add_is_exceptional w bn_mul_mont P
        { X := P.X, Y := P384.GFp_p384_elem_neg w P.Y, Z := P.Z } ≠ 0 ∧
    LIMBS_val w (P384.GFp_nistz384_point_add w bn_mul_mont P
        { X := P.X, Y := P384.GFp_p384_elem_neg w P.Y, Z := P.Z }).Z = 0 ∧
    (LIMBS_val w P.Y ≠ 0 →
      P384.point_add_S1_eq_S2 w bn_mul_mont P
          { X := P.X, Y := P384.GFp_p384_elem_neg w P.Y, Z := P.Z } = 0 ∧
      P384.GFp_nistz384_point_add w bn_mul_mont P
          { X := P.X, Y := P384.GFp_p384_elem_neg w P.Y, Z := P.Z }
        = { X := limbs_zero (P384.P384_LIMBS w), Y := limbs_zero (P384.P384_LIMBS w),
            Z := limbs_zero (P384.P384_LIMBS w) }) := by
  obtain ⟨h1, h2, h3⟩ := P384_point_add_neg hw hmm P hX hY hZ hnz
  exact ⟨by rw [h1]; exact ones_ne_zero (width_pos hw), h2, h3⟩

/-- Witness of C7 with 64-bit limbs and the modelled Montgomery multiplication,
at `P = (5, 7, 9)`. -/
theorem point_add_neg_is_identity_witness :
    IsMontMul 64 (P384.P384_LIMBS 64) (P384.Q 64) (P384.elem_mul_mont 64 (GFp_bn_mul_mont 64)) ∧
    P384.IsElem 64 [9, 0, 0, 0, 0, 0] ∧ LIMBS_val 64 [9, 0, 0, 0, 0, 0] ≠ 0 ∧
    P384.GFp_nistz384_point_add 64 (GFp_bn_mul_mont 64)
        (POINT.mk [5, 0, 0, 0, 0, 0] [7, 0, 0, 0, 0, 0] [9, 0, 0, 0, 0, 0])
        { X := [5, 0, 0, 0, 0, 0], Y := P384.GFp_p384_elem_neg 64 [7, 0, 0, 0, 0, 0],
          Z := [9, 0, 0, 0, 0, 0] }
      = { X := limbs_zero (P384.P384_LIMBS 64), Y := limbs_zero (P384.P384_LIMBS 64),
          Z := limbs_zero (P384.P384_LIMBS 64) } :=
  ⟨P384_model_isMontMul (Or.inr rfl), by decide, by decide,
   ((point_add_neg_is_identity 64 (GFp_bn_mul_mont 64)
      (POINT.mk [5, 0, 0, 0, 0, 0] [7, 0, 0, 0, 0, 0] [9, 0, 0, 0, 0, 0])
      (Or.inr rfl) (P384_model_isMontMul (Or.inr rfl)) (by decide) (by decide) (by decide)
      (by decide)).2.2 (by decide)).2⟩

/-- C8: `point_double(P) == point_add(P, P)`.  For every `P` with reduced
coordinates and `Z != 0`, `GFp_nistz384_point_add(r, P, P)` takes the
exceptional branch, finds `S1 = S2`, and returns exactly the limbs of
`GFp_nistz384_point_double(r, P)`; for `Z = 0` both results have `Z = 0`.
`elem_mul_mont` is assumed to be Montgomery multiplication modulo `Q`. -/
theorem point_add_self_is_double (w : Nat) (bn_mul_mont : BnMulMont) (P : POINT)
    (hw : w = 32 ∨ w = 64)
    (hmm : IsMontMul w (P384.P384_LIMBS w) (P384.Q w) (P384.elem_mul_mont w bn_mul_mont))
    (hX : P384.IsElem w P.X) (hY : P384.IsElem w P.Y) (hZ : P384.IsElem w P.Z) :
    (LIMBS_val w P.Z ≠ 0 →
      P384.point_add_is_exceptional w bn_mul_mont P P ≠ 0 ∧
      P384.point_add_S1_eq_S2 w bn_mul_mont P P ≠ 0 ∧
      P384.GFp_nistz384_point_add w bn_mul_mont P P
        = P384.GFp_nistz384_point_double w bn_mul_mont P) ∧
    (LIMBS_val w P.Z = 0 →
      LIMBS_val w (P384.GFp_nistz384_point_add w bn_mul_mont P P).Z = 0 ∧
      LIMBS_val w (P384.GFp_nistz384_point_double w bn_mul_mont P).Z = 0) := by
  constructor
  · intro hnz
    obtain ⟨h1, h2, h3⟩ := P384_point_add_self_finite hw hmm P hX hY hZ hnz
    exact ⟨by rw [h1]; exact ones_ne_zero (width_pos hw),
      by rw [h2]; exact ones_ne_zero (width_pos hw), h3⟩
  · intro hz
    obtain ⟨-, h2⟩ := P384_point_add_self_infinite hw hmm P hX hY hZ hz
    exact ⟨by rw [h2]; exact hz, P384_point_double_Z_zero hw hmm P hY hZ (Or.inl hz)⟩

/-- Witness of C8 with 64-bit limbs and the modelled Montgomery multiplication,
at `P = (5, 7, 9)`. -/
theorem point_add_self_is_double_witness :
    IsMontMul 64 (P384.P384_LIMBS 64) (P384.Q 64) (P384.elem_mul_mont 64 (GFp_bn_mul_mont 64)) ∧
    P384.IsElem 64 [9, 0, 0, 0, 0, 0] ∧ LIMBS_val 64 [9, 0, 0, 0, 0, 0] ≠ 0 ∧
    P384.GFp_nistz384_point_add 64 (GFp_bn_mul_mont 64)
        (POINT.mk [5, 0, 0, 0, 0, 0] [7, 0, 0, 0, 0, 0] [9, 0, 0, 0, 0, 0])
        (POINT.mk [5, 0, 0, 0, 0, 0] [7, 0, 0, 0, 0, 0] [9, 0, 0, 0, 0, 0])
      = P384.GFp_nistz384_point_double 64 (GFp_bn_mul_mont 64)
        (POINT.mk [5, 0, 0, 0, 0, 0] [7, 0, 0, 0, 0, 0] [9, 0, 0, 0, 0, 0]) :=
  ⟨P384_model_isMontMul (Or.inr rfl), by decide, by decide,
   ((point_add_self_is_double 64 (GFp_bn_mul_mont 64)
      (POINT.mk [5, 0, 0, 0, 0, 0] [7, 0, 0, 0, 0, 0] [9, 0, 0, 0, 0, 0])
      (Or.inr rfl) (P384_model_isMontMul (Or.inr rfl)) (by decide) (by decide)
      (by decide)).1 (by decide)).2.2⟩

/-- C9: scalar multiplication composes.  Over the P-384 field, on the curve
`y^2 = x^3 - 3 x + b`, let `(x, y)` be a valid point `P` (on the curve and not
singular), in Montgomery form, and let `k1`, `k2` be any scalars of `P384_LIMBS`
limbs.  Then `GFp_nistz384_point_mul(k1, x, y)` returns a Jacobian
representative of `k1 * P`: reduced coordinates whose affine form
`(X / Z^2, Y / Z^3)`, or the point at infinity when `Z = 0`, is `k1 * P`.  If
`(x1, y1)` are the affine coordinates of that result, then
`GFp_nistz384_point_mul(k2, x1, y1)` is a representative of `(k1 * k2) * P`, and
it is the same curve point as `GFp_nistz384_point_mul(k3, x, y)` for
`k3 = (k1 * k2) mod n`, for every `n` with `n * P = 0`, as the group order is.
`elem_mul_mont` is assumed to be Montgomery multiplication modulo `Q`. -/
theorem point_mul_composes (w : Nat) (bn_mul_mont : BnMulMont) (b : ZMod P384.modulus)
    (k1 k2 x y x1 y1 : List Nat) (hw : w = 32 ∨ w = 64)
    (hmm : IsMontMul w (P384.P384_LIMBS w) (P384.Q w) (P384.elem_mul_mont w bn_mul_mont))
    (hk1 : IsLimbs w (P384.P384_LIMBS w) k1) (hk2 : IsLimbs w (P384.P384_LIMBS w) k2)
    (hx : P384.IsElem w x) (hy : P384.IsElem w y)
    (hx1 : P384.IsElem w x1) (hy1 : P384.IsElem w y1)
    (hP : WeierstrassCurve.Jacobian.Nonsingular (P384.curve b)
      ![P384.decode w x, P384.decode w y, 1])
    (hP1 : WeierstrassCurve.Jacobian.Nonsingular (P384.curve b)
      ![P384.decode w x1, P384.decode w y1, 1])
    (hmid : WeierstrassCurve.Jacobian.Point.toAffine (P384.curve b)
        ![P384.decode w x1, P384.decode w y1, 1]
      = WeierstrassCurve.Jacobian.Point.toAffine (P384.curve b)
          (P384.decodePoint w (P384.GFp_nistz384_point_mul w bn_mul_mont k1 x y))) :
    P384.Represents w b (P384.GFp_nistz384_point_mul w bn_mul_mont k1 x y)
      (LIMBS_val w k1 • WeierstrassCurve.Jacobian.Point.toAffine (P384.curve b)
        ![P384.decode w x, P384.decode w y, 1]) ∧
    P384.Represents w b (P384.GFp_nistz384_point_mul w bn_mul_mont k2 x1 y1)
      ((LIMBS_val w k1 * LIMBS_val w k2) •
        WeierstrassCurve.Jacobian.Point.toAffine (P384.curve b)
          ![P384.decode w x, P384.decode w y, 1]) ∧
    ∀ (n : Nat) (k3 : List Nat), IsLimbs w (P384.P384_LIMBS w) k3 →
      n • WeierstrassCurve.Jacobian.Point.toAffine (P384.curve b)
        ![P384.decode w x, P384.decode w y, 1] = 0 →
      LIMBS_val w k3 = (LIMBS_val w k1 * LIMBS_val w k2) % n →
      WeierstrassCurve.Jacobian.Point.toAffine (P384.curve b)
          (P384.decodePoint w (P384.GFp_nistz384_point_mul w bn_mul_mont k2 x1 y1))
        = WeierstrassCurve.Jacobian.Point.toAffine (P384.curve b)
          (P384.decodePoint w (P384.GFp_nistz384_point_mul w bn_mul_mont k3 x y)) := by
  have h1 := P384_point_mul_represents hw hmm b hk1 hx hy hP
  have h2 := P384_point_mul_represents hw hmm b hk2 hx1 hy1 hP1
  rw [hmid, h1.2.2, ← mul_nsmul] at h2
  refine ⟨h1, h2, ?_⟩
  intro n k3 hk3 hn hmod
  have h3 := P384_point_mul_represents hw hmm b hk3 hx hy hP
  rw [h2.2.2, h3.2.2, hmod]
  conv_lhs => rw [← Nat.mod_add_div (LIMBS_val w k1 * LIMBS_val w k2) n]
  rw [add_nsmul, mul_nsmul, hn, nsmul_zero, add_zero]

/-- Witness of C9 with 64-bit limbs and the modelled Montgomery multiplication:
the point `(5, 7)` (Montgomery form) on the curve through it, `k1 = 1`,
`k2 = 3`. -/
theorem point_mul_composes_witness :
    ∃ b : ZMod P384.modulus,
      WeierstrassCurve.Jacobian.Nonsingular (P384.curve b)
        ![P384.decode 64 [5, 0, 0, 0, 0, 0], P384.decode 64 [7, 0, 0, 0, 0, 0], 1] ∧
      P384.Represents 64 b
        (P384.GFp_nistz384_point_mul 64 (GFp_bn_mul_mont 64) [3, 0, 0, 0, 0, 0]
          [5, 0, 0, 0, 0, 0] [7, 0, 0, 0, 0, 0])
        ((LIMBS_val 64 [1, 0, 0, 0, 0, 0] * LIMBS_val 64 [3, 0, 0, 0, 0, 0]) •
          WeierstrassCurve.Jacobian.Point.toAffine (P384.curve b)
            ![P384.decode 64 [5, 0, 0, 0, 0, 0], P384.decode 64 [7, 0, 0, 0, 0, 0], 1]) := by
  have hw : (64 : Nat) = 32 ∨ (64 : Nat) = 64 := Or.inr rfl
  have hx : P384.IsElem 64 [5, 0, 0, 0, 0, 0] := by decide
  have hy : P384.IsElem 64 [7, 0, 0, 0, 0, 0] := by decide
  have hy0 : P384.decode 64 [7, 0, 0, 0, 0, 0] ≠ 0 := by
    rw [Ne, P384_decode_eq_zero_iff hw hy]; decide
  refine ⟨P384.decode 64 [7, 0, 0, 0, 0, 0] ^ 2
    - (P384.decode 64 [5, 0, 0, 0, 0, 0] ^ 3 - 3 * P384.decode 64 [5, 0, 0, 0, 0, 0]), ?_⟩
  have hP := P384_nonsingular_through (P384.decode 64 [5, 0, 0, 0, 0, 0])
    (P384.decode 64 [7, 0, 0, 0, 0, 0]) hy0
  have hmm := P384_model_isMontMul hw
  have h1 := P384_point_mul_represents hw hmm _ (by decide : IsLimbs 64 (P384.P384_LIMBS 64)
    [1, 0, 0, 0, 0, 0]) hx hy hP
  have hv1 : LIMBS_val 64 [1, 0, 0, 0, 0, 0] = 1 := by decide
  exact ⟨hP, (point_mul_composes 64 (GFp_bn_mul_mont 64) _ [1, 0, 0, 0, 0, 0]
    [3, 0, 0, 0, 0, 0] [5, 0, 0, 0, 0, 0] [7, 0, 0, 0, 0, 0] [5, 0, 0, 0, 0, 0]
    [7, 0, 0, 0, 0, 0] hw hmm (by decide) (by decide) hx hy hx hy hP hP
    (by rw [h1.2.2, hv1, one_nsmul])).2.1⟩

/-- C10: `elem_div_by_2` of P-384 halves modulo `q`.  For every field element
`a` (`val a < q`) the output `r` is a field element with
`2 * val r = val a` modulo `q`; `r = a / 2` when `a` is even and
`r = (a >> 1) + (q + 1) / 2` when `a` is odd, where `a >> 1` has value
`val a / 2`, the constant `Q_PLUS_1_SHR_1` is `(q + 1) / 2`, the limb addition
has no carry out (`carry2 = 0`) and the sum is at most `q - 1`. -/
theorem elem_div_by_2_correct (w : Nat) (a : List Nat) (hw : w = 32 ∨ w = 64)
    (ha : P384.IsElem w a) :
    P384.IsElem w (P384.elem_div_by_2 w a) ∧
    (2 * LIMBS_val w (P384.elem_div_by_2 w a)) % LIMBS_val w (P384.Q w) = LIMBS_val w a ∧
    (LIMBS_val w a % 2 = 0 → LIMBS_val w (P384.elem_div_by_2 w a) = LIMBS_val w a / 2) ∧
    (LIMBS_val w a % 2 = 1 →
      LIMBS_val w (P384.elem_div_by_2 w a)
        = LIMBS_val w (P384.elem_shr_1 w a) + LIMBS_val w (P384.Q_PLUS_1_SHR_1 w) ∧
      LIMBS_val w (P384.elem_shr_1 w a) + LIMBS_val w (P384.Q_PLUS_1_SHR_1 w)
        ≤ LIMBS_val w (P384.Q w) - 1) ∧
    LIMBS_val w (P384.elem_shr_1 w a) = LIMBS_val w a / 2 ∧
    LIMBS_val w (P384.Q_PLUS_1_SHR_1 w) = (LIMBS_val w (P384.Q w) + 1) / 2 ∧
    P384.elem_div_by_2_carry2 w a = 0 := by
  unfold P384.IsElem at ha ⊢
  obtain ⟨h1, h2, h3⟩ := P384_elem_div_by_2_spec hw ha.1 ha.2
  obtain ⟨-, h4⟩ := elem_shr_1_spec (width_pos hw) ha.1
  have h5 := P384_Q_PLUS_1_SHR_1_val hw
  have hodd := P384_Q_odd hw
  have hlt := ha.2
  rw [h4, h5]
  generalize LIMBS_val w (P384.Q w) = q at *
  generalize LIMBS_val w a = A at *
  generalize LIMBS_val w (P384.elem_div_by_2 w a) = r at *
  by_cases hev : A % 2 = 0
  · rw [if_pos hev] at h2
    subst h2
    refine ⟨⟨h1, by omega⟩, ?_, fun _ => rfl, fun h => by omega, rfl, rfl, h3⟩
    have : 2 * (A / 2) = A := by omega
    rw [this, Nat.mod_eq_of_lt hlt]
  · rw [if_neg hev] at h2
    subst h2
    refine ⟨⟨h1, by omega⟩, ?_, fun h => by omega, fun _ => ⟨rfl, by omega⟩, rfl, rfl, h3⟩
    have : 2 * (A / 2 + (q + 1) / 2) = A + q := by omega
    rw [this, Nat.add_mod_right, Nat.mod_eq_of_lt hlt]

/-- Witness of C10 with 64-bit limbs at the largest odd field element
`a = q - 2`, where the sum is exactly `q - 1`. -/
theorem elem_div_by_2_correct_witness :
    P384.IsElem 64 [4294967293, 18446744069414584320, 18446744073709551614,
      18446744073709551615, 18446744073709551615, 18446744073709551615] ∧
    (2 * LIMBS_val 64 (P384.elem_div_by_2 64 [4294967293, 18446744069414584320,
        18446744073709551614, 18446744073709551615, 18446744073709551615,
        18446744073709551615])) % LIMBS_val 64 (P384.Q 64)
      = LIMBS_val 64 [4294967293, 18446744069414584320, 18446744073709551614,
        18446744073709551615, 18446744073709551615, 18446744073709551615] :=
  ⟨by decide,
   (elem_div_by_2_correct 64 [4294967293, 18446744069414584320, 18446744073709551614,
      18446744073709551615, 18446744073709551615, 18446744073709551615] (Or.inr rfl)
      (by decide)).2.1⟩

/-! ## Statements about the constant-time primitives, table selection and the Montgomery domain -/

/-- C11: `GFp_p384_elem_neg` negates modulo `q`.  For every field element `a`
(`val a < q`) the output `r` is the array of zero limbs when `a = 0` and has
the value `q - val a` otherwise; in both cases `r` is again a field element,
`val r < q` (the full modulus is never returned), and
`(val a + val r) mod q = 0`. -/
theorem GFp_p384_elem_neg_correct (w : Nat) (a : List Nat) (hw : w = 32 ∨ w = 64)
    (ha : P384.IsElem w a) :
    (LIMBS_val w a = 0 →
      P384.GFp_p384_elem_neg w a = limbs_zero (P384.P384_LIMBS w) ∧
      LIMBS_val w (P384.GFp_p384_elem_neg w a) = 0) ∧
    (LIMBS_val w a ≠ 0 →
      LIMBS_val w (P384.GFp_p384_elem_neg w a) = LIMBS_val w (P384.Q w) - LIMBS_val w a) ∧
    IsLimbs w (P384.P384_LIMBS w) (P384.GFp_p384_elem_neg w a) ∧
    LIMBS_val w (P384.GFp_p384_elem_neg w a) < LIMBS_val w (P384.Q w) ∧
    (LIMBS_val w a + LIMBS_val w (P384.GFp_p384_elem_neg w a)) % LIMBS_val w (P384.Q w) = 0 := by
  obtain ⟨h1, h2⟩ := GFp_p384_elem_neg_spec hw ha
  have hq := ha.2
  refine ⟨fun hz => ?_, fun hz => ?_, h1.1, h1.2, ?_⟩
  · rw [if_pos hz] at h2
    refine ⟨?_, h2⟩
    have hall := (LIMBS_val_eq_zero_iff w _).1 h2
    unfold limbs_zero
    rw [← h1.1.1]
    exact List.eq_replicate_of_mem hall
  · rw [if_neg hz] at h2
    exact h2
  · rw [h2]
    split_ifs with hz
    · rw [hz]; simp
    · rw [show LIMBS_val w a + (LIMBS_val w (P384.Q w) - LIMBS_val w a)
        = LIMBS_val w (P384.Q w) by omega]
      exact Nat.mod_self _

/-- Witness of C11 with 64-bit limbs at `a = 0`: the result is the zero array,
not the modulus. -/
theorem GFp_p384_elem_neg_correct_witness :
    P384.IsElem 64 [0, 0, 0, 0, 0, 0] ∧
    P384.GFp_p384_elem_neg 64 [0, 0, 0, 0, 0, 0] = limbs_zero (P384.P384_LIMBS 64) :=
  ⟨by decide,
   ((GFp_p384_elem_neg_correct 64 [0, 0, 0, 0, 0, 0] (Or.inr rfl) (by decide)).1
      (by decide)).1⟩

/-- C12: `constant_time_select_w(mask, a, b)` is `a` when `mask` is all-ones
(`CONSTTIME_TRUE_W`) and `b` when `mask` is 0, for all words `a` and `b`;
consequently `copy_conditional(r, a, cond)`, of P-384 and of P-256, sets `r`
to `a` when `cond` is all-ones and leaves `r` unchanged when `cond` is 0. -/
theorem constant_time_select_w_correct (w a b : Nat) (r x : List Nat)
    (ha : a < 2 ^ w) (hb : b < 2 ^ w)
    (hl : r.length = x.length) (hr : LIMBS_ok w r) (hx : LIMBS_ok w x) :
    constant_time_select_w w (CONSTTIME_TRUE_W w) a b = a ∧
    constant_time_select_w w CONSTTIME_FALSE_W a b = b ∧
    P384.copy_conditional w r x (CONSTTIME_TRUE_W w) = x ∧
    P384.copy_conditional w r x CONSTTIME_FALSE_W = r ∧
    P256.copy_conditional w r x (CONSTTIME_TRUE_W w) = x ∧
    P256.copy_conditional w r x CONSTTIME_FALSE_W = r := by
  rw [CONSTTIME_TRUE_W_eq]
  exact ⟨constant_time_select_w_true b ha, constant_time_select_w_false w a b hb,
    P384_copy_conditional_true r x hl hx, P384_copy_conditional_false r x hl hr,
    P256_copy_conditional_true r x hl hx, P256_copy_conditional_false r x hl hr⟩

/-- Witness of C12 with 64-bit words, the values `0xffffffff / 2` and `SIZE_MAX`
of the test table and two arrays of four limbs. -/
theorem constant_time_select_w_correct_witness :
    constant_time_select_w 64 (CONSTTIME_TRUE_W 64) 2147483647 18446744073709551615
      = 2147483647 ∧
    constant_time_select_w 64 CONSTTIME_FALSE_W 2147483647 18446744073709551615
      = 18446744073709551615 ∧
    P256.copy_conditional 64 [1, 2, 3, 4] [5, 6, 7, 18446744073709551615] (CONSTTIME_TRUE_W 64)
      = [5, 6, 7, 18446744073709551615] :=
  let h := constant_time_select_w_correct 64 2147483647 18446744073709551615 [1, 2, 3, 4]
    [5, 6, 7, 18446744073709551615] (by decide) (by decide) (by decide) (by decide) (by decide)
  ⟨h.1, h.2.1, h.2.2.2.2.1⟩

/-- C13: the word predicates return canonical masks.  For every `w`-bit word
`a`, `constant_time_is_zero_w(a)` is all-ones if `a = 0` and 0 otherwise, and
`constant_time_is_nonzero_w(a)` is its bitwise complement, 0 if `a = 0` and
all-ones otherwise; for all words `a`, `b`, `constant_time_eq_w(a, b)` is
all-ones if `a = b` and 0 otherwise.  No other value is returned. -/
theorem constant_time_masks_canonical (w a b : Nat) (hw : 0 < w)
    (ha : a < 2 ^ w) (hb : b < 2 ^ w) :
    constant_time_is_zero_w w a = (if a = 0 then CONSTTIME_TRUE_W w else CONSTTIME_FALSE_W) ∧
    constant_time_is_nonzero_w w a = word_not w (constant_time_is_zero_w w a) ∧
    constant_time_is_nonzero_w w a
      = (if a = 0 then CONSTTIME_FALSE_W else CONSTTIME_TRUE_W w) ∧
    constant_time_eq_w w a b = (if a = b then CONSTTIME_TRUE_W w else CONSTTIME_FALSE_W) := by
  rw [CONSTTIME_TRUE_W_eq]
  exact ⟨constant_time_is_zero_w_eq hw ha, rfl, constant_time_is_nonzero_w_eq hw ha,
    constant_time_eq_w_eq hw ha hb⟩

/-- Witness of C13 with 64-bit words at `a = SIZE_MAX / 2 + 1`, `b = SIZE_MAX`. -/
theorem constant_time_masks_canonical_witness :
    constant_time_is_zero_w 64 9223372036854775808 = CONSTTIME_FALSE_W ∧
    constant_time_is_nonzero_w 64 9223372036854775808 = CONSTTIME_TRUE_W 64 ∧
    constant_time_eq_w 64 9223372036854775808 18446744073709551615 = CONSTTIME_FALSE_W :=
  let h := constant_time_masks_canonical 64 9223372036854775808 18446744073709551615
    (by decide) (by decide) (by decide)
  ⟨h.1, h.2.2.1, h.2.2.2⟩

/-- C14: `LIMBS_less_than` compares multi-limb integers.  For `num_limbs >= 1`
and all arrays `a`, `b` of `num_limbs` limbs, the result is all-ones if
`val a < val b`, the arrays read as little-endian integers, and 0 otherwise. -/
theorem LIMBS_less_than_correct (w : Nat) (a b : List Nat) (hw : 0 < w)
    (_hn : 1 ≤ a.length) (hl : a.length = b.length)
    (ha : LIMBS_ok w a) (hb : LIMBS_ok w b) :
    LIMBS_less_than w a b
      = (if LIMBS_val w a < LIMBS_val w b then CONSTTIME_TRUE_W w else CONSTTIME_FALSE_W) := by
  rw [CONSTTIME_TRUE_W_eq]
  exact LIMBS_less_than_eq hw a b hl ha hb

/-- Witness of C14 with 64-bit limbs: `a = 2^64 - 1` is below `b = 2^64`
although its low limb is the larger one, and `b` is not below `a`. -/
theorem LIMBS_less_than_correct_witness :
    LIMBS_val 64 [18446744073709551615, 0] < LIMBS_val 64 [0, 1] ∧
    LIMBS_less_than 64 [18446744073709551615, 0] [0, 1] = CONSTTIME_TRUE_W 64 :=
  ⟨by decide,
   (LIMBS_less_than_correct 64 [18446744073709551615, 0] [0, 1] (by decide) (by decide)
      (by decide) (by decide) (by decide)).trans (if_pos (by decide))⟩

/-- C15: `LIMBS_equal` is limb-wise equality.  For all arrays `a`, `b` of
`num_limbs >= 0` limbs the result is all-ones if `a[i] = b[i]` for every `i`
and 0 otherwise; for `num_limbs = 0` it is all-ones. -/
theorem LIMBS_equal_correct (w : Nat) (a b : List Nat) (hw : 0 < w)
    (hl : a.length = b.length) (ha : LIMBS_ok w a) (hb : LIMBS_ok w b) :
    ((∀ i, i < a.length → a.getD i 0 = b.getD i 0) →
      LIMBS_equal w a b = CONSTTIME_TRUE_W w) ∧
    ((∃ i, i < a.length ∧ a.getD i 0 ≠ b.getD i 0) →
      LIMBS_equal w a b = CONSTTIME_FALSE_W) ∧
    LIMBS_equal w [] [] = CONSTTIME_TRUE_W w := by
  have h := LIMBS_equal_eq hw a b hl ha hb
  have hiff := list_eq_iff_getD a b hl
  rw [CONSTTIME_TRUE_W_eq]
  refine ⟨fun hall => ?_, fun hex => ?_, ?_⟩
  · rw [h, if_pos (hiff.2 hall)]
  · rw [h, if_neg]
    · rfl
    · intro hab
      obtain ⟨i, hi, hne⟩ := hex
      exact hne (hiff.1 hab i hi)
  · exact (CONSTTIME_TRUE_W_eq w).symm ▸ rfl

/-- Witness of C15 with 64-bit limbs: two arrays that differ in the top limb
only. -/
theorem LIMBS_equal_correct_witness :
    LIMBS_equal 64 [7, 0, 9223372036854775808] [7, 0, 0] = CONSTTIME_FALSE_W :=
  (LIMBS_equal_correct 64 [7, 0, 9223372036854775808] [7, 0, 0] (by decide) (by decide)
    (by decide) (by decide)).2.1 ⟨2, by decide, by decide⟩

/-- C16: `LIMBS_are_zero` tests for the zero array.  For every array `a` of
`num_limbs >= 0` limbs the result is all-ones if every limb of `a` is zero and
0 otherwise; for `num_limbs = 0` it is all-ones. -/
theorem LIMBS_are_zero_correct (w : Nat) (a : List Nat) (hw : 0 < w) (ha : LIMBS_ok w a) :
    ((∀ x ∈ a, x = 0) → LIMBS_are_zero w a = CONSTTIME_TRUE_W w) ∧
    ((∃ x ∈ a, x ≠ 0) → LIMBS_are_zero w a = CONSTTIME_FALSE_W) ∧
    LIMBS_are_zero w [] = CONSTTIME_TRUE_W w := by
  have h := LIMBS_are_zero_eq hw a ha
  rw [CONSTTIME_TRUE_W_eq]
  refine ⟨fun hall => ?_, fun hex => ?_, ?_⟩
  · rw [h, if_pos ((LIMBS_val_eq_zero_iff w a).2 hall)]
  · rw [h, if_neg]
    · rfl
    · intro hz
      obtain ⟨x, hx, hne⟩ := hex
      exact hne ((LIMBS_val_eq_zero_iff w a).1 hz x hx)
  · exact (CONSTTIME_TRUE_W_eq w).symm ▸ rfl

/-- Witness of C16 with 64-bit limbs: an array whose only nonzero limb is the
top bit of the last limb. -/
theorem LIMBS_are_zero_correct_witness :
    LIMBS_are_zero 64 [0, 0, 9223372036854775808] = CONSTTIME_FALSE_W :=
  (LIMBS_are_zero_correct 64 [0, 0, 9223372036854775808] (by decide) (by decide)).2.1
    ⟨9223372036854775808, by decide, by decide⟩

/-- C17, the claim as stated fails: with 64-bit limbs `512 / LIMB_BITS = 8`,
and `LIMBS_select_512_32` called with `num_limbs = 1`, a table of 32 entries
of one limb and `index = 0` returns 0 and leaves `r = [7]` as it was, which is
not entry 0 of the table, `[100]`. -/
theorem LIMBS_select_512_32_guard_counterexample :
    LIMBS_select_512_32 64 [7]
        [100, 101, 102, 103, 104, 105, 106, 107, 108, 109, 110, 111, 112, 113, 114, 115,
          116, 117, 118, 119, 120, 121, 122, 123, 124, 125, 126, 127, 128, 129, 130, 131] 1 0
      = (0, [7]) ∧
    (List.drop (0 * 1)
        [100, 101, 102, 103, 104, 105, 106, 107, 108, 109, 110, 111, 112, 113, 114, 115,
          116, 117, 118, 119, 120, 121, 122, 123, 124, 125, 126, 127, 128, 129, 130, 131]).take 1
      = [100] ∧
    (LIMBS_select_512_32 64 [7]
        [100, 101, 102, 103, 104, 105, 106, 107, 108, 109, 110, 111, 112, 113, 114, 115,
          116, 117, 118, 119, 120, 121, 122, 123, 124, 125, 126, 127, 128, 129, 130, 131] 1 0).2
      ≠ (List.drop (0 * 1)
        [100, 101, 102, 103, 104, 105, 106, 107, 108, 109, 110, 111, 112, 113, 114, 115,
          116, 117, 118, 119, 120, 121, 122, 123, 124, 125, 126, 127, 128, 129, 130, 131]).take 1 := by
  decide

/-- C17, amended: constant-time table selection returns the indexed entry.  For
every table of `num_entries` entries of `num_limbs` limbs,
`limbs_select(r, table, num_limbs, num_entries, index)` sets `r` to entry
`index`, the limbs `table[index * num_limbs .. index * num_limbs + num_limbs - 1]`,
when `index < num_entries` and to all zeros when `index >= num_entries`.
`LIMBS_select_512_32` does so with 32 entries, and returns 1, when `num_limbs`
is a multiple of `512 / LIMB_BITS`; otherwise it returns 0 and leaves `r` as it
was. -/
theorem limbs_select_correct (w : Nat) (r table : List Nat) (num_limbs num_entries index : Nat)
    (hw : 0 < w) (hlen : table.length = num_entries * num_limbs) (htab : LIMBS_ok w table)
    (hidx : index < 2 ^ w) (hne : num_entries ≤ 2 ^ w) :
    (index < num_entries →
      limbs_select w table num_limbs num_entries index
        = (table.drop (index * num_limbs)).take num_limbs) ∧
    (num_entries ≤ index →
      limbs_select w table num_limbs num_entries index = List.replicate num_limbs 0) ∧
    (num_entries = 32 → num_limbs % (512 / w) = 0 →
      LIMBS_select_512_32 w r table num_limbs index
        = (1, if index < 32 then (table.drop (index * num_limbs)).take num_limbs
              else List.replicate num_limbs 0)) ∧
    (num_limbs % (512 / w) ≠ 0 → LIMBS_select_512_32 w r table num_limbs index = (0, r)) := by
  have h := limbs_select_spec hw table num_limbs num_entries index hlen htab hidx hne
  refine ⟨fun hlt => ?_, fun hge => ?_, fun h32 hmod => ?_, fun hmod => ?_⟩
  · rw [h, if_pos hlt]
  · rw [h, if_neg (by omega)]
  · unfold LIMBS_select_512_32
    rw [if_neg (by rw [hmod]; exact fun hc => hc rfl), ← h32, h]
  · unfold LIMBS_select_512_32
    rw [if_pos hmod]

/-- Witness of C17 with 64-bit limbs: a table of 32 entries of 8 limbs, limb
`j` of entry `e` being `8 * e + j`, and `index = 3`. -/
theorem limbs_select_correct_witness :
    LIMBS_select_512_32 64 [7, 7, 7, 7, 7, 7, 7, 7] (List.range 256) 8 3
      = (1, if 3 < 32 then ((List.range 256).drop (3 * 8)).take 8 else List.replicate 8 0) :=
  (limbs_select_correct 64 [7, 7, 7, 7, 7, 7, 7, 7] (List.range 256) 8 32 3 (by decide)
    (List.length_range 256) (fun _ hx => lt_trans (List.mem_range.1 hx) (by decide))
    (by decide) (by decide)).2.2.1 rfl (by decide)

/-- C18: `gfp_little_endian_bytes_from_scalar` writes the scalar in bytes.  For
every scalar of `num_limbs` limbs and `str_len = num_limbs * sizeof(Limb) + 1`
the output is `str_len` bytes with `sum over j < str_len of str[j] * 256^j`
equal to the value of the scalar, and the last byte `str[str_len - 1]` is 0;
this holds for limbs of 4 bytes (`w = 32`) and of 8 bytes (`w = 64`). -/
theorem gfp_little_endian_bytes_from_scalar_correct (w : Nat) (scalar : List Nat)
    (hw : w = 32 ∨ w = 64) (hok : LIMBS_ok w scalar) :
    (gfp_little_endian_bytes_from_scalar w (scalar.length * (w / 8) + 1) scalar).length
      = scalar.length * (w / 8) + 1 ∧
    (∀ x ∈ gfp_little_endian_bytes_from_scalar w (scalar.length * (w / 8) + 1) scalar,
      x < 256) ∧
    ∑ j in Finset.range (scalar.length * (w / 8) + 1),
        (gfp_little_endian_bytes_from_scalar w (scalar.length * (w / 8) + 1) scalar).getD j 0
          * 256 ^ j
      = LIMBS_val w scalar ∧
    (gfp_little_endian_bytes_from_scalar w (scalar.length * (w / 8) + 1) scalar).getD
      (scalar.length * (w / 8) + 1 - 1) 0 = 0 := by
  obtain ⟨h1, h2, h3⟩ := gfp_little_endian_bytes_from_scalar_spec hw
    (scalar.length * (w / 8) + 1) scalar hok (by omega)
  refine ⟨h1, h2, ?_, ?_⟩
  · rw [← h3, LIMBS_val_eq_sum, h1]
    rfl
  · obtain ⟨i1, -, -⟩ := scalar_bytes_flatMap hw scalar hok
    unfold gfp_little_endian_bytes_from_scalar
    simp only []
    rw [i1, Nat.add_sub_cancel_left, Nat.add_sub_cancel]
    have := getD_append_replicate_zero (scalar.flatMap (limb_bytes w)) 0
    rw [i1] at this
    exact this

/-- Witness of C18 with 8-byte limbs: a scalar of two limbs gives 17 bytes, the
last one zero. -/
theorem gfp_little_endian_bytes_from_scalar_correct_witness :
    gfp_little_endian_bytes_from_scalar 64 (2 * (64 / 8) + 1)
        [0x0807060504030201, 0xfffefdfcfbfaf9f8]
      = [1, 2, 3, 4, 5, 6, 7, 8, 0xf8, 0xf9, 0xfa, 0xfb, 0xfc, 0xfd, 0xfe, 0xff, 0] ∧
    (gfp_little_endian_bytes_from_scalar 64 (2 * (64 / 8) + 1)
        [0x0807060504030201, 0xfffefdfcfbfaf9f8]).getD (2 * (64 / 8) + 1 - 1) 0 = 0 :=
  ⟨by decide,
   (gfp_little_endian_bytes_from_scalar_correct 64 [0x0807060504030201, 0xfffefdfcfbfaf9f8]
      (Or.inr rfl) (by decide)).2.2.2⟩

/-- C19: the Montgomery round trip of P-384.  For every field element `x`
(`val x < q`, which includes `x = 0` and `x = q - 1`),
`from_mont(to_mont(x)) = x`, where `to_mont(x) = elem_mul_mont(x, RR)` with
`RR = R^2 mod q`, `from_mont(y) = elem_mul_mont(y, 1)` and `R = 2^384`.  This
holds for every `GFp_bn_mul_mont` that makes `elem_mul_mont` a Montgomery
multiplication modulo `Q`, and the modelled `GFp_bn_mul_mont`, with the
modulus `Q` and the constant `Q_N0`, is one. -/
theorem mont_round_trip (w : Nat) (x : List Nat) (hw : w = 32 ∨ w = 64)
    (hx : P384.IsElem w x) :
    (∀ bn_mul_mont : BnMulMont,
      IsMontMul w (P384.P384_LIMBS w) (P384.Q w) (P384.elem_mul_mont w bn_mul_mont) →
      P384.from_mont w bn_mul_mont (P384.to_mont w bn_mul_mont x) = x) ∧
    IsMontMul w (P384.P384_LIMBS w) (P384.Q w) (P384.elem_mul_mont w (GFp_bn_mul_mont w)) ∧
    P384.from_mont w (GFp_bn_mul_mont w) (P384.to_mont w (GFp_bn_mul_mont w) x) = x :=
  ⟨fun _ hmm => P384_mont_round_trip hw hmm hx, P384_model_isMontMul hw,
    P384_mont_round_trip hw (P384_model_isMontMul hw) hx⟩

/-- Witness of C19 with 64-bit limbs at `x = q - 1`. -/
theorem mont_round_trip_witness :
    P384.IsElem 64 [4294967294, 18446744069414584320, 18446744073709551614,
      18446744073709551615, 18446744073709551615, 18446744073709551615] ∧
    P384.from_mont 64 (GFp_bn_mul_mont 64) (P384.to_mont 64 (GFp_bn_mul_mont 64)
      [4294967294, 18446744069414584320, 18446744073709551614,
        18446744073709551615, 18446744073709551615, 18446744073709551615])
      = [4294967294, 18446744069414584320, 18446744073709551614,
        18446744073709551615, 18446744073709551615, 18446744073709551615] :=
  ⟨by decide,
   (mont_round_trip 64 [4294967294, 18446744069414584320, 18446744073709551614,
      18446744073709551615, 18446744073709551615, 18446744073709551615] (Or.inr rfl)
      (by decide)).2.2⟩

/-- C20: table selection reads the same positions for every index.  With the
reads of `table` recorded, `limbs_select` computes the same result and its log
is `0, 1, ..., num_entries * num_limbs - 1`: every limb of the table exactly
once, in order, whatever `index` is.  The 16-entry selections
`gfp_p384_point_select_w5` and `GFp_nistz256_select_w5`, with their reads
recorded, compute the same results, and their log is, for every `index`, the
list of `(i, c, j)` for the entries `i = 0 .. 15`, the limbs `j` and the
coordinates `c = X, Y, Z`: every limb of every coordinate of all 16 entries. -/
theorem table_selection_reads_index_independent (w : Nat) (table : List Nat)
    (num_limbs num_entries index : Nat) (t384 t256 : List POINT)
    (h384 : t384.length = 16) (h256 : t256.length = 16)
    (hl384 : ∀ t ∈ t384, t.X.length = P384.P384_LIMBS w ∧ t.Y.length = P384.P384_LIMBS w ∧
      t.Z.length = P384.P384_LIMBS w)
    (hl256 : ∀ t ∈ t256, t.X.length = P256.P256_LIMBS w ∧ t.Y.length = P256.P256_LIMBS w ∧
      t.Z.length = P256.P256_LIMBS w) :
    (limbs_select_reads w table num_limbs num_entries index).1
      = limbs_select w table num_limbs num_entries index ∧
    (limbs_select_reads w table num_limbs num_entries index).2
      = List.range (num_entries * num_limbs) ∧
    (point_select_w5_reads w (P384.P384_LIMBS w) t384 index).1
      = P384.gfp_p384_point_select_w5 w t384 index ∧
    (point_select_w5_reads w (P384.P384_LIMBS w) t384 index).2
      = (List.range 16).flatMap (fun i =>
          (List.range (P384.P384_LIMBS w)).flatMap fun j => [(i, 0, j), (i, 1, j), (i, 2, j)]) ∧
    (point_select_w5_reads w (P256.P256_LIMBS w) t256 index).1
      = P256.GFp_nistz256_select_w5 w t256 index ∧
    (point_select_w5_reads w (P256.P256_LIMBS w) t256 index).2
      = (List.range 16).flatMap (fun i =>
          (List.range (P256.P256_LIMBS w)).flatMap fun j => [(i, 0, j), (i, 1, j), (i, 2, j)]) := by
  rw [limbs_select_reads_spec, point_select_w5_reads_spec w _ index t384 h384 hl384,
    point_select_w5_reads_spec w _ index t256 h256 hl256]
  exact ⟨rfl, rfl, rfl, rfl, rfl, rfl⟩

/-- Witness of C20 with 64-bit limbs: a table of 2 entries of 3 limbs, and
tables of 16 equal points, read with `index = 1`. -/
theorem table_selection_reads_index_independent_witness :
    (limbs_select_reads 64 [1, 2, 3, 4, 5, 6] 3 2 1).2 = List.range (2 * 3) ∧
    (point_select_w5_reads 64 (P384.P384_LIMBS 64)
        (List.replicate 16 (POINT.mk [1, 2, 3, 4, 5, 6] [1, 2, 3, 4, 5, 6] [1, 0, 0, 0, 0, 0]))
        1).2
      = (List.range 16).flatMap (fun i =>
          (List.range (P384.P384_LIMBS 64)).flatMap fun j =>
            [(i, 0, j), (i, 1, j), (i, 2, j)]) :=
  let h := table_selection_reads_index_independent 64 [1, 2, 3, 4, 5, 6] 3 2 1
    (List.replicate 16 (POINT.mk [1, 2, 3, 4, 5, 6] [1, 2, 3, 4, 5, 6] [1, 0, 0, 0, 0, 0]))
    (List.replicate 16 (POINT.mk [1, 2, 3, 4] [1, 2, 3, 4] [1, 0, 0, 0]))
    (List.length_replicate _ _) (List.length_replicate _ _)
    (fun t ht => by rw [List.eq_of_mem_replicate ht]; decide)
    (fun t ht => by rw [List.eq_of_mem_replicate ht]; decide)
  ⟨h.2.1, h.2.2.2.1⟩

end Ring

namespace Sodium

/-! ## Statements about the ristretto255 functions of libsodium -/

/-- C21: `crypto_core_ristretto255_add` and `crypto_core_ristretto255_sub`.
They return -1 if and only if `ristretto255_frombytes` rejects `p` (returns a
value other than 0) or rejects `q`, and `r` is then left as it was.  Otherwise
they return 0 and `r` holds
`ristretto255_p3_tobytes(ge25519_p1p1_to_p3(ge25519_add(P, ge25519_p3_to_cached(Q))))`
for the decoded points `P`, `Q` (`ge25519_sub` for the difference).  The group
functions are not among the sources; when they compute in a group `G`
(`val3`, `valc`, `val11` give the group element of a point in each of the three
representations, `enc` the encoding of a group element) as their names say,
`r` is the encoding of the sum, and of the difference, of the decoded points. -/
theorem crypto_core_ristretto255_add_sub_correct {P3 P1P1 Cached G : Type} [AddGroup G]
    (ristretto255_frombytes : List Nat → Int × P3)
    (ge25519_p3_to_cached : P3 → Cached) (ge25519_add ge25519_sub : P3 → Cached → P1P1)
    (ge25519_p1p1_to_p3 : P1P1 → P3) (ristretto255_p3_tobytes : P3 → List Nat)
    (val3 : P3 → G) (valc : Cached → G) (val11 : P1P1 → G) (enc : G → List Nat)
    (hcached : ∀ h, valc (ge25519_p3_to_cached h) = val3 h)
    (hadd : ∀ h c, val11 (ge25519_add h c) = val3 h + valc c)
    (hsub : ∀ h c, val11 (ge25519_sub h c) = val3 h - valc c)
    (hp3 : ∀ t, val3 (ge25519_p1p1_to_p3 t) = val11 t)
    (henc : ∀ h, ristretto255_p3_tobytes h = enc (val3 h))
    (r p q : List Nat) :
    (((crypto_core_ristretto255_add ristretto255_frombytes ge25519_p3_to_cached ge25519_add
          ge25519_p1p1_to_p3 ristretto255_p3_tobytes r p q).1 = -1 ↔
        ((ristretto255_frombytes p).1 ≠ 0 ∨ (ristretto255_frombytes q).1 ≠ 0)) ∧
      ((ristretto255_frombytes p).1 ≠ 0 ∨ (ristretto255_frombytes q).1 ≠ 0 →
        crypto_core_ristretto255_add ristretto255_frombytes ge25519_p3_to_cached ge25519_add
          ge25519_p1p1_to_p3 ristretto255_p3_tobytes r p q = (-1, r)) ∧
      (¬ ((ristretto255_frombytes p).1 ≠ 0 ∨ (ristretto255_frombytes q).1 ≠ 0) →
        crypto_core_ristretto255_add ristretto255_frombytes ge25519_p3_to_cached ge25519_add
            ge25519_p1p1_to_p3 ristretto255_p3_tobytes r p q
          = (0, ristretto255_p3_tobytes (ge25519_p1p1_to_p3 (ge25519_add
              (ristretto255_frombytes p).2
              (ge25519_p3_to_cached (ristretto255_frombytes q).2)))) ∧
        (crypto_core_ristretto255_add ristretto255_frombytes ge25519_p3_to_cached ge25519_add
            ge25519_p1p1_to_p3 ristretto255_p3_tobytes r p q).2
          = enc (val3 (ristretto255_frombytes p).2 + val3 (ristretto255_frombytes q).2))) ∧
    (((crypto_core_ristretto255_sub ristretto255_frombytes ge25519_p3_to_cached ge25519_sub
          ge25519_p1p1_to_p3 ristretto255_p3_tobytes r p q).1 = -1 ↔
        ((ristretto255_frombytes p).1 ≠ 0 ∨ (ristretto255_frombytes q).1 ≠ 0)) ∧
      ((ristretto255_frombytes p).1 ≠ 0 ∨ (ristretto255_frombytes q).1 ≠ 0 →
        crypto_core_ristretto255_sub ristretto255_frombytes ge25519_p3_to_cached ge25519_sub
          ge25519_p1p1_to_p3 ristretto255_p3_tobytes r p q = (-1, r)) ∧
      (¬ ((ristretto255_frombytes p).1 ≠ 0 ∨ (ristretto255_frombytes q).1 ≠ 0) →
        crypto_core_ristretto255_sub ristretto255_frombytes ge25519_p3_to_cached ge25519_sub
            ge25519_p1p1_to_p3 ristretto255_p3_tobytes r p q
          = (0, ristretto255_p3_tobytes (ge25519_p1p1_to_p3 (ge25519_sub
              (ristretto255_frombytes p).2
              (ge25519_p3_to_cached (ristretto255_frombytes q).2)))) ∧
        (crypto_core_ristretto255_sub ristretto255_frombytes ge25519_p3_to_cached ge25519_sub
            ge25519_p1p1_to_p3 ristretto255_p3_tobytes r p q).2
          = enc (val3 (ristretto255_frombytes p).2 - val3 (ristretto255_frombytes q).2))) := by
  by_cases h : (ristretto255_frombytes p).1 ≠ 0 ∨ (ristretto255_frombytes q).1 ≠ 0
  · have e1 : crypto_core_ristretto255_add ristretto255_frombytes ge25519_p3_to_cached
        ge25519_add ge25519_p1p1_to_p3 ristretto255_p3_tobytes r p q = (-1, r) := by
      unfold crypto_core_ristretto255_add
      rw [if_pos h]
    have e2 : crypto_core_ristretto255_sub ristretto255_frombytes ge25519_p3_to_cached
        ge25519_sub ge25519_p1p1_to_p3 ristretto255_p3_tobytes r p q = (-1, r) := by
      unfold crypto_core_ristretto255_sub
      rw [if_pos h]
    rw [e1, e2]
    exact ⟨⟨⟨fun _ => h, fun _ => rfl⟩, fun _ => rfl, fun hn => absurd h hn⟩,
      ⟨⟨fun _ => h, fun _ => rfl⟩, fun _ => rfl, fun hn => absurd h hn⟩⟩
  · have e1 : crypto_core_ristretto255_add ristretto255_frombytes ge25519_p3_to_cached
        ge25519_add ge25519_p1p1_to_p3 ristretto255_p3_tobytes r p q
        = (0, ristretto255_p3_tobytes (ge25519_p1p1_to_p3 (ge25519_add
              (ristretto255_frombytes p).2
              (ge25519_p3_to_cached (ristretto255_frombytes q).2)))) := by
      unfold crypto_core_ristretto255_add
      rw [if_neg h]
    have e2 : crypto_core_ristretto255_sub ristretto255_frombytes ge25519_p3_to_cached
        ge25519_sub ge25519_p1p1_to_p3 ristretto255_p3_tobytes r p q
        = (0, ristretto255_p3_tobytes (ge25519_p1p1_to_p3 (ge25519_sub
              (ristretto255_frombytes p).2
              (ge25519_p3_to_cached (ristretto255_frombytes q).2)))) := by
      unfold crypto_core_ristretto255_sub
      rw [if_neg h]
    rw [e1, e2]
    refine ⟨⟨⟨fun h0 => absurd h0 (show ¬ ((0 : Int) = -1) by decide), fun h0 => absurd h0 h⟩, fun h0 => absurd h0 h,
      fun _ => ⟨rfl, ?_⟩⟩, ⟨⟨fun h0 => absurd h0 (show ¬ ((0 : Int) = -1) by decide), fun h0 => absurd h0 h⟩,
      fun h0 => absurd h0 h, fun _ => ⟨rfl, ?_⟩⟩⟩
    · show ristretto255_p3_tobytes _ = _
      rw [henc, hp3, hadd, hcached]
    · show ristretto255_p3_tobytes _ = _
      rw [henc, hp3, hsub, hcached]

/-- Witness of C21 in the group of integers: a string is accepted when it has
32 bytes, it stands for its first byte, and the encoding of an integer is its
absolute value as one byte string. -/
theorem crypto_core_ristretto255_add_sub_correct_witness :
    @crypto_core_ristretto255_add Int Int Int
        (fun s => (if s.length = 32 then 0 else -1, (s.headD 0 : Int))) id (fun a b => a + b) id
        (fun h => [h.natAbs]) [] (5 :: List.replicate 31 0) (7 :: List.replicate 31 0)
      = (0, [12]) ∧
    @crypto_core_ristretto255_add Int Int Int
        (fun s => (if s.length = 32 then 0 else -1, (s.headD 0 : Int))) id (fun a b => a + b) id
        (fun h => [h.natAbs]) [1, 2, 3] (5 :: List.replicate 31 0) [7]
      = (-1, [1, 2, 3]) := by
  have h := @crypto_core_ristretto255_add_sub_correct Int Int Int Int _
    (fun s => (if s.length = 32 then 0 else -1, (s.headD 0 : Int))) id (fun a b => a + b)
    (fun a b => a - b) id (fun h => [h.natAbs]) id id id (fun g => [g.natAbs])
    (fun _ => rfl) (fun _ _ => rfl) (fun _ _ => rfl) (fun _ => rfl) (fun _ => rfl)
  exact ⟨((h [] (5 :: List.replicate 31 0) (7 :: List.replicate 31 0)).1.2.2 (by decide)).1,
    (h [1, 2, 3] (5 :: List.replicate 31 0) [7]).1.2.1 (by decide)⟩

/-- C22: `crypto_scalarmult_ristretto255(q, n, p)` and
`crypto_scalarmult_ristretto255_base(q, n)`, for 32-byte arrays `q` and `n`.
The scalar handed to `ge25519_scalarmult` (to `ge25519_scalarmult_base`) is `n`
with byte 31 masked with 127, which is `n` modulo `2^255`: bit 255 is cleared.
If `ristretto255_frombytes` rejects `p`, the first function returns -1 and
leaves `q` as it was.  Otherwise both functions store the encoding of the
product in `q` and return -1 if these 32 bytes are all zero, and 0 if not.
`sodium_is_zero` is not among the sources and is assumed to return a value
other than 0 exactly for an all-zero array. -/
theorem crypto_scalarmult_ristretto255_correct {P3 : Type}
    (ristretto255_frombytes : List Nat → Int × P3)
    (ge25519_scalarmult : List Nat → P3 → P3) (ge25519_scalarmult_base : List Nat → P3)
    (ristretto255_p3_tobytes : P3 → List Nat) (sodium_is_zero : List Nat → Nat → Int)
    (hzero : ∀ s, sodium_is_zero s 32 ≠ 0 ↔ ∀ i < 32, s.getD i 0 = 0)
    (q n p : List Nat) (hq : q.length = 32) (hn : n.length = 32) (hb : ∀ x ∈ n, x < 256) :
    scalar_copy_clamp q n = n.set 31 (n.getD 31 0 &&& 127) ∧
    Ring.LIMBS_val 8 (scalar_copy_clamp q n) = Ring.LIMBS_val 8 n % 2 ^ 255 ∧
    ((ristretto255_frombytes p).1 ≠ 0 →
      crypto_scalarmult_ristretto255 ristretto255_frombytes ge25519_scalarmult
        ristretto255_p3_tobytes sodium_is_zero q n p = (-1, q)) ∧
    ((ristretto255_frombytes p).1 = 0 →
      crypto_scalarmult_ristretto255 ristretto255_frombytes ge25519_scalarmult
        ristretto255_p3_tobytes sodium_is_zero q n p
        = (if ∀ i < 32, (ristretto255_p3_tobytes (ge25519_scalarmult
              (n.set 31 (n.getD 31 0 &&& 127)) (ristretto255_frombytes p).2)).getD i 0 = 0
            then -1 else 0,
           ristretto255_p3_tobytes (ge25519_scalarmult (n.set 31 (n.getD 31 0 &&& 127))
             (ristretto255_frombytes p).2))) ∧
    crypto_scalarmult_ristretto255_base ge25519_scalarmult_base ristretto255_p3_tobytes
        sodium_is_zero q n
      = (if ∀ i < 32, (ristretto255_p3_tobytes (ge25519_scalarmult_base
            (n.set 31 (n.getD 31 0 &&& 127)))).getD i 0 = 0
          then -1 else 0,
         ristretto255_p3_tobytes (ge25519_scalarmult_base (n.set 31 (n.getD 31 0 &&& 127)))) := by
  have hc := scalar_copy_clamp_eq q n hq hn
  refine ⟨hc, by rw [hc]; exact scalar_clamp_val n hn hb, ?_, ?_, ?_⟩
  · intro h
    unfold crypto_scalarmult_ristretto255
    rw [if_pos h]
  · intro h
    unfold crypto_scalarmult_ristretto255
    rw [if_neg (not_not.2 h), hc]
    simp only []
    by_cases h0 : ∀ i < 32, (ristretto255_p3_tobytes (ge25519_scalarmult
        (n.set 31 (n.getD 31 0 &&& 127)) (ristretto255_frombytes p).2)).getD i 0 = 0
    · rw [if_pos ((hzero _).2 h0), if_pos h0]
    · rw [if_neg (fun hz => h0 ((hzero _).1 hz)), if_neg h0]
  · unfold crypto_scalarmult_ristretto255_base
    rw [hc]
    simp only []
    by_cases h0 : ∀ i < 32, (ristretto255_p3_tobytes (ge25519_scalarmult_base
        (n.set 31 (n.getD 31 0 &&& 127)))).getD i 0 = 0
    · rw [if_pos ((hzero _).2 h0), if_pos h0]
    · rw [if_neg (fun hz => h0 ((hzero _).1 hz)), if_neg h0]

/-- Witness of C22: points are numbers, a string is accepted when it has 32
bytes, the product is the point times byte 31 of the scalar.  With the scalar
of 32 bytes 255 the scalar used has 127 as its last byte, and a 3-byte `p` is
rejected with `q` left as it was. -/
theorem crypto_scalarmult_ristretto255_correct_witness :
    scalar_copy_clamp (List.replicate 32 0) (List.replicate 32 255)
      = (List.replicate 32 255).set 31 127 ∧
    @crypto_scalarmult_ristretto255 Nat
        (fun s => (if s.length = 32 then 0 else -1, s.headD 0))
        (fun t P => t.getD 31 0 * P) (fun h => [h])
        (fun s len => if ∀ i < len, s.getD i 0 = 0 then 1 else 0)
        (List.replicate 32 0) (List.replicate 32 255) [1, 1, 1]
      = (-1, List.replicate 32 0) := by
  have h := @crypto_scalarmult_ristretto255_correct Nat
    (fun s => (if s.length = 32 then 0 else -1, s.headD 0))
    (fun t P => t.getD 31 0 * P) (fun t => t.getD 31 0) (fun h => [h])
    (fun s len => if ∀ i < len, s.getD i 0 = 0 then 1 else 0)
    (fun s => by
      by_cases h0 : ∀ i < 32, s.getD i 0 = 0
      · simp only [if_pos h0]; exact ⟨fun _ => h0, fun _ => by decide⟩
      · simp only [if_neg h0]; exact ⟨fun h1 => absurd rfl h1, fun h1 => absurd h1 h0⟩)
    (List.replicate 32 0) (List.replicate 32 255) [1, 1, 1] (by decide) (by decide)
    (by decide)
  exact ⟨h.1, h.2.2.1 (by decide)⟩

end Sodium

namespace Ring

/-! ## Statements about the parity test, the point formulae and the scalar multiplication -/

/-- C23, the code at an array that is not all zero: for the one-limb array
`a = [2]` with 64-bit limbs `LIMBS_are_even` returns `0xfff..f`, although `a`
is not all zero limbs (`LIMBS_are_zero` returns zero for it); the same happens
for `[0, 1]`, and `[1]` gives zero.  The function returns the parity of
`a[0]`, not what its doc comment states. -/
theorem LIMBS_are_even_at_nonzero_array :
    LIMBS_are_even 64 [2] = 2 ^ 64 - 1 ∧ LIMBS_are_zero 64 [2] = 0 ∧
    LIMBS_are_even 64 [0, 1] = 2 ^ 64 - 1 ∧ LIMBS_are_zero 64 [0, 1] = 0 ∧
    LIMBS_are_even 64 [1] = 0 := by
  decide

/-- C24: `GFp_nistz384_point_double` implements Jacobian doubling for `a = -3`.
For every input `(X, Y, Z)` with reduced coordinates, standing for the field
elements `x`, `y`, `z` (Montgomery domain, arithmetic modulo `q`), the output
has reduced coordinates that stand for `X3 = M^2 - 2 S`,
`Y3 = M (S - X3) - 8 y^4` and `Z3 = 2 y z`, where
`M = 3 (x - z^2) (x + z^2)` and `S = 4 x y^2`; an input with `Z = 0` gives an
output with `Z = 0`.  `elem_mul_mont` is assumed to be Montgomery
multiplication modulo `Q`. -/
theorem point_double_formulas (w : Nat) (bn_mul_mont : BnMulMont) (P : POINT)
    (hw : w = 32 ∨ w = 64)
    (hmm : IsMontMul w (P384.P384_LIMBS w) (P384.Q w) (P384.elem_mul_mont w bn_mul_mont))
    (hX : P384.IsElem w P.X) (hY : P384.IsElem w P.Y) (hZ : P384.IsElem w P.Z) :
    let x := P384.decode w P.X
    let y := P384.decode w P.Y
    let z := P384.decode w P.Z
    let M := 3 * (x - z ^ 2) * (x + z ^ 2)
    let S := 4 * x * y ^ 2
    let X3 := M ^ 2 - 2 * S
    let Y3 := M * (S - X3) - 8 * y ^ 4
    let Z3 := 2 * y * z
    (P384.IsElem w (P384.GFp_nistz384_point_double w bn_mul_mont P).X ∧
      P384.IsElem w (P384.GFp_nistz384_point_double w bn_mul_mont P).Y ∧
      P384.IsElem w (P384.GFp_nistz384_point_double w bn_mul_mont P).Z) ∧
    P384.decode w (P384.GFp_nistz384_point_double w bn_mul_mont P).X = X3 ∧
    P384.decode w (P384.GFp_nistz384_point_double w bn_mul_mont P).Y = Y3 ∧
    P384.decode w (P384.GFp_nistz384_point_double w bn_mul_mont P).Z = Z3 ∧
    (LIMBS_val w P.Z = 0 →
      LIMBS_val w (P384.GFp_nistz384_point_double w bn_mul_mont P).Z = 0) := by
  intro x y z M S X3 Y3 Z3
  obtain ⟨h1, h2, h3⟩ := P384_point_double_explicit hw hmm P (P384_encodes_self hX)
    (P384_encodes_self hY) (P384_encodes_self hZ)
  exact ⟨⟨h1.1, h2.1, h3.1⟩, h1.2, h2.2, h3.2,
    fun h0 => P384_point_double_Z_zero hw hmm P hY hZ (Or.inl h0)⟩

/-- Witness of C24 with 64-bit limbs and the modelled Montgomery
multiplication, at the input `(5, 7, 0)`. -/
theorem point_double_formulas_witness :
    IsMontMul 64 (P384.P384_LIMBS 64) (P384.Q 64) (P384.elem_mul_mont 64 (GFp_bn_mul_mont 64)) ∧
    P384.IsElem 64 [5, 0, 0, 0, 0, 0] ∧ P384.IsElem 64 [7, 0, 0, 0, 0, 0] ∧
    P384.IsElem 64 [0, 0, 0, 0, 0, 0] ∧
    P384.decode 64 (P384.GFp_nistz384_point_double 64 (GFp_bn_mul_mont 64)
        (POINT.mk [5, 0, 0, 0, 0, 0] [7, 0, 0, 0, 0, 0] [0, 0, 0, 0, 0, 0])).Z
      = 2 * P384.decode 64 [7, 0, 0, 0, 0, 0] * P384.decode 64 [0, 0, 0, 0, 0, 0] ∧
    LIMBS_val 64 (P384.GFp_nistz384_point_double 64 (GFp_bn_mul_mont 64)
        (POINT.mk [5, 0, 0, 0, 0, 0] [7, 0, 0, 0, 0, 0] [0, 0, 0, 0, 0, 0])).Z = 0 :=
  ⟨P384_model_isMontMul (Or.inr rfl), by decide, by decide, by decide,
   (point_double_formulas 64 (GFp_bn_mul_mont 64)
      (POINT.mk [5, 0, 0, 0, 0, 0] [7, 0, 0, 0, 0, 0] [0, 0, 0, 0, 0, 0])
      (Or.inr rfl) (P384_model_isMontMul (Or.inr rfl)) (by decide) (by decide)
      (by decide)).2.2.2.1,
   (point_double_formulas 64 (GFp_bn_mul_mont 64)
      (POINT.mk [5, 0, 0, 0, 0, 0] [7, 0, 0, 0, 0, 0] [0, 0, 0, 0, 0, 0])
      (Or.inr rfl) (P384_model_isMontMul (Or.inr rfl)) (by decide) (by decide)
      (by decide)).2.2.2.2 (by decide)⟩

/-- C25: `GFp_nistz384_point_add` implements the generic Jacobian addition.
The inputs have reduced coordinates, standing for the field elements `x1`,
`y1`, `z1` and `x2`, `y2`, `z2` (Montgomery domain, arithmetic modulo `q`);
`U1 = x1 z2^2`, `U2 = x2 z1^2`, `S1 = y1 z2^3`, `S2 = y2 z1^3`, `H = U2 - U1`,
`R = S2 - S1`.  The exceptional branch is taken (`is_exceptional` is not zero)
exactly when `U1 = U2` and neither `z1` nor `z2` is zero, and it returns the
doubling or the all-zero point.  For `z1 != 0`, `z2 != 0` and `U1 != U2` the
output has reduced coordinates that stand for `X3 = R^2 - H^3 - 2 U1 H^2`,
`Y3 = R (U1 H^2 - X3) - S1 H^3` and `Z3 = H z1 z2`.  `elem_mul_mont` is assumed
to be Montgomery multiplication modulo `Q`. -/
theorem point_add_formulas (w : Nat) (bn_mul_mont : BnMulMont) (a b : POINT)
    (hw : w = 32 ∨ w = 64)
    (hmm : IsMontMul w (P384.P384_LIMBS w) (P384.Q w) (P384.elem_mul_mont w bn_mul_mont))
    (hX1 : P384.IsElem w a.X) (hY1 : P384.IsElem w a.Y) (hZ1 : P384.IsElem w a.Z)
    (hX2 : P384.IsElem w b.X) (hY2 : P384.IsElem w b.Y) (hZ2 : P384.IsElem w b.Z) :
    let x1 := P384.decode w a.X
    let y1 := P384.decode w a.Y
    let z1 := P384.decode w a.Z
    let x2 := P384.decode w b.X
    let y2 := P384.decode w b.Y
    let z2 := P384.decode w b.Z
    let U1 := x1 * z2 ^ 2
    let U2 := x2 * z1 ^ 2
    let S1 := y1 * z2 ^ 3
    let S2 := y2 * z1 ^ 3
    let H := U2 - U1
    let R := S2 - S1
    let X3 := R ^ 2 - H ^ 3 - 2 * U1 * H ^ 2
    let Y3 := R * (U1 * H ^ 2 - X3) - S1 * H ^ 3
    let Z3 := H * z1 * z2
    (P384.point_add_is_exceptional w bn_mul_mont a b ≠ 0 ↔ (U1 = U2 ∧ z1 ≠ 0 ∧ z2 ≠ 0)) ∧
    (P384.point_add_is_exceptional w bn_mul_mont a b ≠ 0 →
      P384.GFp_nistz384_point_add w bn_mul_mont a b
        = if P384.point_add_S1_eq_S2 w bn_mul_mont a b ≠ 0
          then P384.GFp_nistz384_point_double w bn_mul_mont a
          else { X := limbs_zero (P384.P384_LIMBS w), Y := limbs_zero (P384.P384_LIMBS w),
                 Z := limbs_zero (P384.P384_LIMBS w) }) ∧
    (z1 ≠ 0 → z2 ≠ 0 → U1 ≠ U2 →
      (P384.IsElem w (P384.GFp_nistz384_point_add w bn_mul_mont a b).X ∧
        P384.IsElem w (P384.GFp_nistz384_point_add w bn_mul_mont a b).Y ∧
        P384.IsElem w (P384.GFp_nistz384_point_add w bn_mul_mont a b).Z) ∧
      P384.decode w (P384.GFp_nistz384_point_add w bn_mul_mont a b).X = X3 ∧
      P384.decode w (P384.GFp_nistz384_point_add w bn_mul_mont a b).Y = Y3 ∧
      P384.decode w (P384.GFp_nistz384_point_add w bn_mul_mont a b).Z = Z3) := by
  intro x1 y1 z1 x2 y2 z2 U1 U2 S1 S2 H R X3 Y3 Z3
  refine ⟨P384_point_add_is_exceptional_iff hw hmm a b (P384_encodes_self hX1)
    (P384_encodes_self hZ1) (P384_encodes_self hX2) (P384_encodes_self hZ2),
    P384_point_add_exceptional_branch w bn_mul_mont a b, ?_⟩
  intro hz1 hz2 hU
  obtain ⟨-, -, h3⟩ := P384_point_add_finite hw hmm a b (P384_encodes_self hX1)
    (P384_encodes_self hY1) (P384_encodes_self hZ1) (P384_encodes_self hX2)
    (P384_encodes_self hY2) (P384_encodes_self hZ2) hz1 hz2
  obtain ⟨e1, e2, e3⟩ := h3 hU
  refine ⟨⟨e1.1, e2.1, e3.1⟩, ?_, ?_, ?_⟩
  · refine Eq.trans e1.2 ?_
    simp only [X3, R, H, U1, U2, S1, S2, x1, y1, z1, x2, y2, z2]
    ring
  · refine Eq.trans e2.2 ?_
    simp only [Y3, X3, R, H, U1, U2, S1, S2, x1, y1, z1, x2, y2, z2]
    ring
  · refine Eq.trans e3.2 ?_
    simp only [Z3, H, U1, U2, x1, z1, x2, z2]

/-- Witness of C25 with 64-bit limbs and the modelled Montgomery
multiplication, at the inputs `(5, 7, 9)` and `(6, 7, 9)`. -/
theorem point_add_formulas_witness :
    P384.decode 64 (P384.GFp_nistz384_point_add 64 (GFp_bn_mul_mont 64)
        (POINT.mk [5, 0, 0, 0, 0, 0] [7, 0, 0, 0, 0, 0] [9, 0, 0, 0, 0, 0])
        (POINT.mk [6, 0, 0, 0, 0, 0] [7, 0, 0, 0, 0, 0] [9, 0, 0, 0, 0, 0])).Z
      = (P384.decode 64 [6, 0, 0, 0, 0, 0] * P384.decode 64 [9, 0, 0, 0, 0, 0] ^ 2
          - P384.decode 64 [5, 0, 0, 0, 0, 0] * P384.decode 64 [9, 0, 0, 0, 0, 0] ^ 2)
        * P384.decode 64 [9, 0, 0, 0, 0, 0] * P384.decode 64 [9, 0, 0, 0, 0, 0] := by
  have hw : (64 : Nat) = 32 ∨ (64 : Nat) = 64 := Or.inr rfl
  have h5 : P384.IsElem 64 [5, 0, 0, 0, 0, 0] := by decide
  have h6 : P384.IsElem 64 [6, 0, 0, 0, 0, 0] := by decide
  have h7 : P384.IsElem 64 [7, 0, 0, 0, 0, 0] := by decide
  have h9 : P384.IsElem 64 [9, 0, 0, 0, 0, 0] := by decide
  have hz : P384.decode 64 [9, 0, 0, 0, 0, 0] ≠ 0 := by
    rw [Ne, P384_decode_eq_zero_iff hw h9]; decide
  have hx : P384.decode 64 [5, 0, 0, 0, 0, 0] ≠ P384.decode 64 [6, 0, 0, 0, 0, 0] := by
    rw [Ne, P384_decode_eq_iff_val hw h5 h6]; decide
  exact ((point_add_formulas 64 (GFp_bn_mul_mont 64)
    (POINT.mk [5, 0, 0, 0, 0, 0] [7, 0, 0, 0, 0, 0] [9, 0, 0, 0, 0, 0])
    (POINT.mk [6, 0, 0, 0, 0, 0] [7, 0, 0, 0, 0, 0] [9, 0, 0, 0, 0, 0])
    hw (P384_model_isMontMul hw) h5 h7 h9 h6 h7 h9).2.2 hz hz
    (fun h => hx (mul_right_cancel₀ (pow_ne_zero 2 hz) h))).2.2.2

/-- C26: the window digits reconstruct the scalar.  For every scalar `k` of
`P384_LIMBS` limbs (384 bits `s_j`), the raw window that
`GFp_nistz384_point_mul` reads at each of the positions `i = 5 j`,
`i = 380, 375, .., 5, 0`, is the six bits `s_(i+4) .. s_(i-1)` of the scalar,
that is `(2 k / 2^i) mod 64`; `booth_recode` gives it a magnitude of at most
16 and the signed digit
`d_i = -16 s_(i+4) + 8 s_(i+3) + 4 s_(i+2) + 2 s_(i+1) + s_i + s_(i-1)`
(`s_(-1) = 0`; the bits from 384 on are 0 as `k < 2^384`), and the sum of
`d_i 2^i` over the 77 positions is `k`.  The same holds for
`GFp_nistz256_point_mul` with the 52 positions `255, 250, .., 5, 0` and scalars
of `P256_LIMBS` limbs.  The magnitude 16 is attained, by the last window of the
scalar 16. -/
theorem window_digits_reconstruct_scalar (w : Nat) (k384 k256 : List Nat)
    (hw : w = 32 ∨ w = 64)
    (h384 : IsLimbs w (P384.P384_LIMBS w) k384) (h256 : IsLimbs w (P256.P256_LIMBS w) k256) :
    let p384 := gfp_little_endian_bytes_from_scalar w (P384.P384_LIMBS w * (w / 8) + 1) k384
    let p256 := gfp_little_endian_bytes_from_scalar w (P256.P256_LIMBS w * (w / 8) + 1) k256
    let K384 := LIMBS_val w k384
    let K256 := LIMBS_val w k256
    ((∀ j, j ≤ 76 →
        P384.raw_window p384 (5 * j) = (2 * K384 / 2 ^ (5 * j)) % 64 ∧
        (booth_recode w (P384.raw_window p384 (5 * j)) 5).2 ≤ 16 ∧
        booth_digit w (P384.raw_window p384 (5 * j))
          = -16 * ((K384 / 2 ^ (5 * j + 4) % 2 : Nat) : Int)
            + 8 * ((K384 / 2 ^ (5 * j + 3) % 2 : Nat) : Int)
            + 4 * ((K384 / 2 ^ (5 * j + 2) % 2 : Nat) : Int)
            + 2 * ((K384 / 2 ^ (5 * j + 1) % 2 : Nat) : Int)
            + ((K384 / 2 ^ (5 * j) % 2 : Nat) : Int)
            + (if 5 * j = 0 then 0 else ((K384 / 2 ^ (5 * j - 1) % 2 : Nat) : Int))) ∧
      ∑ j in Finset.range 77, booth_digit w (P384.raw_window p384 (5 * j)) * 2 ^ (5 * j)
        = (K384 : Int)) ∧
    ((∀ j, j ≤ 51 →
        P256.raw_window p256 (5 * j) = (2 * K256 / 2 ^ (5 * j)) % 64 ∧
        (booth_recode w (P256.raw_window p256 (5 * j)) 5).2 ≤ 16 ∧
        booth_digit w (P256.raw_window p256 (5 * j))
          = -16 * ((K256 / 2 ^ (5 * j + 4) % 2 : Nat) : Int)
            + 8 * ((K256 / 2 ^ (5 * j + 3) % 2 : Nat) : Int)
            + 4 * ((K256 / 2 ^ (5 * j + 2) % 2 : Nat) : Int)
            + 2 * ((K256 / 2 ^ (5 * j + 1) % 2 : Nat) : Int)
            + ((K256 / 2 ^ (5 * j) % 2 : Nat) : Int)
            + (if 5 * j = 0 then 0 else ((K256 / 2 ^ (5 * j - 1) % 2 : Nat) : Int))) ∧
      ∑ j in Finset.range 52, booth_digit w (P256.raw_window p256 (5 * j)) * 2 ^ (5 * j)
        = (K256 : Int)) ∧
    (booth_recode w (P384.raw_window (gfp_little_endian_bytes_from_scalar w
        (P384.P384_LIMBS w * (w / 8) + 1) (16 :: List.replicate (P384.P384_LIMBS w - 1) 0)) 0)
      5).2 = 16 ∧
    (booth_recode w (P256.raw_window (gfp_little_endian_bytes_from_scalar w
        (P256.P256_LIMBS w * (w / 8) + 1) (16 :: List.replicate (P256.P256_LIMBS w - 1) 0)) 0)
      5).2 = 16 := by
  intro p384 p256 K384 K256
  obtain ⟨-, hok384, hval384⟩ := gfp_little_endian_bytes_from_scalar_spec hw
    (P384.P384_LIMBS w * (w / 8) + 1) k384 h384.2 (by rw [h384.1]; omega)
  obtain ⟨-, hok256, hval256⟩ := gfp_little_endian_bytes_from_scalar_spec hw
    (P256.P256_LIMBS w * (w / 8) + 1) k256 h256.2 (by rw [h256.1]; omega)
  have hK384 := P384_scalar_lt hw h384
  have hK256 := P256_scalar_lt hw h256
  have hr384 : ∀ j, j ≤ 76 → P384.raw_window p384 (5 * j) = (2 * K384 / 2 ^ (5 * j)) % 64 := by
    intro j hj
    have := P384_raw_window_spec p384 hok384 (by rw [hval384]; exact hK384) j hj
    rw [hval384] at this
    exact this
  have hr256 : ∀ j, j ≤ 51 → P256.raw_window p256 (5 * j) = (2 * K256 / 2 ^ (5 * j)) % 64 := by
    intro j hj
    have := P256_raw_window_spec p256 hok256 (by rw [hval256]; exact hK256) j hj
    rw [hval256] at this
    exact this
  have htop384 : 2 * K384 / 2 ^ (5 * 77) = 0 := by
    rw [show 5 * 77 = (379 + 5) + 1 from rfl, two_mul_div_pow_succ, pow_add,
      ← Nat.div_div_eq_div_mul]
    exact Nat.div_eq_of_lt hK384
  have htop256 : 2 * K256 / 2 ^ (5 * 52) = 0 := by
    rw [show 5 * 52 = (254 + 5) + 1 from rfl, two_mul_div_pow_succ, pow_add,
      ← Nat.div_div_eq_div_mul]
    exact Nat.div_eq_of_lt (lt_trans hK256 (by decide))
  refine ⟨⟨?_, ?_⟩, ⟨?_, ?_⟩, ?_, ?_⟩
  · intro j hj
    rw [hr384 j hj]
    exact ⟨rfl, window_digit_bits w hw K384 (5 * j)⟩
  · exact window_digits_sum w hw K384 77 htop384 _ (fun j hj => hr384 j (by omega))
  · intro j hj
    rw [hr256 j hj]
    exact ⟨rfl, window_digit_bits w hw K256 (5 * j)⟩
  · exact window_digits_sum w hw K256 52 htop256 _ (fun j hj => hr256 j (by omega))
  · rcases hw with rfl | rfl <;> decide
  · rcases hw with rfl | rfl <;> decide

/-- Witness of C26 with 64-bit limbs: the windows of the scalars with all bits
set add up to them. -/
theorem window_digits_reconstruct_scalar_witness :
    ∑ j in Finset.range 77, booth_digit 64 (P384.raw_window (gfp_little_endian_bytes_from_scalar
        64 (P384.P384_LIMBS 64 * (64 / 8) + 1)
        [2 ^ 64 - 1, 2 ^ 64 - 1, 2 ^ 64 - 1, 2 ^ 64 - 1, 2 ^ 64 - 1, 2 ^ 64 - 1]) (5 * j))
          * 2 ^ (5 * j)
      = ((LIMBS_val 64 [2 ^ 64 - 1, 2 ^ 64 - 1, 2 ^ 64 - 1, 2 ^ 64 - 1, 2 ^ 64 - 1, 2 ^ 64 - 1]
          : Nat) : Int) ∧
    ∑ j in Finset.range 52, booth_digit 64 (P256.raw_window (gfp_little_endian_bytes_from_scalar
        64 (P256.P256_LIMBS 64 * (64 / 8) + 1)
        [2 ^ 64 - 1, 2 ^ 64 - 1, 2 ^ 64 - 1, 2 ^ 64 - 1]) (5 * j)) * 2 ^ (5 * j)
      = ((LIMBS_val 64 [2 ^ 64 - 1, 2 ^ 64 - 1, 2 ^ 64 - 1, 2 ^ 64 - 1] : Nat) : Int) :=
  ⟨(window_digits_reconstruct_scalar 64
      [2 ^ 64 - 1, 2 ^ 64 - 1, 2 ^ 64 - 1, 2 ^ 64 - 1, 2 ^ 64 - 1, 2 ^ 64 - 1]
      [2 ^ 64 - 1, 2 ^ 64 - 1, 2 ^ 64 - 1, 2 ^ 64 - 1] (Or.inr rfl) (by decide) (by decide)).1.2,
   (window_digits_reconstruct_scalar 64
      [2 ^ 64 - 1, 2 ^ 64 - 1, 2 ^ 64 - 1, 2 ^ 64 - 1, 2 ^ 64 - 1, 2 ^ 64 - 1]
      [2 ^ 64 - 1, 2 ^ 64 - 1, 2 ^ 64 - 1, 2 ^ 64 - 1] (Or.inr rfl) (by decide)
      (by decide)).2.1.2⟩

/-- C27: the precomputed table holds `1 P .. 16 P`.  Given that
`GFp_nistz384_point_double` and `GFp_nistz384_point_add` compute doubling and
addition in a group (`Rep384 p A`: the point `p` represents the group element
`A`), and that the input point represents `P`, after the 15 construction calls
of `GFp_nistz384_point_mul` the entry `table[i]` represents `(i + 1) * P` for
every `i` in `0..15`; the same for `GFp_nistz256_point_mul` with
`GFp_nistz256_point_double` and `GFp_nistz256_point_add`.  Both tables are
what the fixed list `point_mul_table_calls` of 15 calls leaves in an array
whose slot 1 holds the input point, whatever the other slots held before.  In
that list, which does not involve the scalar, every slot `1..16` is written
exactly once (slot 1 by the copy of the input point), and every slot that a
call reads is slot 1 or the destination of an earlier call. -/
theorem point_mul_table_correct {G384 G256 : Type} [AddMonoid G384] [AddMonoid G256]
    (w : Nat) (bn_mul_mont : BnMulMont)
    (elem_mul_mont : List Nat → List Nat → List Nat) (elem_sqr_mont : List Nat → List Nat)
    (point_double : POINT → POINT)
    (Rep384 : POINT → G384 → Prop) (Rep256 : POINT → G256 → Prop)
    (hdbl384 : ∀ p A, Rep384 p A →
      Rep384 (P384.GFp_nistz384_point_double w bn_mul_mont p) (A + A))
    (hadd384 : ∀ p q A B, Rep384 p A → Rep384 q B →
      Rep384 (P384.GFp_nistz384_point_add w bn_mul_mont p q) (A + B))
    (hdbl256 : ∀ p A, Rep256 p A → Rep256 (point_double p) (A + A))
    (hadd256 : ∀ p q A B, Rep256 p A → Rep256 q B →
      Rep256 (P256.GFp_nistz256_point_add w elem_mul_mont elem_sqr_mont point_double p q)
        (A + B))
    (p_x p_y q_x q_y : List Nat) (P : G384) (Q : G256)
    (hP : Rep384 { X := p_x, Y := p_y, Z := P384.ONE w } P)
    (hQ : Rep256 { X := q_x, Y := q_y, Z := P256.ONE w } Q)
    (init : List POINT) (hinit : init.length = 16) :
    ((P384.point_mul_table w bn_mul_mont p_x p_y).length = 16 ∧
      ∀ i, i < 16 →
        Rep384 ((P384.point_mul_table w bn_mul_mont p_x p_y).getD i { X := [], Y := [], Z := [] })
          ((i + 1) • P)) ∧
    ((P256.point_mul_table point_double
        (P256.GFp_nistz256_point_add w elem_mul_mont elem_sqr_mont point_double) w q_x q_y).length
        = 16 ∧
      ∀ i, i < 16 →
        Rep256 ((P256.point_mul_table point_double
          (P256.GFp_nistz256_point_add w elem_mul_mont elem_sqr_mont point_double) w q_x q_y).getD
            i { X := [], Y := [], Z := [] })
          ((i + 1) • Q)) ∧
    P384.point_mul_table w bn_mul_mont p_x p_y
      = point_mul_table_run (P384.GFp_nistz384_point_double w bn_mul_mont)
          (P384.GFp_nistz384_point_add w bn_mul_mont) point_mul_table_calls
          (init.set 0 { X := p_x, Y := p_y, Z := P384.ONE w }) ∧
    P256.point_mul_table point_double
        (P256.GFp_nistz256_point_add w elem_mul_mont elem_sqr_mont point_double) w q_x q_y
      = point_mul_table_run point_double
          (P256.GFp_nistz256_point_add w elem_mul_mont elem_sqr_mont point_double)
          point_mul_table_calls (init.set 0 { X := q_x, Y := q_y, Z := P256.ONE w }) ∧
    point_mul_table_calls.length = 15 ∧
    (∀ k, 1 ≤ k → k ≤ 16 → (1 :: point_mul_table_calls.map fun c => c.1).count k = 1) ∧
    (∀ j, j < 15 →
      ∀ s ∈ (point_mul_table_calls.getD j (0, 0, none)).2.1 ::
          (point_mul_table_calls.getD j (0, 0, none)).2.2.toList,
        s ∈ 1 :: (point_mul_table_calls.take j).map fun c => c.1) := by
  have e384 := P384_point_mul_table_eq_run w bn_mul_mont p_x p_y init hinit
  have e256 := P256_point_mul_table_eq_run w point_double
    (P256.GFp_nistz256_point_add w elem_mul_mont elem_sqr_mont point_double) q_x q_y init hinit
  have r384 := point_mul_table_run_represents Rep384 _ _ hdbl384 hadd384 _ P hP init hinit
  have r256 := point_mul_table_run_represents Rep256 _ _ hdbl256 hadd256 _ Q hQ init hinit
  rw [e384] at r384
  rw [e256] at r256
  refine ⟨r384, r256, e384.symm, e256.symm, rfl, ?_, ?_⟩
  · intro k h1 h16
    interval_cases k <;> decide
  · intro j hj
    interval_cases j <;> decide

/-- Witness of C27.  For P-384: 64-bit limbs, the modelled Montgomery
multiplication, the point `(5, 7)` on the curve through it, and `Rep384` the
representation of curve points by Jacobian coordinates.  For P-256 a trivial
group, the functions being parameters. -/
theorem point_mul_table_correct_witness :
    ∃ b : ZMod P384.modulus,
      P384.Represents 64 b
        ((P384.point_mul_table 64 (GFp_bn_mul_mont 64) [5, 0, 0, 0, 0, 0]
          [7, 0, 0, 0, 0, 0]).getD 15 { X := [], Y := [], Z := [] })
        ((15 + 1) • WeierstrassCurve.Jacobian.Point.toAffine (P384.curve b)
            ![P384.decode 64 [5, 0, 0, 0, 0, 0], P384.decode 64 [7, 0, 0, 0, 0, 0], 1]) := by
  have hw : (64 : Nat) = 32 ∨ (64 : Nat) = 64 := Or.inr rfl
  have hx : P384.IsElem 64 [5, 0, 0, 0, 0, 0] := by decide
  have hy : P384.IsElem 64 [7, 0, 0, 0, 0, 0] := by decide
  have hy0 : P384.decode 64 [7, 0, 0, 0, 0, 0] ≠ 0 := by
    rw [Ne, P384_decode_eq_zero_iff hw hy]; decide
  refine ⟨P384.decode 64 [7, 0, 0, 0, 0, 0] ^ 2
    - (P384.decode 64 [5, 0, 0, 0, 0, 0] ^ 3 - 3 * P384.decode 64 [5, 0, 0, 0, 0, 0]), ?_⟩
  have hP := P384_nonsingular_through (P384.decode 64 [5, 0, 0, 0, 0, 0])
    (P384.decode 64 [7, 0, 0, 0, 0, 0]) hy0
  have hmm := P384_model_isMontMul hw
  exact ((point_mul_table_correct 64 (GFp_bn_mul_mont 64) (fun a _ => a) (fun a => a)
    (fun p => p) (P384.Represents 64 _) (fun _ (A : Nat) => A = 0)
    (fun _ _ h => P384_point_double_represents hw hmm h)
    (fun _ _ _ _ h1 h2 => P384_point_add_represents hw hmm h1 h2)
    (fun _ _ h => by rw [h]) (fun _ _ _ _ h1 h2 => by rw [h1, h2])
    [5, 0, 0, 0, 0, 0] [7, 0, 0, 0, 0, 0] [] [] _ 0
    (P384_represents_input hw _ hx hy hP) rfl
    (List.replicate 16 { X := [], Y := [], Z := [] }) rfl).1.2 15 (by decide))

/-- C28: the top window never recodes negative.  For every scalar of
`P256_LIMBS` limbs, reduced or not, the first raw window that
`GFp_nistz256_point_mul` reads from the scalar bytes is the bits 254..255 of
the scalar, so at most 3; for every scalar of `P384_LIMBS` limbs the first raw
window of `GFp_nistz384_point_mul` is the bits 379..383, so at most 31.  Both
are below `2^5`, and `booth_recode` returns `recoded_is_negative = 0` for them,
which is what `dev_assert_secret(!recoded_is_negative)` states. -/
theorem top_window_not_negative (w : Nat) (k256 k384 : List Nat) (hw : w = 32 ∨ w = 64)
    (h256 : IsLimbs w (P256.P256_LIMBS w) k256) (h384 : IsLimbs w (P384.P384_LIMBS w) k384) :
    (P256.top_window (gfp_little_endian_bytes_from_scalar w (P256.P256_LIMBS w * (w / 8) + 1) k256)
        = LIMBS_val w k256 / 2 ^ 254 ∧
      P256.top_window (gfp_little_endian_bytes_from_scalar w (P256.P256_LIMBS w * (w / 8) + 1) k256)
        ≤ 3 ∧
      P256.top_window (gfp_little_endian_bytes_from_scalar w (P256.P256_LIMBS w * (w / 8) + 1) k256)
        < 2 ^ 5 ∧
      (booth_recode w (P256.top_window
        (gfp_little_endian_bytes_from_scalar w (P256.P256_LIMBS w * (w / 8) + 1) k256)) 5).1 = 0) ∧
    (P384.top_window (gfp_little_endian_bytes_from_scalar w (P384.P384_LIMBS w * (w / 8) + 1) k384)
        = LIMBS_val w k384 / 2 ^ 379 ∧
      P384.top_window (gfp_little_endian_bytes_from_scalar w (P384.P384_LIMBS w * (w / 8) + 1) k384)
        ≤ 31 ∧
      P384.top_window (gfp_little_endian_bytes_from_scalar w (P384.P384_LIMBS w * (w / 8) + 1) k384)
        < 2 ^ 5 ∧
      (booth_recode w (P384.top_window
        (gfp_little_endian_bytes_from_scalar w (P384.P384_LIMBS w * (w / 8) + 1) k384)) 5).1 = 0) := by
  constructor
  · obtain ⟨-, hok, hval⟩ := gfp_little_endian_bytes_from_scalar_spec hw
      (P256.P256_LIMBS w * (w / 8) + 1) k256 h256.2 (by rw [h256.1]; omega)
    have hK := P256_scalar_lt hw h256
    rw [← hval] at hK
    have ht := P256_top_window_spec _ hok hK
    rw [ht, hval] at *
    have hs := (booth_recode_table w hw (LIMBS_val w k256 / 2 ^ 254) (by omega)).1
    rw [if_neg (by omega)] at hs
    have e5 : (2 : Nat) ^ 5 = 32 := rfl
    exact ⟨rfl, by omega, by omega, hs⟩
  · obtain ⟨-, hok, hval⟩ := gfp_little_endian_bytes_from_scalar_spec hw
      (P384.P384_LIMBS w * (w / 8) + 1) k384 h384.2 (by rw [h384.1]; omega)
    have hK := P384_scalar_lt hw h384
    rw [← hval] at hK
    have ht := P384_top_window_spec _ hok hK
    rw [ht, hval] at *
    have hs := (booth_recode_table w hw (LIMBS_val w k384 / 2 ^ 379) (by omega)).1
    rw [if_neg (by omega)] at hs
    have e5 : (2 : Nat) ^ 5 = 32 := rfl
    exact ⟨rfl, by omega, by omega, hs⟩

/-- Witness of C28 with 64-bit limbs, at the scalars with all bits set. -/
theorem top_window_not_negative_witness :
    (booth_recode 64 (P256.top_window (gfp_little_endian_bytes_from_scalar 64
        (P256.P256_LIMBS 64 * (64 / 8) + 1)
        [2 ^ 64 - 1, 2 ^ 64 - 1, 2 ^ 64 - 1, 2 ^ 64 - 1])) 5).1 = 0 ∧
    (booth_recode 64 (P384.top_window (gfp_little_endian_bytes_from_scalar 64
        (P384.P384_LIMBS 64 * (64 / 8) + 1)
        [2 ^ 64 - 1, 2 ^ 64 - 1, 2 ^ 64 - 1, 2 ^ 64 - 1, 2 ^ 64 - 1, 2 ^ 64 - 1])) 5).1 = 0 :=
  ⟨(top_window_not_negative 64 [2 ^ 64 - 1, 2 ^ 64 - 1, 2 ^ 64 - 1, 2 ^ 64 - 1]
      [2 ^ 64 - 1, 2 ^ 64 - 1, 2 ^ 64 - 1, 2 ^ 64 - 1, 2 ^ 64 - 1, 2 ^ 64 - 1]
      (Or.inr rfl) (by decide) (by decide)).1.2.2.2,
   (top_window_not_negative 64 [2 ^ 64 - 1, 2 ^ 64 - 1, 2 ^ 64 - 1, 2 ^ 64 - 1]
      [2 ^ 64 - 1, 2 ^ 64 - 1, 2 ^ 64 - 1, 2 ^ 64 - 1, 2 ^ 64 - 1, 2 ^ 64 - 1]
      (Or.inr rfl) (by decide) (by decide)).2.2.2.2⟩

/-- C29: the 5-bit-window point selection treats index 0 as the implicit
identity.  For every table of 16 points and every word `index`,
`gfp_p384_point_select_w5` and `GFp_nistz256_select_w5` return `table[index - 1]`,
limb for limb, when `1 <= index <= 16`, and the all-zero point `(0, 0, 0)` when
`index = 0` and for every `index > 16`. -/
theorem point_select_w5_correct (w : Nat) (table384 table256 : List POINT) (index : Nat)
    (hw : w = 32 ∨ w = 64) (hidx : index < 2 ^ w)
    (hlen384 : table384.length = 16)
    (ht384 : ∀ t ∈ table384, IsPoint w (P384.P384_LIMBS w) t)
    (hlen256 : table256.length = 16)
    (ht256 : ∀ t ∈ table256, IsPoint w (P256.P256_LIMBS w) t) :
    P384.gfp_p384_point_select_w5 w table384 index
      = (if h : 1 ≤ index ∧ index ≤ 16 then table384.get ⟨index - 1, by omega⟩
        else { X := limbs_zero (P384.P384_LIMBS w), Y := limbs_zero (P384.P384_LIMBS w),
               Z := limbs_zero (P384.P384_LIMBS w) }) ∧
    P256.GFp_nistz256_select_w5 w table256 index
      = (if h : 1 ≤ index ∧ index ≤ 16 then table256.get ⟨index - 1, by omega⟩
        else { X := limbs_zero (P256.P256_LIMBS w), Y := limbs_zero (P256.P256_LIMBS w),
               Z := limbs_zero (P256.P256_LIMBS w) }) := by
  have h16 : 16 < 2 ^ w := by rcases hw with rfl | rfl <;> decide
  have hz : IsLimbs w (P384.P384_LIMBS w) (limbs_zero (P384.P384_LIMBS w)) :=
    (P384_isElem_zero hw).1
  have hz2 := P256_isLimbs_zero w
  constructor
  · unfold P384.gfp_p384_point_select_w5
    rw [P384_point_select_loop_spec (width_pos hw) (P384.P384_LIMBS w) index hidx table384 0 _
      (by omega) ht384 ⟨hz, hz, hz⟩]
    by_cases h : 1 ≤ index ∧ index ≤ 16
    · rw [dif_pos h, dif_pos (by omega)]
      rfl
    · rw [dif_neg h, dif_neg (by omega)]
  · unfold P256.GFp_nistz256_select_w5
    rw [P384_point_select_loop_spec (width_pos hw) (P256.P256_LIMBS w) index hidx table256 0 _
      (by omega) ht256 ⟨hz2, hz2, hz2⟩]
    by_cases h : 1 ≤ index ∧ index ≤ 16
    · rw [dif_pos h, dif_pos (by omega)]
      rfl
    · rw [dif_neg h, dif_neg (by omega)]

/-- Witness of C29 with 64-bit limbs: the tables hold the points `(i, i, i)`
for `i = 0 .. 15`, and `index = 17` selects the all-zero point. -/
theorem point_select_w5_correct_witness :
    P384.gfp_p384_point_select_w5 64
        ((List.range 16).map fun i => POINT.mk [i, 0, 0, 0, 0, 0] [i, 0, 0, 0, 0, 0]
          [i, 0, 0, 0, 0, 0]) 17
      = { X := limbs_zero (P384.P384_LIMBS 64), Y := limbs_zero (P384.P384_LIMBS 64),
          Z := limbs_zero (P384.P384_LIMBS 64) } ∧
    P256.GFp_nistz256_select_w5 64
        ((List.range 16).map fun i => POINT.mk [i, 0, 0, 0] [i, 0, 0, 0] [i, 0, 0, 0]) 17
      = { X := limbs_zero (P256.P256_LIMBS 64), Y := limbs_zero (P256.P256_LIMBS 64),
          Z := limbs_zero (P256.P256_LIMBS 64) } := by
  have h := point_select_w5_correct 64
    ((List.range 16).map fun i => POINT.mk [i, 0, 0, 0, 0, 0] [i, 0, 0, 0, 0, 0]
      [i, 0, 0, 0, 0, 0])
    ((List.range 16).map fun i => POINT.mk [i, 0, 0, 0] [i, 0, 0, 0] [i, 0, 0, 0]) 17
    (Or.inr rfl) (by decide) (by decide) (by decide) (by decide) (by decide)
  rw [dif_neg (by decide), dif_neg (by decide)] at h
  exact h

/-- C30, the claim as stated fails: an operation of the loop body wraps.  For
`n = 3` at the start of iteration 0, `u = 1` is odd and the statement
`u_is_odd = UINT64_C(0) - (u & 1)` subtracts 1 from 0: the exact difference is
`-1`, below 0, and the 64-bit result is `0xffffffffffffffff`. -/
theorem bn_neg_inv_mask_wraps_counterexample :
    (bn_neg_inv_loop 3 0).1 = 1 ∧
    ¬ (0 ≤ (0 : Int) - (((bn_neg_inv_loop 3 0).1 &&& 1 : Nat) : Int)) ∧
    word_sub 64 0 ((bn_neg_inv_loop 3 0).1 &&& 1) = 2 ^ 64 - 1 := by
  decide

/-- C30, amended: the loop invariant of `GFp_bn_neg_inv_mod_r_u64`.  For every
odd 64-bit `n` and every `i` in `0..64`, the variables `u`, `v` at the start of
iteration `i` (after the loop for `i = 64`) satisfy
`u * 2^64 - v * n = 2^(64 - i)` over the integers, with `u, v < 2^64`.  In the
iteration that follows, the two additions that give the next `u` and the next
`v` do not exceed 64 bits, so that the next values are the exact sums; the one
operation that wraps is the mask `u_is_odd = 0 - (u & 1)`, which is `0xff..ff`
when `u` is odd and `0` when it is even. -/
theorem bn_neg_inv_loop_invariant (n i : Nat) (hn : n < 2 ^ 64) (hodd : n % 2 = 1)
    (hi : i ≤ 64) :
    ((bn_neg_inv_loop n i).1 : Int) * 2 ^ 64 - ((bn_neg_inv_loop n i).2 : Int) * n
      = 2 ^ (64 - i) ∧
    (bn_neg_inv_loop n i).1 < 2 ^ 64 ∧ (bn_neg_inv_loop n i).2 < 2 ^ 64 ∧
    (i < 64 →
      word_sub 64 0 ((bn_neg_inv_loop n i).1 &&& 1)
        = (if (bn_neg_inv_loop n i).1 % 2 = 1 then 2 ^ 64 - 1 else 0) ∧
      (((bn_neg_inv_loop n i).1 ^^^ (n &&& word_sub 64 0 ((bn_neg_inv_loop n i).1 &&& 1))) >>> 1)
        + ((bn_neg_inv_loop n i).1 &&& (n &&& word_sub 64 0 ((bn_neg_inv_loop n i).1 &&& 1)))
        < 2 ^ 64 ∧
      ((bn_neg_inv_loop n i).2 >>> 1)
        + (bn_neg_inv_alpha &&& word_sub 64 0 ((bn_neg_inv_loop n i).1 &&& 1)) < 2 ^ 64 ∧
      (bn_neg_inv_loop n (i + 1)).1
        = (((bn_neg_inv_loop n i).1 ^^^ (n &&& word_sub 64 0 ((bn_neg_inv_loop n i).1 &&& 1)))
            >>> 1)
          + ((bn_neg_inv_loop n i).1 &&& (n &&& word_sub 64 0 ((bn_neg_inv_loop n i).1 &&& 1))) ∧
      (bn_neg_inv_loop n (i + 1)).2
        = ((bn_neg_inv_loop n i).2 >>> 1)
          + (bn_neg_inv_alpha &&& word_sub 64 0 ((bn_neg_inv_loop n i).1 &&& 1))) := by
  obtain ⟨h1, h2, h3, h4⟩ := bn_neg_inv_loop_inv hn hodd i hi
  generalize hu : (bn_neg_inv_loop n i).1 = u at *
  generalize hv : (bn_neg_inv_loop n i).2 = v at *
  have hu64 : u < 2 ^ 64 := lt_of_le_of_lt h2 hn
  refine ⟨?_, hu64, h3, ?_⟩
  · have : ((u * 2 ^ 64 : Nat) : Int) = ((2 ^ (64 - i) + v * n : Nat) : Int) := by rw [h4]
    push_cast at this
    linarith
  · intro _
    have h1' : ∀ x : Nat, x &&& 1 = x % 2 := fun x => Nat.and_pow_two_sub_one_eq_mod x 1
    have hmask : word_sub 64 0 (u &&& 1) = if u % 2 = 1 then 2 ^ 64 - 1 else 0 := by
      rw [h1']
      rcases Nat.mod_two_eq_zero_or_one u with h | h
      · rw [h]; simp [word_sub]
      · rw [h]; simp [word_sub]
    have hstep : bn_neg_inv_loop n (i + 1) = bn_neg_inv_step n (u, v) := by
      show bn_neg_inv_step n (bn_neg_inv_loop n i) = _
      rw [← hu, ← hv]
    have ha := bn_neg_inv_alpha_eq
    have hvs : v >>> 1 = v / 2 := by rw [Nat.shiftRight_eq_div_pow, pow_one]
    have hv2 : v / 2 < 2 ^ 63 := by
      have : (2 : Nat) ^ 64 = 2 * 2 ^ 63 := by rw [← pow_succ']
      omega
    refine ⟨hmask, ?_⟩
    rw [hmask, dietz_average, hvs, ha, hstep]
    rcases Nat.mod_two_eq_zero_or_one u with h | h
    · have hne : ¬ u % 2 = 1 := by omega
      rw [if_neg hne, bn_neg_inv_step_even hu64 h3 h]
      simp only [Nat.and_zero, Nat.add_zero]
      refine ⟨?_, ?_, trivial, trivial⟩ <;> omega
    · rw [if_pos h, bn_neg_inv_step_odd hn h2 h3 h]
      have hn1 : n &&& (2 ^ 64 - 1) = n := by
        rw [Nat.and_pow_two_sub_one_eq_mod]; exact Nat.mod_eq_of_lt hn
      have ha1 : 2 ^ 63 &&& (2 ^ 64 - 1) = 2 ^ 63 := by
        rw [Nat.and_pow_two_sub_one_eq_mod]; exact Nat.mod_eq_of_lt (by norm_num)
      rw [hn1, ha1]
      refine ⟨?_, ?_, rfl, rfl⟩ <;> omega

/-- Witness of C30 at `n = 3`, `i = 2`. -/
theorem bn_neg_inv_loop_invariant_witness :
    ((bn_neg_inv_loop 3 2).1 : Int) * 2 ^ 64 - ((bn_neg_inv_loop 3 2).2 : Int) * (3 : Nat)
      = 2 ^ (64 - 2) ∧
    (bn_neg_inv_loop 3 2).1 < 2 ^ 64 ∧ (bn_neg_inv_loop 3 2).2 < 2 ^ 64 :=
  ⟨(bn_neg_inv_loop_invariant 3 2 (by decide) (by decide) (by decide)).1,
   (bn_neg_inv_loop_invariant 3 2 (by decide) (by decide) (by decide)).2.1,
   (bn_neg_inv_loop_invariant 3 2 (by decide) (by decide) (by decide)).2.2.1⟩

/-! ## Statements about constants, `limbs.c` and the scalar multiplications -/

/-- C31: the overflow-free average of Dietz.  For all 64-bit `x` and `y`, the
sum `((x ^ y) >> 1) + (x & y)` is below `2^64`, so that the 64-bit addition
does not wrap, and it is `floor((x + y) / 2)` for the exact sum `x + y`.  In
`GFp_bn_neg_inv_mod_r_u64` the new `u` is this average of `u` and
`beta_if_u_is_odd`. -/
theorem dietz_average_correct (x y : Nat) (hx : x < 2 ^ 64) (hy : y < 2 ^ 64) :
    ((x ^^^ y) >>> 1) + (x &&& y) < 2 ^ 64 ∧
    word_add 64 ((x ^^^ y) >>> 1) (x &&& y) = (x + y) / 2 ∧
    (∀ v, (bn_neg_inv_step y (x, v)).1
      = (x + (y &&& word_sub 64 0 (x &&& 1))) / 2) := by
  have h := dietz_average x y
  have hlt : (x + y) / 2 < 2 ^ 64 := by omega
  refine ⟨by rw [h]; exact hlt, ?_, ?_⟩
  · unfold word_add
    rw [h, Nat.mod_eq_of_lt hlt]
  · intro v
    have hm : y &&& word_sub 64 0 (x &&& 1) < 2 ^ 64 :=
      lt_of_le_of_lt Nat.and_le_left hy
    have h2 := dietz_average x (y &&& word_sub 64 0 (x &&& 1))
    have hlt2 : (x + (y &&& word_sub 64 0 (x &&& 1))) / 2 < 2 ^ 64 := by omega
    show word_add 64 ((x ^^^ (y &&& word_sub 64 0 (x &&& 1))) >>> 1)
      (x &&& (y &&& word_sub 64 0 (x &&& 1))) = _
    unfold word_add
    rw [h2, Nat.mod_eq_of_lt hlt2]

/-- Witness of C31 at `x = y = 2^64 - 1`, where `x + y` needs 65 bits. -/
theorem dietz_average_correct_witness :
    word_add 64 (((2 ^ 64 - 1) ^^^ (2 ^ 64 - 1)) >>> 1) ((2 ^ 64 - 1) &&& (2 ^ 64 - 1))
      = ((2 ^ 64 - 1) + (2 ^ 64 - 1)) / 2 :=
  (dietz_average_correct (2 ^ 64 - 1) (2 ^ 64 - 1) (by decide) (by decide)).2.1

/-- C32: the constants `ONE` are one in the Montgomery domain.  With 64-bit
limbs the value of `Q` in `ecp_nistz256.c` is
`p256 = 2^256 - 2^224 + 2^192 + 2^96 - 1` and the value of `ONE` there is
`2^256 mod p256`; the value of `Q` in `gfp_p384.c` is
`p384 = 2^384 - 2^128 - 2^96 + 2^32 - 1` and the value of `ONE` there is
`2^384 mod p384`. -/
theorem ONE_is_montgomery_one :
    LIMBS_val 64 (P256.Q 64) = 2 ^ 256 - 2 ^ 224 + 2 ^ 192 + 2 ^ 96 - 1 ∧
    LIMBS_val 64 (P256.ONE 64) = 2 ^ 256 % LIMBS_val 64 (P256.Q 64) ∧
    LIMBS_val 64 (P384.Q 64) = 2 ^ 384 - 2 ^ 128 - 2 ^ 96 + 2 ^ 32 - 1 ∧
    LIMBS_val 64 (P384.ONE 64) = 2 ^ 384 % LIMBS_val 64 (P384.Q 64) := by
  decide!

/-- C33: `LIMBS_equal_limb`.  For every array `a` of `num_limbs >= 0` limbs and
every limb `b` the result is all-ones if `val(a) = b` and 0 otherwise; the
value of `a` is `b` exactly when `a[0] = b` and all higher limbs are zero (for
`num_limbs = 0`, when `b = 0`), so that for `num_limbs = 0` the result is
all-ones if and only if `b = 0`. -/
theorem LIMBS_equal_limb_correct (w : Nat) (a : List Nat) (b : Nat) (hw : 0 < w)
    (ha : LIMBS_ok w a) (hb : b < 2 ^ w) :
    LIMBS_equal_limb w a b = (if LIMBS_val w a = b then 2 ^ w - 1 else 0) ∧
    (a ≠ [] → (LIMBS_val w a = b ↔ (a.getD 0 0 = b ∧ ∀ x ∈ a.drop 1, x = 0))) ∧
    (LIMBS_equal_limb w [] b = 2 ^ w - 1 ↔ b = 0) ∧
    (LIMBS_equal_limb w [] b = 0 ↔ b ≠ 0) := by
  have hone := ones_ne_zero hw
  refine ⟨LIMBS_equal_limb_eq hw a b ha hb, ?_, ?_, ?_⟩
  · intro hne
    cases a with
    | nil => exact absurd rfl hne
    | cons x xs =>
      rw [LIMBS_ok_cons] at ha
      simp only [List.getD_cons_zero, List.drop_succ_cons, List.drop_zero, LIMBS_val]
      rw [← LIMBS_val_eq_zero_iff w xs]
      have hp : 0 < 2 ^ w := two_pow_pos w
      constructor
      · intro h
        have h1 : LIMBS_val w xs = 0 := by
          by_contra hne
          have : 2 ^ w * 1 ≤ 2 ^ w * LIMBS_val w xs :=
            Nat.mul_le_mul_left _ (Nat.one_le_iff_ne_zero.2 hne)
          omega
        rw [h1] at h
        exact ⟨by omega, h1⟩
      · rintro ⟨h1, h2⟩
        rw [h2, h1]; simp
  · rw [LIMBS_equal_limb_eq hw [] b (LIMBS_ok_nil w) hb]
    simp only [LIMBS_val]
    by_cases h : b = 0
    · rw [if_pos h.symm]; exact ⟨fun _ => h, fun _ => rfl⟩
    · rw [if_neg (fun h0 => h h0.symm)]
      exact ⟨fun h0 => absurd h0.symm hone, fun h0 => absurd h0 h⟩
  · rw [LIMBS_equal_limb_eq hw [] b (LIMBS_ok_nil w) hb]
    simp only [LIMBS_val]
    by_cases h : b = 0
    · rw [if_pos h.symm]; exact ⟨fun h0 => absurd h0 hone, fun h0 => absurd h h0⟩
    · rw [if_neg (fun h0 => h h0.symm)]
      exact ⟨fun _ => h, fun _ => rfl⟩

/-- Witness of C33 with 64-bit limbs: `[5, 0, 0]` equals the limb 5, `[5, 1]`
does not. -/
theorem LIMBS_equal_limb_correct_witness :
    LIMBS_equal_limb 64 [5, 0, 0] 5 = 2 ^ 64 - 1 ∧ LIMBS_equal_limb 64 [5, 1] 5 = 0 := by
  have h1 := (LIMBS_equal_limb_correct 64 [5, 0, 0] 5 (by decide) (by decide) (by decide)).1
  have h2 := (LIMBS_equal_limb_correct 64 [5, 1] 5 (by decide) (by decide) (by decide)).1
  rw [if_pos (by decide)] at h1
  rw [if_neg (by decide)] at h2
  exact ⟨h1, h2⟩

/-- C34: multiplying by the zero scalar gives the identity.  For every base
`(p_x, p_y)` of `P384_LIMBS` limbs each, `GFp_nistz384_point_mul` with the
all-zero scalar outputs `X = Y = Z = 0`, given that the Montgomery product of
two zero arrays is the zero array (and that the product of two arrays of
`P384_LIMBS` limbs is such an array).  Booth recoding of a zero window gives
digit 0 with sign mask 0; every raw window of the zero scalar is 0; the
selection at digit 0 returns `(0, 0, 0)`; the addition of `(0, 0, 0)` to
`(0, 0, 0)` and the doubling of `(0, 0, 0)` give `(0, 0, 0)`. -/
theorem point_mul_zero_scalar_is_identity (w : Nat) (bn_mul_mont : BnMulMont)
    (p_x p_y : List Nat) (hw : w = 32 ∨ w = 64)
    (hop : IsLimbOp w (P384.P384_LIMBS w) (P384.elem_mul_mont w bn_mul_mont))
    (hzero : P384.elem_mul_mont w bn_mul_mont (limbs_zero (P384.P384_LIMBS w))
      (limbs_zero (P384.P384_LIMBS w)) = limbs_zero (P384.P384_LIMBS w))
    (hx : IsLimbs w (P384.P384_LIMBS w) p_x) (hy : IsLimbs w (P384.P384_LIMBS w) p_y) :
    P384.GFp_nistz384_point_mul w bn_mul_mont (limbs_zero (P384.P384_LIMBS w)) p_x p_y
      = { X := limbs_zero (P384.P384_LIMBS w), Y := limbs_zero (P384.P384_LIMBS w),
          Z := limbs_zero (P384.P384_LIMBS w) } ∧
    booth_recode w 0 5 = (0, 0) ∧
    (∀ j ≤ 76, P384.raw_window
      (gfp_little_endian_bytes_from_scalar w (P384.P384_LIMBS w * (w / 8) + 1)
        (limbs_zero (P384.P384_LIMBS w))) (5 * j) = 0) ∧
    P384.gfp_p384_point_select_w5 w (P384.point_mul_table w bn_mul_mont p_x p_y) 0
      = { X := limbs_zero (P384.P384_LIMBS w), Y := limbs_zero (P384.P384_LIMBS w),
          Z := limbs_zero (P384.P384_LIMBS w) } ∧
    P384.GFp_nistz384_point_add w bn_mul_mont
        { X := limbs_zero (P384.P384_LIMBS w), Y := limbs_zero (P384.P384_LIMBS w),
          Z := limbs_zero (P384.P384_LIMBS w) }
        { X := limbs_zero (P384.P384_LIMBS w), Y := limbs_zero (P384.P384_LIMBS w),
          Z := limbs_zero (P384.P384_LIMBS w) }
      = { X := limbs_zero (P384.P384_LIMBS w), Y := limbs_zero (P384.P384_LIMBS w),
          Z := limbs_zero (P384.P384_LIMBS w) } ∧
    P384.GFp_nistz384_point_double w bn_mul_mont
        { X := limbs_zero (P384.P384_LIMBS w), Y := limbs_zero (P384.P384_LIMBS w),
          Z := limbs_zero (P384.P384_LIMBS w) }
      = { X := limbs_zero (P384.P384_LIMBS w), Y := limbs_zero (P384.P384_LIMBS w),
          Z := limbs_zero (P384.P384_LIMBS w) } := by
  obtain ⟨hlen, ht⟩ := P384_point_mul_table_typed hw hop hx hy
  have hz : IsLimbs w (P384.P384_LIMBS w) (limbs_zero (P384.P384_LIMBS w)) :=
    P384_isLimbs_zero _
  have hd := P384_point_double_zero hw hzero
  have ha := P384_add_precomputed_zero hw hop _ hlen ht
  have hsel := P384_point_select_w5_spec hw _ 0 hlen (by decide) ht
  rw [dif_neg (by decide)] at hsel
  obtain ⟨b1, b2⟩ := booth_recode_table w hw 0 (by decide)
  rw [if_neg (by decide)] at b1 b2
  have hb : booth_recode w 0 5 = (0, 0) := Prod.ext b1 b2
  have hadd := (P384_point_add_right_identity hw bn_mul_mont (IsLimbs w (P384.P384_LIMBS w))
    (fun _ h => h) (fun hx hy => hop _ _ hx hy) (fun hx hy => P384_elem_sub_typed hw hx hy)
    (fun hx => P384_elem_mul_by_2_typed hw hx)
    { X := limbs_zero (P384.P384_LIMBS w), Y := limbs_zero (P384.P384_LIMBS w),
      Z := limbs_zero (P384.P384_LIMBS w) }
    { X := limbs_zero (P384.P384_LIMBS w), Y := limbs_zero (P384.P384_LIMBS w),
      Z := limbs_zero (P384.P384_LIMBS w) } hz hz hz hz hz hz
    (LIMBS_val_replicate_zero w _)).2
  refine ⟨?_, hb, fun j hj => P384_raw_window_zero_scalar hw j hj, hsel, hadd, hd⟩
  rw [P384_point_mul_by_windows]
  have h0 := P384_raw_window_zero_scalar hw 0 (by decide)
  have h76 := P384_raw_window_zero_scalar hw 76 (by decide)
  rw [show 5 * 0 = 0 from rfl] at h0
  rw [show 5 * 76 = 380 from rfl] at h76
  rw [h0, h76, hb, hsel]
  simp only [hd]
  have hstep : ∀ j ∈ List.range 75, P384.raw_window
      (gfp_little_endian_bytes_from_scalar w (P384.P384_LIMBS w * (w / 8) + 1)
        (limbs_zero (P384.P384_LIMBS w))) (5 * (75 - j)) = 0 := fun j _ =>
    P384_raw_window_zero_scalar hw (75 - j) (by omega)
  rw [List.foldl_ext _ (fun r (_ : Nat) =>
      P384.GFp_nistz384_point_double w bn_mul_mont (P384.GFp_nistz384_point_double w bn_mul_mont
        (P384.GFp_nistz384_point_double w bn_mul_mont
          (P384.GFp_nistz384_point_double w bn_mul_mont
            (P384.GFp_nistz384_point_double w bn_mul_mont
              (P384.add_precomputed_w5 w bn_mul_mont r 0
                (P384.point_mul_table w bn_mul_mont p_x p_y)))))))
    _ (fun r j hj => by rw [hstep j hj])]
  rw [foldl_fixed _ _ (fun _ => by simp only [ha, hd]), ha]

/-- Witness of C34 with 64-bit limbs, the word-serial Montgomery
multiplication and a base whose limbs are all `2^64 - 1`. -/
theorem point_mul_zero_scalar_is_identity_witness :
    P384.GFp_nistz384_point_mul 64 (GFp_bn_mul_mont 64) (limbs_zero (P384.P384_LIMBS 64))
        [2 ^ 64 - 1, 2 ^ 64 - 1, 2 ^ 64 - 1, 2 ^ 64 - 1, 2 ^ 64 - 1, 2 ^ 64 - 1]
        [2 ^ 64 - 1, 2 ^ 64 - 1, 2 ^ 64 - 1, 2 ^ 64 - 1, 2 ^ 64 - 1, 2 ^ 64 - 1]
      = { X := limbs_zero (P384.P384_LIMBS 64), Y := limbs_zero (P384.P384_LIMBS 64),
          Z := limbs_zero (P384.P384_LIMBS 64) } :=
  (point_mul_zero_scalar_is_identity 64 (GFp_bn_mul_mont 64)
    [2 ^ 64 - 1, 2 ^ 64 - 1, 2 ^ 64 - 1, 2 ^ 64 - 1, 2 ^ 64 - 1, 2 ^ 64 - 1]
    [2 ^ 64 - 1, 2 ^ 64 - 1, 2 ^ 64 - 1, 2 ^ 64 - 1, 2 ^ 64 - 1, 2 ^ 64 - 1]
    (Or.inr rfl) (P384_model_isLimbOp 64) (by decide!) (by decide) (by decide)).1

/-- C35: scalar byte reads stay in bounds.  With every read `p_str[k]` and
every value of `index` at the loop condition recorded,
`GFp_nistz384_point_mul` and `GFp_nistz256_point_mul` compute the same point,
and for every scalar and every base: the buffer `p_str` has
`num_limbs * sizeof(Limb) + 1` bytes, which is 49 for P-384 and 33 for P-256;
every index read, the `off + 1` of each two-byte window included, is below that
length; `GFp_nistz384_point_mul` reads byte 47, then the bytes `off`,
`off + 1` for the windows at `index = 375, 370, .., 5`, then byte 0, and its
`index` takes the values `380, 375, .., 0` at the loop condition;
`GFp_nistz256_point_mul` does so with byte 31, the windows at
`250, 245, .., 5` and the values `255, 250, .., 0`;
`GFp_nistz256_point_mul_base` reads byte 0 and then, in round `i = 1 .. 36`,
the bytes `off`, `off + 1` with `off = (7 i - 1) / 8`. -/
theorem scalar_byte_reads_in_bounds (w : Nat) (bn_mul_mont : BnMulMont)
    (GFp_nistz256_mul_mont : List Nat → List Nat → List Nat)
    (GFp_nistz256_sqr_mont : List Nat → List Nat)
    (GFp_nistz256_point_double : POINT → POINT) (GFp_nistz256_neg : List Nat → List Nat)
    (GFp_nistz256_precomputed : List (List Nat))
    (GFp_nistz256_point_add_affine : POINT → POINT_AFFINE → POINT)
    (p_scalar p_x p_y : List Nat) (hw : w = 32 ∨ w = 64) :
    ((P384.GFp_nistz384_point_mul_reads w bn_mul_mont p_scalar p_x p_y).1
        = P384.GFp_nistz384_point_mul w bn_mul_mont p_scalar p_x p_y ∧
      P384.P384_LIMBS w * (w / 8) + 1 = 49 ∧
      49 ≤ (gfp_little_endian_bytes_from_scalar w (P384.P384_LIMBS w * (w / 8) + 1)
        p_scalar).length ∧
      (P384.GFp_nistz384_point_mul_reads w bn_mul_mont p_scalar p_x p_y).2.1
        = [47] ++ (List.range 75).flatMap
            (fun j => [(5 * (75 - j) - 1) / 8, (5 * (75 - j) - 1) / 8 + 1]) ++ [0] ∧
      (∀ k ∈ (P384.GFp_nistz384_point_mul_reads w bn_mul_mont p_scalar p_x p_y).2.1, k < 49) ∧
      (P384.GFp_nistz384_point_mul_reads w bn_mul_mont p_scalar p_x p_y).2.2
        = (List.range 77).map (fun j => 5 * (76 - j))) ∧
    ((P256.GFp_nistz256_point_mul_reads w GFp_nistz256_mul_mont GFp_nistz256_sqr_mont
          GFp_nistz256_point_double GFp_nistz256_neg p_scalar p_x p_y).1
        = P256.GFp_nistz256_point_mul w GFp_nistz256_mul_mont GFp_nistz256_sqr_mont
          GFp_nistz256_point_double GFp_nistz256_neg p_scalar p_x p_y ∧
      P256.P256_LIMBS w * (w / 8) + 1 = 33 ∧
      33 ≤ (gfp_little_endian_bytes_from_scalar w (P256.P256_LIMBS w * (w / 8) + 1)
        p_scalar).length ∧
      (P256.GFp_nistz256_point_mul_reads w GFp_nistz256_mul_mont GFp_nistz256_sqr_mont
          GFp_nistz256_point_double GFp_nistz256_neg p_scalar p_x p_y).2.1
        = [31] ++ (List.range 50).flatMap
            (fun j => [(5 * (50 - j) - 1) / 8, (5 * (50 - j) - 1) / 8 + 1]) ++ [0] ∧
      (∀ k ∈ (P256.GFp_nistz256_point_mul_reads w GFp_nistz256_mul_mont GFp_nistz256_sqr_mont
          GFp_nistz256_point_double GFp_nistz256_neg p_scalar p_x p_y).2.1, k < 33) ∧
      (P256.GFp_nistz256_point_mul_reads w GFp_nistz256_mul_mont GFp_nistz256_sqr_mont
          GFp_nistz256_point_double GFp_nistz256_neg p_scalar p_x p_y).2.2
        = (List.range 52).map (fun j => 5 * (51 - j))) ∧
    ((P256.GFp_nistz256_point_mul_base_reads w GFp_nistz256_precomputed GFp_nistz256_neg
          GFp_nistz256_point_add_affine p_scalar).2
        = [0] ++ (List.range 36).flatMap
            (fun j => [(7 + 7 * j - 1) / 8, (7 + 7 * j - 1) / 8 + 1]) ∧
      ∀ k ∈ (P256.GFp_nistz256_point_mul_base_reads w GFp_nistz256_precomputed
          GFp_nistz256_neg GFp_nistz256_point_add_affine p_scalar).2, k < 33) := by
  have l384 : P384.P384_LIMBS w * (w / 8) + 1 = 49 := by rcases hw with rfl | rfl <;> rfl
  have l256 : P256.P256_LIMBS w * (w / 8) + 1 = 33 := by rcases hw with rfl | rfl <;> rfl
  have b384 := bytes_from_scalar_length_ge w (P384.P384_LIMBS w * (w / 8) + 1) p_scalar
  have b256 := bytes_from_scalar_length_ge w (P256.P256_LIMBS w * (w / 8) + 1) p_scalar
  have t384 : (P384.GFp_nistz384_point_mul_reads w bn_mul_mont p_scalar p_x p_y).2
      = ([47] ++ (List.range 75).flatMap
            (fun j => [(5 * (75 - j) - 1) / 8, (5 * (75 - j) - 1) / 8 + 1]) ++ [0],
         (List.range 77).map (fun j => 5 * (76 - j))) :=
    point_mul_reads_trace 75 _ _ _ _
  have t256 : (P256.GFp_nistz256_point_mul_reads w GFp_nistz256_mul_mont GFp_nistz256_sqr_mont
      GFp_nistz256_point_double GFp_nistz256_neg p_scalar p_x p_y).2
      = ([31] ++ (List.range 50).flatMap
            (fun j => [(5 * (50 - j) - 1) / 8, (5 * (50 - j) - 1) / 8 + 1]) ++ [0],
         (List.range 52).map (fun j => 5 * (51 - j))) :=
    point_mul_reads_trace 50 _ _ _ _
  have tb := P256_point_mul_base_reads_trace w GFp_nistz256_precomputed GFp_nistz256_neg
    GFp_nistz256_point_add_affine p_scalar
  have r384 := congrArg Prod.fst t384
  have r256 := congrArg Prod.fst t256
  simp only [] at r384 r256
  refine ⟨⟨P384_point_mul_reads_fst w bn_mul_mont p_scalar p_x p_y, l384, by omega, r384, ?_,
      congrArg Prod.snd t384⟩,
    ⟨P256_point_mul_reads_fst w _ _ _ _ p_scalar p_x p_y, l256, by omega, r256, ?_,
      congrArg Prod.snd t256⟩, tb, ?_⟩
  · intro k hk
    rw [r384] at hk
    simp only [List.mem_append, List.mem_singleton, List.mem_flatMap, List.mem_range,
      List.mem_cons, List.not_mem_nil, or_false] at hk
    rcases hk with (rfl | ⟨j, hj, rfl | rfl⟩) | rfl <;> omega
  · intro k hk
    rw [r256] at hk
    simp only [List.mem_append, List.mem_singleton, List.mem_flatMap, List.mem_range,
      List.mem_cons, List.not_mem_nil, or_false] at hk
    rcases hk with (rfl | ⟨j, hj, rfl | rfl⟩) | rfl <;> omega
  · intro k hk
    rw [tb] at hk
    simp only [List.mem_append, List.mem_singleton, List.mem_flatMap, List.mem_range,
      List.mem_cons, List.not_mem_nil, or_false] at hk
    rcases hk with rfl | ⟨j, hj, rfl | rfl⟩ <;> omega

/-- Witness of C35 with 64-bit limbs: the scalar 3 and the base `(5, 7)` for
P-384, the same with four limbs for P-256, where the functions that are not
among the sources are taken to return their first argument and the table to
be empty. -/
theorem scalar_byte_reads_in_bounds_witness :
    (P384.GFp_nistz384_point_mul_reads 64 (GFp_bn_mul_mont 64) [3, 0, 0, 0, 0, 0]
        [5, 0, 0, 0, 0, 0] [7, 0, 0, 0, 0, 0]).2.2
      = (List.range 77).map (fun j => 5 * (76 - j)) ∧
    (P384.GFp_nistz384_point_mul_reads 64 (GFp_bn_mul_mont 64) [3, 0, 0, 0, 0, 0]
        [5, 0, 0, 0, 0, 0] [7, 0, 0, 0, 0, 0]).2.1
      = [47] ++ (List.range 75).flatMap
          (fun j => [(5 * (75 - j) - 1) / 8, (5 * (75 - j) - 1) / 8 + 1]) ++ [0] :=
  let h := scalar_byte_reads_in_bounds 64 (GFp_bn_mul_mont 64) (fun a _ => a) (fun a => a)
    (fun p => p) (fun a => a) [] (fun p _ => p) [3, 0, 0, 0, 0, 0] [5, 0, 0, 0, 0, 0]
    [7, 0, 0, 0, 0, 0] (Or.inr rfl)
  ⟨h.1.2.2.2.2.2, h.1.2.2.2.1⟩

/-- C36: in-place doubling is safe.  Run on storage, statement by statement,
`GFp_nistz384_point_double(r, a)` leaves in the coordinates of `*r` exactly the
coordinates that the doubling computes from the content of `*a` before the
call, whether `r` and `a` are the same storage or distinct, so both calls
produce the same output coordinates; and in the order of the statements no
input coordinate is read after a statement has written the output coordinate
that shares its storage. -/
theorem point_double_in_place_safe (w : Nat) (bn_mul_mont : BnMulMont)
    (st : DoubleCell → List Nat) :
    (∀ same : Bool,
      P384.GFp_nistz384_point_double_store w bn_mul_mont same st
          (P384.point_double_array same .res_x)
        = (P384.GFp_nistz384_point_double w bn_mul_mont
            { X := st .aX, Y := st .aY, Z := st .aZ }).X ∧
      P384.GFp_nistz384_point_double_store w bn_mul_mont same st
          (P384.point_double_array same .res_y)
        = (P384.GFp_nistz384_point_double w bn_mul_mont
            { X := st .aX, Y := st .aY, Z := st .aZ }).Y ∧
      P384.GFp_nistz384_point_double_store w bn_mul_mont same st
          (P384.point_double_array same .res_z)
        = (P384.GFp_nistz384_point_double w bn_mul_mont
            { X := st .aX, Y := st .aY, Z := st .aZ }).Z) ∧
    P384.GFp_nistz384_point_double_store w bn_mul_mont true st .aX
      = P384.GFp_nistz384_point_double_store w bn_mul_mont false st .rX ∧
    P384.GFp_nistz384_point_double_store w bn_mul_mont true st .aY
      = P384.GFp_nistz384_point_double_store w bn_mul_mont false st .rY ∧
    P384.GFp_nistz384_point_double_store w bn_mul_mont true st .aZ
      = P384.GFp_nistz384_point_double_store w bn_mul_mont false st .rZ ∧
    not_read_after_written .in_x .res_x P384.GFp_nistz384_point_double_stmts = true ∧
    not_read_after_written .in_y .res_y P384.GFp_nistz384_point_double_stmts = true ∧
    not_read_after_written .in_z .res_z P384.GFp_nistz384_point_double_stmts = true := by
  have h : ∀ same : Bool,
      P384.GFp_nistz384_point_double_store w bn_mul_mont same st
          (P384.point_double_array same .res_x)
        = (P384.GFp_nistz384_point_double w bn_mul_mont
            { X := st .aX, Y := st .aY, Z := st .aZ }).X ∧
      P384.GFp_nistz384_point_double_store w bn_mul_mont same st
          (P384.point_double_array same .res_y)
        = (P384.GFp_nistz384_point_double w bn_mul_mont
            { X := st .aX, Y := st .aY, Z := st .aZ }).Y ∧
      P384.GFp_nistz384_point_double_store w bn_mul_mont same st
          (P384.point_double_array same .res_z)
        = (P384.GFp_nistz384_point_double w bn_mul_mont
            { X := st .aX, Y := st .aY, Z := st .aZ }).Z := by
    intro same
    cases same
    · exact ⟨rfl, rfl, rfl⟩
    · exact ⟨rfl, rfl, rfl⟩
  refine ⟨h, ?_, ?_, ?_, by decide, by decide, by decide⟩
  · exact (h true).1.trans (h false).1.symm
  · exact (h true).2.1.trans (h false).2.1.symm
  · exact (h true).2.2.trans (h false).2.2.symm

/-- C37: the hard-coded Montgomery constants match their moduli.  With 64-bit
limbs `Q_N0 = 0x0000000100000001` for the P-384 prime, whose lowest limb is
`0x00000000ffffffff`, `N_N0 = 0x6ed46089e88fdc45` for the P-384 group order,
whose lowest limb is `0xecec196accc52973`, and `N_N0 = 0xccd1c8aaee00bc4f` for
the P-256 group order, whose lowest limb is `0xf3b9cac2fc632551`.  Each `n0`
satisfies `n0 * m[0] = -1` modulo `2^64` and is
`GFp_bn_neg_inv_mod_r_u64(m[0])`. -/
theorem montgomery_constants_match :
    (P384.Q_N0 64 = [0x0000000100000001] ∧ (P384.Q 64).getD 0 0 = 0x00000000ffffffff ∧
      (0x0000000100000001 * 0x00000000ffffffff) % 2 ^ 64 = 2 ^ 64 - 1 ∧
      GFp_bn_neg_inv_mod_r_u64 ((P384.Q 64).getD 0 0) = 0x0000000100000001) ∧
    (P384.N_N0 64 = [0x6ed46089e88fdc45] ∧ (P384.N 64).getD 0 0 = 0xecec196accc52973 ∧
      (0x6ed46089e88fdc45 * 0xecec196accc52973) % 2 ^ 64 = 2 ^ 64 - 1 ∧
      GFp_bn_neg_inv_mod_r_u64 ((P384.N 64).getD 0 0) = 0x6ed46089e88fdc45) ∧
    (P256.N_N0 64 = [0xccd1c8aaee00bc4f] ∧ (P256.N 64).getD 0 0 = 0xf3b9cac2fc632551 ∧
      (0xccd1c8aaee00bc4f * 0xf3b9cac2fc632551) % 2 ^ 64 = 2 ^ 64 - 1 ∧
      GFp_bn_neg_inv_mod_r_u64 ((P256.N 64).getD 0 0) = 0xccd1c8aaee00bc4f) := by
  decide!

/-- C38: `GFp_limbs_mul_add_limb` computes `r += a * b` exactly.  For arrays
`r`, `a` of `num_limbs` limbs and a limb `b`, with `W = LIMB_BITS`,
`val(r_out) + ret * 2^(W * num_limbs) = val(r_in) + val(a) * b`, where `r_out`
has `num_limbs` limbs and `ret` is a limb, and in every iteration both values
of `c` that `dev_assert_secret(c == 0)` tests, the carries out of the two
`limb_adc` into `carried`, are 0.  The macro `bn_umult_lohi` is assumed to
split the product of two limbs into its low and its high limb. -/
theorem GFp_limbs_mul_add_limb_correct (w : Nat) (bn_umult_lohi : Nat → Nat → Nat × Nat)
    (r a : List Nat) (b : Nat) (hw : 0 < w)
    (hmul : ∀ x y, x < 2 ^ w → y < 2 ^ w →
      (bn_umult_lohi x y).1 < 2 ^ w ∧ (bn_umult_lohi x y).2 < 2 ^ w ∧
      (bn_umult_lohi x y).1 + (bn_umult_lohi x y).2 * 2 ^ w = x * y)
    (hlen : r.length = a.length) (hr : LIMBS_ok w r) (ha : LIMBS_ok w a) (hb : b < 2 ^ w) :
    (GFp_limbs_mul_add_limb w bn_umult_lohi r a b).1.length = a.length ∧
    LIMBS_ok w (GFp_limbs_mul_add_limb w bn_umult_lohi r a b).1 ∧
    (GFp_limbs_mul_add_limb w bn_umult_lohi r a b).2 < 2 ^ w ∧
    LIMBS_val w (GFp_limbs_mul_add_limb w bn_umult_lohi r a b).1
        + (GFp_limbs_mul_add_limb w bn_umult_lohi r a b).2 * 2 ^ (w * a.length)
      = LIMBS_val w r + LIMBS_val w a * b ∧
    (GFp_limbs_mul_add_limb_asserted w bn_umult_lohi r a b).length = a.length ∧
    ∀ c ∈ GFp_limbs_mul_add_limb_asserted w bn_umult_lohi r a b, c.1 = 0 ∧ c.2 = 0 := by
  obtain ⟨i1, i2, i3, i4, i5, i6⟩ := limbs_mul_add_limb_loop_spec hw bn_umult_lohi hmul hb r a 0
    hlen hr ha (two_pow_pos w)
  unfold GFp_limbs_mul_add_limb GFp_limbs_mul_add_limb_asserted
  refine ⟨by rw [i1, hlen], i2, i3, ?_, by rw [i5, hlen], ?_⟩
  · rw [pow_mul, ← hlen, i4, Nat.add_zero]
  · intro c hc
    rw [i6 c hc]
    exact ⟨rfl, rfl⟩

/-- Witness of C38 with 64-bit limbs: all limbs of `r` and `a` and the limb `b`
are `2^64 - 1`. -/
theorem GFp_limbs_mul_add_limb_correct_witness :
    LIMBS_val 64 (GFp_limbs_mul_add_limb 64 (fun x y => ((x * y) % 2 ^ 64, (x * y) / 2 ^ 64))
          [2 ^ 64 - 1, 2 ^ 64 - 1] [2 ^ 64 - 1, 2 ^ 64 - 1] (2 ^ 64 - 1)).1
        + (GFp_limbs_mul_add_limb 64 (fun x y => ((x * y) % 2 ^ 64, (x * y) / 2 ^ 64))
          [2 ^ 64 - 1, 2 ^ 64 - 1] [2 ^ 64 - 1, 2 ^ 64 - 1] (2 ^ 64 - 1)).2
          * 2 ^ (64 * [2 ^ 64 - 1, 2 ^ 64 - 1].length)
      = LIMBS_val 64 [2 ^ 64 - 1, 2 ^ 64 - 1]
        + LIMBS_val 64 [2 ^ 64 - 1, 2 ^ 64 - 1] * (2 ^ 64 - 1) :=
  (GFp_limbs_mul_add_limb_correct 64 (fun x y => ((x * y) % 2 ^ 64, (x * y) / 2 ^ 64))
    [2 ^ 64 - 1, 2 ^ 64 - 1] [2 ^ 64 - 1, 2 ^ 64 - 1] (2 ^ 64 - 1) (by decide)
    (fun x y hx hy => ⟨Nat.mod_lt _ (by decide),
      Nat.div_lt_of_lt_mul (Nat.mul_lt_mul_of_lt_of_lt hx hy),
      by rw [Nat.add_comm, Nat.mul_comm]; exact Nat.div_add_mod _ _⟩)
    rfl (by decide) (by decide) (by decide)).2.2.2.1

end Ring
